import Mathlib

/-! # A shallow embedding of the `headeronly::XmlSax` parser (`ho_sax.hpp`)

The parser is driven by `std::regex` patterns (ECMAScript grammar, backtracking
matcher).  The embedding has three layers:

* a small backtracking matcher `Re.run` with capture groups, greedy repetition,
  alternation in priority order and negative look-ahead, which is the semantics
  the patterns of the source are evaluated with;
* the patterns of the source, written as `Re` terms, one per `std::regex` object;
* the driver `parse`, the conversion helpers `toString`, `fixEscapes`, and the
  visitor interface, with explicit state passing.

A document is the list of characters of the C string before its terminating NUL;
pointers into the document are offsets (`Nat`).
-/

namespace XmlSax

/-! ## Documents and spans -/

/-- The characters of the document before the terminating NUL. -/
abbrev Doc := List Char

/-- Type `XmlSax::String` of the source: a `[first, second)` pair of positions in the document
(offsets from its start). -/
structure Span where
  first : Nat
  second : Nat
deriving DecidableEq, Repr

/-- The characters a span refers to. -/
def Span.content (doc : Doc) (s : Span) : List Char :=
  (doc.drop s.first).take (s.second - s.first)

/-! ## Regular expressions: the backtracking matcher -/

/-- Abstract syntax of the pattern constructs that occur in the source. -/
inductive Re where
  /-- One character of a class (a literal character, a bracket expression, `\s`, `\w`, `.`). -/
  | chr (p : Char → Bool)
  /-- The empty pattern. -/
  | eps
  /-- Concatenation. -/
  | seq (a b : Re)
  /-- Alternation `a|b`; `a` has priority. -/
  | alt (a b : Re)
  /-- Greedy repetition `a*`. -/
  | star (a : Re)
  /-- Capture group number `i`. -/
  | group (i : Nat) (a : Re)
  /-- Negative look-ahead `(?!a)`. -/
  | nla (a : Re)
  /-- The assertion `^` (beginning of the target sequence). -/
  | bol

/-- Capture groups set so far on the current path: the most recent entry of a group wins. -/
abbrev Caps := List (Nat × Span)

/-- A successful match: the position just after it (`suffix().first`) and its capture groups. -/
structure Match where
  stop : Nat
  caps : Caps
deriving DecidableEq, Repr

/-- A continuation of the matcher: what remains to be matched, given the current position,
the unread input and the captures. -/
abbrev Cont := Nat → List Char → Caps → Option Match

/-- The loop of a greedy `*`: try one more iteration of `body` (which has to consume input,
as ECMAScript rejects an empty iteration), and fall back to leaving the loop.
The counter bounds the number of iterations by the length of the unread input. -/
def starLoop (body : Cont → Cont) : Nat → Cont → Cont
  | 0, k, pos, s, c => k pos s c
  | n + 1, k, pos, s, c =>
    match body (fun pos1 s1 c1 =>
        if s1.length < s.length then starLoop body n k pos1 s1 c1 else none) pos s c with
    | some m => some m
    | none => k pos s c

/-- The backtracking matcher in continuation-passing style: `run r k pos s c` matches `r` at
offset `pos` where the unread input is `s`, then continues with `k`; alternatives are explored
in priority order and the first complete match is returned. `start` is the offset of the
beginning of the target sequence. -/
def Re.run (start : Nat) : Re → Cont → Cont
  | .chr p, k, pos, s, c =>
    match s with
    | [] => none
    | x :: xs => if p x then k (pos + 1) xs c else none
  | .eps, k, pos, s, c => k pos s c
  | .seq a b, k, pos, s, c => Re.run start a (Re.run start b k) pos s c
  | .alt a b, k, pos, s, c =>
    match Re.run start a k pos s c with
    | some m => some m
    | none => Re.run start b k pos s c
  | .star a, k, pos, s, c => starLoop (Re.run start a) s.length k pos s c
  | .group i a, k, pos, s, c =>
    Re.run start a (fun pos1 s1 c1 => k pos1 s1 ((i, ⟨pos, pos1⟩) :: c1)) pos s c
  | .nla a, k, pos, s, c =>
    match Re.run start a (fun pos1 _ c1 => some ⟨pos1, c1⟩) pos s c with
    | some _ => none
    | none => k pos s c
  | .bol, k, pos, s, c => if pos = start then k pos s c else none

/-- The sub-match `match[i]`, when group `i` took part in the match. -/
def Match.sub (m : Match) (i : Nat) : Option Span :=
  (m.caps.find? (fun e => e.1 == i)).map Prod.snd

/-- Call `std::regex_search(first, last, m, re, match_continuous)`: the match has to begin
at `first`. The target sequence is `[first, last)` of the document. -/
def regex_search_continuous (re : Re) (doc : Doc) (first last : Nat) : Option Match :=
  Re.run first re (fun pos _ c => some ⟨pos, c⟩) first
    ((doc.drop first).take (last - first)) []

/-- Call `std::regex_match(first, last, m, re)`: the match has to cover the whole of
`[first, last)`. -/
def regex_match (re : Re) (doc : Doc) (first last : Nat) : Option Match :=
  Re.run first re (fun pos s c => if s.isEmpty then some ⟨pos, c⟩ else none) first
    ((doc.drop first).take (last - first)) []

/-! ### Derived pattern constructs -/

/-- Pattern `a+`. -/
def Re.plus (a : Re) : Re := .seq a (.star a)

/-- Pattern `a?` (greedy). -/
def Re.opt (a : Re) : Re := .alt a .eps

/-- A literal character. -/
def Re.char (x : Char) : Re := .chr (fun y => y == x)

/-- A literal string. -/
def Re.lit : List Char → Re
  | [] => .eps
  | [x] => Re.char x
  | x :: xs => .seq (Re.char x) (Re.lit xs)

/-! ### Character classes (classic "C" locale, as `std::regex_traits<char>`) -/

/-- Class `\s`: space, `\t`, `\n`, `\v`, `\f`, `\r`. -/
def isSpace (x : Char) : Bool :=
  x.toNat == 32 || (Nat.ble 9 x.toNat && Nat.ble x.toNat 13)

/-- ASCII letters. -/
def isAlpha (x : Char) : Bool :=
  (Nat.ble 97 x.toNat && Nat.ble x.toNat 122) || (Nat.ble 65 x.toNat && Nat.ble x.toNat 90)

/-- ASCII digits. -/
def isDigit (x : Char) : Bool :=
  Nat.ble 48 x.toNat && Nat.ble x.toNat 57

/-- Class `\w`: letters, digits and the underscore. -/
def isWord (x : Char) : Bool :=
  isAlpha x || isDigit x || x == '_'

/-- Pattern `\s`. -/
def reSpace : Re := .chr isSpace

/-- Pattern `\S`. -/
def reNonSpace : Re := .chr (fun x => !isSpace x)

/-! ## The patterns of the source -/

/-- Pattern of `getReName()`, `[a-zA-Z_][\w\.\-]*`. -/
def getReName : Re :=
  .seq (.chr (fun x => isAlpha x || x == '_'))
    (.star (.chr (fun x => isWord x || x == '.' || x == '-')))

/-- Pattern of `getReComment()`, `(?:<!--(?:(?:[^-]|-(?!->))*)-->)`. -/
def getReComment : Re :=
  .seq (Re.lit "<!--".toList)
    (.seq (.star (.alt (.chr (fun x => x != '-'))
                      (.seq (Re.char '-') (.nla (Re.lit "->".toList)))))
      (Re.lit "-->".toList))

/-- Pattern `value`, `(?:[^<"]|(?:&(?:lt|gt|amp|apos|quot);))*`. -/
def reValue : Re :=
  .star (.alt (.chr (fun x => x != '<' && x != '"'))
    (.seq (Re.char '&')
      (.seq (.alt (Re.lit "lt".toList) (.alt (Re.lit "gt".toList) (.alt (Re.lit "amp".toList)
              (.alt (Re.lit "apos".toList) (Re.lit "quot".toList)))))
        (Re.char ';'))))

/-- Pattern `elementName`, `(?:` name `:)?` name. -/
def reElementName : Re :=
  .seq (Re.opt (.seq getReName (Re.char ':'))) getReName

/-- Pattern `attributeName`, `(?:xml:|xmlns:)?` name. -/
def reAttributeName : Re :=
  .seq (Re.opt (.alt (Re.lit "xml:".toList) (Re.lit "xmlns:".toList))) getReName

/-- Pattern `attribute`, `\s+(` attributeName `)\s*=\s*"(` value `)"`; its two groups are
numbered `g` and `g + 1` in the pattern it is part of. -/
def reAttribute (g : Nat) : Re :=
  .seq (Re.plus reSpace)
    (.seq (.group g reAttributeName)
      (.seq (.star reSpace)
        (.seq (Re.char '=')
          (.seq (.star reSpace)
            (.seq (Re.char '"')
              (.seq (.group (g + 1) reValue) (Re.char '"')))))))

/-- The part `\s+` name `\s*=\s*"` value `"` of the declaration and
processing-instruction patterns. -/
def rePseudoAttribute : Re :=
  .seq (Re.plus reSpace)
    (.seq getReName
      (.seq (.star reSpace)
        (.seq (Re.char '=')
          (.seq (.star reSpace)
            (.seq (Re.char '"') (.seq reValue (Re.char '"')))))))

/-- Pattern `regexXmlDeclaration`, `^<\?xml(?:\s+` name `\s*=\s*"` value `")+\s*\?>`. -/
def regexXmlDeclaration : Re :=
  .seq .bol (.seq (Re.lit "<?xml".toList)
    (.seq (Re.plus rePseudoAttribute) (.seq (.star reSpace) (Re.lit "?>".toList))))

/-- Pattern `regexXmlPI`, `^<\?(?:` name `)(?:\s+` name `\s*=\s*"` value `")*\s*\?>`. -/
def regexXmlPI : Re :=
  .seq .bol (.seq (Re.lit "<?".toList) (.seq getReName
    (.seq (.star rePseudoAttribute) (.seq (.star reSpace) (Re.lit "?>".toList)))))

/-- Pattern `regexXmlCDATA`, `^<!\[CDATA\[((?:[^\]]|\](?!\]>))*)\]\]>`. -/
def regexXmlCDATA : Re :=
  .seq .bol (.seq (Re.lit "<![CDATA[".toList)
    (.seq (.group 1 (.star (.alt (.chr (fun x => x != ']'))
                               (.seq (Re.char ']') (.nla (Re.lit "]>".toList))))))
      (Re.lit "]]>".toList)))

/-- Pattern `regexNodeOpen`, `^<(` elementName `)(?:` attribute `)*\s*(/)?>`. -/
def regexNodeOpen : Re :=
  .seq .bol (.seq (Re.char '<') (.seq (.group 1 reElementName)
    (.seq (.star (reAttribute 2))
      (.seq (.star reSpace) (.seq (Re.opt (.group 4 (Re.char '/'))) (Re.char '>'))))))

/-- Pattern `regexNodeClose`, `^</(` elementName `)\s*>`. -/
def regexNodeClose : Re :=
  .seq .bol (.seq (Re.lit "</".toList) (.seq (.group 1 reElementName)
    (.seq (.star reSpace) (Re.char '>'))))

/-- Pattern `regexNodeAttrList`, `^` attribute. -/
def regexNodeAttrList : Re :=
  .seq .bol (reAttribute 1)

/-- Pattern `spacesAndComments`, `^(?:\s+|\s*` comment `\s*)+`. -/
def spacesAndComments : Re :=
  .seq .bol (Re.plus (.alt (Re.plus reSpace)
    (.seq (.star reSpace) (.seq getReComment (.star reSpace)))))

/-- Pattern `id` of `skipDoctype`, `(?:\w|#|-|,|\(|\)|\*|\?|\+|\|)+`. -/
def reDoctypeId : Re :=
  Re.plus (.alt (.chr isWord) (.alt (Re.char '#') (.alt (Re.char '-') (.alt (Re.char ',')
    (.alt (Re.char '(') (.alt (Re.char ')') (.alt (Re.char '*') (.alt (Re.char '?')
      (.alt (Re.char '+') (Re.char '|'))))))))))

/-- Pattern `element` of `skipDoctype`,
`(?:<!(?:ELEMENT|ATTLIST|NOTATION|ENTITY)\s+(?:(?:` id `\s*)|(?:\".*\"\s*))+>)`;
the dot matches any character but a line terminator. -/
def reDoctypeElement : Re :=
  .seq (Re.lit "<!".toList)
    (.seq (.alt (Re.lit "ELEMENT".toList) (.alt (Re.lit "ATTLIST".toList)
            (.alt (Re.lit "NOTATION".toList) (Re.lit "ENTITY".toList))))
      (.seq (Re.plus reSpace)
        (.seq (Re.plus (.alt (.seq reDoctypeId (.star reSpace))
                  (.seq (Re.char '"')
                    (.seq (.star (.chr (fun x => x != '\n' && x != '\r')))
                      (.seq (Re.char '"') (.star reSpace))))))
          (Re.char '>'))))

/-- Pattern `regexDoctype`,
`^<!DOCTYPE\s+` name `\s*\[(?:` comment `|` element `|\s*)+\s*\]>`. -/
def regexDoctype : Re :=
  .seq .bol (.seq (Re.lit "<!DOCTYPE".toList) (.seq (Re.plus reSpace) (.seq getReName
    (.seq (.star reSpace) (.seq (Re.char '[')
      (.seq (Re.plus (.alt getReComment (.alt reDoctypeElement (.star reSpace))))
        (.seq (.star reSpace) (Re.lit "]>".toList))))))))

/-- Pattern `regexTrimmed` of `toString`, `(\s+)?(\S+(?:\s+\S+)*)?(\s+)?`. -/
def regexTrimmed : Re :=
  .seq (Re.opt (.group 1 (Re.plus reSpace)))
    (.seq (Re.opt (.group 2 (.seq (Re.plus reNonSpace)
              (.star (.seq (Re.plus reSpace) (Re.plus reNonSpace))))))
      (Re.opt (.group 3 (Re.plus reSpace))))

/-! ## Searching and replacing -/

/-- Call `std::regex_search(first, last, m, re)` without `match_continuous`, on the unread
input `s` at offset `pos`: the match begins at the first offset at which there is one.
Returns the offset at which the match begins, and the match. -/
def regex_search (re : Re) (start : Nat) : Nat → List Char → Option (Nat × Match)
  | pos, [] =>
    (Re.run start re (fun pos1 _ c => some ⟨pos1, c⟩) pos [] []).map (fun m => (pos, m))
  | pos, x :: xs =>
    match Re.run start re (fun pos1 _ c => some ⟨pos1, c⟩) pos (x :: xs) [] with
    | some m => some (pos, m)
    | none => regex_search re start (pos + 1) xs

/-- Loop of `std::regex_replace` (a `regex_iterator` over the input): the text before each
match is copied, the match is replaced by `fmt`, and the text after the last match is copied.
The counter bounds the number of matches by the length of the input. The patterns of the
source used for replacing never match the empty string; at an empty match the rest of the
input is copied. -/
def regex_replace_loop (re : Re) (fmt : List Char) : Nat → Nat → List Char → List Char
  | 0, _, s => s
  | n + 1, pos, s =>
    match regex_search re pos pos s with
    | none => s
    | some (b, m) =>
      if m.stop ≤ b then s
      else s.take (b - pos) ++ fmt ++ regex_replace_loop re fmt n m.stop (s.drop (m.stop - pos))

/-- Call `std::regex_replace(out, first, last, re, fmt)` on the characters `s`, for a format
string without `$`. -/
def regex_replace (re : Re) (fmt : List Char) (s : List Char) : List Char :=
  regex_replace_loop re fmt s.length 0 s

/-! ## Conversion helpers -/

/-- The sub-match `match[i]` of a group that took part in the match. -/
def Match.get (m : Match) (i : Nat) : Span :=
  (m.sub i).getD ⟨m.stop, m.stop⟩

/-- Member `sub_match::matched` of `match[i]`. -/
def Match.matched (m : Match) (i : Nat) : Bool :=
  (m.sub i).isSome

/-- Function `XmlSax::toString`: convert `[begin, end)` to a string; with `normalize`, every
sequence of white space becomes one space, and the surrounding white space is removed
(`removeSurrSpaces`) or becomes one space. -/
def toString (doc : Doc) (it : Span) (normalize removeSurrSpaces : Bool) : List Char :=
  if !normalize then it.content doc
  else
    match regex_match regexTrimmed doc it.first it.second with
    | some m =>
      let trimmed : Span :=
        ⟨if !removeSurrSpaces && m.matched 1 then (m.get 1).second - 1
          else (if m.matched 2 then (m.get 2).first else it.second),
         if !removeSurrSpaces && m.matched 3 then (m.get 3).first + 1
          else (if m.matched 2 then (m.get 2).second else it.second)⟩
      regex_replace (Re.plus reSpace) [' '] (trimmed.content doc)
    | none => it.content doc

/-- Function `XmlSax::fixEscapes`: the five replacements, one after the other. -/
def fixEscapes (s : List Char) : List Char :=
  [("&lt;", "<"), ("&gt;", ">"), ("&amp;", "&"), ("&apos;", "\x27"), ("&quot;", "\"")].foldl
    (fun acc (e : String × String) => regex_replace (Re.lit e.1.toList) e.2.toList acc) s

/-- Function `XmlSax::toStringName`. -/
def toStringName (doc : Doc) (it : Span) : List Char := toString doc it false true

/-- Function `XmlSax::toStringText`. -/
def toStringText (doc : Doc) (it : Span) : List Char := fixEscapes (toString doc it true true)

/-- Function `XmlSax::toStringCdata`. -/
def toStringCdata (doc : Doc) (it : Span) : List Char := toString doc it true true

/-- Function `XmlSax::toStringValue`. -/
def toStringValue (doc : Doc) (it : Span) : List Char := fixEscapes (toString doc it true false)

/-- Function `XmlSax::equalStrings`: equal lengths and equal characters. -/
def equalStrings (doc : Doc) (s1 s2 : Span) : Bool :=
  (s1.second - s1.first == s2.second - s2.first) &&
    ((doc.drop s1.first).take (s1.second - s1.first) ==
      (doc.drop s2.first).take (s1.second - s1.first))

/-! ## The visitor -/

/-- The calls the parser makes on its visitor (`struct Visitor`). -/
inductive Call where
  | enter (element : Span) (isEmptyElementTag : Bool)
  | exit (element : Span) (isEmptyElementTag : Bool)
  | attribute (name value : Span)
  | text (content : Span)
  | cdata (content : Span)
  | error (info : List Char) (docPos : Nat)
  | validate
deriving DecidableEq, Repr

/-- A visitor with state `σ`: each virtual member function takes the state of the visitor
object and returns its new state, with the returned value. -/
structure Visitor (σ : Type) where
  enter : σ → Span → Bool → σ × Bool
  exit : σ → Span → Bool → σ × Bool
  «attribute» : σ → Span → Span → σ × Bool
  text : σ → Span → σ × Bool
  cdata : σ → Span → σ × Bool
  error : σ → List Char → Nat → σ
  validate : σ → σ × Bool

/-- One call on the visitor; `error` returns nothing, recorded as `true`. -/
def Visitor.call {σ : Type} (v : Visitor σ) (s : σ) : Call → σ × Bool
  | .enter e b => v.enter s e b
  | .exit e b => v.exit s e b
  | .attribute n x => v.attribute s n x
  | .text t => v.text s t
  | .cdata t => v.cdata s t
  | .error i p => (v.error s i p, true)
  | .validate => v.validate s

/-- The base class `Visitor`: every callback returns true, `error` does nothing, `validate`
returns false. -/
def defaultVisitor : Visitor Unit where
  enter := fun s _ _ => (s, true)
  exit := fun s _ _ => (s, true)
  «attribute» := fun s _ _ => (s, true)
  text := fun s _ => (s, true)
  cdata := fun s _ => (s, true)
  error := fun s _ _ => s
  validate := fun s => (s, false)

/-! ## The parser -/

/-- The state of a `parse` call: the visitor object, the member `m_nodeStack` (its back is
the head of the list), the locals `docPos` and `retCode`, and the calls made on the visitor so
far with the value each returned (oldest first), kept for the specification. -/
structure State (σ : Type) where
  vis : σ
  log : List (Call × Bool)
  nodeStack : List Span
  docPos : Nat
  retCode : Bool
deriving DecidableEq

/-- Make one call on the visitor: the visitor changes state and the call is recorded. -/
def State.call {σ : Type} (v : Visitor σ) (st : State σ) (c : Call) : State σ × Bool :=
  let r := v.call st.vis c
  ({ st with vis := r.1, log := st.log ++ [(c, r.2)] }, r.2)

/-- Function `skipSpacesAndComments`. -/
def skipSpacesAndComments (doc : Doc) (docPos : Nat) : Nat :=
  match regex_search_continuous spacesAndComments doc docPos doc.length with
  | some m => m.stop
  | none => docPos

/-- Function `skipDoctype`. -/
def skipDoctype (doc : Doc) (docPos : Nat) : Nat :=
  match regex_search_continuous regexDoctype doc docPos doc.length with
  | some m => skipSpacesAndComments doc m.stop
  | none => docPos

/-- Scan of `strchr`: the offset of the first `ch` in the unread input `s` at offset `pos`. -/
def strchrFrom (ch : Char) : Nat → List Char → Option Nat
  | _, [] => none
  | pos, x :: xs => if x == ch then some pos else strchrFrom ch (pos + 1) xs

/-- Call `strchr(docPos, ch)`: the offset of the first `ch` at or after `docPos`, if any. -/
def strchr (doc : Doc) (docPos : Nat) (ch : Char) : Option Nat :=
  strchrFrom ch docPos (doc.drop docPos)

/-- The message of the duplicate-attribute error (lines 260-261). -/
def msgDuplicate (doc : Doc) (it : Span) : List Char :=
  "ERROR: duplicated attribute: \"".toList ++ toStringName doc it ++ "\"".toList

/-- The message of the error for a close tag without an open element (line 285). -/
def msgNoOpening : List Char := "ERROR: no matching opening attribute statement".toList

/-- The message of the close-tag mismatch error (lines 294-296). -/
def msgMismatch (doc : Doc) (top : Span) : List Char :=
  "ERROR: closing attribute statement mismatch; expected \"".toList ++
    toStringName doc top ++ "\"".toList

/-- The message of the error for an unrecognised token (line 330). -/
def msgInvalid : List Char := "ERROR: invalid/unhandled statement or unexpected EOF".toList

/-- The `for` loop over the attributes of an open tag (lines 236-269): `last` is the end of
the tag, `cbegin` the end of the previous attribute, `names` the local `attributeNames`.
The value `attribute` returns is not used. The counter bounds the number of iterations;
`none` means it ran out. -/
def attrLoop {σ : Type} (v : Visitor σ) (doc : Doc) (last : Nat) :
    Nat → Nat → List Span → State σ → Option (State σ)
  | 0, _, _, _ => none
  | n + 1, cbegin, names, st =>
    if !st.retCode then some st
    else
      match regex_search_continuous regexNodeAttrList doc cbegin last with
      | none => some st
      | some attrMatch =>
        let st1 := (st.call v (.attribute (attrMatch.get 1) (attrMatch.get 2))).1
        let r := st1.call v .validate
        if r.2 then
          match names.find? (fun x => equalStrings doc (attrMatch.get 1) x) with
          | some it =>
            let st2 := (r.1.call v (.error (msgDuplicate doc it) st.docPos)).1
            attrLoop v doc last n attrMatch.stop (names ++ [attrMatch.get 1])
              { st2 with retCode := false }
          | none =>
            attrLoop v doc last n attrMatch.stop (names ++ [attrMatch.get 1]) r.1
        else
          attrLoop v doc last n attrMatch.stop names r.1

/-- The end of an iteration (lines 335-342): after a token was accepted, skip white space
and comments from `next`. -/
def State.finish {σ : Type} (doc : Doc) (st : State σ) (next : Nat) : State σ :=
  if st.retCode then { st with docPos := skipSpacesAndComments doc next } else st

/-- The branch of an iteration for an open tag matched by `m` (lines 223-276). -/
def stepOpen {σ : Type} (v : Visitor σ) (doc : Doc) (st : State σ) (m : Match) :
    Option (State σ) :=
  let isEmptyElementTag := m.matched 4
  let st1 := { st with nodeStack := m.get 1 :: st.nodeStack }
  let r := st1.call v (.enter (m.get 1) isEmptyElementTag)
  match attrLoop v doc m.stop (m.stop - (m.get 1).second + 1) (m.get 1).second []
      { r.1 with retCode := r.2 } with
  | none => none
  | some st2 =>
    if st2.retCode && isEmptyElementTag then
      let st3 := (st2.call v (.exit (st2.nodeStack.headD ⟨0, 0⟩) true)).1
      some (State.finish doc { st3 with nodeStack := st3.nodeStack.tail } m.stop)
    else some (State.finish doc st2 m.stop)

/-- The branch of an iteration for a close tag matched by `m` (lines 279-305). -/
def stepClose {σ : Type} (v : Visitor σ) (doc : Doc) (st : State σ) (m : Match) : State σ :=
  match st.nodeStack with
  | [] =>
    let st1 := (st.call v (.error msgNoOpening st.docPos)).1
    { st1 with retCode := false }
  | top :: rest =>
    if !equalStrings doc top (m.get 1) then
      let st1 := (st.call v (.error (msgMismatch doc top) st.docPos)).1
      { st1 with retCode := false }
    else
      let r := st.call v (.exit (m.get 1) false)
      State.finish doc { r.1 with retCode := r.2, nodeStack := rest } m.stop

/-- The condition `((tmpPos = strchr(docPos, '<')) > docPos) && tmpPos` (line 306): the
position of the next `<`, when there is one and it is not at the cursor. -/
def textEnd (doc : Doc) (docPos : Nat) : Option Nat :=
  match strchr doc docPos '<' with
  | some tmpPos => if docPos < tmpPos then some tmpPos else none
  | none => none

/-- The branch of an iteration for a text run ending at `tmpPos` (lines 307-310). -/
def stepText {σ : Type} (v : Visitor σ) (doc : Doc) (st : State σ) (tmpPos : Nat) : State σ :=
  let r := st.call v (.text ⟨st.docPos, tmpPos⟩)
  State.finish doc { r.1 with retCode := r.2, docPos := tmpPos } tmpPos

/-- The branch of an iteration for a CDATA block matched by `m` (lines 316-319). -/
def stepCdata {σ : Type} (v : Visitor σ) (doc : Doc) (st : State σ) (m : Match) : State σ :=
  let r := st.call v (.cdata (m.get 1))
  State.finish doc { r.1 with retCode := r.2 } m.stop

/-- The branch of an iteration when nothing matches (lines 328-333). -/
def stepInvalid {σ : Type} (v : Visitor σ) (st : State σ) : State σ :=
  let st1 := (st.call v (.error msgInvalid st.docPos)).1
  { st1 with retCode := false }

/-- One iteration of the `do ... while` loop of `parse` (lines 216-342). -/
def bodyStep {σ : Type} (v : Visitor σ) (doc : Doc) (st : State σ) : Option (State σ) :=
  match regex_search_continuous regexNodeOpen doc st.docPos doc.length with
  | some m => stepOpen v doc st m
  | none =>
    match regex_search_continuous regexNodeClose doc st.docPos doc.length with
    | some m => some (stepClose v doc st m)
    | none =>
      match textEnd doc st.docPos with
      | some tmpPos => some (stepText v doc st tmpPos)
      | none =>
        match regex_search_continuous regexXmlCDATA doc st.docPos doc.length with
        | some m => some (stepCdata v doc st m)
        | none =>
          match regex_search_continuous regexXmlPI doc st.docPos doc.length with
          | some m => some (State.finish doc st m.stop)
          | none => some (stepInvalid v st)

/-- The `do ... while(retCode && !m_nodeStack.empty())` loop. The counter bounds the number
of iterations; `none` means it ran out. -/
def bodyLoop {σ : Type} (v : Visitor σ) (doc : Doc) : Nat → State σ → Option (State σ)
  | 0, _ => none
  | n + 1, st =>
    match bodyStep v doc st with
    | none => none
    | some st1 =>
      if st1.retCode && !st1.nodeStack.isEmpty then bodyLoop v doc n st1 else some st1

/-- The cursor after the prolog (lines 191-205): white space and comments, the XML
declaration, white space and comments, the DOCTYPE block. -/
def prolog (doc : Doc) : Nat :=
  let docPos := skipSpacesAndComments doc 0
  let docPos :=
    match regex_search_continuous regexXmlDeclaration doc docPos doc.length with
    | some m => skipSpacesAndComments doc m.stop
    | none => docPos
  skipDoctype doc docPos

/-- The state in which the `do ... while` loop is entered: `m_nodeStack` has been cleared. -/
def bodyInit {σ : Type} (doc : Doc) (vis : σ) : State σ :=
  { vis := vis, log := [], nodeStack := [], docPos := prolog doc, retCode := true }

/-- Function `XmlSax::parse` (without `HO_SAX_CATCH_EXCEPTIONS`), on a parser object whose
visitor is in state `vis` and whose member `m_nodeStack` is `nodeStack`. The result is the
state at the return statement; its `retCode` is the value returned. -/
def parse {σ : Type} (v : Visitor σ) (doc : Doc) (vis : σ) (nodeStack : List Span) :
    Option (State σ) :=
  if doc.length ≤ prolog doc then
    some { vis := vis, log := [], nodeStack := nodeStack, docPos := prolog doc, retCode := true }
  else bodyLoop v doc (doc.length + 1) (bodyInit doc vis)

/-- The state in which iteration `n` (counted from 0) of the `do ... while` loop of
`parse v doc vis` begins, if the loop gets that far. -/
def iterStart {σ : Type} (v : Visitor σ) (doc : Doc) (vis : σ) : Nat → Option (State σ)
  | 0 => if doc.length ≤ prolog doc then none else some (bodyInit doc vis)
  | n + 1 =>
    match iterStart v doc vis n with
    | none => none
    | some st =>
      match bodyStep v doc st with
      | none => none
      | some st1 => if st1.retCode && !st1.nodeStack.isEmpty then some st1 else none

/-- The state in which iteration `n` of the loop ends (before the loop condition is
evaluated), if the loop gets that far. -/
def iterEnd {σ : Type} (v : Visitor σ) (doc : Doc) (vis : σ) (n : Nat) : Option (State σ) :=
  match iterStart v doc vis n with
  | none => none
  | some st => bodyStep v doc st

/-- The calls of a log, without the values returned. -/
def calls (log : List (Call × Bool)) : List Call := log.map Prod.fst

/-- A call as the visitor sees it through the conversion helper `toStringName` and the raw
characters of the other spans: the comparison of calls by content. -/
inductive CallText where
  | enter (element : List Char) (isEmptyElementTag : Bool)
  | exit (element : List Char) (isEmptyElementTag : Bool)
  | attribute (name value : List Char)
  | text (content : List Char)
  | cdata (content : List Char)
  | error (info : List Char) (docPos : Nat)
  | validate
deriving DecidableEq, Repr

/-- The content of a call. -/
def Call.content (doc : Doc) : Call → CallText
  | .enter e b => .enter (e.content doc) b
  | .exit e b => .exit (e.content doc) b
  | .attribute n x => .attribute (n.content doc) (x.content doc)
  | .text t => .text (t.content doc)
  | .cdata t => .cdata (t.content doc)
  | .error i p => .error i p
  | .validate => .validate

/-! ## Notions used in the statements -/

/-- A continuation-passing matcher only succeeds through its continuation, called on a
suffix of the unread input, at the matching offset. -/
def ContSound (f : Cont → Cont) : Prop :=
  ∀ (k : Cont) (pos : Nat) (s : List Char) (c : Caps) (m : Match),
    f k pos s c = some m →
    ∃ pre s1 c1, s = pre ++ s1 ∧ k (pos + pre.length) s1 c1 = some m

/-- A matcher that consumes at least one character whenever it succeeds. -/
def ContStrict (f : Cont → Cont) : Prop :=
  ∀ (k : Cont) (pos : Nat) (s : List Char) (c : Caps) (m : Match),
    f k pos s c = some m →
    ∃ pre s1 c1, pre ≠ [] ∧ s = pre ++ s1 ∧ k (pos + pre.length) s1 c1 = some m

/-- The calls `error`. -/
def Call.isError : Call → Bool
  | .error _ _ => true
  | _ => false

/-- The calls whose returned value the parser is documented to obey: `enter`, `exit`,
`attribute`, `text`, `cdata`. -/
def Call.isCallback : Call → Bool
  | .error _ _ => false
  | .validate => false
  | _ => true

/-- The entries of a log that are calls of `error`. -/
def errors (log : List (Call × Bool)) : List (Call × Bool) :=
  log.filter (fun e => e.1.isError)

/-- The elements that have been entered and not yet exited, the most recent first: `enter`
opens an element and `exit` closes the most recent one. -/
def openElems : List Call → List Span
  | [] => []
  | c :: cs =>
    match c with
    | .enter e _ => e :: openElems cs
    | .exit _ _ => (openElems cs).tail
    | _ => openElems cs

/-- The elements open after the calls of a log (which lists the oldest call first). -/
def openAfter (log : List (Call × Bool)) : List Span :=
  openElems (calls log).reverse

/-- The calls the attribute loop of one open tag makes, for a tag at `p`: for each
attribute `attribute` then `validate`, and possibly a final `error` at `p`; the flag tells
whether the loop ended without an error. -/
inductive AttrLog (p : Nat) : List (Call × Bool) → Bool → Prop
  | done : AttrLog p [] true
  | step (n x : Span) (r1 r2 : Bool) (rest : List (Call × Bool)) (ok : Bool) :
      AttrLog p rest ok → AttrLog p ((.attribute n x, r1) :: (.validate, r2) :: rest) ok
  | dup (n x : Span) (r1 : Bool) (msg : List Char) :
      AttrLog p [(.attribute n x, r1), (.validate, true), (.error msg p, true)] false

/-- The attributes of an open tag as the attribute loop scans them, from `cbegin` up to the
end `last` of the tag: name and value of each. The counter bounds their number. -/
def tagAttrs (doc : Doc) (last : Nat) : Nat → Nat → List (Span × Span)
  | 0, _ => []
  | n + 1, cbegin =>
    match regex_search_continuous regexNodeAttrList doc cbegin last with
    | none => []
    | some attrMatch => (attrMatch.get 1, attrMatch.get 2) :: tagAttrs doc last n attrMatch.stop

/-- The attributes of the open tag matched by `m`. -/
def attrsOf (doc : Doc) (m : Match) : List (Span × Span) :=
  tagAttrs doc m.stop (m.stop - (m.get 1).second + 1) (m.get 1).second


/-- The calls that are neither `enter` nor `exit`. -/
def Call.isElem : Call → Bool
  | .enter _ _ => true
  | .exit _ _ => true
  | _ => false


/-- Every `exit` among the calls (the most recent first) names, by content, the element that
is the most recently entered and not yet exited when it is made. -/
def ExitsNameTop (doc : Doc) : List Call → Prop
  | [] => True
  | c :: older =>
    (match c with
     | .exit e _ => ∃ top rest, openElems older = top :: rest ∧ e.content doc = top.content doc
     | _ => True) ∧ ExitsNameTop doc older

/-- The bookkeeping of open elements: the elements open after the calls are the element
stack, and every `exit` names the open element at the top. -/
def StackInv (doc : Doc) (st : State σ) : Prop :=
  openAfter st.log = st.nodeStack ∧ ExitsNameTop doc (calls st.log).reverse


/-- The error record after an iteration that began with the cursor at `p`: no error when
`retCode` is true; otherwise either a single error, made last, at `p`, with the cursor still
at `p`, or no error and a last call that returned false. -/
def ErrInv (p : Nat) (st1 : State σ) : Prop :=
  (st1.retCode = true → errors st1.log = []) ∧
  (st1.retCode = false →
    (∃ pre info, st1.log = pre ++ [(.error info p, true)] ∧ errors pre = [] ∧ st1.docPos = p) ∨
    (errors st1.log = [] ∧ ∃ pre c, st1.log = pre ++ [(c, false)] ∧ c.isCallback = true))


/-- A visitor all of whose callbacks `enter`, `exit`, `attribute`, `text`, `cdata` return
true, in every state. -/
def Visitor.AllTrue (v : Visitor σ) : Prop :=
  ∀ (s : σ) (c : Call), c.isCallback = true → (v.call s c).2 = true

/-- A visitor whose `validate` returns `b`, in every state. -/
def Visitor.ValidateIs (v : Visitor σ) (b : Bool) : Prop :=
  ∀ s : σ, (v.validate s).2 = b

/-- The visitor without state whose callbacks return true and whose `validate` returns `b`;
`constVisitor false` is the base class, and `constVisitor true` returns what the test visitor
`XmlSaxULT` returns. -/
def constVisitor (b : Bool) : Visitor Unit :=
  { defaultVisitor with validate := fun s => (s, b) }

/-- A state without the state of the visitor. -/
def State.erase (st : State σ) : State Unit :=
  { vis := (), log := st.log, nodeStack := st.nodeStack, docPos := st.docPos,
    retCode := st.retCode }


/-- The queries `validate`. -/
def Call.isValidate : Call → Bool
  | .validate => true
  | _ => false

/-- The events of a log: its calls other than the queries `validate`, by content. -/
def events (doc : Doc) (log : List (Call × Bool)) : List CallText :=
  ((calls log).filter (fun c => !c.isValidate)).map (Call.content doc)


/-- The base-class visitor but for `attribute`, which returns false. -/
def refuseAttribute : Visitor Unit :=
  { defaultVisitor with «attribute» := fun s _ _ => (s, false) }

/-- The base-class visitor but for `exit`, which returns false. -/
def refuseExit : Visitor Unit :=
  { defaultVisitor with exit := fun s _ _ => (s, false) }


/-- The base-class visitor but for `enter`, which returns false. -/
def refuseEnter : Visitor Unit :=
  { defaultVisitor with enter := fun s _ _ => (s, false) }


/-- The duplicate the attribute loop finds in validate mode, if any: the name, among `names`
and the names of the attributes before it, that the first attribute with an already seen
name is equal to. -/
def firstDup (doc : Doc) : List Span → List (Span × Span) → Option Span
  | _, [] => none
  | names, a :: rest =>
    match names.find? (fun x => equalStrings doc a.1 x) with
    | some it => some it
    | none => firstDup doc (names ++ [a.1]) rest

/-- The calls `attribute` and `validate` the attribute loop makes for a list of
attributes. -/
def attrCalls (attrs : List (Span × Span)) : List Call :=
  attrs.flatMap (fun a => [.attribute a.1 a.2, .validate])

/-- The messages of the errors other than the duplicate-attribute error. -/
def OtherError (doc : Doc) (info : List Char) : Prop :=
  info = msgNoOpening ∨ info = msgInvalid ∨ ∃ top, info = msgMismatch doc top

/-- A matcher that uses its continuation only on inputs that are not longer than its
own. -/
def ContLocal (f : Cont → Cont) : Prop :=
  ∀ (k1 k2 : Cont) (pos : Nat) (s : List Char) (c : Caps),
    (∀ pos1 s1 c1, s1.length ≤ s.length → k1 pos1 s1 c1 = k2 pos1 s1 c1) →
    f k1 pos s c = f k2 pos s c

/-- The characters of `s` without the white space at its end. -/
def trimEnd : List Char → List Char
  | [] => []
  | x :: xs =>
    match trimEnd xs with
    | [] => if isSpace x then [] else [x]
    | y :: ys => x :: y :: ys

/-- The continuation of `regex_match`: the whole input has been read. -/
def kEnd : Cont := fun pos s c => if s.isEmpty then some ⟨pos, c⟩ else none

/-- The groups of a match of `regexTrimmed` on the input `s` at `pos`: group 1 is the white
space at the beginning, group 2 runs from the first to the last character that is not white
space, group 3 is the white space at the end; a group that would be empty is not matched. -/
def trimmedCaps (pos : Nat) (s : List Char) : Caps :=
  (if (s.dropWhile isSpace).drop (trimEnd (s.dropWhile isSpace)).length = [] then []
    else [(3, ⟨pos + (s.takeWhile isSpace).length + (trimEnd (s.dropWhile isSpace)).length,
               pos + s.length⟩)]) ++
  (if trimEnd (s.dropWhile isSpace) = [] then []
    else [(2, ⟨pos + (s.takeWhile isSpace).length,
               pos + (s.takeWhile isSpace).length + (trimEnd (s.dropWhile isSpace)).length⟩)]) ++
  (if s.takeWhile isSpace = [] then [] else [(1, ⟨pos, pos + (s.takeWhile isSpace).length⟩)])

/-- Every maximal run of white space of `s` replaced by one space. -/
def collapse : List Char → List Char
  | [] => []
  | [x] => if isSpace x then [' '] else [x]
  | x :: y :: ys =>
    if isSpace x then (if isSpace y then collapse (y :: ys) else ' ' :: collapse (y :: ys))
    else x :: collapse (y :: ys)

/-- Reading `s` with the unfinished run `cur` of characters that are not white space: a run
ends at a white space character or at the end of `s`. -/
def wordsGo : List Char → List Char → List (List Char)
  | cur, [] => if cur = [] then [] else [cur]
  | cur, x :: xs =>
    if isSpace x then (if cur = [] then wordsGo [] xs else cur :: wordsGo [] xs)
    else wordsGo (cur ++ [x]) xs

/-- The maximal runs of characters of `s` that are not white space, in order. -/
def wordsOf (s : List Char) : List (List Char) := wordsGo [] s

/-- The words joined by single spaces. -/
def joinWords : List (List Char) → List Char
  | [] => []
  | [w] => w
  | w :: v :: ws => w ++ ' ' :: joinWords (v :: ws)

/-- The first character of `s` is white space. -/
def startsWithSpace (s : List Char) : Bool :=
  match s.head? with
  | some x => isSpace x
  | none => false

/-- The last character of `s` is white space. -/
def endsWithSpace (s : List Char) : Bool :=
  match s.getLast? with
  | some x => isSpace x
  | none => false

/-- The words of `s` joined by single spaces, with one space in front when `s` begins with
white space and one space behind when `s` ends with white space and has a character that is
not white space. -/
def padded (s : List Char) : List Char :=
  (if startsWithSpace s then [' '] else []) ++ (joinWords (wordsOf s) ++
    (if endsWithSpace s && s.any (fun x => !isSpace x) then [' '] else []))

/-- The five escape sequences that `fixEscapes` replaces. -/
def escapeSequences : List (List Char) :=
  ["&lt;".toList, "&gt;".toList, "&amp;".toList, "&apos;".toList, "&quot;".toList]

/-- A piece of the text between the tokens of the prolog: a character, or a comment with
this body. -/
inductive Piece
  | space (x : Char)
  | comment (body : List Char)

/-- The characters of a piece. -/
def Piece.text : Piece → List Char
  | .space x => [x]
  | .comment body => "<!--".toList ++ (body ++ "-->".toList)

/-- The piece is a white space character, or a comment that ends at the first `-->` after
its `<!--`. -/
def Piece.ok : Piece → Bool
  | .space x => isSpace x
  | .comment body => !decide ("-->".toList <:+: body ++ "--".toList)

/-- The characters of a run of pieces. -/
def piecesText (w : List Piece) : List Char := w.flatMap Piece.text

/-- One iteration of the pattern `spacesAndComments`, `\s+|\s*` comment `\s*`. -/
def reSkipItem : Re :=
  .alt (Re.plus reSpace) (.seq (.star reSpace) (.seq getReComment (.star reSpace)))

/-- The first character of a name, `[a-zA-Z_]`. -/
def isNameStart (x : Char) : Bool := isAlpha x || x == '_'

/-- A further character of a name, `[\w\.\-]`. -/
def isNameChar (x : Char) : Bool := isWord x || x == '.' || x == '-'

/-- A name: a first character and further characters. -/
def isName : List Char → Bool
  | [] => false
  | x :: xs => isNameStart x && xs.all isNameChar

/-- A character of a value, `[^<"]`. -/
def isValueChar (x : Char) : Bool := x != '<' && x != '"'

/-- The parts of `name="value"` in a declaration: the white space in front, the name, the
white space on both sides of `=`, and the value. -/
structure PseudoAttr where
  lead : List Char
  name : List Char
  sp1 : List Char
  sp2 : List Char
  value : List Char

/-- The characters of `name="value"` with its white space. -/
def PseudoAttr.text (a : PseudoAttr) : List Char :=
  a.lead ++ (a.name ++ (a.sp1 ++ ('=' :: (a.sp2 ++ ('"' :: (a.value ++ ['"']))))))

/-- The parts are as the declaration wants them: white space in front, a name, a value
without `<` and `"`. -/
def PseudoAttr.ok (a : PseudoAttr) : Bool :=
  !a.lead.isEmpty && a.lead.all isSpace && isName a.name && a.sp1.all isSpace &&
    a.sp2.all isSpace && a.value.all isValueChar

/-- The characters of the XML declaration with these attributes and this white space before
`?>`. -/
def declText (attrs : List PseudoAttr) (sp : List Char) : List Char :=
  "<?xml".toList ++ (attrs.flatMap PseudoAttr.text ++ (sp ++ "?>".toList))

/-- The DOCTYPE pattern, applied to the document at offset `p`, matches exactly the
block `t`. -/
def doctypeAt (doc : Doc) (p : Nat) (t : List Char) : Bool :=
  (regex_search_continuous regexDoctype doc p doc.length).map Match.stop == some (p + t.length)

/-- From offset `p` on, the document is nothing, or a DOCTYPE block that its pattern matches
exactly, and white space and comments. -/
def DoctypeTail (doc : Doc) (p : Nat) : Prop :=
  doc.drop p = [] ∨ ∃ (t : List Char) (w : List Piece), (∀ q ∈ w, q.ok = true) ∧
    doc.drop p = t ++ piecesText w ∧ doctypeAt doc p t = true


/-- A document of white space and comments with at most one XML declaration and at most one
DOCTYPE block: the pieces before, between and after the two, the attributes of the declaration
and the white space before its `?>`, the characters of the DOCTYPE block, and whether the
DOCTYPE block comes before the declaration. -/
structure PrologDoc where
  w1 : List Piece
  w2 : List Piece
  w3 : List Piece
  decl : Option (List PseudoAttr × List Char)
  doctype : Option (List Char)
  doctypeFirst : Bool

/-- The characters of the declaration, if there is one. -/
def PrologDoc.declChars (d : PrologDoc) : List Char :=
  match d.decl with
  | none => []
  | some (attrs, sp) => declText attrs sp

/-- The characters of the DOCTYPE block, if there is one. -/
def PrologDoc.doctypeChars (d : PrologDoc) : List Char :=
  match d.doctype with
  | none => []
  | some t => t

/-- The characters of the document. -/
def PrologDoc.text (d : PrologDoc) : List Char :=
  if d.doctypeFirst then
    piecesText d.w1 ++ (d.doctypeChars ++ (piecesText d.w2 ++ (d.declChars ++ piecesText d.w3)))
  else
    piecesText d.w1 ++ (d.declChars ++ (piecesText d.w2 ++ (d.doctypeChars ++ piecesText d.w3)))

/-- The offset of the DOCTYPE block in the document. -/
def PrologDoc.doctypeOffset (d : PrologDoc) : Nat :=
  if d.doctypeFirst then (piecesText d.w1).length
  else (piecesText d.w1).length + d.declChars.length + (piecesText d.w2).length

/-- The pieces are white space and comments, and the declaration has at least one
`name="value"`. -/
def PrologDoc.ok (d : PrologDoc) : Bool :=
  d.w1.all Piece.ok && d.w2.all Piece.ok && d.w3.all Piece.ok &&
    (match d.decl with
     | none => true
     | some (attrs, sp) => !attrs.isEmpty && attrs.all PseudoAttr.ok && sp.all isSpace)

/-- The DOCTYPE pattern, applied where the DOCTYPE block begins, matches exactly the block. -/
def PrologDoc.doctypeExact (d : PrologDoc) : Bool :=
  match d.doctype with
  | none => true
  | some t => doctypeAt d.text d.doctypeOffset t


/-- The condition of the assertion at the end of an iteration that went well (lines
340-341): the cursor is not at the end of the document, or the stack is empty. -/
def assertAtEnd {σ : Type} (doc : Doc) (st : State σ) : Bool :=
  st.docPos != doc.length || st.nodeStack.isEmpty

/-- Calls of `parse` on one parser object, one document after the other: the state of the
visitor and the member `m_nodeStack` are carried from call to call. For each call, in order,
the value returned and the stack left. -/
def parseSeq {σ : Type} (v : Visitor σ) : List Doc → σ → List Span →
    Option (List (Bool × List Span))
  | [], _, _ => some []
  | d :: ds, vis, stack =>
    match parse v d vis stack with
    | none => none
    | some st =>
      match parseSeq v ds st.vis st.nodeStack with
      | none => none
      | some rs => some ((st.retCode, st.nodeStack) :: rs)

/-- The five escape sequences with the characters they stand for, in the order in which
`fixEscapes` replaces them. -/
def escapeTable : List (List Char × List Char) :=
  [("&lt;".toList, "<".toList), ("&gt;".toList, ">".toList), ("&amp;".toList, "&".toList),
   ("&apos;".toList, "\x27".toList), ("&quot;".toList, "\"".toList)]

/-- One pass over `s` from left to right (specification side): where the first component of
an entry of `tbl` begins, its second component is written and the pass goes on behind the
occurrence; any other character is copied. The counter is the number of characters of an
occurrence just replaced that are still to be passed over. -/
def replaceScan (tbl : List (List Char × List Char)) : Nat → List Char → List Char
  | _, [] => []
  | k + 1, _ :: xs => replaceScan tbl k xs
  | 0, x :: xs =>
    match tbl.find? (fun e => e.1.isPrefixOf (x :: xs)) with
    | some e => e.2 ++ replaceScan tbl (e.1.length - 1) xs
    | none => x :: replaceScan tbl 0 xs

/-- All occurrences of `e` in `s`, found from left to right, replaced by `f` (specification
side). -/
def replaceAll (e f s : List Char) : List Char := replaceScan [(e, f)] 0 s

/-- The five replacements one after the other, in the order of the table (specification
side): all `&lt;`, then all `&gt;`, then all `&amp;`, then all `&apos;`, then all `&quot;`. -/
def decodeInOrder (s : List Char) : List Char :=
  escapeTable.foldl (fun acc e => replaceAll e.1 e.2 acc) s

/-- One pass from left to right that replaces each occurrence of one of the five escape
sequences by its character (specification side). -/
def decodeOnePass (s : List Char) : List Char := replaceScan escapeTable 0 s

/-- The characters the five escape sequences stand for. -/
def isDecodedChar (x : Char) : Bool := "&<>\x27\"".toList.contains x

/-- A table of replacements in which every sequence to replace is `&` followed by characters
that no replacement writes, and every replacement writes one such character. -/
def escapesOnly (tbl : List (List Char × List Char)) : Bool :=
  tbl.all (fun e => e.1.head? == some '&' && e.1.tail.all (fun x => !isDecodedChar x) &&
    e.2.length == 1 && e.2.all isDecodedChar)

/-- Pattern `newline` of `position`, `\r\n|\r|\n`. -/
def reNewline : Re :=
  .alt (.seq (Re.char '\r') (Re.char '\n')) (.alt (Re.char '\r') (Re.char '\n'))

/-- The `for_each` over the `cregex_iterator` of `position` (lines 393-400), on the unread
input `s` at offset `pos`: each match adds one to the line `acc.1` and sets `last` (`acc.2`)
to its end. The counter bounds the number of matches by the length of the input; the pattern
never matches the empty string. -/
def positionLoop (re : Re) : Nat → Nat → List Char → Nat × Nat → Nat × Nat
  | 0, _, _, acc => acc
  | n + 1, pos, s, acc =>
    match regex_search re pos pos s with
    | none => acc
    | some (b, m) =>
      if m.stop ≤ b then acc
      else positionLoop re n m.stop (s.drop (m.stop - pos)) (acc.1 + 1, m.stop)

/-- Function `XmlSax::position`: the (line, column) pair of the offset `docPos` of `doc`. -/
def position (doc : Doc) (docPos : Nat) : Nat × Nat :=
  let r := positionLoop reNewline docPos 0 (doc.take docPos) (1, 0)
  (r.1, 1 + (docPos - r.2))

/-- Reading `s` at offset `pos` from left to right (specification side): `\r\n` is one line
terminator, and so is a `\r` or a `\n` alone; `acc.1` counts the terminators and `acc.2` is
the offset just behind the last one. The counter is the number of characters of a terminator
just read that are still to be passed over. -/
def lineScan : Nat → Nat → List Char → Nat × Nat → Nat × Nat
  | _, _, [], acc => acc
  | k + 1, pos, _ :: xs, acc => lineScan k (pos + 1) xs acc
  | 0, pos, x :: xs, acc =>
    if x == '\r' && xs.head? == some '\n' then lineScan 1 (pos + 1) xs (acc.1 + 1, pos + 2)
    else if x == '\r' || x == '\n' then lineScan 0 (pos + 1) xs (acc.1 + 1, pos + 1)
    else lineScan 0 (pos + 1) xs acc

/-- The strings a pattern can match (specification side): `Re.Lang start r pos pre rest` says
that `r` can match the characters `pre` at offset `pos` when `rest` follows them; `start` is
the offset of the beginning of the target sequence. An iteration of `*` is not empty. -/
inductive Re.Lang (start : Nat) : Re → Nat → List Char → List Char → Prop
  | chr (p : Char → Bool) (pos : Nat) (x : Char) (rest : List Char) :
      p x = true → Re.Lang start (.chr p) pos [x] rest
  | eps (pos : Nat) (rest : List Char) : Re.Lang start .eps pos [] rest
  | seq (a b : Re) (pos : Nat) (p1 p2 rest : List Char) :
      Re.Lang start a pos p1 (p2 ++ rest) → Re.Lang start b (pos + p1.length) p2 rest →
      Re.Lang start (.seq a b) pos (p1 ++ p2) rest
  | altL (a b : Re) (pos : Nat) (pre rest : List Char) :
      Re.Lang start a pos pre rest → Re.Lang start (.alt a b) pos pre rest
  | altR (a b : Re) (pos : Nat) (pre rest : List Char) :
      Re.Lang start b pos pre rest → Re.Lang start (.alt a b) pos pre rest
  | starNil (a : Re) (pos : Nat) (rest : List Char) : Re.Lang start (.star a) pos [] rest
  | starCons (a : Re) (pos : Nat) (p1 p2 rest : List Char) :
      p1 ≠ [] → Re.Lang start a pos p1 (p2 ++ rest) →
      Re.Lang start (.star a) (pos + p1.length) p2 rest →
      Re.Lang start (.star a) pos (p1 ++ p2) rest
  | group (i : Nat) (a : Re) (pos : Nat) (pre rest : List Char) :
      Re.Lang start a pos pre rest → Re.Lang start (.group i a) pos pre rest
  | nla (a : Re) (pos : Nat) (rest : List Char) (c : Caps) :
      Re.run start a (fun pos1 _ c1 => some ⟨pos1, c1⟩) pos rest c = none →
      Re.Lang start (.nla a) pos [] rest
  | bol (pos : Nat) (rest : List Char) : pos = start → Re.Lang start .bol pos [] rest

/-- A matcher that only succeeds through its continuation, after characters of the language
`L`. -/
def ContLang (f : Cont → Cont) (L : Nat → List Char → List Char → Prop) : Prop :=
  ∀ (k : Cont) (pos : Nat) (s : List Char) (c : Caps) (m : Match),
    f k pos s c = some m →
    ∃ pre s1 c1, s = pre ++ s1 ∧ L pos pre s1 ∧ k (pos + pre.length) s1 c1 = some m


/-- The body of a comment (`d` is `-`) or of a CDATA block (`d` is `]`),
`(?:[^d]|d(?!d>))*`. -/
def reBody (d : Char) : Re :=
  .star (.alt (.chr (fun x => x != d)) (.seq (Re.char d) (.nla (Re.lit [d, '>']))))

/-- The characters of a CDATA block with this body (specification side). -/
def cdataText (body : List Char) : List Char :=
  "<![CDATA[".toList ++ (body ++ "]]>".toList)

/-- The block ends at the first `]]>` after its `<![CDATA[` (specification side). -/
def cdataOk (body : List Char) : Bool :=
  !decide ("]]>".toList <:+: body ++ "]]".toList)


/-- A name with an optional prefix (specification side): `pfx` is the prefix without its
colon, empty when there is none. -/
structure QName where
  pfx : List Char
  name : List Char
deriving DecidableEq, Repr

/-- The characters of the name: the prefix and a colon when there is a prefix, then the
name. -/
def QName.text (q : QName) : List Char :=
  (if q.pfx.isEmpty then [] else q.pfx ++ [':']) ++ q.name

/-- A name of an element: the prefix, when there is one, is a name, and so is the name. -/
def QName.ok (q : QName) : Bool :=
  (q.pfx.isEmpty || isName q.pfx) && isName q.name

/-- A name of an attribute as the attribute pattern takes it: the prefix, when there is one,
is `xml` or `xmlns`. -/
def QName.attrOk (q : QName) : Bool :=
  (q.pfx.isEmpty || q.pfx == "xml".toList || q.pfx == "xmlns".toList) && isName q.name

/-- The parts of a close tag (specification side): the name and the white space before
`>`. -/
structure CloseTag where
  name : QName
  sp : List Char
deriving DecidableEq, Repr

/-- The characters of the close tag. -/
def CloseTag.text (t : CloseTag) : List Char :=
  "</".toList ++ (t.name.text ++ (t.sp ++ ['>']))

/-- The parts are as the close-tag pattern wants them. -/
def CloseTag.ok (t : CloseTag) : Bool :=
  t.name.ok && t.sp.all isSpace


/-- The parts of an attribute of an open tag (specification side): the white space in front,
the name, the white space on both sides of `=`, and the value between the quotes. -/
structure Attr where
  lead : List Char
  name : QName
  sp1 : List Char
  sp2 : List Char
  value : List Char
deriving DecidableEq, Repr

/-- The characters of the attribute with its white space. -/
def Attr.text (a : Attr) : List Char :=
  a.lead ++ (a.name.text ++ (a.sp1 ++ ('=' :: (a.sp2 ++ ('"' :: (a.value ++ ['"']))))))

/-- The parts are as the attribute pattern wants them: white space in front, a name whose
prefix is `xml` or `xmlns` if it has one, a value without `<` and `"`. -/
def Attr.ok (a : Attr) : Bool :=
  !a.lead.isEmpty && a.lead.all isSpace && a.name.attrOk && a.sp1.all isSpace &&
    a.sp2.all isSpace && a.value.all isValueChar

/-- The span of the name of an attribute that begins at `pos`. -/
def Attr.nameSpan (pos : Nat) (a : Attr) : Span :=
  ⟨pos + a.lead.length, pos + a.lead.length + a.name.text.length⟩

/-- The span between the quotes of an attribute that begins at `pos`. -/
def Attr.valueSpan (pos : Nat) (a : Attr) : Span :=
  ⟨pos + a.lead.length + a.name.text.length + a.sp1.length + 1 + a.sp2.length + 1,
   pos + a.lead.length + a.name.text.length + a.sp1.length + 1 + a.sp2.length + 1 +
     a.value.length⟩

/-- The spans of name and value of the attributes of a list that begins at `pos`. -/
def attrSpans : Nat → List Attr → List (Span × Span)
  | _, [] => []
  | pos, a :: as => (a.nameSpan pos, a.valueSpan pos) :: attrSpans (pos + a.text.length) as

/-- The groups 2 and 3 that the open-tag pattern sets while it reads the attributes of a
list that begins at `pos`. -/
def attrCaps : Nat → List Attr → Caps → Caps
  | _, [], c => c
  | pos, a :: as, c =>
    attrCaps (pos + a.text.length) as ((3, a.valueSpan pos) :: (2, a.nameSpan pos) :: c)

/-- The parts of an open tag (specification side): the name, the attributes, the white space
before the end, and whether the tag ends with `/>`. -/
structure OpenTag where
  name : QName
  attrs : List Attr
  sp : List Char
  selfClosing : Bool
deriving DecidableEq, Repr

/-- The end of an open tag: white space or none, then `/>` or `>`. -/
def OpenTag.tail (t : OpenTag) : List Char :=
  t.sp ++ (if t.selfClosing then "/>".toList else ">".toList)

/-- The characters of the open tag. -/
def OpenTag.text (t : OpenTag) : List Char :=
  '<' :: (t.name.text ++ (t.attrs.flatMap Attr.text ++ t.tail))

/-- The parts are as the open-tag pattern wants them. -/
def OpenTag.ok (t : OpenTag) : Bool :=
  t.name.ok && t.attrs.all Attr.ok && t.sp.all isSpace

/-- The groups that the open-tag pattern sets on an open tag that begins at `pos`: group 1 is
the name, groups 2 and 3 the attributes, group 4 the `/`. -/
def OpenTag.caps (pos : Nat) (t : OpenTag) : Caps :=
  (if t.selfClosing then
      [(4, ⟨pos + t.text.length - 2, pos + t.text.length - 2 + 1⟩)] else []) ++
    attrCaps (pos + 1 + t.name.text.length) t.attrs
      [(1, ⟨pos + 1, pos + 1 + t.name.text.length⟩)]


/-- The parts of a processing instruction as the pattern takes it (specification side): the
name, the attributes, the white space before `?>`. -/
structure ProcInstr where
  name : List Char
  attrs : List PseudoAttr
  sp : List Char

/-- The characters of the processing instruction. -/
def ProcInstr.text (t : ProcInstr) : List Char :=
  "<?".toList ++ (t.name ++ (t.attrs.flatMap PseudoAttr.text ++ (t.sp ++ "?>".toList)))

/-- The parts are as the pattern of processing instructions wants them. -/
def ProcInstr.ok (t : ProcInstr) : Bool :=
  isName t.name && t.attrs.all PseudoAttr.ok && t.sp.all isSpace


/-- Two calls are the same call up to a relation `R` between the spans passed. -/
inductive CallRel (R : Span → Span → Prop) : Call → Call → Prop
  | enter (e e' : Span) (b : Bool) : R e e' → CallRel R (.enter e b) (.enter e' b)
  | exit (e e' : Span) (b : Bool) : R e e' → CallRel R (.exit e b) (.exit e' b)
  | attribute (n n' x x' : Span) : R n n' → R x x' →
      CallRel R (.attribute n x) (.attribute n' x')
  | text (t t' : Span) : R t t' → CallRel R (.text t) (.text t')
  | cdata (t t' : Span) : R t t' → CallRel R (.cdata t) (.cdata t')
  | error (i : List Char) (p : Nat) : CallRel R (.error i p) (.error i p)
  | validate : CallRel R .validate .validate

/-- Two logs hold related calls with the same values returned. -/
def LogRel (R : Span → Span → Prop) (l l' : List (Call × Bool)) : Prop :=
  List.Forall₂ (fun e e' => CallRel R e.1 e'.1 ∧ e'.2 = e.2) l l'

/-- Two states of `parse`, on two documents, are related: the same visitor state and
`retCode`, related element stacks and related logs. The cursors are not compared. -/
structure StRel (R : Span → Span → Prop) (st st' : State σ) : Prop where
  vis : st'.vis = st.vis
  retCode : st'.retCode = st.retCode
  stack : List.Forall₂ R st.nodeStack st'.nodeStack
  log : LogRel R st.log st'.log

/-- Related spans of two documents have the same length and the same characters. -/
def SpanSame (d d' : Doc) (R : Span → Span → Prop) : Prop :=
  ∀ a a', R a a' → a'.second - a'.first = a.second - a.first ∧ a'.content d' = a.content d

/-- Two visitors answer related calls alike. -/
def VisSame (R : Span → Span → Prop) (v v' : Visitor σ) : Prop :=
  ∀ s c c', CallRel R c c' → v'.call s c' = v.call s c

/-- The attribute loop on the list of the attributes it finds (specification side): the loop
of `attrLoop` without the search. -/
def attrRun (v : Visitor σ) (doc : Doc) (pos : Nat) :
    List (Span × Span) → List Span → State σ → State σ
  | [], _, st => st
  | a :: rest, names, st =>
    if !st.retCode then st
    else
      let st1 := (st.call v (.attribute a.1 a.2)).1
      let r := st1.call v .validate
      if r.2 then
        match names.find? (fun x => equalStrings doc a.1 x) with
        | some it =>
          let st2 := (r.1.call v (.error (msgDuplicate doc it) pos)).1
          attrRun v doc pos rest (names ++ [a.1]) { st2 with retCode := false }
        | none => attrRun v doc pos rest (names ++ [a.1]) r.1
      else attrRun v doc pos rest names r.1


/-- The offset at which the token read by an iteration at `p` ends: the end of the match of
the first pattern that matches, in the order of `bodyStep`, and for a text run the offset of
the `<` that ends it; `p` itself when there is no token. -/
def tokenStop (doc : Doc) (p : Nat) : Nat :=
  match regex_search_continuous regexNodeOpen doc p doc.length with
  | some m => m.stop
  | none =>
    match regex_search_continuous regexNodeClose doc p doc.length with
    | some m => m.stop
    | none =>
      match textEnd doc p with
      | some t => t
      | none =>
        match regex_search_continuous regexXmlCDATA doc p doc.length with
        | some m => m.stop
        | none =>
          match regex_search_continuous regexXmlPI doc p doc.length with
          | some m => m.stop
          | none => p

/-- The offset up to which an iteration at `p` reads the document to take its token: the
end of the token, and for a text run the `<` behind it as well. -/
def tokenEnd (doc : Doc) (p : Nat) : Nat :=
  match regex_search_continuous regexNodeOpen doc p doc.length with
  | some _ => tokenStop doc p
  | none =>
    match regex_search_continuous regexNodeClose doc p doc.length with
    | some _ => tokenStop doc p
    | none =>
      match textEnd doc p with
      | some _ => tokenStop doc p + 1
      | none => tokenStop doc p

/-- The state in which the attribute loop of an open tag begins: the element is on the
stack, `enter` has been called and `retCode` is the value it returned (lines 226-230). -/
def enterState (v : Visitor σ) (st : State σ) (e : Span) (b : Bool) : State σ :=
  { (State.call v { st with nodeStack := e :: st.nodeStack } (.enter e b)).1 with
    retCode := (State.call v { st with nodeStack := e :: st.nodeStack } (.enter e b)).2 }

/-- The state after the call `exit` of a self-closing tag, the element taken from the stack
(lines 272-274). -/
def exitState (v : Visitor σ) (st : State σ) : State σ :=
  { (st.call v (.exit (st.nodeStack.headD ⟨0, 0⟩) true)).1 with
    nodeStack := (st.call v (.exit (st.nodeStack.headD ⟨0, 0⟩) true)).1.nodeStack.tail }

/-- The state after the call `exit` of a close tag, the element taken from the stack
(lines 299-303). -/
def closeState (v : Visitor σ) (st : State σ) (e : Span) (l : List Span) : State σ :=
  { (st.call v (.exit e false)).1 with
    retCode := (st.call v (.exit e false)).2, nodeStack := l }


/-- The text begins like a token of the body loop and not like white space or a comment: a
character that is neither `<` nor white space, or `<` followed by a character other than `!`,
or `<![`. -/
def startsToken (r : List Char) : Bool :=
  match r with
  | [] => false
  | x :: xs =>
    if x = '<' then
      match xs with
      | [] => false
      | y :: ys => if y = '!' then ys.head? == some '[' else true
    else !isSpace x


/-- An observer that sees the calls by their content (specification side): the visitor that
passes the content of each call on document `doc` to `o`. -/
def contentVisitor (o : σ → CallText → σ × Bool) (doc : Doc) : Visitor σ where
  enter := fun s e b => o s (.enter (e.content doc) b)
  exit := fun s e b => o s (.exit (e.content doc) b)
  «attribute» := fun s n x => o s (.attribute (n.content doc) (x.content doc))
  text := fun s t => o s (.text (t.content doc))
  cdata := fun s t => o s (.cdata (t.content doc))
  error := fun s i p => (o s (.error i p)).1
  validate := fun s => o s .validate


/-- The offset behind the `>` that ends the tag at `p`: the end of the match of the open-tag
pattern (an open or self-closing tag) or else of the close-tag pattern, as `bodyStep` tries
them; `none` when there is no tag at `p`. -/
def tagStop (doc : Doc) (p : Nat) : Option Nat :=
  match regex_search_continuous regexNodeOpen doc p doc.length with
  | some m => some m.stop
  | none =>
    match regex_search_continuous regexNodeClose doc p doc.length with
    | some m => some m.stop
    | none => none

/-! # Theorems -/

/-! ## The matcher: where a match ends -/

theorem starLoop_sound (body : Cont → Cont) (hb : ContSound body) (n : Nat) :
    ContSound (starLoop body n) := by
  induction n with
  | zero =>
    intro k pos s c m h
    exact ⟨[], s, c, by simp, by simpa [starLoop] using h⟩
  | succ n ih =>
    intro k pos s c m h
    simp only [starLoop] at h
    split at h
    · rename_i m1 hm1
      cases h
      obtain ⟨pre, s1, c1, hs, hk⟩ := hb _ _ _ _ _ hm1
      split at hk
      · obtain ⟨pre2, s2, c2, hs2, hk2⟩ := ih _ _ _ _ _ hk
        refine ⟨pre ++ pre2, s2, c2, by simp [hs, hs2], ?_⟩
        simpa [Nat.add_assoc] using hk2
      · cases hk
    · exact ⟨[], s, c, by simp, by simpa using h⟩

theorem Re.run_sound (start : Nat) (r : Re) : ContSound (Re.run start r) := by
  induction r with
  | chr p =>
    intro k pos s c m h
    cases s with
    | nil => simp [Re.run] at h
    | cons x xs =>
      simp only [Re.run] at h
      split at h
      · exact ⟨[x], xs, c, by simp, by simpa using h⟩
      · cases h
  | eps =>
    intro k pos s c m h
    exact ⟨[], s, c, by simp, by simpa [Re.run] using h⟩
  | seq a b iha ihb =>
    intro k pos s c m h
    simp only [Re.run] at h
    obtain ⟨pre, s1, c1, hs, hk⟩ := iha _ _ _ _ _ h
    obtain ⟨pre2, s2, c2, hs2, hk2⟩ := ihb _ _ _ _ _ hk
    refine ⟨pre ++ pre2, s2, c2, by simp [hs, hs2], ?_⟩
    simpa [Nat.add_assoc] using hk2
  | alt a b iha ihb =>
    intro k pos s c m h
    simp only [Re.run] at h
    split at h
    · rename_i m1 hm1
      cases h
      exact iha _ _ _ _ _ hm1
    · exact ihb _ _ _ _ _ h
  | star a iha =>
    intro k pos s c m h
    simp only [Re.run] at h
    exact starLoop_sound _ iha _ _ _ _ _ _ h
  | group i a iha =>
    intro k pos s c m h
    simp only [Re.run] at h
    obtain ⟨pre, s1, c1, hs, hk⟩ := iha _ _ _ _ _ h
    exact ⟨pre, s1, _, hs, hk⟩
  | nla a _ =>
    intro k pos s c m h
    simp only [Re.run] at h
    split at h
    · cases h
    · exact ⟨[], s, c, by simp, by simpa using h⟩
  | bol =>
    intro k pos s c m h
    simp only [Re.run] at h
    split at h
    · exact ⟨[], s, c, by simp, by simpa using h⟩
    · cases h

theorem strict_chr (start : Nat) (p : Char → Bool) : ContStrict (Re.run start (.chr p)) := by
  intro k pos s c m h
  cases s with
  | nil => simp [Re.run] at h
  | cons x xs =>
    simp only [Re.run] at h
    split at h
    · exact ⟨[x], xs, c, by simp, by simp, by simpa using h⟩
    · cases h

theorem strict_seq_left (start : Nat) (a b : Re) (ha : ContStrict (Re.run start a)) :
    ContStrict (Re.run start (.seq a b)) := by
  intro k pos s c m h
  simp only [Re.run] at h
  obtain ⟨pre, s1, c1, hne, hs, hk⟩ := ha _ _ _ _ _ h
  obtain ⟨pre2, s2, c2, hs2, hk2⟩ := Re.run_sound start b _ _ _ _ _ hk
  refine ⟨pre ++ pre2, s2, c2, by simp [hne], by simp [hs, hs2], ?_⟩
  simpa [Nat.add_assoc] using hk2

theorem strict_seq_right (start : Nat) (a b : Re) (hb : ContStrict (Re.run start b)) :
    ContStrict (Re.run start (.seq a b)) := by
  intro k pos s c m h
  simp only [Re.run] at h
  obtain ⟨pre, s1, c1, hs, hk⟩ := Re.run_sound start a _ _ _ _ _ h
  obtain ⟨pre2, s2, c2, hne, hs2, hk2⟩ := hb _ _ _ _ _ hk
  refine ⟨pre ++ pre2, s2, c2, by simp [hne], by simp [hs, hs2], ?_⟩
  simpa [Nat.add_assoc] using hk2

theorem strict_lit_cons (start : Nat) (x : Char) (xs : List Char) :
    ContStrict (Re.run start (Re.lit (x :: xs))) := by
  cases xs with
  | nil => exact strict_chr start _
  | cons y ys => exact strict_seq_left start _ _ (strict_chr start _)

theorem strict_regexNodeOpen (start : Nat) : ContStrict (Re.run start regexNodeOpen) :=
  strict_seq_right _ _ _ (strict_seq_left _ _ _ (strict_chr _ _))

theorem strict_regexNodeClose (start : Nat) : ContStrict (Re.run start regexNodeClose) :=
  strict_seq_right _ _ _ (strict_seq_left _ _ _ (strict_lit_cons _ _ _))

theorem strict_regexXmlCDATA (start : Nat) : ContStrict (Re.run start regexXmlCDATA) :=
  strict_seq_right _ _ _ (strict_seq_left _ _ _ (strict_lit_cons _ _ _))

theorem strict_regexXmlPI (start : Nat) : ContStrict (Re.run start regexXmlPI) :=
  strict_seq_right _ _ _ (strict_seq_left _ _ _ (strict_lit_cons _ _ _))

theorem strict_regexNodeAttrList (start : Nat) : ContStrict (Re.run start regexNodeAttrList) :=
  strict_seq_right _ _ _ (strict_seq_left _ _ _ (strict_seq_left _ _ _ (strict_chr _ _)))

/-- The end of a continuous match lies within the target sequence. -/
theorem search_stop_bounds {re : Re} {doc : Doc} {first last : Nat} {m : Match}
    (h : regex_search_continuous re doc first last = some m) :
    first ≤ m.stop ∧ m.stop ≤ first + (min (last - first) (doc.length - first)) := by
  obtain ⟨pre, s1, c1, hs, hk⟩ := Re.run_sound first re _ _ _ _ _ h
  simp only [Option.some.injEq] at hk
  subst hk
  have hl := congrArg List.length hs
  simp only [List.length_take, List.length_drop, List.length_append] at hl
  simp only
  omega

theorem search_stop_le {re : Re} {doc : Doc} {first : Nat} {m : Match}
    (h : regex_search_continuous re doc first doc.length = some m) (hf : first ≤ doc.length) :
    first ≤ m.stop ∧ m.stop ≤ doc.length := by
  have := search_stop_bounds h
  omega

theorem search_stop_lt {re : Re} {doc : Doc} {first last : Nat} {m : Match}
    (hre : ContStrict (Re.run first re))
    (h : regex_search_continuous re doc first last = some m) :
    first < m.stop ∧ m.stop ≤ last ∧ m.stop ≤ doc.length := by
  obtain ⟨pre, s1, c1, hne, hs, hk⟩ := hre _ _ _ _ _ h
  simp only [Option.some.injEq] at hk
  subst hk
  have hl := congrArg List.length hs
  have hp : 0 < pre.length := List.length_pos.mpr hne
  simp only [List.length_take, List.length_drop, List.length_append] at hl
  simp only
  omega

theorem skipSpacesAndComments_bounds (doc : Doc) (pos : Nat) (h : pos ≤ doc.length) :
    pos ≤ skipSpacesAndComments doc pos ∧ skipSpacesAndComments doc pos ≤ doc.length := by
  unfold skipSpacesAndComments
  split
  · rename_i m hm
    exact search_stop_le hm h
  · exact ⟨le_refl _, h⟩

theorem skipDoctype_bounds (doc : Doc) (pos : Nat) (h : pos ≤ doc.length) :
    pos ≤ skipDoctype doc pos ∧ skipDoctype doc pos ≤ doc.length := by
  unfold skipDoctype
  split
  · rename_i m hm
    have h1 := search_stop_le hm h
    have h2 := skipSpacesAndComments_bounds doc m.stop h1.2
    omega
  · exact ⟨le_refl _, h⟩

theorem prolog_le (doc : Doc) : prolog doc ≤ doc.length := by
  unfold prolog
  have h0 := skipSpacesAndComments_bounds doc 0 (Nat.zero_le _)
  simp only
  split
  · rename_i m hm
    have h1 := search_stop_le hm h0.2
    have h2 := skipSpacesAndComments_bounds doc m.stop h1.2
    exact (skipDoctype_bounds doc _ h2.2).2
  · exact (skipDoctype_bounds doc _ h0.2).2

variable {σ : Type}

/-! ## The attribute loop -/

theorem attrLoop_total (v : Visitor σ) (doc : Doc) (last : Nat) :
    ∀ (fuel cbegin : Nat) (names : List Span) (st : State σ), last - cbegin < fuel →
      ∃ st1, attrLoop v doc last fuel cbegin names st = some st1 := by
  intro fuel
  induction fuel with
  | zero => intro cbegin names st h; omega
  | succ n ih =>
    intro cbegin names st h
    simp only [attrLoop]
    split
    · exact ⟨st, rfl⟩
    · split
      · exact ⟨st, rfl⟩
      · rename_i am ham
        have hb := search_stop_lt (strict_regexNodeAttrList cbegin) ham
        have hn : last - am.stop < n := by omega
        split
        · split
          · exact ih _ _ _ hn
          · exact ih _ _ _ hn
        · exact ih _ _ _ hn

theorem attrLoop_of_retCode_false (v : Visitor σ) (doc : Doc) (last : Nat)
    (fuel cbegin : Nat) (names : List Span) (st st1 : State σ) (hr : st.retCode = false)
    (h : attrLoop v doc last fuel cbegin names st = some st1) : st1 = st := by
  cases fuel with
  | zero => simp [attrLoop] at h
  | succ n =>
    simp only [attrLoop, hr] at h
    simpa using h.symm

@[simp] theorem State.call_log (v : Visitor σ) (st : State σ) (c : Call) :
    (st.call v c).1.log = st.log ++ [(c, (st.call v c).2)] := rfl

@[simp] theorem State.call_nodeStack (v : Visitor σ) (st : State σ) (c : Call) :
    (st.call v c).1.nodeStack = st.nodeStack := rfl

@[simp] theorem State.call_docPos (v : Visitor σ) (st : State σ) (c : Call) :
    (st.call v c).1.docPos = st.docPos := rfl

@[simp] theorem State.call_retCode (v : Visitor σ) (st : State σ) (c : Call) :
    (st.call v c).1.retCode = st.retCode := rfl

theorem State.call_error (v : Visitor σ) (st : State σ) (i : List Char) (p : Nat) :
    (st.call v (.error i p)).2 = true := rfl

theorem attrLoop_spec (v : Visitor σ) (doc : Doc) (last : Nat) :
    ∀ (fuel cbegin : Nat) (names : List Span) (st st1 : State σ), st.retCode = true →
      attrLoop v doc last fuel cbegin names st = some st1 →
      st1.nodeStack = st.nodeStack ∧ st1.docPos = st.docPos ∧
      ∃ ext, st1.log = st.log ++ ext ∧ AttrLog st.docPos ext st1.retCode := by
  intro fuel
  induction fuel with
  | zero => intro cbegin names st st1 _ h; simp [attrLoop] at h
  | succ n ih =>
    intro cbegin names st st1 hr h
    simp only [attrLoop, hr] at h
    simp only [Bool.not_true, Bool.false_eq_true, ↓reduceIte] at h
    split at h
    · cases h
      exact ⟨rfl, rfl, [], by simp, by rw [hr]; exact AttrLog.done⟩
    · rename_i am ham
      split at h
      · rename_i hval
        split at h
        · rename_i it hit
          have := attrLoop_of_retCode_false v doc last _ _ _ _ _ rfl h
          subst this
          refine ⟨rfl, rfl, [(.attribute (am.get 1) (am.get 2),
              (st.call v (.attribute (am.get 1) (am.get 2))).2), (.validate, true),
            (.error (msgDuplicate doc it) st.docPos, true)], ?_, AttrLog.dup _ _ _ _⟩
          simp [hval, State.call_error]
        · obtain ⟨h1, h2, ext, h3, h4⟩ := ih _ _ _ _ (by simpa using hr) h
          refine ⟨h1, h2, (.attribute (am.get 1) (am.get 2),
              (st.call v (.attribute (am.get 1) (am.get 2))).2) :: (.validate,
              ((st.call v (.attribute (am.get 1) (am.get 2))).1.call v .validate).2) :: ext, ?_,
            AttrLog.step _ _ _ _ _ _ h4⟩
          rw [h3]
          simp
      · obtain ⟨h1, h2, ext, h3, h4⟩ := ih _ _ _ _ (by simpa using hr) h
        refine ⟨h1, h2, (.attribute (am.get 1) (am.get 2),
              (st.call v (.attribute (am.get 1) (am.get 2))).2) :: (.validate,
              ((st.call v (.attribute (am.get 1) (am.get 2))).1.call v .validate).2) :: ext, ?_,
          AttrLog.step _ _ _ _ _ _ h4⟩
        rw [h3]
        simp

/-! ## One iteration, case by case -/

theorem stepOpen_spec (v : Visitor σ) (doc : Doc) (st st1 : State σ) (m : Match)
    (h : stepOpen v doc st m = some st1) :
    ∃ (r : Bool) (ext : List (Call × Bool)) (ok : Bool),
      (r = false → ext = [] ∧ ok = false) ∧ (r = true → AttrLog st.docPos ext ok) ∧
      ((ok && m.matched 4) = true → ∃ r2,
        st1.log = st.log ++ (.enter (m.get 1) true, r) :: ext ++ [(.exit (m.get 1) true, r2)] ∧
        st1.nodeStack = st.nodeStack ∧ st1.retCode = true ∧
        st1.docPos = skipSpacesAndComments doc m.stop) ∧
      ((ok && m.matched 4) = false →
        st1.log = st.log ++ (.enter (m.get 1) (m.matched 4), r) :: ext ∧
        st1.nodeStack = m.get 1 :: st.nodeStack ∧ st1.retCode = ok ∧
        st1.docPos = if ok then skipSpacesAndComments doc m.stop else st.docPos) := by
  unfold stepOpen at h
  simp only at h
  split at h
  · cases h
  · rename_i st2 hst2
    cases hr : (State.call v { st with nodeStack := m.get 1 :: st.nodeStack }
        (Call.enter (m.get 1) (m.matched 4))).2 with
    | false =>
      rw [hr] at hst2
      have := attrLoop_of_retCode_false v doc _ _ _ _ _ _ rfl hst2
      subst this
      simp only [Bool.false_and, Bool.false_eq_true, ↓reduceIte, State.finish,
        Option.some.injEq] at h
      subst h
      refine ⟨false, [], false, fun _ => ⟨rfl, rfl⟩, (fun h => by cases h), (fun h => by cases h),
        fun _ => ?_⟩
      simp [hr]
    | true =>
      rw [hr] at hst2
      obtain ⟨h1, h2, ext, h3, h4⟩ := attrLoop_spec v doc _ _ _ _ _ _ rfl hst2
      simp only [State.call_nodeStack, State.call_docPos, State.call_log] at h1 h2 h3 h4
      refine ⟨true, ext, st2.retCode, (fun h => by cases h), fun _ => h4, ?_, ?_⟩
      · intro hc
        rw [hc] at h
        simp only [↓reduceIte, Option.some.injEq] at h
        simp only [Bool.and_eq_true] at hc
        subst h
        refine ⟨(State.call v st2 (Call.exit (st2.nodeStack.headD ⟨0, 0⟩) true)).2, ?_, ?_, ?_, ?_⟩
        · have hr1 := hr
          rw [hc.2] at hr1
          simp [State.finish, hc.1, h3, h1, hr1, hc.2]
        · simp [State.finish, hc.1, h1]
        · simp [State.finish, hc.1]
        · simp [State.finish, hc.1]
      · intro hc
        rw [hc] at h
        simp only [Bool.false_eq_true, ↓reduceIte, Option.some.injEq] at h
        subst h
        refine ⟨?_, ?_, ?_, ?_⟩
        · unfold State.finish
          split <;> simp [h3, hr]
        · unfold State.finish
          split <;> simp [h1]
        · unfold State.finish
          split <;> simp
        · unfold State.finish
          split <;> simp_all

theorem bodyStep_cases (v : Visitor σ) (doc : Doc) (st st1 : State σ)
    (h : bodyStep v doc st = some st1) :
    (∃ m, regex_search_continuous regexNodeOpen doc st.docPos doc.length = some m ∧
      stepOpen v doc st m = some st1) ∨
    (∃ m, regex_search_continuous regexNodeOpen doc st.docPos doc.length = none ∧
      regex_search_continuous regexNodeClose doc st.docPos doc.length = some m ∧
      st1 = stepClose v doc st m) ∨
    (∃ tmpPos, regex_search_continuous regexNodeOpen doc st.docPos doc.length = none ∧
      regex_search_continuous regexNodeClose doc st.docPos doc.length = none ∧
      textEnd doc st.docPos = some tmpPos ∧ st1 = stepText v doc st tmpPos) ∨
    (∃ m, regex_search_continuous regexNodeOpen doc st.docPos doc.length = none ∧
      regex_search_continuous regexNodeClose doc st.docPos doc.length = none ∧
      textEnd doc st.docPos = none ∧
      regex_search_continuous regexXmlCDATA doc st.docPos doc.length = some m ∧
      st1 = stepCdata v doc st m) ∨
    (∃ m, regex_search_continuous regexNodeOpen doc st.docPos doc.length = none ∧
      regex_search_continuous regexNodeClose doc st.docPos doc.length = none ∧
      textEnd doc st.docPos = none ∧
      regex_search_continuous regexXmlCDATA doc st.docPos doc.length = none ∧
      regex_search_continuous regexXmlPI doc st.docPos doc.length = some m ∧
      st1 = State.finish doc st m.stop) ∨
    (regex_search_continuous regexNodeOpen doc st.docPos doc.length = none ∧
      regex_search_continuous regexNodeClose doc st.docPos doc.length = none ∧
      textEnd doc st.docPos = none ∧
      regex_search_continuous regexXmlCDATA doc st.docPos doc.length = none ∧
      regex_search_continuous regexXmlPI doc st.docPos doc.length = none ∧
      st1 = stepInvalid v st) := by
  unfold bodyStep at h
  split at h
  · rename_i m hm
    exact Or.inl ⟨m, hm, h⟩
  · rename_i hopen
    split at h
    · rename_i m hm
      cases h
      exact Or.inr (Or.inl ⟨m, hopen, hm, rfl⟩)
    · rename_i hclose
      split at h
      · rename_i t ht
        cases h
        exact Or.inr (Or.inr (Or.inl ⟨t, hopen, hclose, ht, rfl⟩))
      · rename_i htext
        split at h
        · rename_i m hm
          cases h
          exact Or.inr (Or.inr (Or.inr (Or.inl ⟨m, hopen, hclose, htext, hm, rfl⟩)))
        · rename_i hcdata
          split at h
          · rename_i m hm
            cases h
            exact Or.inr (Or.inr (Or.inr (Or.inr (Or.inl ⟨m, hopen, hclose, htext, hcdata, hm, rfl⟩))))
          · rename_i hpi
            cases h
            exact Or.inr (Or.inr (Or.inr (Or.inr (Or.inr ⟨hopen, hclose, htext, hcdata, hpi, rfl⟩))))

theorem bodyStep_total (v : Visitor σ) (doc : Doc) (st : State σ) :
    ∃ st1, bodyStep v doc st = some st1 := by
  unfold bodyStep
  split
  · rename_i m hm
    unfold stepOpen
    simp only
    have hb := search_stop_lt (strict_regexNodeOpen st.docPos) hm
    obtain ⟨st2, h2⟩ := attrLoop_total v doc m.stop (m.stop - (m.get 1).second + 1)
      (m.get 1).second []
      { (State.call v { st with nodeStack := m.get 1 :: st.nodeStack }
          (Call.enter (m.get 1) (m.matched 4))).1 with
        retCode := (State.call v { st with nodeStack := m.get 1 :: st.nodeStack }
          (Call.enter (m.get 1) (m.matched 4))).2 } (by omega)
    rw [h2]
    simp only
    split <;> exact ⟨_, rfl⟩
  · split
    · exact ⟨_, rfl⟩
    · split
      · exact ⟨_, rfl⟩
      · split
        · exact ⟨_, rfl⟩
        · split <;> exact ⟨_, rfl⟩

theorem attrLog_mem {p : Nat} {ext : List (Call × Bool)} {ok : Bool} (h : AttrLog p ext ok) :
    ∀ e ∈ ext, (∃ n x, e.1 = .attribute n x) ∨ e.1 = .validate ∨
      (∃ msg, e = (.error msg p, true) ∧ ok = false) := by
  induction h with
  | done => intro e he; cases he
  | step n x r1 r2 rest ok _ ih =>
    intro e he
    simp only [List.mem_cons] at he
    rcases he with rfl | rfl | he
    · exact Or.inl ⟨n, x, rfl⟩
    · exact Or.inr (Or.inl rfl)
    · exact ih e he
  | dup n x r1 msg =>
    intro e he
    simp only [List.mem_cons, List.mem_singleton, List.not_mem_nil, or_false] at he
    rcases he with rfl | rfl | rfl
    · exact Or.inl ⟨n, x, rfl⟩
    · exact Or.inr (Or.inl rfl)
    · exact Or.inr (Or.inr ⟨msg, rfl, rfl⟩)

theorem attrLog_errors_true {p : Nat} {ext : List (Call × Bool)} (h : AttrLog p ext true) :
    errors ext = [] := by
  unfold errors
  rw [List.filter_eq_nil_iff]
  intro e he
  rcases attrLog_mem h e he with ⟨n, x, h1⟩ | h1 | ⟨msg, _, h2⟩
  · simp [h1, Call.isError]
  · simp [h1, Call.isError]
  · cases h2

theorem attrLog_false {p : Nat} {ext : List (Call × Bool)} {ok : Bool} (h : AttrLog p ext ok) :
    ok = false → ∃ pre info, ext = pre ++ [(.error info p, true)] ∧ errors pre = [] := by
  induction h with
  | done => intro h; cases h
  | step n x r1 r2 rest ok _ ih =>
    intro hok
    obtain ⟨pre, info, h1, h2⟩ := ih hok
    refine ⟨(.attribute n x, r1) :: (.validate, r2) :: pre, info, by simp [h1], ?_⟩
    simpa [errors, Call.isError] using h2
  | dup n x r1 msg =>
    intro _
    exact ⟨[(.attribute n x, r1), (.validate, true)], msg, by simp, by simp [errors, Call.isError]⟩

theorem attrLog_isElem {p : Nat} {ext : List (Call × Bool)} {ok : Bool} (h : AttrLog p ext ok) :
    ∀ e ∈ ext, e.1.isElem = false := by
  intro e he
  rcases attrLog_mem h e he with ⟨n, x, h1⟩ | h1 | ⟨msg, h1, _⟩
  · simp [h1, Call.isElem]
  · simp [h1, Call.isElem]
  · simp [h1, Call.isElem]

theorem openElems_append_of_not_isElem (a l : List Call) (h : ∀ c ∈ a, c.isElem = false) :
    openElems (a ++ l) = openElems l := by
  induction a with
  | nil => rfl
  | cons c cs ih =>
    have hc := h c (List.mem_cons_self _ _)
    have := ih (fun d hd => h d (List.mem_cons_of_mem _ hd))
    cases c <;> simp_all [openElems, Call.isElem]

theorem openAfter_append (log ext : List (Call × Bool)) :
    openAfter (log ++ ext) = openElems ((calls ext).reverse ++ (calls log).reverse) := by
  simp [openAfter, calls]

theorem openAfter_append_of_not_isElem (log ext : List (Call × Bool))
    (h : ∀ e ∈ ext, e.1.isElem = false) : openAfter (log ++ ext) = openAfter log := by
  rw [openAfter_append, openElems_append_of_not_isElem]
  · rfl
  · intro c hc
    simp only [calls, List.mem_reverse, List.mem_map] at hc
    obtain ⟨e, he, rfl⟩ := hc
    exact h e he

theorem errors_append (a b : List (Call × Bool)) : errors (a ++ b) = errors a ++ errors b := by
  simp [errors]

/-! ## One iteration: the cursor -/

theorem finish_docPos (doc : Doc) (st : State σ) (next : Nat) (hn : next ≤ doc.length)
    (hp : st.docPos ≤ next) :
    (State.finish doc st next).docPos ≤ doc.length ∧
    ((State.finish doc st next).retCode = true → next ≤ (State.finish doc st next).docPos) := by
  have := skipSpacesAndComments_bounds doc next hn
  unfold State.finish
  split
  · simp only
    exact ⟨this.2, fun _ => this.1⟩
  · rename_i h
    simp only [h]
    exact ⟨by omega, fun h => by cases h⟩

theorem strchrFrom_bounds (ch : Char) : ∀ (s : List Char) (pos t : Nat),
    strchrFrom ch pos s = some t → pos ≤ t ∧ t < pos + s.length := by
  intro s
  induction s with
  | nil => intro pos t h; simp [strchrFrom] at h
  | cons x xs ih =>
    intro pos t h
    simp only [strchrFrom] at h
    split at h
    · cases h
      simp
    · have := ih _ _ h
      simp only [List.length_cons]
      omega

theorem textEnd_bounds (doc : Doc) (pos t : Nat) (h : textEnd doc pos = some t) :
    pos < t ∧ t < doc.length := by
  unfold textEnd at h
  split at h
  · rename_i tp htp
    split at h
    · cases h
      have := strchrFrom_bounds _ _ _ _ htp
      simp only [List.length_drop] at this
      omega
    · cases h
  · cases h

theorem bodyStep_docPos (v : Visitor σ) (doc : Doc) (st st1 : State σ)
    (h : bodyStep v doc st = some st1) (hp : st.docPos ≤ doc.length) :
    st1.docPos ≤ doc.length ∧ (st1.retCode = true → st.docPos < st1.docPos) := by
  rcases bodyStep_cases v doc st st1 h with ⟨m, hm, h1⟩ | ⟨m, _, hm, rfl⟩ | ⟨t, _, _, ht, rfl⟩ |
    ⟨m, _, _, _, hm, rfl⟩ | ⟨m, _, _, _, _, hm, rfl⟩ | ⟨_, _, _, _, _, rfl⟩
  · have hb := search_stop_lt (strict_regexNodeOpen st.docPos) hm
    have hs := skipSpacesAndComments_bounds doc m.stop hb.2.2
    obtain ⟨r, ext, ok, _, _, h3, h4⟩ := stepOpen_spec v doc st st1 m h1
    cases hc : (ok && m.matched 4)
    · obtain ⟨_, _, h5, h6⟩ := h4 hc
      rw [h6, h5]
      cases ok
      · simp [hp]
      · simp only [↓reduceIte, forall_const]
        omega
    · obtain ⟨r2, _, _, h5, h6⟩ := h3 hc
      rw [h6]
      omega
  · have hb := search_stop_lt (strict_regexNodeClose st.docPos) hm
    unfold stepClose
    split
    · simp [hp]
    · split
      · simp [hp]
      · have := finish_docPos doc { (State.call v st (Call.exit (m.get 1) false)).1 with
          retCode := (State.call v st (Call.exit (m.get 1) false)).2, nodeStack := ‹_› } m.stop
          hb.2.2 (by simp; omega)
        exact ⟨this.1, fun h => lt_of_lt_of_le hb.1 (this.2 h)⟩
  · have hb := textEnd_bounds doc _ _ ht
    unfold stepText
    have := finish_docPos doc { (State.call v st (Call.text ⟨st.docPos, t⟩)).1 with
          retCode := (State.call v st (Call.text ⟨st.docPos, t⟩)).2, docPos := t } t
          (by omega) (by simp)
    exact ⟨this.1, fun h => lt_of_lt_of_le hb.1 (this.2 h)⟩
  · have hb := search_stop_lt (strict_regexXmlCDATA st.docPos) hm
    unfold stepCdata
    have := finish_docPos doc { (State.call v st (Call.cdata (m.get 1))).1 with
          retCode := (State.call v st (Call.cdata (m.get 1))).2 } m.stop
          hb.2.2 (by simp; omega)
    exact ⟨this.1, fun h => lt_of_lt_of_le hb.1 (this.2 h)⟩
  · have hb := search_stop_lt (strict_regexXmlPI st.docPos) hm
    have := finish_docPos doc st m.stop hb.2.2 (by omega)
    exact ⟨this.1, fun h => by have := this.2 h; omega⟩
  · simp [stepInvalid, hp]

theorem equalStrings_content (doc : Doc) (a b : Span) (h : equalStrings doc a b = true) :
    a.content doc = b.content doc := by
  simp only [equalStrings, Bool.and_eq_true, beq_iff_eq] at h
  simp only [Span.content, ← h.1, h.2]

theorem exitsNameTop_append_of_not_isElem (doc : Doc) (a l : List Call)
    (h : ∀ c ∈ a, c.isElem = false) : ExitsNameTop doc (a ++ l) ↔ ExitsNameTop doc l := by
  induction a with
  | nil => rfl
  | cons c cs ih =>
    have hc := h c (List.mem_cons_self _ _)
    have := ih (fun d hd => h d (List.mem_cons_of_mem _ hd))
    cases c <;> simp_all [ExitsNameTop, Call.isElem]

theorem calls_append (a b : List (Call × Bool)) : calls (a ++ b) = calls a ++ calls b := by
  simp [calls]

theorem stackInv_ext (doc : Doc) (st st1 : State σ) (ext : List (Call × Bool))
    (hl : st1.log = st.log ++ ext) (hs : st1.nodeStack = st.nodeStack)
    (he : ∀ e ∈ ext, e.1.isElem = false) (h : StackInv doc st) : StackInv doc st1 := by
  unfold StackInv at *
  rw [hl, hs, openAfter_append_of_not_isElem _ _ he, calls_append, List.reverse_append,
    exitsNameTop_append_of_not_isElem]
  · exact h
  · intro c hc
    simp only [calls, List.mem_reverse, List.mem_map] at hc
    obtain ⟨e, he1, rfl⟩ := hc
    exact he e he1

theorem stackInv_finish (doc : Doc) (st : State σ) (next : Nat) :
    StackInv doc (State.finish doc st next) ↔ StackInv doc st := by
  unfold State.finish StackInv
  split <;> rfl

theorem stackInv_enter (doc : Doc) (st st1 : State σ) (e : Span) (b r : Bool)
    (ext : List (Call × Bool)) (hl : st1.log = st.log ++ (.enter e b, r) :: ext)
    (hs : st1.nodeStack = e :: st.nodeStack) (he : ∀ x ∈ ext, x.1.isElem = false)
    (h : StackInv doc st) : StackInv doc st1 := by
  have h1 : StackInv doc
      { st with log := st.log ++ [(Call.enter e b, r)], nodeStack := e :: st.nodeStack } := by
    unfold StackInv at *
    simp only [openAfter, calls, List.map_append, List.map_cons, List.map_nil,
      List.reverse_append, List.reverse_cons, List.reverse_nil, List.nil_append,
      List.singleton_append, openElems, ExitsNameTop, true_and] at *
    exact ⟨by rw [h.1], h.2⟩
  refine stackInv_ext doc _ st1 ext ?_ ?_ he h1
  · simp [hl]
  · simp [hs]

theorem stackInv_exit (doc : Doc) (st st1 : State σ) (e top : Span) (rest : List Span)
    (b r : Bool) (hl : st1.log = st.log ++ [(.exit e b, r)]) (ht : st.nodeStack = top :: rest)
    (hs : st1.nodeStack = rest) (hc : e.content doc = top.content doc)
    (h : StackInv doc st) : StackInv doc st1 := by
  unfold StackInv at *
  simp only [hl, hs, openAfter, calls, List.map_append, List.map_cons, List.map_nil,
    List.reverse_append, List.reverse_cons, List.reverse_nil, List.nil_append,
    List.singleton_append, openElems, ExitsNameTop] at *
  rw [h.1, ht]
  exact ⟨rfl, ⟨top, rest, rfl, hc⟩, h.2⟩

theorem bodyStep_stackInv (v : Visitor σ) (doc : Doc) (st st1 : State σ)
    (h : bodyStep v doc st = some st1) (hi : StackInv doc st) : StackInv doc st1 := by
  rcases bodyStep_cases v doc st st1 h with ⟨m, hm, h1⟩ | ⟨m, _, hm, rfl⟩ | ⟨t, _, _, ht, rfl⟩ |
    ⟨m, _, _, _, hm, rfl⟩ | ⟨m, _, _, _, _, hm, rfl⟩ | ⟨_, _, _, _, _, rfl⟩
  · obtain ⟨r, ext, ok, h1, h2, h3, h4⟩ := stepOpen_spec v doc st st1 m h1
    have hext : ∀ x ∈ ext, x.1.isElem = false := by
      cases r
      · rw [(h1 rfl).1]
        intro x hx
        cases hx
      · exact attrLog_isElem (h2 rfl)
    cases hc : (ok && m.matched 4)
    · obtain ⟨h5, h6, _, _⟩ := h4 hc
      exact stackInv_enter doc st st1 _ _ _ ext h5 h6 hext hi
    · obtain ⟨r2, h5, h6, _, _⟩ := h3 hc
      have hmid : StackInv doc
          { st with log := st.log ++ (Call.enter (m.get 1) true, r) :: ext, nodeStack := m.get 1 :: st.nodeStack } :=
        stackInv_enter doc st _ _ _ _ ext rfl rfl hext hi
      refine stackInv_exit doc _ st1 (m.get 1) (m.get 1) st.nodeStack true r2 ?_ rfl h6 rfl hmid
      simp [h5]
  · unfold stepClose
    split
    · rename_i hst
      refine stackInv_ext doc st _ [(.error msgNoOpening st.docPos, _)] rfl rfl ?_ hi
      simp [Call.isElem]
    · rename_i top rest hst
      split
      · refine stackInv_ext doc st _ [(.error (msgMismatch doc top) st.docPos, _)] rfl rfl ?_ hi
        simp [Call.isElem]
      · rename_i heq
        have heq : equalStrings doc top (m.get 1) = true := by
          cases hq : equalStrings doc top (m.get 1)
          · simp [hq] at heq
          · rfl
        rw [stackInv_finish]
        exact stackInv_exit doc st _ (m.get 1) top rest false _ rfl hst rfl
          (equalStrings_content doc _ _ heq).symm hi
  · unfold stepText
    rw [stackInv_finish]
    refine stackInv_ext doc st _ [(.text ⟨st.docPos, t⟩, _)] rfl rfl ?_ hi
    simp [Call.isElem]
  · unfold stepCdata
    rw [stackInv_finish]
    refine stackInv_ext doc st _ [(.cdata (m.get 1), _)] rfl rfl ?_ hi
    simp [Call.isElem]
  · rw [stackInv_finish]
    exact hi
  · refine stackInv_ext doc st _ [(.error msgInvalid st.docPos, _)] rfl rfl ?_ hi
    simp [Call.isElem]

theorem errInv_finish (doc : Doc) (p next : Nat) (st : State σ)
    (h1 : errors st.log = [] ∨ st.retCode = false) (h : st.retCode = false → ErrInv p st) :
    ErrInv p (State.finish doc st next) := by
  unfold State.finish
  split
  · rename_i hr
    rcases h1 with h1 | h1
    · exact ⟨fun _ => h1, fun h2 => by simp [hr] at h2⟩
    · simp [hr] at h1
  · rename_i hr
    simp only [Bool.not_eq_true] at hr
    exact h hr

theorem errInv_call (p : Nat) (st st1 : State σ) (c : Call) (r : Bool)
    (hc : c.isCallback = true) (he : errors st.log = []) (hl : st1.log = st.log ++ [(c, r)])
    (hr : st1.retCode = r) : ErrInv p st1 := by
  have hce : c.isError = false := by cases c <;> simp_all [Call.isCallback, Call.isError]
  have h0 : errors st1.log = [] := by
    rw [hl, errors_append, he]
    simp [errors, hce]
  refine ⟨fun _ => h0, fun h => Or.inr ⟨h0, st.log, c, ?_, hc⟩⟩
  rw [hl, ← hr, h]

theorem errInv_error (p : Nat) (st st1 : State σ) (info : List Char)
    (he : errors st.log = []) (hl : st1.log = st.log ++ [(.error info p, true)])
    (hr : st1.retCode = false) (hp : st1.docPos = p) : ErrInv p st1 :=
  ⟨(fun h => by rw [hr] at h; cases h), fun _ => Or.inl ⟨st.log, info, hl, he, hp⟩⟩

theorem bodyStep_errInv (v : Visitor σ) (doc : Doc) (st st1 : State σ)
    (h : bodyStep v doc st = some st1) (hr : st.retCode = true) (he : errors st.log = []) :
    ErrInv st.docPos st1 := by
  rcases bodyStep_cases v doc st st1 h with ⟨m, hm, h1⟩ | ⟨m, _, hm, rfl⟩ | ⟨t, _, _, ht, rfl⟩ |
    ⟨m, _, _, _, hm, rfl⟩ | ⟨m, _, _, _, _, hm, rfl⟩ | ⟨_, _, _, _, _, rfl⟩
  · obtain ⟨r, ext, ok, h1, h2, h3, h4⟩ := stepOpen_spec v doc st st1 m h1
    cases hc : (ok && m.matched 4)
    · obtain ⟨h5, h6, h7, h8⟩ := h4 hc
      cases r
      · obtain ⟨rfl, rfl⟩ := h1 rfl
        exact errInv_call _ st st1 (.enter (m.get 1) (m.matched 4)) false rfl he h5 h7
      · have ha := h2 rfl
        cases ok
        · obtain ⟨pre, info, hp1, hp2⟩ := attrLog_false ha rfl
          refine errInv_error _ { st with log := st.log ++ (Call.enter (m.get 1) (m.matched 4), true) :: pre } st1 info ?_ ?_ h7 ?_
          · simp only [errors_append, he, List.nil_append]
            simpa [errors, Call.isError] using hp2
          · simp [h5, hp1]
          · simp [h8]
        · have := attrLog_errors_true ha
          refine ⟨fun _ => ?_, (fun h => by rw [h7] at h; cases h)⟩
          rw [h5, errors_append, he]
          simpa [errors, Call.isError] using this
    · obtain ⟨r2, h5, h6, h7, h8⟩ := h3 hc
      simp only [Bool.and_eq_true] at hc
      have hr1 : r = true := by
        cases r
        · have := (h1 rfl).2
          rw [hc.1] at this
          cases this
        · rfl
      have ha := h2 hr1
      rw [hc.1] at ha
      have := attrLog_errors_true ha
      refine ⟨fun _ => ?_, (fun h => by rw [h7] at h; cases h)⟩
      rw [h5, errors_append, errors_append, he]
      simp only [List.nil_append]
      have : errors ((Call.enter (m.get 1) true, r) :: ext) = [] := by
        simpa [errors, Call.isError] using this
      rw [this]
      simp [errors, Call.isError]
  · unfold stepClose
    split
    · exact errInv_error _ st _ msgNoOpening he rfl rfl rfl
    · rename_i top rest hst
      split
      · exact errInv_error _ st _ (msgMismatch doc top) he rfl rfl rfl
      · refine errInv_finish doc _ _ _ ?_ (fun hf => ?_)
        · cases hq : (State.call v st (Call.exit (m.get 1) false)).2
          · exact Or.inr rfl
          · refine Or.inl ?_
            simp only [State.call_log, errors_append, he, List.nil_append]
            simp [errors, Call.isError]
        · exact errInv_call _ st _ (.exit (m.get 1) false) _ rfl he rfl rfl
  · unfold stepText
    refine errInv_finish doc _ _ _ ?_ (fun hf => ?_)
    · cases hq : (State.call v st (Call.text ⟨st.docPos, t⟩)).2
      · exact Or.inr rfl
      · refine Or.inl ?_
        simp only [State.call_log, errors_append, he, List.nil_append]
        simp [errors, Call.isError]
    · exact errInv_call _ st _ (.text ⟨st.docPos, t⟩) _ rfl he rfl rfl
  · unfold stepCdata
    refine errInv_finish doc _ _ _ ?_ (fun hf => ?_)
    · cases hq : (State.call v st (Call.cdata (m.get 1))).2
      · exact Or.inr rfl
      · refine Or.inl ?_
        simp only [State.call_log, errors_append, he, List.nil_append]
        simp [errors, Call.isError]
    · exact errInv_call _ st _ (.cdata (m.get 1)) _ rfl he rfl rfl
  · refine errInv_finish doc _ _ _ (Or.inl he) (fun hf => ?_)
    rw [hr] at hf
    cases hf
  · exact errInv_error _ st _ msgInvalid he rfl rfl rfl


/-! ## The loop -/

theorem iterStart_succ (v : Visitor σ) (doc : Doc) (vis : σ) (n : Nat) (s1 : State σ) :
    iterStart v doc vis (n + 1) = some s1 ↔
      ∃ sn, iterStart v doc vis n = some sn ∧ bodyStep v doc sn = some s1 ∧
        (s1.retCode && !s1.nodeStack.isEmpty) = true := by
  simp only [iterStart]
  constructor
  · intro h
    split at h
    · cases h
    · rename_i sn hsn
      split at h
      · cases h
      · rename_i s2 hs2
        split at h
        · rename_i hc
          cases h
          exact ⟨sn, hsn, hs2, hc⟩
        · cases h
  · rintro ⟨sn, h1, h2, h3⟩
    simp [h1, h2, h3]

theorem iterStart_of_add (v : Visitor σ) (doc : Doc) (vis : σ) (n d : Nat) (s : State σ)
    (h : iterStart v doc vis (n + d) = some s) : ∃ sn, iterStart v doc vis n = some sn := by
  induction d generalizing s with
  | zero => exact ⟨s, h⟩
  | succ d ih =>
    rw [← Nat.add_assoc, iterStart_succ] at h
    obtain ⟨sn, h1, _⟩ := h
    exact ih sn h1

theorem bodyInit_stackInv (doc : Doc) (vis : σ) : StackInv doc (bodyInit doc vis) := by
  simp [StackInv, bodyInit, openAfter, calls, openElems, ExitsNameTop]

theorem iterStart_inv (v : Visitor σ) (doc : Doc) (vis : σ) (n : Nat) (sn : State σ)
    (h : iterStart v doc vis n = some sn) :
    sn.retCode = true ∧ errors sn.log = [] ∧ sn.docPos ≤ doc.length ∧ StackInv doc sn ∧
      n ≤ sn.docPos := by
  induction n generalizing sn with
  | zero =>
    simp only [iterStart] at h
    split at h
    · cases h
    · cases h
      exact ⟨rfl, rfl, prolog_le doc, bodyInit_stackInv doc vis, Nat.zero_le _⟩
  | succ n ih =>
    rw [iterStart_succ] at h
    obtain ⟨s0, h1, h2, h3⟩ := h
    obtain ⟨i1, i2, i3, i4, i5⟩ := ih s0 h1
    simp only [Bool.and_eq_true] at h3
    have hp := bodyStep_docPos v doc s0 sn h2 i3
    have he := bodyStep_errInv v doc s0 sn h2 i1 i2
    have := hp.2 h3.1
    exact ⟨h3.1, he.1 h3.1, hp.1, bodyStep_stackInv v doc s0 sn h2 i4, by omega⟩

theorem iterEnd_some (v : Visitor σ) (doc : Doc) (vis : σ) (n : Nat) (st : State σ) :
    iterEnd v doc vis n = some st ↔
      ∃ sn, iterStart v doc vis n = some sn ∧ bodyStep v doc sn = some st := by
  unfold iterEnd
  constructor
  · intro h
    split at h
    · cases h
    · rename_i sn hsn
      exact ⟨sn, hsn, h⟩
  · rintro ⟨sn, h1, h2⟩
    simp [h1, h2]

/-- From the state in which an iteration begins, the loop runs to its end, which is the end
of some iteration after which the loop condition is false. -/
theorem bodyLoop_of_iterStart (v : Visitor σ) (doc : Doc) (vis : σ) :
    ∀ (fuel n : Nat) (sn : State σ), iterStart v doc vis n = some sn →
      doc.length < fuel + sn.docPos →
      ∃ st k sk, bodyLoop v doc fuel sn = some st ∧ iterStart v doc vis k = some sk ∧
        bodyStep v doc sk = some st ∧ (st.retCode && !st.nodeStack.isEmpty) = false := by
  intro fuel
  induction fuel with
  | zero =>
    intro n sn h hf
    have := (iterStart_inv v doc vis n sn h).2.2.1
    omega
  | succ fuel ih =>
    intro n sn h hf
    obtain ⟨s1, hs1⟩ := bodyStep_total v doc sn
    have hi := iterStart_inv v doc vis n sn h
    simp only [bodyLoop, hs1]
    cases hc : (s1.retCode && !s1.nodeStack.isEmpty)
    · exact ⟨s1, n, sn, by simp, h, hs1, hc⟩
    · have h1 : iterStart v doc vis (n + 1) = some s1 := (iterStart_succ _ _ _ _ _).2 ⟨sn, h, hs1, hc⟩
      simp only [Bool.and_eq_true] at hc
      have hp := (bodyStep_docPos v doc sn s1 hs1 hi.2.2.1).2 hc.1
      obtain ⟨st, k, sk, g1, g2, g3, g4⟩ := ih (n + 1) s1 h1 (by omega)
      exact ⟨st, k, sk, by simpa using g1, g2, g3, g4⟩

/-- The iteration after which the loop condition is false is unique. -/
theorem iterEnd_unique (v : Visitor σ) (doc : Doc) (vis : σ) (n k : Nat) (sn sk st1 st2 : State σ)
    (hn : iterStart v doc vis n = some sn) (hk : iterStart v doc vis k = some sk)
    (h1 : bodyStep v doc sn = some st1) (h2 : bodyStep v doc sk = some st2)
    (c1 : (st1.retCode && !st1.nodeStack.isEmpty) = false)
    (c2 : (st2.retCode && !st2.nodeStack.isEmpty) = false) : n = k ∧ st1 = st2 := by
  have key : ∀ (a b : Nat) (sa sb ta : State σ), iterStart v doc vis a = some sa →
      iterStart v doc vis b = some sb → bodyStep v doc sa = some ta →
      (ta.retCode && !ta.nodeStack.isEmpty) = false → ¬ a < b := by
    intro a b sa sb ta ha hb hs hc hab
    obtain ⟨d, rfl⟩ : ∃ d, b = (a + 1) + d := ⟨b - (a + 1), by omega⟩
    obtain ⟨s', hs'⟩ := iterStart_of_add v doc vis (a + 1) d sb hb
    rw [iterStart_succ] at hs'
    obtain ⟨sa', e1, e2, e3⟩ := hs'
    rw [ha] at e1
    cases e1
    rw [hs] at e2
    cases e2
    rw [hc] at e3
    cases e3
  have hnk : n = k := by
    have := key n k sn sk st1 hn hk h1 c1
    have := key k n sk sn st2 hk hn h2 c2
    omega
  subst hnk
  rw [hn] at hk
  cases hk
  rw [h1] at h2
  cases h2
  exact ⟨rfl, rfl⟩

/-- Function `parse` returns: either at once after the prolog, or at the end of the
iteration after which the loop condition is false. -/
theorem parse_cases (v : Visitor σ) (doc : Doc) (vis : σ) (stack0 : List Span) :
    ∃ st, parse v doc vis stack0 = some st ∧
      ((doc.length ≤ prolog doc ∧
          st = { vis := vis, log := [], nodeStack := stack0, docPos := prolog doc,
                 retCode := true }) ∨
       (¬ doc.length ≤ prolog doc ∧ ∃ n sn, iterStart v doc vis n = some sn ∧
          bodyStep v doc sn = some st ∧ (st.retCode && !st.nodeStack.isEmpty) = false)) := by
  unfold parse
  split
  · rename_i h
    exact ⟨_, rfl, Or.inl ⟨h, rfl⟩⟩
  · rename_i h
    have h0 : iterStart v doc vis 0 = some (bodyInit doc vis) := by simp [iterStart, h]
    obtain ⟨st, k, sk, g1, g2, g3, g4⟩ := bodyLoop_of_iterStart v doc vis (doc.length + 1) 0 _ h0
      (by omega)
    exact ⟨st, g1, Or.inr ⟨h, k, sk, g2, g3, g4⟩⟩

/-- The end of the iteration after which the loop condition is false is what `parse`
returns. -/
theorem parse_of_iter (v : Visitor σ) (doc : Doc) (vis : σ) (stack0 : List Span) (n : Nat)
    (sn st : State σ) (hn : iterStart v doc vis n = some sn) (hs : bodyStep v doc sn = some st)
    (hc : (st.retCode && !st.nodeStack.isEmpty) = false) :
    parse v doc vis stack0 = some st := by
  obtain ⟨st', h1, h2⟩ := parse_cases v doc vis stack0
  rcases h2 with ⟨h3, _⟩ | ⟨_, k, sk, g1, g2, g3⟩
  · obtain ⟨s0, hs0⟩ := iterStart_of_add v doc vis 0 n sn (by simpa using hn)
    simp [iterStart, h3] at hs0
  · obtain ⟨_, rfl⟩ := iterEnd_unique v doc vis n k sn sk st st' hn g1 hs g2 hc g3
    exact h1

/-! ## Visitors that return the same values -/

theorem call_erase (v : Visitor σ) (b : Bool) (ha : v.AllTrue) (hv : v.ValidateIs b)
    (st : State σ) (c : Call) :
    (st.call v c).2 = (st.erase.call (constVisitor b) c).2 ∧
    (st.call v c).1.erase = (st.erase.call (constVisitor b) c).1 := by
  have h2 : (st.call v c).2 = (st.erase.call (constVisitor b) c).2 := by
    cases c <;> first | exact hv st.vis | exact ha st.vis _ rfl | rfl
  refine ⟨h2, ?_⟩
  simp only [State.erase, State.call_log, State.call_nodeStack, State.call_docPos,
    State.call_retCode, h2]
  rfl

theorem finish_erase (doc : Doc) (st : State σ) (next : Nat) :
    (State.finish doc st next).erase = State.finish doc st.erase next := by
  unfold State.finish
  simp only [State.erase]
  split <;> rfl

theorem attrLoop_erase (v : Visitor σ) (b : Bool) (ha : v.AllTrue) (hv : v.ValidateIs b)
    (doc : Doc) (last : Nat) :
    ∀ (fuel cbegin : Nat) (names : List Span) (st : State σ),
      (attrLoop v doc last fuel cbegin names st).map State.erase =
        attrLoop (constVisitor b) doc last fuel cbegin names st.erase := by
  intro fuel
  induction fuel with
  | zero => intro cbegin names st; rfl
  | succ n ih =>
    intro cbegin names st
    simp only [attrLoop]
    have e0 : st.erase.retCode = st.retCode := rfl
    have e1 : st.erase.docPos = st.docPos := rfl
    rw [e0, e1]
    split
    · rfl
    · split
      · rfl
      · rename_i am ham
        have c1 := call_erase v b ha hv st (.attribute (am.get 1) (am.get 2))
        have c2 := call_erase v b ha hv (st.call v (.attribute (am.get 1) (am.get 2))).1 .validate
        rw [c1.2] at c2
        rw [← c2.1]
        split
        · split
          · rename_i it hit
            have c3 := call_erase v b ha hv
              ((st.call v (.attribute (am.get 1) (am.get 2))).1.call v .validate).1
              (.error (msgDuplicate doc it) st.docPos)
            rw [c2.2] at c3
            rw [ih]
            congr 1
            simp only [State.erase] at c3 ⊢
            rw [← c3.2]
          · rw [ih, c2.2]
        · rw [ih, c2.2]

theorem stepOpen_erase (v : Visitor σ) (b : Bool) (ha : v.AllTrue) (hv : v.ValidateIs b)
    (doc : Doc) (st : State σ) (m : Match) :
    (stepOpen v doc st m).map State.erase = stepOpen (constVisitor b) doc st.erase m := by
  unfold stepOpen
  simp only
  have c1 := call_erase v b ha hv { st with nodeStack := m.get 1 :: st.nodeStack }
    (.enter (m.get 1) (m.matched 4))
  have e := attrLoop_erase v b ha hv doc m.stop (m.stop - (m.get 1).second + 1)
    (m.get 1).second []
    { (State.call v { st with nodeStack := m.get 1 :: st.nodeStack }
          (Call.enter (m.get 1) (m.matched 4))).1 with
      retCode := (State.call v { st with nodeStack := m.get 1 :: st.nodeStack }
          (Call.enter (m.get 1) (m.matched 4))).2 }
  have c2 : (State.call v { st with nodeStack := m.get 1 :: st.nodeStack }
          (Call.enter (m.get 1) (m.matched 4))).2 =
      (State.call (constVisitor b) { st.erase with nodeStack := m.get 1 :: st.erase.nodeStack }
          (Call.enter (m.get 1) (m.matched 4))).2 := c1.1
  have c3 : (State.call v { st with nodeStack := m.get 1 :: st.nodeStack }
          (Call.enter (m.get 1) (m.matched 4))).1.erase =
      (State.call (constVisitor b) { st.erase with nodeStack := m.get 1 :: st.erase.nodeStack }
          (Call.enter (m.get 1) (m.matched 4))).1 := c1.2
  have e2 : State.erase { (State.call v { st with nodeStack := m.get 1 :: st.nodeStack }
          (Call.enter (m.get 1) (m.matched 4))).1 with
      retCode := (State.call v { st with nodeStack := m.get 1 :: st.nodeStack }
          (Call.enter (m.get 1) (m.matched 4))).2 } =
      { (State.call (constVisitor b) { st.erase with nodeStack := m.get 1 :: st.erase.nodeStack }
          (Call.enter (m.get 1) (m.matched 4))).1 with
        retCode := (State.call (constVisitor b)
          { st.erase with nodeStack := m.get 1 :: st.erase.nodeStack }
          (Call.enter (m.get 1) (m.matched 4))).2 } := by
    rw [← c3, ← c2]
    rfl
  rw [e2] at e
  rw [← e]
  cases hq : attrLoop v doc m.stop (m.stop - (m.get 1).second + 1) (m.get 1).second []
    { (State.call v { st with nodeStack := m.get 1 :: st.nodeStack }
          (Call.enter (m.get 1) (m.matched 4))).1 with
      retCode := (State.call v { st with nodeStack := m.get 1 :: st.nodeStack }
          (Call.enter (m.get 1) (m.matched 4))).2 } with
  | none => rfl
  | some st2 =>
    simp only [Option.map_some']
    have e3 : st2.erase.retCode = st2.retCode := rfl
    have e4 : st2.erase.nodeStack = st2.nodeStack := rfl
    rw [e3, e4]
    split
    · have c2 := call_erase v b ha hv st2 (.exit (st2.nodeStack.headD ⟨0, 0⟩) true)
      simp only [Option.map_some', finish_erase, Option.some.injEq]
      congr 1
      rw [← c2.2]
      rfl
    · simp only [Option.map_some', finish_erase]

theorem bodyStep_erase (v : Visitor σ) (b : Bool) (ha : v.AllTrue) (hv : v.ValidateIs b)
    (doc : Doc) (st : State σ) :
    (bodyStep v doc st).map State.erase = bodyStep (constVisitor b) doc st.erase := by
  unfold bodyStep
  have e1 : st.erase.docPos = st.docPos := rfl
  rw [e1]
  split
  · exact stepOpen_erase v b ha hv doc st _
  · split
    · rename_i m hm
      simp only [Option.map_some', Option.some.injEq]
      unfold stepClose
      have e2 : st.erase.nodeStack = st.nodeStack := rfl
      rw [e2, e1]
      split
      · have c := call_erase v b ha hv st (.error msgNoOpening st.docPos)
        rw [← c.2]
        rfl
      · rename_i top rest hst
        split
        · have c := call_erase v b ha hv st (.error (msgMismatch doc top) st.docPos)
          rw [← c.2]
          rfl
        · have c := call_erase v b ha hv st (.exit (m.get 1) false)
          simp only [finish_erase]
          rw [← c.2, ← c.1]
          rfl
    · split
      · rename_i t ht
        simp only [Option.map_some', Option.some.injEq]
        unfold stepText
        have c := call_erase v b ha hv st (.text ⟨st.docPos, t⟩)
        simp only [finish_erase, e1]
        rw [← c.2, ← c.1]
        rfl
      · split
        · rename_i m hm
          simp only [Option.map_some', Option.some.injEq]
          unfold stepCdata
          have c := call_erase v b ha hv st (.cdata (m.get 1))
          simp only [finish_erase]
          rw [← c.2, ← c.1]
          rfl
        · split
          · simp only [Option.map_some', finish_erase]
          · simp only [Option.map_some', Option.some.injEq]
            unfold stepInvalid
            have c := call_erase v b ha hv st (.error msgInvalid st.docPos)
            rw [e1, ← c.2]
            rfl

theorem bodyLoop_erase (v : Visitor σ) (b : Bool) (ha : v.AllTrue) (hv : v.ValidateIs b)
    (doc : Doc) : ∀ (fuel : Nat) (st : State σ),
      (bodyLoop v doc fuel st).map State.erase = bodyLoop (constVisitor b) doc fuel st.erase := by
  intro fuel
  induction fuel with
  | zero => intro st; rfl
  | succ n ih =>
    intro st
    simp only [bodyLoop]
    rw [← bodyStep_erase v b ha hv doc st]
    cases bodyStep v doc st with
    | none => rfl
    | some st1 =>
      simp only [Option.map_some']
      have e3 : st1.erase.retCode = st1.retCode := rfl
      have e4 : st1.erase.nodeStack = st1.nodeStack := rfl
      rw [e3, e4]
      split
      · exact ih st1
      · rfl

/-- What `parse` returns and the calls it makes depend on the visitor only through the
values its member functions return. -/
theorem parse_erase (v : Visitor σ) (b : Bool) (ha : v.AllTrue) (hv : v.ValidateIs b)
    (doc : Doc) (vis : σ) (stack0 : List Span) :
    (parse v doc vis stack0).map State.erase = parse (constVisitor b) doc () stack0 := by
  unfold parse
  split
  · rfl
  · exact bodyLoop_erase v b ha hv doc _ _

theorem parse_eq_bodyLoop (v : Visitor σ) (doc : Doc) (vis : σ) (stack0 : List Span)
    (h : ¬ doc.length ≤ prolog doc) :
    parse v doc vis stack0 = bodyLoop v doc (doc.length + 1) (bodyInit doc vis) := by
  simp [parse, h]

theorem allTrue_constVisitor (b : Bool) : (constVisitor b).AllTrue := by
  intro s c hc
  cases c <;> first | rfl | cases hc

theorem validateIs_constVisitor (b : Bool) : (constVisitor b).ValidateIs b := fun _ => rfl

/-- What a visitor whose callbacks return true sees is what `constVisitor` sees. -/
theorem parse_const (v : Visitor σ) (b : Bool) (ha : v.AllTrue) (hv : v.ValidateIs b)
    (doc : Doc) (vis : σ) (stack0 : List Span) (s : State Unit)
    (h : bodyLoop (constVisitor b) doc (doc.length + 1) (bodyInit doc ()) = some s)
    (hp : ¬ doc.length ≤ prolog doc) :
    ∃ st, parse v doc vis stack0 = some st ∧ st.log = s.log ∧ st.retCode = s.retCode ∧
      st.nodeStack = s.nodeStack ∧ st.docPos = s.docPos := by
  obtain ⟨st, hst, _⟩ := parse_cases v doc vis stack0
  have e := parse_erase v b ha hv doc vis stack0
  rw [hst, parse_eq_bodyLoop _ _ _ _ hp, h] at e
  simp only [Option.map_some', Option.some.injEq] at e
  refine ⟨st, hst, ?_⟩
  rw [← e]
  exact ⟨rfl, rfl, rfl, rfl⟩

/-- C1: with a visitor whose callbacks all return true and whose `validate` returns false,
`parse` of the round-trip document returns true after exactly the calls enter(R,false),
enter(A,true), attribute(p,1), exit(A,true), enter(B,false), text(text), exit(B,false),
exit(R,false), compared by content, and none to `error`. -/
theorem C1_round_trip (v : Visitor σ) (vis : σ) (stack0 : List Span)
    (ha : v.AllTrue) (hv : v.ValidateIs false) :
    ∃ st, parse v "<R><A p=\"1\"/><B>text</B></R>".toList vis stack0 = some st ∧
      st.retCode = true ∧
      events "<R><A p=\"1\"/><B>text</B></R>".toList st.log =
        [.enter "R".toList false, .enter "A".toList true, .attribute "p".toList "1".toList,
         .exit "A".toList true, .enter "B".toList false, .text "text".toList,
         .exit "B".toList false, .exit "R".toList false] := by
  have hb : (bodyLoop (constVisitor false) "<R><A p=\"1\"/><B>text</B></R>".toList
      ("<R><A p=\"1\"/><B>text</B></R>".toList.length + 1)
      (bodyInit "<R><A p=\"1\"/><B>text</B></R>".toList ())).isSome = true := by decide
  obtain ⟨s, hs⟩ := Option.isSome_iff_exists.mp hb
  obtain ⟨st, h1, h2, h3, _, _⟩ := parse_const v false ha hv _ vis stack0 s hs (by decide)
  refine ⟨st, h1, ?_⟩
  rw [h2, h3]
  have hd : (bodyLoop (constVisitor false) "<R><A p=\"1\"/><B>text</B></R>".toList
      ("<R><A p=\"1\"/><B>text</B></R>".toList.length + 1)
      (bodyInit "<R><A p=\"1\"/><B>text</B></R>".toList ())).map
        (fun s => (s.retCode, events "<R><A p=\"1\"/><B>text</B></R>".toList s.log)) =
      some (true, [.enter "R".toList false, .enter "A".toList true,
         .attribute "p".toList "1".toList,
         .exit "A".toList true, .enter "B".toList false, .text "text".toList,
         .exit "B".toList false, .exit "R".toList false]) := by decide
  rw [hs] at hd
  simp only [Option.map_some', Option.some.injEq, Prod.mk.injEq] at hd
  exact hd

/-- Witness of C1: the base-class visitor. -/
theorem C1_round_trip_witness :
    (constVisitor false).AllTrue ∧ (constVisitor false).ValidateIs false ∧
    ∃ st, parse (constVisitor false) "<R><A p=\"1\"/><B>text</B></R>".toList () [] = some st ∧
      st.retCode = true ∧
      events "<R><A p=\"1\"/><B>text</B></R>".toList st.log =
        [.enter "R".toList false, .enter "A".toList true, .attribute "p".toList "1".toList,
         .exit "A".toList true, .enter "B".toList false, .text "text".toList,
         .exit "B".toList false, .exit "R".toList false] :=
  ⟨allTrue_constVisitor false, validateIs_constVisitor false,
    C1_round_trip (constVisitor false) () [] (allTrue_constVisitor false)
      (validateIs_constVisitor false)⟩


theorem exitsNameTop_suffix (doc : Doc) (a l : List Call) (h : ExitsNameTop doc (a ++ l)) :
    ExitsNameTop doc l := by
  induction a with
  | nil => exact h
  | cons c cs ih => exact ih h.2

theorem exitsNameTop_split (doc : Doc) (log pre post : List (Call × Bool)) (e : Span)
    (b r : Bool) (h : ExitsNameTop doc (calls log).reverse)
    (hl : log = pre ++ (.exit e b, r) :: post) :
    ∃ top rest, openAfter pre = top :: rest ∧ e.content doc = top.content doc := by
  subst hl
  have h1 : (calls (pre ++ (Call.exit e b, r) :: post)).reverse =
      (calls post).reverse ++ (Call.exit e b :: (calls pre).reverse) := by
    simp [calls]
  rw [h1] at h
  exact (exitsNameTop_suffix doc _ _ h).1

theorem iterEnd_stackInv (v : Visitor σ) (doc : Doc) (vis : σ) (n : Nat) (sn st : State σ)
    (hn : iterStart v doc vis n = some sn) (hs : bodyStep v doc sn = some st) :
    StackInv doc st :=
  bodyStep_stackInv v doc sn st hs (iterStart_inv v doc vis n sn hn).2.2.2.1

/-- C2: for every document and visitor, after each iteration of the body loop the elements
entered and not yet exited are the element stack `m_nodeStack` (both listed from the most
recent one); every `exit` names, by content, the most recently entered element that is
not yet exited; and when `parse`, called on a new parser object, returns true, every element
entered has been exited and the stack is empty. -/
theorem C2_stack_balanced (v : Visitor σ) (doc : Doc) (vis : σ) :
    (∀ n st, iterEnd v doc vis n = some st → openAfter st.log = st.nodeStack) ∧
    ∃ st, parse v doc vis [] = some st ∧
      (∀ pre e b r post, st.log = pre ++ (.exit e b, r) :: post →
        ∃ top rest, openAfter pre = top :: rest ∧ e.content doc = top.content doc) ∧
      (st.retCode = true → openAfter st.log = [] ∧ st.nodeStack = []) := by
  refine ⟨?_, ?_⟩
  · intro n st h
    obtain ⟨sn, h1, h2⟩ := (iterEnd_some v doc vis n st).1 h
    exact (iterEnd_stackInv v doc vis n sn st h1 h2).1
  · obtain ⟨st, hst, hc⟩ := parse_cases v doc vis []
    refine ⟨st, hst, ?_⟩
    rcases hc with ⟨_, rfl⟩ | ⟨_, n, sn, h1, h2, h3⟩
    · refine ⟨?_, fun _ => ⟨rfl, rfl⟩⟩
      intro pre e b r post h
      simp at h
    · have hi := iterEnd_stackInv v doc vis n sn st h1 h2
      refine ⟨fun pre e b r post h => exitsNameTop_split doc st.log pre post e b r hi.2 h, ?_⟩
      intro hr
      rw [hr] at h3
      have hs : st.nodeStack = [] := by
        cases hq : st.nodeStack with
        | nil => rfl
        | cons a l => simp [hq] at h3
      exact ⟨by rw [hi.1, hs], hs⟩

/-- Witness of C2: the first iteration on the document `<a/>`. -/
theorem C2_stack_balanced_witness :
    iterEnd (constVisitor false) "<a/>".toList () 0 =
      some { vis := (), log := [(.enter ⟨1, 2⟩ true, true), (.exit ⟨1, 2⟩ true, true)],
             nodeStack := [], docPos := 4, retCode := true } ∧
    openAfter [(Call.enter ⟨1, 2⟩ true, true), (Call.exit ⟨1, 2⟩ true, true)] = [] :=
  ⟨by decide, (C2_stack_balanced (constVisitor false) "<a/>".toList ()).1 0
    { vis := (), log := [(.enter ⟨1, 2⟩ true, true), (.exit ⟨1, 2⟩ true, true)],
      nodeStack := [], docPos := 4, retCode := true } (by decide)⟩


theorem toStringName_eq (doc : Doc) (it : Span) : toStringName doc it = it.content doc := by
  simp [toStringName, toString]

theorem regexNodeClose_prefix (doc : Doc) (first : Nat) (m : Match)
    (h : regex_search_continuous regexNodeClose doc first doc.length = some m) :
    (doc.drop first).take 2 = "</".toList := by
  unfold regex_search_continuous regexNodeClose at h
  have ht : List.take (doc.length - first) (List.drop first doc) = List.drop first doc := by
    apply List.take_of_length_le
    simp
  rw [ht] at h
  simp only [Re.run, Re.lit, Re.char, ↓reduceIte] at h
  cases hd : List.drop first doc with
  | nil => simp [hd] at h
  | cons x xs =>
    rw [hd] at h
    simp only at h
    split at h
    · rename_i hx
      cases xs with
      | nil => simp at h
      | cons y ys =>
        simp only at h
        split at h
        · rename_i hy
          simp only [beq_iff_eq] at hx hy
          subst hx hy
          rfl
        · cases h
    · cases h

/-- The step of an iteration at a close tag whose name is not the name on top of the
stack. -/
theorem stepClose_mismatch (v : Visitor σ) (doc : Doc) (st : State σ) (m : Match) (top : Span)
    (rest : List Span) (hs : st.nodeStack = top :: rest)
    (hne : (m.get 1).content doc ≠ top.content doc) :
    (stepClose v doc st m).retCode = false ∧
    (stepClose v doc st m).log = st.log ++ [(.error (msgMismatch doc top) st.docPos, true)] ∧
    (stepClose v doc st m).nodeStack = top :: rest := by
  unfold stepClose
  rw [hs]
  have hq : equalStrings doc top (m.get 1) = false := by
    cases hq : equalStrings doc top (m.get 1)
    · rfl
    · exact absurd (equalStrings_content doc _ _ hq).symm hne
  simp only [hq, Bool.not_false, ↓reduceIte]
  exact ⟨trivial, rfl, hs⟩

/-- C3: when a close tag is scanned while the stack is not empty and its name differs from
the name on top of the stack, `parse` returns false after calling `error` once, as its last
call and without a call of `exit`, with the message that quotes the name on top of the stack
and with the position of the `</` of the close tag. The two documents of the claim fail at
offsets 44 and 25, naming `Elem1`, for every visitor whose callbacks return true. -/
theorem C3_close_tag_mismatch :
    (∀ (σ : Type) (v : Visitor σ) (doc : Doc) (vis : σ) (stack0 : List Span) (n : Nat)
      (sn : State σ) (m : Match) (top : Span) (rest : List Span),
      iterStart v doc vis n = some sn →
      regex_search_continuous regexNodeOpen doc sn.docPos doc.length = none →
      regex_search_continuous regexNodeClose doc sn.docPos doc.length = some m →
      sn.nodeStack = top :: rest →
      (m.get 1).content doc ≠ top.content doc →
      ∃ st, parse v doc vis stack0 = some st ∧ st.retCode = false ∧
        st.log = sn.log ++
          [(.error ("ERROR: closing attribute statement mismatch; expected \"".toList ++
              top.content doc ++ "\"".toList) sn.docPos, true)] ∧
        errors sn.log = [] ∧ (errors st.log).length = 1 ∧
        (doc.drop sn.docPos).take 2 = "</".toList ∧ st.nodeStack = top :: rest) ∧
    (∀ (σ : Type) (v : Visitor σ) (vis : σ) (stack0 : List Span) (b : Bool),
      v.AllTrue → v.ValidateIs b →
      ∃ st, parse v "<Elem1>Preamble<FirstElement></FirstElement></BadElem>".toList vis stack0
          = some st ∧ st.retCode = false ∧
        errors st.log =
          [(.error "ERROR: closing attribute statement mismatch; expected \"Elem1\"".toList 44,
            true)]) ∧
    (∀ (σ : Type) (v : Visitor σ) (vis : σ) (stack0 : List Span) (b : Bool),
      v.AllTrue → v.ValidateIs b →
      ∃ st, parse v "<Elem1>Pre<First></First></BadElem>".toList vis stack0 = some st ∧
        st.retCode = false ∧
        errors st.log =
          [(.error "ERROR: closing attribute statement mismatch; expected \"Elem1\"".toList 25,
            true)] ∧
        ("<Elem1>Pre<First></First></BadElem>".toList.drop 25) = "</BadElem>".toList) := by
  refine ⟨?_, ?_, ?_⟩
  · intro σ v doc vis stack0 n sn m top rest hs hopen hclose hstack hne
    have hstep : bodyStep v doc sn = some (stepClose v doc sn m) := by
      simp [bodyStep, hopen, hclose]
    obtain ⟨g1, g2, g3⟩ := stepClose_mismatch v doc sn m top rest hstack hne
    have hi := iterStart_inv v doc vis n sn hs
    refine ⟨stepClose v doc sn m, parse_of_iter v doc vis stack0 n sn _ hs hstep (by simp [g1]),
      g1, ?_, hi.2.1, ?_, regexNodeClose_prefix doc _ m hclose, g3⟩
    · rw [g2, msgMismatch, toStringName_eq]
    · rw [g2, errors_append, hi.2.1]
      rfl
  · intro σ v vis stack0 b ha hv
    have hb : (bodyLoop (constVisitor b)
        "<Elem1>Preamble<FirstElement></FirstElement></BadElem>".toList
        ("<Elem1>Preamble<FirstElement></FirstElement></BadElem>".toList.length + 1)
        (bodyInit "<Elem1>Preamble<FirstElement></FirstElement></BadElem>".toList ())).map
          (fun s => (s.retCode, errors s.log)) =
        some (false, [(.error
          "ERROR: closing attribute statement mismatch; expected \"Elem1\"".toList 44,
            true)]) := by
      cases b <;> decide
    cases hs : bodyLoop (constVisitor b)
        "<Elem1>Preamble<FirstElement></FirstElement></BadElem>".toList
        ("<Elem1>Preamble<FirstElement></FirstElement></BadElem>".toList.length + 1)
        (bodyInit "<Elem1>Preamble<FirstElement></FirstElement></BadElem>".toList ()) with
    | none =>
      rw [hs] at hb
      cases hb
    | some s =>
      rw [hs] at hb
      simp only [Option.map_some', Option.some.injEq, Prod.mk.injEq] at hb
      obtain ⟨st, h1, h2, h3, _, _⟩ := parse_const v b ha hv _ vis stack0 s hs (by decide)
      exact ⟨st, h1, by rw [h3, hb.1], by rw [h2, hb.2]⟩
  · intro σ v vis stack0 b ha hv
    have hb : (bodyLoop (constVisitor b)
        "<Elem1>Pre<First></First></BadElem>".toList
        ("<Elem1>Pre<First></First></BadElem>".toList.length + 1)
        (bodyInit "<Elem1>Pre<First></First></BadElem>".toList ())).map
          (fun s => (s.retCode, errors s.log)) =
        some (false, [(.error
          "ERROR: closing attribute statement mismatch; expected \"Elem1\"".toList 25,
            true)]) := by
      cases b <;> decide
    cases hs : bodyLoop (constVisitor b)
        "<Elem1>Pre<First></First></BadElem>".toList
        ("<Elem1>Pre<First></First></BadElem>".toList.length + 1)
        (bodyInit "<Elem1>Pre<First></First></BadElem>".toList ()) with
    | none =>
      rw [hs] at hb
      cases hb
    | some s =>
      rw [hs] at hb
      simp only [Option.map_some', Option.some.injEq, Prod.mk.injEq] at hb
      obtain ⟨st, h1, h2, h3, _, _⟩ := parse_const v b ha hv _ vis stack0 s hs (by decide)
      exact ⟨st, h1, by rw [h3, hb.1], by rw [h2, hb.2], by decide⟩

/-- Witness of C3: the document `<a></b>`, whose close tag is scanned in the second
iteration. -/
theorem C3_close_tag_mismatch_witness :
    iterStart (constVisitor true) "<a></b>".toList () 1 =
      some { vis := (), log := [(.enter ⟨1, 2⟩ false, true)], nodeStack := [⟨1, 2⟩],
             docPos := 3, retCode := true } ∧
    ∃ st, parse (constVisitor true) "<a></b>".toList () [] = some st ∧ st.retCode = false ∧
      st.log = [(.enter ⟨1, 2⟩ false, true)] ++
        [(.error ("ERROR: closing attribute statement mismatch; expected \"".toList ++
            Span.content "<a></b>".toList ⟨1, 2⟩ ++ "\"".toList) 3, true)] ∧
      errors [(Call.enter ⟨1, 2⟩ false, true)] = [] ∧ (errors st.log).length = 1 ∧
      ("<a></b>".toList.drop 3).take 2 = "</".toList ∧ st.nodeStack = [⟨1, 2⟩] :=
  ⟨by decide, C3_close_tag_mismatch.1 Unit (constVisitor true) "<a></b>".toList () [] 1
    { vis := (), log := [(.enter ⟨1, 2⟩ false, true)], nodeStack := [⟨1, 2⟩],
      docPos := 3, retCode := true } ⟨7, [(1, ⟨5, 6⟩)]⟩ ⟨1, 2⟩ []
    (by decide) (by decide) (by decide) rfl (by decide)⟩

/-- C5 (what the code does): the value `attribute` returns is not used, and neither is the
value `exit` returns for an empty-element tag: with a visitor whose `attribute` returns false
`parse` of `<a p="1"/>` goes on to call `validate` and `exit` and returns true, and with a
visitor whose `exit` returns false `parse` of `<a/>` returns true. -/
theorem C5_callback_result_ignored :
    parse refuseAttribute "<a p=\"1\"/>".toList () [] =
      some { vis := (),
             log := [(.enter ⟨1, 2⟩ true, true), (.attribute ⟨3, 4⟩ ⟨6, 7⟩, false),
                     (.validate, false), (.exit ⟨1, 2⟩ true, true)],
             nodeStack := [], docPos := 10, retCode := true } ∧
    parse refuseExit "<a/>".toList () [] =
      some { vis := (), log := [(.enter ⟨1, 2⟩ true, true), (.exit ⟨1, 2⟩ true, false)],
             nodeStack := [], docPos := 4, retCode := true } := by
  constructor <;> decide

theorem errors_eq_nil_of_append (pre post : List (Call × Bool)) (e : Call × Bool)
    (he : e.1.isError = true) : errors (pre ++ e :: post) ≠ [] := by
  rw [errors_append]
  simp [errors, he]

/-- C6: `parse` calls `error` at most once; when it calls `error` that is its last call and
it returns false; and when it returns false although no callback returned false, it has
called `error` exactly once, as its last call, with the position of the cursor at the
beginning of the iteration that failed, which lies in the document. -/
theorem C6_error_once (v : Visitor σ) (doc : Doc) (vis : σ) (stack0 : List Span) :
    ∃ st, parse v doc vis stack0 = some st ∧ (errors st.log).length ≤ 1 ∧
      (∀ pre post info p r, st.log = pre ++ (.error info p, r) :: post →
        st.retCode = false ∧ post = []) ∧
      (st.retCode = false → (∀ e ∈ st.log, e.1.isCallback = true → e.2 = true) →
        ∃ pre info n sn, st.log = pre ++ [(.error info sn.docPos, true)] ∧ errors pre = [] ∧
          iterStart v doc vis n = some sn ∧ iterEnd v doc vis n = some st ∧
          sn.docPos ≤ doc.length) := by
  obtain ⟨st, hst, hc⟩ := parse_cases v doc vis stack0
  refine ⟨st, hst, ?_⟩
  rcases hc with ⟨_, rfl⟩ | ⟨_, n, sn, h1, h2, h3⟩
  · refine ⟨by simp [errors], ?_, fun h => by cases h⟩
    intro pre post info p r h
    simp at h
  · have hi := iterStart_inv v doc vis n sn h1
    have he := bodyStep_errInv v doc sn st h2 hi.1 hi.2.1
    refine ⟨?_, ?_, ?_⟩
    · cases hr : st.retCode
      · rcases he.2 hr with ⟨pre, info, g1, g2, _⟩ | ⟨g1, _⟩
        · rw [g1, errors_append, g2]
          simp [errors, Call.isError]
        · simp [g1]
      · simp [he.1 hr]
    · intro pre post info p r hl
      have hne : errors st.log ≠ [] := by
        rw [hl]
        exact errors_eq_nil_of_append _ _ _ rfl
      have hr : st.retCode = false := by
        cases hr : st.retCode
        · rfl
        · exact absurd (he.1 hr) hne
      refine ⟨hr, ?_⟩
      rcases he.2 hr with ⟨pre', info', g1, g2, _⟩ | ⟨g1, _⟩
      · cases post with
        | nil => rfl
        | cons y ys =>
          exfalso
          have hd := congrArg List.dropLast (hl.symm.trans g1)
          rw [List.dropLast_concat, List.dropLast_append_of_ne_nil _ (by simp),
            List.dropLast_cons₂] at hd
          rw [← hd] at g2
          exact errors_eq_nil_of_append pre _ (Call.error info p, r) rfl g2
      · exact absurd g1 hne
    · intro hr hall
      rcases he.2 hr with ⟨pre, info, g1, g2, _⟩ | ⟨_, pre, c, g1, g2⟩
      · exact ⟨pre, info, n, sn, g1, g2, h1, (iterEnd_some v doc vis n st).2 ⟨sn, h1, h2⟩,
          hi.2.2.1⟩
      · have := hall (c, false) (by rw [g1]; simp) g2
        cases this


/-- The step for an open tag, with the value `enter` returned. -/
theorem stepOpen_enter (v : Visitor σ) (doc : Doc) (st st1 : State σ) (m : Match)
    (h : stepOpen v doc st m = some st1) :
    ∃ (ext : List (Call × Bool)) (ok : Bool),
      ((v.enter st.vis (m.get 1) (m.matched 4)).2 = false → ext = [] ∧ ok = false) ∧
      ((v.enter st.vis (m.get 1) (m.matched 4)).2 = true → AttrLog st.docPos ext ok) ∧
      ((ok && m.matched 4) = true → ∃ r2,
        st1.log = st.log ++ (.enter (m.get 1) true, true) :: ext ++
          [(.exit (m.get 1) true, r2)] ∧
        st1.nodeStack = st.nodeStack ∧ st1.retCode = true ∧
        st1.docPos = skipSpacesAndComments doc m.stop) ∧
      ((ok && m.matched 4) = false →
        st1.log = st.log ++
          (.enter (m.get 1) (m.matched 4), (v.enter st.vis (m.get 1) (m.matched 4)).2) :: ext ∧
        st1.nodeStack = m.get 1 :: st.nodeStack ∧ st1.retCode = ok ∧
        st1.docPos = if ok then skipSpacesAndComments doc m.stop else st.docPos) := by
  have hcall : (State.call v { st with nodeStack := m.get 1 :: st.nodeStack }
        (Call.enter (m.get 1) (m.matched 4))).2 = (v.enter st.vis (m.get 1) (m.matched 4)).2 :=
    rfl
  unfold stepOpen at h
  simp only at h
  split at h
  · cases h
  · rename_i st2 hst2
    rw [hcall] at hst2
    cases hr : (v.enter st.vis (m.get 1) (m.matched 4)).2 with
    | false =>
      rw [hr] at hst2
      have := attrLoop_of_retCode_false v doc _ _ _ _ _ _ rfl hst2
      subst this
      simp only [Bool.false_and, Bool.false_eq_true, ↓reduceIte, State.finish,
        Option.some.injEq] at h
      subst h
      refine ⟨[], false, fun _ => ⟨rfl, rfl⟩, (fun h => by cases h), (fun h => by cases h),
        fun _ => ?_⟩
      simp [hcall, hr]
    | true =>
      rw [hr] at hst2
      obtain ⟨h1, h2, ext, h3, h4⟩ := attrLoop_spec v doc _ _ _ _ _ _ rfl hst2
      simp only [State.call_nodeStack, State.call_docPos, State.call_log, hcall, hr]
        at h1 h2 h3 h4
      refine ⟨ext, st2.retCode, (fun h => by cases h), fun _ => h4, ?_, ?_⟩
      · intro hc
        rw [hc] at h
        simp only [↓reduceIte, Option.some.injEq] at h
        simp only [Bool.and_eq_true] at hc
        subst h
        refine ⟨(State.call v st2 (Call.exit (st2.nodeStack.headD ⟨0, 0⟩) true)).2,
          ?_, ?_, ?_, ?_⟩
        · simp [State.finish, hc.1, h3, h1, hc.2]
        · simp [State.finish, hc.1, h1]
        · simp [State.finish, hc.1]
        · simp [State.finish, hc.1]
      · intro hc
        rw [hc] at h
        simp only [Bool.false_eq_true, ↓reduceIte, Option.some.injEq] at h
        subst h
        refine ⟨?_, ?_, ?_, ?_⟩
        · unfold State.finish
          split <;> simp [h3]
        · unfold State.finish
          split <;> simp [h1]
        · unfold State.finish
          split <;> simp
        · unfold State.finish
          split <;> simp_all

/-- Witness of C6: the document `<a>` ends while an element is open. -/
theorem C6_error_once_witness :
    ∃ st, parse (constVisitor true) "<a>".toList () [] = some st ∧ st.retCode = false ∧
      (∀ e ∈ st.log, e.1.isCallback = true → e.2 = true) ∧
      ∃ pre info n sn, st.log = pre ++ [(.error info sn.docPos, true)] ∧ errors pre = [] ∧
        iterStart (constVisitor true) "<a>".toList () n = some sn ∧
        iterEnd (constVisitor true) "<a>".toList () n = some st ∧
        sn.docPos ≤ "<a>".toList.length := by
  obtain ⟨st, h1, _, _, h4⟩ := C6_error_once (constVisitor true) "<a>".toList () []
  have hd : parse (constVisitor true) "<a>".toList () [] =
      some { vis := (), log := [(.enter ⟨1, 2⟩ false, true), (.error msgInvalid 3, true)],
             nodeStack := [⟨1, 2⟩], docPos := 3, retCode := false } := by decide
  rw [hd] at h1
  cases h1
  exact ⟨_, hd, rfl, by decide, h4 rfl (by decide)⟩

/-- C8, as stated, fails: for the empty-element tag `<a/>` a visitor whose `enter` returns
false gets `enter` and no `exit`, and the element stays on the stack; and in validate mode
the tag `<a p="1" p="2"/>` gets `enter`, the attributes and the error, and no `exit`. -/
theorem C8_counterexample :
    parse refuseEnter "<a/>".toList () [] =
      some { vis := (), log := [(.enter ⟨1, 2⟩ true, false)], nodeStack := [⟨1, 2⟩],
             docPos := 0, retCode := false } ∧
    parse (constVisitor true) "<a p=\"1\" p=\"2\"/>".toList () [] =
      some { vis := (),
             log := [(.enter ⟨1, 2⟩ true, true), (.attribute ⟨3, 4⟩ ⟨6, 7⟩, true),
                     (.validate, true), (.attribute ⟨9, 10⟩ ⟨12, 13⟩, true), (.validate, true),
                     (.error "ERROR: duplicated attribute: \"p\"".toList 0, true)],
             nodeStack := [⟨1, 2⟩], docPos := 0, retCode := false } := by
  constructor <;> decide

/-- C8, amended: when an empty-element tag is scanned, `enter` returns true and `error` is
not called, the iteration makes the calls `enter(name, true)`, then only `attribute` and
`validate` for the attributes of the tag, then `exit(name, true)`, and it leaves the stack
as it was before the tag; the value returned is then true. Whenever `retCode` is true after
the iteration, `enter` has returned true and `error` was not called. -/
theorem C8_self_closing (v : Visitor σ) (doc : Doc) (vis : σ) (n : Nat) (sn st : State σ)
    (m : Match) (hs : iterStart v doc vis n = some sn)
    (hopen : regex_search_continuous regexNodeOpen doc sn.docPos doc.length = some m)
    (hempty : m.matched 4 = true) (he : iterEnd v doc vis n = some st) :
    ((v.enter sn.vis (m.get 1) true).2 = true → errors st.log = [] →
      st.retCode = true ∧ st.nodeStack = sn.nodeStack ∧
      ∃ ext r2, st.log = sn.log ++ (.enter (m.get 1) true, true) :: ext ++
          [(.exit (m.get 1) true, r2)] ∧
        ∀ e ∈ ext, (∃ n x, e.1 = .attribute n x) ∨ e.1 = .validate) ∧
    (st.retCode = true → (v.enter sn.vis (m.get 1) true).2 = true ∧ errors st.log = []) := by
  obtain ⟨sn', h1, h2⟩ := (iterEnd_some v doc vis n st).1 he
  rw [hs] at h1
  cases h1
  have hi := iterStart_inv v doc vis n sn hs
  have herr := bodyStep_errInv v doc sn st h2 hi.1 hi.2.1
  have hstep : stepOpen v doc sn m = some st := by
    simpa [bodyStep, hopen] using h2
  obtain ⟨ext, ok, g1, g2, g3, g4⟩ := stepOpen_enter v doc sn st m hstep
  rw [hempty] at g1 g2 g3 g4
  simp only [Bool.and_true] at g3 g4
  constructor
  · intro henter hnoerr
    have ha := g2 henter
    cases ok
    · exfalso
      obtain ⟨pre, info, hp, _⟩ := attrLog_false ha rfl
      obtain ⟨hl, _⟩ := g4 rfl
      rw [hl, hp] at hnoerr
      have : errors (sn.log ++
          (Call.enter (m.get 1) true, (v.enter sn.vis (m.get 1) true).2) ::
            (pre ++ [(Call.error info sn.docPos, true)])) =
          errors ((sn.log ++ (Call.enter (m.get 1) true,
            (v.enter sn.vis (m.get 1) true).2) :: pre) ++
            (Call.error info sn.docPos, true) :: []) := by simp
      rw [this] at hnoerr
      exact errors_eq_nil_of_append _ [] (Call.error info sn.docPos, true) rfl hnoerr
    · obtain ⟨r2, hl, hst, hr, _⟩ := g3 rfl
      refine ⟨hr, hst, ext, r2, hl, ?_⟩
      intro e hmem
      rcases attrLog_mem ha e hmem with h | h | ⟨_, _, h⟩
      · exact Or.inl h
      · exact Or.inr h
      · cases h
  · intro hr
    refine ⟨?_, herr.1 hr⟩
    cases hq : (v.enter sn.vis (m.get 1) true).2
    · exfalso
      obtain ⟨_, hok⟩ := g1 hq
      subst hok
      have := (g4 rfl).2.2.1
      rw [hr] at this
      cases this
    · rfl

/-- Witness of C8: the tag `<a p="1"/>` with the base-class visitor. -/
theorem C8_self_closing_witness :
    ((constVisitor false).enter () ⟨1, 2⟩ true).2 = true ∧
    ∃ st, iterEnd (constVisitor false) "<a p=\"1\"/>".toList () 0 = some st ∧
      errors st.log = [] ∧ st.retCode = true ∧ st.nodeStack = [] ∧
      ∃ ext r2, st.log = [] ++ (.enter ⟨1, 2⟩ true, true) :: ext ++
          [(.exit ⟨1, 2⟩ true, r2)] ∧
        ∀ e ∈ ext, (∃ n x, e.1 = .attribute n x) ∨ e.1 = .validate := by
  have hd : iterEnd (constVisitor false) "<a p=\"1\"/>".toList () 0 =
      some { vis := (),
             log := [(.enter ⟨1, 2⟩ true, true), (.attribute ⟨3, 4⟩ ⟨6, 7⟩, true),
                     (.validate, false), (.exit ⟨1, 2⟩ true, true)],
             nodeStack := [], docPos := 10, retCode := true } := by decide
  have h := (C8_self_closing (constVisitor false) "<a p=\"1\"/>".toList () 0
    (bodyInit "<a p=\"1\"/>".toList ()) _
    ⟨10, [(4, ⟨8, 9⟩), (3, ⟨6, 7⟩), (2, ⟨3, 4⟩), (1, ⟨1, 2⟩)]⟩ (by decide) (by decide)
    (by decide) hd).1 rfl (by decide)
  exact ⟨rfl, _, hd, by decide, h.1, h.2.1, h.2.2⟩

theorem firstDup_some (doc : Doc) : ∀ (attrs : List (Span × Span)) (names : List Span)
    (d : Span), firstDup doc names attrs = some d →
    (d ∈ names ∧ ∃ b ∈ attrs, equalStrings doc b.1 d = true) ∨
    (∃ pre a mid b post, attrs = pre ++ a :: mid ++ b :: post ∧ d = a.1 ∧
      equalStrings doc b.1 a.1 = true) := by
  intro attrs
  induction attrs with
  | nil => intro names d h; simp [firstDup] at h
  | cons a rest ih =>
    intro names d h
    simp only [firstDup] at h
    split at h
    · rename_i it hit
      cases h
      exact Or.inl ⟨List.mem_of_find?_eq_some hit, a, List.mem_cons_self _ _,
        by simpa using List.find?_some hit⟩
    · rcases ih _ _ h with ⟨h1, b, hb, h2⟩ | ⟨pre, a', mid, b, post, h1, h2, h3⟩
      · simp only [List.mem_append, List.mem_singleton] at h1
        rcases h1 with h1 | h1
        · exact Or.inl ⟨h1, b, List.mem_cons_of_mem _ hb, h2⟩
        · obtain ⟨l1, l2, hl⟩ := List.append_of_mem hb
          refine Or.inr ⟨[], a, l1, b, l2, by simp [hl], h1, ?_⟩
          rw [← h1]
          exact h2
      · exact Or.inr ⟨a :: pre, a', mid, b, post, by simp [h1], h2, h3⟩

theorem firstDup_none (doc : Doc) : ∀ (attrs : List (Span × Span)) (names : List Span),
    firstDup doc names attrs = none →
    (∀ b ∈ attrs, ∀ x ∈ names, equalStrings doc b.1 x = false) ∧
    ∀ pre a mid b post, attrs = pre ++ a :: mid ++ b :: post →
      equalStrings doc b.1 a.1 = false := by
  intro attrs
  induction attrs with
  | nil =>
    intro names _
    refine ⟨(fun b hb => by cases hb), ?_⟩
    intro pre a mid b post h
    simp at h
  | cons a rest ih =>
    intro names h
    simp only [firstDup] at h
    split at h
    · cases h
    · rename_i hnone
      obtain ⟨i1, i2⟩ := ih _ h
      have hn : ∀ x ∈ names, equalStrings doc a.1 x = false := by
        intro x hx
        have := List.find?_eq_none.mp hnone x hx
        simpa using this
      refine ⟨?_, ?_⟩
      · intro b hb x hx
        rcases List.mem_cons.mp hb with rfl | hb
        · exact hn x hx
        · exact i1 b hb x (List.mem_append_left _ hx)
      · intro pre a' mid b post hsplit
        cases pre with
        | nil =>
          simp only [List.nil_append, List.cons_append, List.cons.injEq] at hsplit
          obtain ⟨rfl, hrest⟩ := hsplit
          exact i1 b (by rw [hrest]; simp) a.1 (by simp)
        | cons p ps =>
          simp only [List.cons_append, List.cons.injEq] at hsplit
          exact i2 ps a' mid b post (by simpa using hsplit.2)

theorem attrLoop_validating (v : Visitor σ) (hv : v.ValidateIs true) (doc : Doc) (last : Nat) :
    ∀ (fuel cbegin : Nat) (names : List Span) (st st1 : State σ), st.retCode = true →
      attrLoop v doc last fuel cbegin names st = some st1 →
      match firstDup doc names (tagAttrs doc last fuel cbegin) with
      | none => st1.retCode = true
      | some d => st1.retCode = false ∧
          ∃ pre, st1.log = pre ++ [(.error (msgDuplicate doc d) st.docPos, true)] := by
  intro fuel
  induction fuel with
  | zero => intro cbegin names st st1 _ h; simp [attrLoop] at h
  | succ n ih =>
    intro cbegin names st st1 hr h
    simp only [attrLoop, hr, Bool.not_true, Bool.false_eq_true, ↓reduceIte] at h
    simp only [tagAttrs]
    split at h
    · cases h
      simp [firstDup, hr]
    · rename_i am ham
      have hval : ((st.call v (.attribute (am.get 1) (am.get 2))).1.call v .validate).2 = true :=
        hv _
      simp only [hval, ↓reduceIte] at h
      simp only [firstDup]
      cases hfind : List.find? (fun x => equalStrings doc (am.get 1) x) names with
      | some it =>
        rw [hfind] at h
        simp only at h
        have := attrLoop_of_retCode_false v doc last _ _ _ _ _ rfl h
        subst this
        exact ⟨rfl, _, rfl⟩
      | none =>
        rw [hfind] at h
        simp only at h
        have g := ih am.stop (names ++ [am.get 1])
          ((st.call v (.attribute (am.get 1) (am.get 2))).1.call v .validate).1 st1
          (by simpa using hr) h
        simpa using g

theorem attrLoop_nonvalidating (v : Visitor σ) (hv : v.ValidateIs false) (doc : Doc)
    (last : Nat) :
    ∀ (fuel cbegin : Nat) (names : List Span) (st st1 : State σ), st.retCode = true →
      attrLoop v doc last fuel cbegin names st = some st1 →
      st1.retCode = true ∧
      ∃ ext, st1.log = st.log ++ ext ∧ calls ext = attrCalls (tagAttrs doc last fuel cbegin) := by
  intro fuel
  induction fuel with
  | zero => intro cbegin names st st1 _ h; simp [attrLoop] at h
  | succ n ih =>
    intro cbegin names st st1 hr h
    simp only [attrLoop, hr, Bool.not_true, Bool.false_eq_true, ↓reduceIte] at h
    simp only [tagAttrs]
    split at h
    · cases h
      exact ⟨hr, [], by simp, by simp [calls, attrCalls]⟩
    · rename_i am ham
      have hval : ((st.call v (.attribute (am.get 1) (am.get 2))).1.call v .validate).2 = false :=
        hv _
      simp only [hval, Bool.false_eq_true, ↓reduceIte] at h
      obtain ⟨h1, ext, h2, h3⟩ := ih _ _ _ _ (by simpa using hr) h
      refine ⟨h1, (.attribute (am.get 1) (am.get 2),
          (st.call v (.attribute (am.get 1) (am.get 2))).2) :: (.validate, false) :: ext, ?_, ?_⟩
      · rw [h2]
        simp [hval]
      · simp only [calls, List.map_cons, attrCalls, List.flatMap_cons, List.cons_append,
          List.nil_append, List.cons.injEq, true_and]
        exact h3


theorem stepOpen_validating_dup (v : Visitor σ) (hv : v.ValidateIs true) (doc : Doc)
    (st st1 : State σ) (m : Match) (d : Span)
    (henter : (v.enter st.vis (m.get 1) (m.matched 4)).2 = true)
    (hd : firstDup doc [] (attrsOf doc m) = some d)
    (h : stepOpen v doc st m = some st1) :
    st1.retCode = false ∧
      ∃ pre, st1.log = pre ++ [(.error (msgDuplicate doc d) st.docPos, true)] := by
  have hcall : (State.call v { st with nodeStack := m.get 1 :: st.nodeStack }
        (Call.enter (m.get 1) (m.matched 4))).2 = (v.enter st.vis (m.get 1) (m.matched 4)).2 :=
    rfl
  unfold stepOpen at h
  simp only at h
  split at h
  · cases h
  · rename_i st2 hst2
    rw [hcall, henter] at hst2
    have g := attrLoop_validating v hv doc _ _ _ _ _ _ rfl hst2
    unfold attrsOf at hd
    rw [hd] at g
    simp only [State.call_docPos] at g
    rw [g.1] at h
    simp only [Bool.false_and, Bool.false_eq_true, ↓reduceIte, Option.some.injEq] at h
    subst h
    unfold State.finish
    simp only [g.1, Bool.false_eq_true, ↓reduceIte]
    exact ⟨trivial, g.2⟩

theorem stepOpen_nonvalidating (v : Visitor σ) (hv : v.ValidateIs false) (doc : Doc)
    (st st1 : State σ) (m : Match)
    (henter : (v.enter st.vis (m.get 1) (m.matched 4)).2 = true)
    (h : stepOpen v doc st m = some st1) :
    st1.retCode = true ∧
      ∃ ext, st1.log = st.log ++ ext ∧
        calls ext = .enter (m.get 1) (m.matched 4) :: attrCalls (attrsOf doc m) ++
          (if m.matched 4 then [.exit (m.get 1) true] else []) := by
  have hcall : (State.call v { st with nodeStack := m.get 1 :: st.nodeStack }
        (Call.enter (m.get 1) (m.matched 4))).2 = (v.enter st.vis (m.get 1) (m.matched 4)).2 :=
    rfl
  unfold stepOpen at h
  simp only at h
  split at h
  · cases h
  · rename_i st2 hst2
    rw [hcall, henter] at hst2
    obtain ⟨g1, ext, g2, g3⟩ := attrLoop_nonvalidating v hv doc _ _ _ _ _ _ rfl hst2
    obtain ⟨f1, _, _⟩ := attrLoop_spec v doc _ _ _ _ _ _ rfl hst2
    simp only [State.call_log, State.call_nodeStack] at g2 f1
    rw [g1] at h
    simp only [Bool.true_and] at h
    cases hm : m.matched 4
    · rw [hm] at h
      simp only [Bool.false_eq_true, ↓reduceIte, Option.some.injEq] at h
      subst h
      refine ⟨by simp [State.finish, g1], (Call.enter (m.get 1) false, true) :: ext, ?_, ?_⟩
      · rw [hcall, henter, hm] at g2
        simp only [State.finish, g1, ↓reduceIte, g2, List.append_assoc, List.singleton_append]
      · simp only [calls, List.map_cons, Bool.false_eq_true, ↓reduceIte, List.append_nil,
          List.cons.injEq, true_and]
        exact g3
    · rw [hm] at h
      simp only [↓reduceIte, Option.some.injEq] at h
      subst h
      refine ⟨by simp [State.finish, g1], (Call.enter (m.get 1) true, true) :: ext ++
        [(Call.exit (m.get 1) true,
          (State.call v st2 (Call.exit (st2.nodeStack.headD ⟨0, 0⟩) true)).2)], ?_, ?_⟩
      · rw [hcall, henter, hm] at g2
        simp [State.finish, g1, g2, f1]
      · simp only [calls, List.map_append, List.map_cons, List.map_nil, ↓reduceIte,
          List.cons_append, List.cons.injEq, true_and]
        rw [show List.map Prod.fst ext = calls ext from rfl, g3]
        rfl


theorem run_bol_char (start : Nat) (x : Char) (r : Re) (k : Cont) (pos : Nat) (s : List Char)
    (c : Caps) (m : Match)
    (h : Re.run start (.seq .bol (.seq (Re.char x) r)) k pos s c = some m) :
    s.head? = some x := by
  cases s with
  | nil =>
    simp only [Re.run, Re.char] at h
    split at h <;> cases h
  | cons y ys =>
    simp only [Re.run, Re.char] at h
    split at h
    · split at h
      · rename_i hy
        simp only [beq_iff_eq] at hy
        simp [hy]
      · cases h
    · cases h

theorem regexNodeOpen_prefix (doc : Doc) (first : Nat) (m : Match)
    (h : regex_search_continuous regexNodeOpen doc first doc.length = some m) :
    (doc.drop first).head? = some '<' := by
  unfold regex_search_continuous regexNodeOpen at h
  have ht : List.take (doc.length - first) (List.drop first doc) = List.drop first doc := by
    apply List.take_of_length_le
    simp
  rw [ht] at h
  exact run_bol_char _ _ _ _ _ _ _ _ h

theorem msgDuplicate_eq (doc : Doc) (d : Span) :
    msgDuplicate doc d =
      "ERROR: duplicated attribute: \"".toList ++ d.content doc ++ "\"".toList := by
  rw [msgDuplicate, toStringName_eq]

theorem attrCalls_not_error (attrs : List (Span × Span)) (info : List Char) (p : Nat) :
    Call.error info p ∉ attrCalls attrs := by
  simp [attrCalls]

/-- Without validation an iteration reports no duplicated attribute: the errors it adds are
the three other ones. -/
theorem bodyStep_otherError (v : Visitor σ) (hv : v.ValidateIs false) (doc : Doc)
    (st st1 : State σ) (h : bodyStep v doc st = some st1)
    (hi : ∀ info p r, (Call.error info p, r) ∈ st.log → OtherError doc info) :
    ∀ info p r, (Call.error info p, r) ∈ st1.log → OtherError doc info := by
  have key : ∀ (s2 : State σ) (ext : List (Call × Bool)), s2.log = st.log ++ ext →
      (∀ info p r, (Call.error info p, r) ∈ ext → OtherError doc info) →
      ∀ info p r, (Call.error info p, r) ∈ s2.log → OtherError doc info := by
    intro s2 ext hl he info p r hm
    rw [hl] at hm
    rcases List.mem_append.mp hm with hm | hm
    · exact hi info p r hm
    · exact he info p r hm
  have hfin : ∀ (s2 : State σ) (next : Nat), (State.finish doc s2 next).log = s2.log := by
    intro s2 next
    unfold State.finish
    split <;> rfl
  rcases bodyStep_cases v doc st st1 h with ⟨m, hm, h1⟩ | ⟨m, _, hm, rfl⟩ | ⟨t, _, _, ht, rfl⟩ |
    ⟨m, _, _, _, hm, rfl⟩ | ⟨m, _, _, _, _, hm, rfl⟩ | ⟨_, _, _, _, _, rfl⟩
  · cases henter : (v.enter st.vis (m.get 1) (m.matched 4)).2
    · obtain ⟨ext, ok, g1, _, _, g4⟩ := stepOpen_enter v doc st st1 m h1
      obtain ⟨rfl, rfl⟩ := g1 henter
      obtain ⟨hl, _⟩ := g4 rfl
      refine key st1 _ hl ?_
      intro info p r hm
      simp at hm
    · obtain ⟨_, ext, hl, hc⟩ := stepOpen_nonvalidating v hv doc st st1 m henter h1
      refine key st1 ext hl ?_
      intro info p r hm
      have : Call.error info p ∈ calls ext := List.mem_map.mpr ⟨_, hm, rfl⟩
      rw [hc] at this
      simp only [List.cons_append, List.mem_cons, List.mem_append, reduceCtorEq, false_or] at this
      rcases this with h2 | h2
      · exact absurd h2 (attrCalls_not_error _ _ _)
      · split at h2 <;> simp at h2
  · unfold stepClose
    split
    · refine key _ [(.error msgNoOpening st.docPos, true)] rfl ?_
      intro info p r hm
      simp only [List.mem_singleton, Prod.mk.injEq, Call.error.injEq] at hm
      exact Or.inl hm.1.1
    · rename_i top rest hst
      split
      · refine key _ [(.error (msgMismatch doc top) st.docPos, true)] rfl ?_
        intro info p r hm
        simp only [List.mem_singleton, Prod.mk.injEq, Call.error.injEq] at hm
        exact Or.inr (Or.inr ⟨top, hm.1.1⟩)
      · refine key _ [(.exit (m.get 1) false, _)] (by rw [hfin]; rfl) ?_
        intro info p r hm
        simp at hm
  · unfold stepText
    refine key _ [(.text ⟨st.docPos, t⟩, _)] (by rw [hfin]; rfl) ?_
    intro info p r hm
    simp at hm
  · unfold stepCdata
    refine key _ [(.cdata (m.get 1), _)] (by rw [hfin]; rfl) ?_
    intro info p r hm
    simp at hm
  · refine key _ [] (by rw [hfin]; simp) ?_
    intro info p r hm
    cases hm
  · refine key _ [(.error msgInvalid st.docPos, true)] rfl ?_
    intro info p r hm
    simp only [List.mem_singleton, Prod.mk.injEq, Call.error.injEq] at hm
    exact Or.inr (Or.inl hm.1.1)

theorem iterStart_otherError (v : Visitor σ) (hv : v.ValidateIs false) (doc : Doc) (vis : σ)
    (n : Nat) (sn : State σ) (h : iterStart v doc vis n = some sn) :
    ∀ info p r, (Call.error info p, r) ∈ sn.log → OtherError doc info := by
  induction n generalizing sn with
  | zero =>
    simp only [iterStart] at h
    split at h
    · cases h
    · cases h
      intro info p r hm
      cases hm
  | succ n ih =>
    rw [iterStart_succ] at h
    obtain ⟨s0, h1, h2, _⟩ := h
    exact bodyStep_otherError v hv doc s0 sn h2 (ih s0 h1)


/-- C4, as stated, fails: the document `<a/><b p="1" p="1"/>` contains the open tag
`<b p="1" p="1"/>`, whose two attributes have equal names, and yet in validate mode `parse`
returns true without a call of `error`, because nothing is scanned after the root element. -/
theorem C4_counterexample :
    (regex_search_continuous regexNodeOpen "<a/><b p=\"1\" p=\"1\"/>".toList 4 20).map
        (attrsOf "<a/><b p=\"1\" p=\"1\"/>".toList) =
      some [(⟨7, 8⟩, ⟨10, 11⟩), (⟨13, 14⟩, ⟨16, 17⟩)] ∧
    equalStrings "<a/><b p=\"1\" p=\"1\"/>".toList ⟨13, 14⟩ ⟨7, 8⟩ = true ∧
    parse (constVisitor true) "<a/><b p=\"1\" p=\"1\"/>".toList () [] =
      some { vis := (), log := [(.enter ⟨1, 2⟩ true, true), (.exit ⟨1, 2⟩ true, true)],
             nodeStack := [], docPos := 4, retCode := true } := by
  refine ⟨by decide, by decide, by decide⟩

/-- C4, amended: (1) when `parse` scans an open tag, `enter` returns true, `validate` returns
true and two attributes of the tag have equal names, `parse` returns false after calling
`error` exactly once, as its last call, with the message that quotes the name of an attribute
of the tag that occurs again later in it, and with the position of the `<` of the tag;
(2) when `validate` returns false and `enter` returns true, the iteration for an open tag
calls `error` not at all and `attribute` once for every attribute of the tag, in order;
(3) when `validate` returns false every error `parse` reports is one of the three other
errors, so that `parse` returns true and never calls `error` unless one of them occurs or a
callback returns false; (4), (5) the document of the claim fails at offset 0 naming `par`
in validate mode and is parsed with its three attributes reported otherwise. -/
theorem C4_duplicate_attribute :
    (∀ (σ : Type) (v : Visitor σ) (doc : Doc) (vis : σ) (stack0 : List Span) (n : Nat)
      (sn : State σ) (m : Match) (pre mid post : List (Span × Span)) (a b : Span × Span),
      iterStart v doc vis n = some sn →
      regex_search_continuous regexNodeOpen doc sn.docPos doc.length = some m →
      (v.enter sn.vis (m.get 1) (m.matched 4)).2 = true →
      v.ValidateIs true →
      attrsOf doc m = pre ++ a :: mid ++ b :: post →
      equalStrings doc b.1 a.1 = true →
      ∃ st, parse v doc vis stack0 = some st ∧ st.retCode = false ∧
        (errors st.log).length = 1 ∧ (doc.drop sn.docPos).head? = some '<' ∧
        ∃ lg d, st.log = lg ++ [(.error ("ERROR: duplicated attribute: \"".toList ++
            d.content doc ++ "\"".toList) sn.docPos, true)] ∧
          ∃ pre2 a2 mid2 b2 post2, attrsOf doc m = pre2 ++ a2 :: mid2 ++ b2 :: post2 ∧
            d = a2.1 ∧ equalStrings doc b2.1 a2.1 = true) ∧
    (∀ (σ : Type) (v : Visitor σ) (doc : Doc) (vis : σ) (n : Nat) (sn st : State σ) (m : Match),
      iterStart v doc vis n = some sn →
      regex_search_continuous regexNodeOpen doc sn.docPos doc.length = some m →
      (v.enter sn.vis (m.get 1) (m.matched 4)).2 = true →
      v.ValidateIs false →
      iterEnd v doc vis n = some st →
      st.retCode = true ∧ ∃ ext, st.log = sn.log ++ ext ∧
        calls ext = .enter (m.get 1) (m.matched 4) :: attrCalls (attrsOf doc m) ++
          (if m.matched 4 then [.exit (m.get 1) true] else [])) ∧
    (∀ (σ : Type) (v : Visitor σ) (doc : Doc) (vis : σ) (stack0 : List Span),
      v.ValidateIs false →
      ∃ st, parse v doc vis stack0 = some st ∧
        (∀ info p r, (Call.error info p, r) ∈ st.log → OtherError doc info) ∧
        ((∀ e ∈ st.log, e.1.isCallback = true → e.2 = true) →
          (st.retCode = true ∧ errors st.log = []) ∨
          ∃ lg info p, st.log = lg ++ [(.error info p, true)] ∧ OtherError doc info)) ∧
    (∀ (σ : Type) (v : Visitor σ) (vis : σ) (stack0 : List Span),
      v.AllTrue → v.ValidateIs true →
      ∃ st, parse v ("<Elem1 par=\"val1\" par3=\"val2\" par=\"val3\">\nPreamble\n" ++
          "<FirstElement></FirstElement>   \n</Elem1> \n").toList vis stack0 = some st ∧
        st.retCode = false ∧
        errors st.log = [(.error "ERROR: duplicated attribute: \"par\"".toList 0, true)]) ∧
    (∀ (σ : Type) (v : Visitor σ) (vis : σ) (stack0 : List Span),
      v.AllTrue → v.ValidateIs false →
      ∃ st, parse v ("<Elem1 par=\"val1\" par3=\"val2\" par=\"val3\">\nPreamble\n" ++
          "<FirstElement></FirstElement>   \n</Elem1> \n").toList vis stack0 = some st ∧
        st.retCode = true ∧
        events ("<Elem1 par=\"val1\" par3=\"val2\" par=\"val3\">\nPreamble\n" ++
          "<FirstElement></FirstElement>   \n</Elem1> \n").toList st.log =
          [.enter "Elem1".toList false, .attribute "par".toList "val1".toList,
           .attribute "par3".toList "val2".toList, .attribute "par".toList "val3".toList,
           .text "Preamble\n".toList, .enter "FirstElement".toList false,
           .exit "FirstElement".toList false, .exit "Elem1".toList false]) := by
  refine ⟨?_, ?_, ?_, ?_, ?_⟩
  · intro σ v doc vis stack0 n sn m pre mid post a b hs hopen henter hv hsplit heq
    obtain ⟨st, hst⟩ := bodyStep_total v doc sn
    have hstep : stepOpen v doc sn m = some st := by
      simpa [bodyStep, hopen] using hst
    have hdup : ∃ d, firstDup doc [] (attrsOf doc m) = some d := by
      cases hq : firstDup doc [] (attrsOf doc m) with
      | none =>
        have := (firstDup_none doc _ _ hq).2 pre a mid b post hsplit
        rw [heq] at this
        cases this
      | some d => exact ⟨d, rfl⟩
    obtain ⟨d, hd⟩ := hdup
    obtain ⟨g1, lg, g2⟩ := stepOpen_validating_dup v hv doc sn st m d henter hd hstep
    have hi := iterStart_inv v doc vis n sn hs
    have herr := bodyStep_errInv v doc sn st hst hi.1 hi.2.1
    refine ⟨st, parse_of_iter v doc vis stack0 n sn st hs hst (by simp [g1]), g1, ?_,
      regexNodeOpen_prefix doc _ m hopen, lg, d, ?_, ?_⟩
    · rcases herr.2 g1 with ⟨pre', info, e1, e2, _⟩ | ⟨e1, _⟩
      · rw [e1, errors_append, e2]
        simp [errors, Call.isError]
      · rw [g2] at e1
        exact absurd e1 (errors_eq_nil_of_append lg []
          (Call.error (msgDuplicate doc d) sn.docPos, true) rfl)
    · rw [g2, msgDuplicate_eq]
    · rcases firstDup_some doc _ _ d hd with ⟨h1, _⟩ | h1
      · cases h1
      · exact h1
  · intro σ v doc vis n sn st m hs hopen henter hv he
    obtain ⟨sn', h1, h2⟩ := (iterEnd_some v doc vis n st).1 he
    rw [hs] at h1
    cases h1
    have hstep : stepOpen v doc sn m = some st := by
      simpa [bodyStep, hopen] using h2
    exact stepOpen_nonvalidating v hv doc sn st m henter hstep
  · intro σ v doc vis stack0 hv
    obtain ⟨st, hst, hc⟩ := parse_cases v doc vis stack0
    refine ⟨st, hst, ?_⟩
    rcases hc with ⟨_, rfl⟩ | ⟨_, n, sn, h1, h2, h3⟩
    · refine ⟨?_, fun _ => Or.inl ⟨rfl, rfl⟩⟩
      intro info p r hm
      cases hm
    · have hk := bodyStep_otherError v hv doc sn st h2 (iterStart_otherError v hv doc vis n sn h1)
      have hi := iterStart_inv v doc vis n sn h1
      have herr := bodyStep_errInv v doc sn st h2 hi.1 hi.2.1
      refine ⟨hk, ?_⟩
      intro hall
      cases hr : st.retCode
      · rcases herr.2 hr with ⟨lg, info, e1, _, _⟩ | ⟨_, lg, c, e1, e2⟩
        · refine Or.inr ⟨lg, info, sn.docPos, e1, hk info sn.docPos true ?_⟩
          rw [e1]
          simp
        · have := hall (c, false) (by rw [e1]; simp) e2
          cases this
      · exact Or.inl ⟨rfl, herr.1 hr⟩
  · intro σ v vis stack0 ha hv
    have hb : (bodyLoop (constVisitor true)
        ("<Elem1 par=\"val1\" par3=\"val2\" par=\"val3\">\nPreamble\n" ++
          "<FirstElement></FirstElement>   \n</Elem1> \n").toList
        (("<Elem1 par=\"val1\" par3=\"val2\" par=\"val3\">\nPreamble\n" ++
          "<FirstElement></FirstElement>   \n</Elem1> \n").toList.length + 1)
        (bodyInit ("<Elem1 par=\"val1\" par3=\"val2\" par=\"val3\">\nPreamble\n" ++
          "<FirstElement></FirstElement>   \n</Elem1> \n").toList ())).map
          (fun s => (s.retCode, errors s.log)) =
        some (false, [(.error "ERROR: duplicated attribute: \"par\"".toList 0, true)]) := by
      decide
    cases hs : bodyLoop (constVisitor true)
        ("<Elem1 par=\"val1\" par3=\"val2\" par=\"val3\">\nPreamble\n" ++
          "<FirstElement></FirstElement>   \n</Elem1> \n").toList
        (("<Elem1 par=\"val1\" par3=\"val2\" par=\"val3\">\nPreamble\n" ++
          "<FirstElement></FirstElement>   \n</Elem1> \n").toList.length + 1)
        (bodyInit ("<Elem1 par=\"val1\" par3=\"val2\" par=\"val3\">\nPreamble\n" ++
          "<FirstElement></FirstElement>   \n</Elem1> \n").toList ()) with
    | none =>
      rw [hs] at hb
      cases hb
    | some s =>
      rw [hs] at hb
      simp only [Option.map_some', Option.some.injEq, Prod.mk.injEq] at hb
      obtain ⟨st, h1, h2, h3, _, _⟩ := parse_const v true ha hv _ vis stack0 s hs (by decide)
      exact ⟨st, h1, by rw [h3, hb.1], by rw [h2, hb.2]⟩
  · intro σ v vis stack0 ha hv
    have hb : (bodyLoop (constVisitor false)
        ("<Elem1 par=\"val1\" par3=\"val2\" par=\"val3\">\nPreamble\n" ++
          "<FirstElement></FirstElement>   \n</Elem1> \n").toList
        (("<Elem1 par=\"val1\" par3=\"val2\" par=\"val3\">\nPreamble\n" ++
          "<FirstElement></FirstElement>   \n</Elem1> \n").toList.length + 1)
        (bodyInit ("<Elem1 par=\"val1\" par3=\"val2\" par=\"val3\">\nPreamble\n" ++
          "<FirstElement></FirstElement>   \n</Elem1> \n").toList ())).map
          (fun s => (s.retCode, events
            ("<Elem1 par=\"val1\" par3=\"val2\" par=\"val3\">\nPreamble\n" ++
              "<FirstElement></FirstElement>   \n</Elem1> \n").toList s.log)) =
        some (true, [.enter "Elem1".toList false, .attribute "par".toList "val1".toList,
           .attribute "par3".toList "val2".toList, .attribute "par".toList "val3".toList,
           .text "Preamble\n".toList, .enter "FirstElement".toList false,
           .exit "FirstElement".toList false, .exit "Elem1".toList false]) := by
      decide
    cases hs : bodyLoop (constVisitor false)
        ("<Elem1 par=\"val1\" par3=\"val2\" par=\"val3\">\nPreamble\n" ++
          "<FirstElement></FirstElement>   \n</Elem1> \n").toList
        (("<Elem1 par=\"val1\" par3=\"val2\" par=\"val3\">\nPreamble\n" ++
          "<FirstElement></FirstElement>   \n</Elem1> \n").toList.length + 1)
        (bodyInit ("<Elem1 par=\"val1\" par3=\"val2\" par=\"val3\">\nPreamble\n" ++
          "<FirstElement></FirstElement>   \n</Elem1> \n").toList ()) with
    | none =>
      rw [hs] at hb
      cases hb
    | some s =>
      rw [hs] at hb
      simp only [Option.map_some', Option.some.injEq, Prod.mk.injEq] at hb
      obtain ⟨st, h1, h2, h3, _, _⟩ := parse_const v false ha hv _ vis stack0 s hs (by decide)
      exact ⟨st, h1, by rw [h3, hb.1], by rw [h2, hb.2]⟩

/-- Witness of C4: the tag `<a p="1" p="2"/>` in validate mode. -/
theorem C4_duplicate_attribute_witness :
    attrsOf "<a p=\"1\" p=\"2\"/>".toList
        ⟨16, [(4, ⟨14, 15⟩), (3, ⟨12, 13⟩), (2, ⟨9, 10⟩), (3, ⟨6, 7⟩), (2, ⟨3, 4⟩), (1, ⟨1, 2⟩)]⟩ =
      [] ++ (⟨3, 4⟩, ⟨6, 7⟩) :: [] ++ (⟨9, 10⟩, ⟨12, 13⟩) :: [] ∧
    equalStrings "<a p=\"1\" p=\"2\"/>".toList ⟨9, 10⟩ ⟨3, 4⟩ = true ∧
    ∃ st, parse (constVisitor true) "<a p=\"1\" p=\"2\"/>".toList () [] = some st ∧
      st.retCode = false ∧ (errors st.log).length = 1 := by
  obtain ⟨st, h1, h2, h3, _⟩ := C4_duplicate_attribute.1 Unit (constVisitor true)
    "<a p=\"1\" p=\"2\"/>".toList () [] 0 (bodyInit "<a p=\"1\" p=\"2\"/>".toList ())
    ⟨16, [(4, ⟨14, 15⟩), (3, ⟨12, 13⟩), (2, ⟨9, 10⟩), (3, ⟨6, 7⟩), (2, ⟨3, 4⟩), (1, ⟨1, 2⟩)]⟩
    [] [] [] (⟨3, 4⟩, ⟨6, 7⟩) (⟨9, 10⟩, ⟨12, 13⟩) (by decide) (by decide) rfl
    (validateIs_constVisitor true) (by decide) (by decide)
  exact ⟨by decide, by decide, st, h1, h2, h3⟩

theorem starLoop_local (body : Cont → Cont) (hb : ContLocal body) (n : Nat) :
    ContLocal (starLoop body n) := by
  induction n with
  | zero =>
    intro k1 k2 pos s c h
    simp only [starLoop]
    exact h _ _ _ (le_refl _)
  | succ n ih =>
    intro k1 k2 pos s c h
    simp only [starLoop]
    have e : body (fun pos1 s1 c1 =>
          if s1.length < s.length then starLoop body n k1 pos1 s1 c1 else none) pos s c =
        body (fun pos1 s1 c1 =>
          if s1.length < s.length then starLoop body n k2 pos1 s1 c1 else none) pos s c := by
      apply hb
      intro pos1 s1 c1 _
      split
      · rename_i hlt
        apply ih
        intro pos2 s2 c2 h2
        exact h _ _ _ (by omega)
      · rfl
    rw [e, h pos s c (le_refl _)]

theorem Re.run_local (start : Nat) (r : Re) : ContLocal (Re.run start r) := by
  induction r with
  | chr p =>
    intro k1 k2 pos s c h
    cases s with
    | nil => rfl
    | cons x xs =>
      simp only [Re.run]
      split
      · exact h _ _ _ (by simp)
      · rfl
  | eps =>
    intro k1 k2 pos s c h
    exact h _ _ _ (le_refl _)
  | seq a b iha ihb =>
    intro k1 k2 pos s c h
    simp only [Re.run]
    apply iha
    intro pos1 s1 c1 h1
    apply ihb
    intro pos2 s2 c2 h2
    exact h _ _ _ (by omega)
  | alt a b iha ihb =>
    intro k1 k2 pos s c h
    simp only [Re.run]
    rw [iha k1 k2 pos s c h, ihb k1 k2 pos s c h]
  | star a iha =>
    intro k1 k2 pos s c h
    simp only [Re.run]
    exact starLoop_local _ iha _ _ _ _ _ _ h
  | group i a iha =>
    intro k1 k2 pos s c h
    simp only [Re.run]
    apply iha
    intro pos1 s1 c1 h1
    exact h _ _ _ h1
  | nla a _ =>
    intro k1 k2 pos s c h
    simp only [Re.run]
    rw [h pos s c (le_refl _)]
  | bol =>
    intro k1 k2 pos s c h
    simp only [Re.run]
    rw [h pos s c (le_refl _)]

/-- The loop of a `*` does not depend on its counter, once that is at least the length of
the input. -/
theorem starLoop_fuel (body : Cont → Cont) (hl : ContLocal body) (hs : ContSound body) :
    ∀ (len : Nat) (s : List Char), s.length = len → ∀ (n1 n2 : Nat) (k : Cont) (pos : Nat)
      (c : Caps), s.length ≤ n1 → s.length ≤ n2 →
      starLoop body n1 k pos s c = starLoop body n2 k pos s c := by
  intro len
  induction len using Nat.strong_induction_on with
  | _ len ih =>
    intro s hlen n1 n2 k pos c h1 h2
    have step : ∀ n, s.length ≤ n + 1 → starLoop body (n + 1) k pos s c =
        match body (fun pos1 s1 c1 =>
          if s1.length < s.length then starLoop body s1.length k pos1 s1 c1 else none) pos s c with
        | some m => some m
        | none => k pos s c := by
      intro n hn
      simp only [starLoop]
      have e : body (fun pos1 s1 c1 =>
            if s1.length < s.length then starLoop body n k pos1 s1 c1 else none) pos s c =
          body (fun pos1 s1 c1 =>
            if s1.length < s.length then starLoop body s1.length k pos1 s1 c1 else none)
            pos s c := by
        apply hl
        intro pos1 s1 c1 _
        split
        · rename_i hlt
          exact ih s1.length (by omega) s1 rfl _ _ _ _ _ (by omega) (le_refl _)
        · rfl
      rw [e]
    have zero : s.length = 0 → starLoop body 0 k pos s c =
        match body (fun pos1 s1 c1 =>
          if s1.length < s.length then starLoop body s1.length k pos1 s1 c1 else none) pos s c with
        | some m => some m
        | none => k pos s c := by
      intro hs0
      cases hq : body (fun pos1 s1 c1 =>
          if s1.length < s.length then starLoop body s1.length k pos1 s1 c1 else none) pos s c
        with
      | none => rfl
      | some m =>
        exfalso
        obtain ⟨pre, s1, c1, e1, e2⟩ := hs _ _ _ _ _ hq
        split at e2
        · rename_i hlt
          have := congrArg List.length e1
          simp only [List.length_append] at this
          omega
        · cases e2
    cases n1 with
    | zero =>
      cases n2 with
      | zero => rfl
      | succ b =>
        have hs0 : s.length = 0 := by omega
        rw [step b h2]
        exact zero hs0
    | succ a =>
      cases n2 with
      | zero =>
        have hs0 : s.length = 0 := by omega
        rw [step a h1]
        exact (zero hs0).symm
      | succ b => rw [step a h1, step b h2]

/-- The defining equation of the greedy `*`: one iteration that consumes input, then the
`*` again; or else nothing. -/
theorem Re.run_star (start : Nat) (a : Re) (k : Cont) (pos : Nat) (s : List Char) (c : Caps) :
    Re.run start (.star a) k pos s c =
      match Re.run start a (fun pos1 s1 c1 =>
          if s1.length < s.length then Re.run start (.star a) k pos1 s1 c1 else none) pos s c with
      | some m => some m
      | none => k pos s c := by
  have h1 : Re.run start (.star a) k pos s c =
      starLoop (Re.run start a) (s.length + 1) k pos s c := by
    simp only [Re.run]
    exact starLoop_fuel _ (Re.run_local start a) (Re.run_sound start a) _ s rfl _ _ _ _ _
      (le_refl _) (Nat.le_succ _)
  rw [h1]
  simp only [starLoop]
  have e : Re.run start a (fun pos1 s1 c1 =>
        if s1.length < s.length then starLoop (Re.run start a) s.length k pos1 s1 c1 else none)
        pos s c =
      Re.run start a (fun pos1 s1 c1 =>
        if s1.length < s.length then Re.run start (.star a) k pos1 s1 c1 else none) pos s c := by
    apply Re.run_local
    intro pos1 s1 c1 _
    split
    · rename_i hlt
      simp only [Re.run]
      exact starLoop_fuel _ (Re.run_local start a) (Re.run_sound start a) _ s1 rfl _ _ _ _ _
        (by omega) (le_refl _)
    · rfl
  rw [e]

/-- A matcher fails when its continuation fails on every suffix of the input. -/
theorem Re.run_none (start : Nat) (r : Re) (k : Cont) (pos : Nat) (s : List Char) (c : Caps)
    (h : ∀ pre s1 c1, s = pre ++ s1 → k (pos + pre.length) s1 c1 = none) :
    Re.run start r k pos s c = none := by
  cases hq : Re.run start r k pos s c with
  | none => rfl
  | some m =>
    obtain ⟨pre, s1, c1, e1, e2⟩ := Re.run_sound start r _ _ _ _ _ hq
    rw [h pre s1 c1 e1] at e2
    cases e2

/-- The greedy `*` of a character class takes the longest run of the class, when what
follows the `*` then matches. -/
theorem run_star_chr_greedy (start : Nat) (p : Char → Bool) (rest : List Char)
    (hrest : ∀ y ys, rest = y :: ys → p y = false) :
    ∀ (pre : List Char) (k : Cont) (pos : Nat) (c : Caps) (m : Match),
      (∀ x ∈ pre, p x = true) → k (pos + pre.length) rest c = some m →
      Re.run start (.star (.chr p)) k pos (pre ++ rest) c = some m := by
  intro pre
  induction pre with
  | nil =>
    intro k pos c m _ hk
    rw [Re.run_star]
    have hb : Re.run start (.chr p) (fun pos1 s1 c1 =>
        if s1.length < ([] ++ rest).length then Re.run start (.star (.chr p)) k pos1 s1 c1
        else none) pos ([] ++ rest) c = none := by
      cases hr : rest with
      | nil => rfl
      | cons y ys => simp [Re.run, hrest y ys hr]
    rw [hb]
    simpa using hk
  | cons x pre ih =>
    intro k pos c m hp hk
    rw [Re.run_star]
    have hx : p x = true := hp x (List.mem_cons_self _ _)
    have hb : Re.run start (.chr p) (fun pos1 s1 c1 =>
        if s1.length < (x :: pre ++ rest).length then Re.run start (.star (.chr p)) k pos1 s1 c1
        else none) pos (x :: pre ++ rest) c = some m := by
      simp only [List.cons_append, Re.run, hx, ↓reduceIte, List.length_cons, Nat.lt_succ_self]
      apply ih
      · intro y hy
        exact hp y (List.mem_cons_of_mem _ hy)
      · rw [← hk]
        congr 1
        simp only [List.length_cons]
        omega
    rw [hb]

/-- Pattern `p+` of a character class takes the longest run, when what follows matches. -/
theorem run_plus_chr_greedy (start : Nat) (p : Char → Bool) (pre rest : List Char) (k : Cont)
    (pos : Nat) (c : Caps) (m : Match) (hne : pre ≠ []) (hp : ∀ x ∈ pre, p x = true)
    (hrest : ∀ y ys, rest = y :: ys → p y = false)
    (hk : k (pos + pre.length) rest c = some m) :
    Re.run start (Re.plus (.chr p)) k pos (pre ++ rest) c = some m := by
  cases pre with
  | nil => exact absurd rfl hne
  | cons x pre =>
    have hx : p x = true := hp x (List.mem_cons_self _ _)
    simp only [Re.plus, List.cons_append, Re.run, hx, ↓reduceIte]
    have := run_star_chr_greedy start p rest hrest pre k (pos + 1) c m
      (fun y hy => hp y (List.mem_cons_of_mem _ hy))
      (by rw [← hk]; congr 1; simp only [List.length_cons]; omega)
    simpa [Re.run] using this

/-- Pattern `p+` of a character class fails where the input does not begin with the class. -/
theorem run_plus_chr_fail (start : Nat) (p : Char → Bool) (s : List Char) (k : Cont)
    (pos : Nat) (c : Caps) (hs : ∀ y ys, s = y :: ys → p y = false) :
    Re.run start (Re.plus (.chr p)) k pos s c = none := by
  cases s with
  | nil => rfl
  | cons y ys => simp [Re.plus, Re.run, hs y ys rfl]

theorem trimEnd_cons_nonspace (x : Char) (xs : List Char) (hx : isSpace x = false) :
    trimEnd (x :: xs) = x :: trimEnd xs := by
  simp only [trimEnd]
  split
  · rename_i h
    simp [hx, h]
  · rename_i y ys h
    rw [h]

theorem trimEnd_cons_space (x : Char) (xs : List Char) (hx : isSpace x = true) :
    trimEnd (x :: xs) = if trimEnd xs = [] then [] else x :: trimEnd xs := by
  simp only [trimEnd]
  split
  · rename_i h
    simp [hx, h]
  · rename_i y ys h
    simp [h]

theorem trimEnd_spaces (s : List Char) (h : ∀ x ∈ s, isSpace x = true) : trimEnd s = [] := by
  induction s with
  | nil => rfl
  | cons x xs ih =>
    rw [trimEnd_cons_space x xs (h x (List.mem_cons_self _ _)),
      ih (fun y hy => h y (List.mem_cons_of_mem _ hy))]
    rfl

theorem trimEnd_eq_nil (s : List Char) (h : trimEnd s = []) : ∀ x ∈ s, isSpace x = true := by
  induction s with
  | nil => intro x hx; cases hx
  | cons x xs ih =>
    intro y hy
    cases hx : isSpace x with
    | false =>
      rw [trimEnd_cons_nonspace x xs hx] at h
      cases h
    | true =>
      rw [trimEnd_cons_space x xs hx] at h
      split at h
      · rename_i h1
        rcases List.mem_cons.mp hy with rfl | hy
        · exact hx
        · exact ih h1 y hy
      · cases h

theorem trimEnd_append_nonspaces (w u : List Char) (hw : ∀ x ∈ w, isSpace x = false) :
    trimEnd (w ++ u) = w ++ trimEnd u := by
  induction w with
  | nil => rfl
  | cons x xs ih =>
    rw [List.cons_append, trimEnd_cons_nonspace _ _ (hw x (List.mem_cons_self _ _)),
      ih (fun y hy => hw y (List.mem_cons_of_mem _ hy))]
    rfl

theorem trimEnd_append_of_ne_nil (g u : List Char) (hu : trimEnd u ≠ []) :
    trimEnd (g ++ u) = g ++ trimEnd u := by
  induction g with
  | nil => rfl
  | cons x xs ih =>
    rw [List.cons_append]
    have hne : trimEnd (xs ++ u) ≠ [] := by
      rw [ih]
      cases xs <;> simp [hu]
    cases hx : isSpace x with
    | false => rw [trimEnd_cons_nonspace _ _ hx, ih]; rfl
    | true =>
      rw [trimEnd_cons_space _ _ hx, if_neg hne, ih]
      rfl

/-- A list is its `trimEnd` followed by white space. -/
theorem trimEnd_append_drop (s : List Char) :
    trimEnd s ++ s.drop (trimEnd s).length = s ∧
    ∀ x ∈ s.drop (trimEnd s).length, isSpace x = true := by
  induction s with
  | nil => exact ⟨rfl, fun x hx => by cases hx⟩
  | cons x xs ih =>
    cases hx : isSpace x with
    | false =>
      rw [trimEnd_cons_nonspace _ _ hx]
      simp only [List.cons_append, List.length_cons, List.drop_succ_cons, List.cons.injEq,
        true_and]
      exact ih
    | true =>
      rw [trimEnd_cons_space _ _ hx]
      split
      · rename_i h
        simp only [List.length_nil, List.drop_zero, List.nil_append, true_and]
        intro y hy
        rcases List.mem_cons.mp hy with rfl | hy
        · exact hx
        · exact trimEnd_eq_nil xs h y hy
      · simp only [List.cons_append, List.length_cons, List.drop_succ_cons, List.cons.injEq,
          true_and]
        exact ih

theorem trimEnd_length_le (s : List Char) : (trimEnd s).length ≤ s.length := by
  have := congrArg List.length (trimEnd_append_drop s).1
  simp only [List.length_append] at this
  omega

/-- The list `takeWhile p s` is a run of `p`, followed in `s` by a character not in `p`
or by nothing. -/
theorem dropWhile_head (p : Char → Bool) (s : List Char) :
    ∀ y ys, s.dropWhile p = y :: ys → p y = false := by
  intro y ys h
  have := List.head_dropWhile_not p s (by rw [h]; simp)
  simpa [h] using this

theorem Re.run_seq (start : Nat) (a b : Re) (k : Cont) (pos : Nat) (s : List Char) (c : Caps) :
    Re.run start (.seq a b) k pos s c = Re.run start a (Re.run start b k) pos s c := rfl

theorem Re.run_alt (start : Nat) (a b : Re) (k : Cont) (pos : Nat) (s : List Char) (c : Caps) :
    Re.run start (.alt a b) k pos s c =
      match Re.run start a k pos s c with
      | some m => some m
      | none => Re.run start b k pos s c := rfl

theorem Re.run_group (start : Nat) (i : Nat) (a : Re) (k : Cont) (pos : Nat) (s : List Char)
    (c : Caps) :
    Re.run start (.group i a) k pos s c =
      Re.run start a (fun pos1 s1 c1 => k pos1 s1 ((i, ⟨pos, pos1⟩) :: c1)) pos s c := rfl

theorem Re.run_eps (start : Nat) (k : Cont) (pos : Nat) (s : List Char) (c : Caps) :
    Re.run start .eps k pos s c = k pos s c := rfl

theorem takeWhile_ne_nil (p : Char → Bool) (y : Char) (ys : List Char) (h : p y = true) :
    (y :: ys).takeWhile p ≠ [] := by
  simp [List.takeWhile, h]

/-- The loop `(?:\s+\S+)*` of `regexTrimmed`, entered after a word: it runs up to the end of
the last word and leaves the white space at the end. -/
theorem run_star_words (start : Nat) :
    ∀ (len : Nat) (u : List Char), u.length = len →
      (∀ y ys, u = y :: ys → isSpace y = true) →
      ∀ (k : Cont) (pos : Nat) (c : Caps) (m : Match),
        k (pos + (trimEnd u).length) (u.drop (trimEnd u).length) c = some m →
        Re.run start (.star (.seq (Re.plus reSpace) (Re.plus reNonSpace))) k pos u c = some m := by
  intro len
  induction len using Nat.strong_induction_on with
  | _ len ih =>
    intro u hlen hu k pos c m hk
    rw [Re.run_star]
    by_cases ht : trimEnd u = []
    · have hsp := trimEnd_eq_nil u ht
      have hb : Re.run start (.seq (Re.plus reSpace) (Re.plus reNonSpace)) (fun pos1 s1 c1 =>
          if s1.length < u.length then
            Re.run start (.star (.seq (Re.plus reSpace) (Re.plus reNonSpace))) k pos1 s1 c1
          else none) pos u c = none := by
        rw [Re.run_seq]
        apply Re.run_none
        intro pre s1 c1 hs1
        apply run_plus_chr_fail
        intro y ys hy
        have : y ∈ u := by rw [hs1, hy]; simp
        simp [hsp y this]
      rw [hb]
      simpa [ht] using hk
    · have hune : u ≠ [] := by
        intro h
        rw [h] at ht
        exact ht rfl
      obtain ⟨y0, ys0, hy0⟩ := List.exists_cons_of_ne_nil hune
      have hg : u.takeWhile isSpace ≠ [] := by
        rw [hy0]
        exact takeWhile_ne_nil _ _ _ (hu y0 ys0 hy0)
      have huv : u.takeWhile isSpace ++ u.dropWhile isSpace = u := List.takeWhile_append_dropWhile _ _
      have hgs : ∀ x ∈ u.takeWhile isSpace, isSpace x = true :=
        fun x hx => List.mem_takeWhile_imp hx
      have hv : u.dropWhile isSpace ≠ [] := by
        intro h
        rw [h, List.append_nil] at huv
        apply ht
        apply trimEnd_spaces
        rw [← huv]
        exact hgs
      obtain ⟨y1, ys1, hy1⟩ := List.exists_cons_of_ne_nil hv
      have hy1n : isSpace y1 = false := dropWhile_head _ _ _ _ hy1
      have hw : (u.dropWhile isSpace).takeWhile (fun x => !isSpace x) ≠ [] := by
        rw [hy1]
        exact takeWhile_ne_nil _ _ _ (by simp [hy1n])
      have hwv : (u.dropWhile isSpace).takeWhile (fun x => !isSpace x) ++
          (u.dropWhile isSpace).dropWhile (fun x => !isSpace x) = u.dropWhile isSpace :=
        List.takeWhile_append_dropWhile _ _
      have hws : ∀ x ∈ (u.dropWhile isSpace).takeWhile (fun x => !isSpace x),
          isSpace x = false := by
        intro x hx
        have := List.mem_takeWhile_imp hx
        simpa using this
      have hu' : ∀ y ys, (u.dropWhile isSpace).dropWhile (fun x => !isSpace x) = y :: ys →
          isSpace y = true := by
        intro y ys h
        have := dropWhile_head _ _ _ _ h
        simpa using this
      generalize hgd : u.takeWhile isSpace = g at *
      generalize hvd : u.dropWhile isSpace = v at *
      generalize hwd : v.takeWhile (fun x => !isSpace x) = w at *
      generalize hud : v.dropWhile (fun x => !isSpace x) = u' at *
      have hlen' : u.length = g.length + (w.length + u'.length) := by
        rw [← huv, ← hwv]
        simp
      have hgl : 0 < g.length := List.length_pos.mpr hg
      have ht1 : trimEnd v = w ++ trimEnd u' := by
        rw [← hwv]
        exact trimEnd_append_nonspaces w u' hws
      have ht2 : trimEnd u = g ++ (w ++ trimEnd u') := by
        rw [← huv, trimEnd_append_of_ne_nil g v, ht1]
        rw [ht1]
        cases w with
        | nil => exact absurd rfl hw
        | cons a b => simp
      have hdrop : u.drop (trimEnd u).length = u'.drop (trimEnd u').length := by
        rw [ht2]
        conv => lhs; arg 2; rw [← huv, ← hwv]
        simp only [List.length_append]
        rw [show g.length + (w.length + (trimEnd u').length) =
          g.length + (w.length + (trimEnd u').length) from rfl]
        rw [← List.drop_drop, List.drop_left, ← List.drop_drop, List.drop_left]
      have hb : Re.run start (.seq (Re.plus reSpace) (Re.plus reNonSpace)) (fun pos1 s1 c1 =>
          if s1.length < u.length then
            Re.run start (.star (.seq (Re.plus reSpace) (Re.plus reNonSpace))) k pos1 s1 c1
          else none) pos u c = some m := by
        rw [Re.run_seq]
        conv => lhs; arg 5; rw [← huv]
        apply run_plus_chr_greedy start isSpace g v _ pos c m hg hgs
        · intro y ys hy
          rw [hy1] at hy
          cases hy
          exact hy1n
        · conv => lhs; arg 5; rw [← hwv]
          apply run_plus_chr_greedy start (fun x => !isSpace x) w u' _ _ c m hw
          · intro x hx
            simp [hws x hx]
          · intro y ys hy
            simp [hu' y ys hy]
          · have hlt : u'.length < u.length := by omega
            simp only [hlt, ↓reduceIte]
            apply ih u'.length (by omega) u' rfl hu'
            rw [← hdrop]
            rw [← hk]
            congr 1
            rw [ht2]
            simp only [List.length_append]
            omega
      rw [hb]

theorem regex_match_eq (re : Re) (doc : Doc) (first last : Nat) :
    regex_match re doc first last =
      Re.run first re kEnd first ((doc.drop first).take (last - first)) [] := rfl

/-- The part `(\s+)?` at the end of `regexTrimmed`, on white space. -/
theorem run_trimmed_3 (start : Nat) (trail : List Char) (pos : Nat) (c : Caps)
    (ht : ∀ x ∈ trail, isSpace x = true) :
    Re.run start (Re.opt (.group 3 (Re.plus reSpace))) kEnd pos trail c =
      some ⟨pos + trail.length,
        (if trail = [] then [] else [(3, ⟨pos, pos + trail.length⟩)]) ++ c⟩ := by
  rw [Re.opt, Re.run_alt, Re.run_group]
  by_cases h : trail = []
  · subst h
    have hf : Re.run start (Re.plus reSpace) (fun pos1 s1 c1 =>
        kEnd pos1 s1 ((3, ⟨pos, pos1⟩) :: c1)) pos [] c = none :=
      run_plus_chr_fail start isSpace [] _ pos c (fun y ys hy => by cases hy)
    rw [hf]
    simp [Re.run_eps, kEnd]
  · have := run_plus_chr_greedy start isSpace trail [] (fun pos1 s1 c1 =>
        kEnd pos1 s1 ((3, ⟨pos, pos1⟩) :: c1)) pos c
        ⟨pos + trail.length, (3, ⟨pos, pos + trail.length⟩) :: c⟩ h ht
        (fun y ys hy => by cases hy) (by simp [kEnd])
    rw [List.append_nil] at this
    rw [reSpace, this]
    simp [h]

/-- The part `(\S+(?:\s+\S+)*)?(\s+)?` of `regexTrimmed`, on an input that does not begin
with white space. -/
theorem run_trimmed_2 (start : Nat) (t : List Char) (pos : Nat) (c : Caps)
    (ht : ∀ y ys, t = y :: ys → isSpace y = false) :
    Re.run start (Re.opt (.group 2 (.seq (Re.plus reNonSpace)
        (.star (.seq (Re.plus reSpace) (Re.plus reNonSpace))))))
      (Re.run start (Re.opt (.group 3 (Re.plus reSpace))) kEnd) pos t c =
      some ⟨pos + t.length,
        (if t.drop (trimEnd t).length = [] then []
          else [(3, ⟨pos + (trimEnd t).length, pos + t.length⟩)]) ++
        (if trimEnd t = [] then [] else [(2, ⟨pos, pos + (trimEnd t).length⟩)]) ++ c⟩ := by
  rw [Re.opt, Re.run_alt, Re.run_group, Re.run_seq]
  cases t with
  | nil =>
    have hf : Re.run start (Re.plus reNonSpace)
        (Re.run start (.star (.seq (Re.plus reSpace) (Re.plus reNonSpace)))
          (fun pos1 s1 c1 => Re.run start (Re.opt (.group 3 (Re.plus reSpace))) kEnd pos1 s1
            ((2, ⟨pos, pos1⟩) :: c1))) pos [] c = none :=
      run_plus_chr_fail start (fun x => !isSpace x) [] _ pos c (fun y ys hy => by cases hy)
    rw [hf]
    simp only [Re.run_eps]
    rw [run_trimmed_3 start [] pos c (fun x hx => by cases hx)]
    simp [trimEnd]
  | cons y ys =>
    have hy : isSpace y = false := ht y ys rfl
    have hw : (y :: ys).takeWhile (fun x => !isSpace x) ≠ [] :=
      takeWhile_ne_nil _ _ _ (by simp [hy])
    have hwv : (y :: ys).takeWhile (fun x => !isSpace x) ++
        (y :: ys).dropWhile (fun x => !isSpace x) = y :: ys :=
      List.takeWhile_append_dropWhile _ _
    have hws : ∀ x ∈ (y :: ys).takeWhile (fun x => !isSpace x), isSpace x = false := by
      intro x hx
      have := List.mem_takeWhile_imp hx
      simpa using this
    have hu : ∀ z zs, (y :: ys).dropWhile (fun x => !isSpace x) = z :: zs →
        isSpace z = true := by
      intro z zs h
      have := dropWhile_head _ _ _ _ h
      simpa using this
    generalize hwd : (y :: ys).takeWhile (fun x => !isSpace x) = w at *
    generalize hud : (y :: ys).dropWhile (fun x => !isSpace x) = u at *
    have ht1 : trimEnd (y :: ys) = w ++ trimEnd u := by
      rw [← hwv]
      exact trimEnd_append_nonspaces w u hws
    have hlen : (y :: ys).length = w.length + u.length := by
      rw [← hwv]
      simp
    have hdrop : (y :: ys).drop (trimEnd (y :: ys)).length = u.drop (trimEnd u).length := by
      rw [ht1]
      conv => lhs; arg 2; rw [← hwv]
      simp only [List.length_append]
      rw [← List.drop_drop, List.drop_left]
    have htr := trimEnd_append_drop u
    have hul : (trimEnd u).length + (u.drop (trimEnd u).length).length = u.length := by
      have := congrArg List.length htr.1
      simpa using this
    have hcore : trimEnd (y :: ys) ≠ [] := by
      rw [ht1]
      cases w with
      | nil => exact absurd rfl hw
      | cons a b => simp
    have key : Re.run start (Re.plus reNonSpace)
        (Re.run start (.star (.seq (Re.plus reSpace) (Re.plus reNonSpace)))
          (fun pos1 s1 c1 => Re.run start (Re.opt (.group 3 (Re.plus reSpace))) kEnd pos1 s1
            ((2, ⟨pos, pos1⟩) :: c1))) pos (y :: ys) c =
        some ⟨pos + (y :: ys).length,
          (if (y :: ys).drop (trimEnd (y :: ys)).length = [] then []
            else [(3, ⟨pos + (trimEnd (y :: ys)).length, pos + (y :: ys).length⟩)]) ++
          (if trimEnd (y :: ys) = [] then []
            else [(2, ⟨pos, pos + (trimEnd (y :: ys)).length⟩)]) ++ c⟩ := by
      conv => lhs; arg 5; rw [← hwv]
      apply run_plus_chr_greedy start (fun x => !isSpace x) w u _ pos c _ hw
      · intro x hx
        simp [hws x hx]
      · intro z zs hz
        simp [hu z zs hz]
      · apply run_star_words start u.length u rfl hu
        rw [run_trimmed_3 start _ _ _ htr.2]
        rw [hdrop, if_neg hcore, ht1]
        simp only [List.length_append, List.singleton_append, List.append_assoc, hlen,
          List.length_drop]
        have hle := trimEnd_length_le u
        have e1 : pos + w.length + (trimEnd u).length + (u.length - (trimEnd u).length) =
            pos + (w.length + u.length) := by omega
        have e2 : pos + w.length + (trimEnd u).length =
            pos + (w.length + (trimEnd u).length) := by omega
        rw [e1, e2]
    rw [key]

/-- Pattern `regexTrimmed` matches every input, with the groups `trimmedCaps`. -/
theorem regexTrimmed_run (start : Nat) (pos : Nat) (s : List Char) :
    Re.run start regexTrimmed kEnd pos s [] = some ⟨pos + s.length, trimmedCaps pos s⟩ := by
  have hlv : s.takeWhile isSpace ++ s.dropWhile isSpace = s := List.takeWhile_append_dropWhile _ _
  have hls : ∀ x ∈ s.takeWhile isSpace, isSpace x = true := fun x hx => List.mem_takeWhile_imp hx
  have hv : ∀ y ys, s.dropWhile isSpace = y :: ys → isSpace y = false :=
    fun y ys h => dropWhile_head _ _ _ _ h
  have hlen : s.length = (s.takeWhile isSpace).length + (s.dropWhile isSpace).length := by
    have := congrArg List.length hlv
    simp only [List.length_append] at this
    omega
  rw [regexTrimmed, Re.run_seq, Re.opt, Re.run_alt, Re.run_group]
  by_cases hl : s.takeWhile isSpace = []
  · have hs : s.dropWhile isSpace = s := by
      rw [hl] at hlv
      simpa using hlv
    have hf : Re.run start (Re.plus reSpace) (fun pos1 s1 c1 =>
        Re.run start (.seq (Re.opt (.group 2 (.seq (Re.plus reNonSpace)
            (.star (.seq (Re.plus reSpace) (Re.plus reNonSpace))))))
          (Re.opt (.group 3 (Re.plus reSpace)))) kEnd pos1 s1 ((1, ⟨pos, pos1⟩) :: c1))
        pos s [] = none := by
      apply run_plus_chr_fail start isSpace
      intro y ys hy
      rw [← hs] at hy
      exact hv y ys hy
    rw [hf]
    simp only [Re.run_eps, Re.run_seq]
    have := run_trimmed_2 start s pos [] (by rw [← hs]; exact hv)
    rw [this]
    simp [trimmedCaps, hl, hs]
  · have hg : Re.run start (Re.plus reSpace) (fun pos1 s1 c1 =>
        Re.run start (.seq (Re.opt (.group 2 (.seq (Re.plus reNonSpace)
            (.star (.seq (Re.plus reSpace) (Re.plus reNonSpace))))))
          (Re.opt (.group 3 (Re.plus reSpace)))) kEnd pos1 s1 ((1, ⟨pos, pos1⟩) :: c1))
        pos s [] = some ⟨pos + s.length, trimmedCaps pos s⟩ := by
      conv => lhs; arg 5; rw [← hlv]
      apply run_plus_chr_greedy start isSpace _ _ _ pos [] _ hl hls hv
      simp only [Re.run_seq]
      have := run_trimmed_2 start (s.dropWhile isSpace) (pos + (s.takeWhile isSpace).length)
        [(1, ⟨pos, pos + (s.takeWhile isSpace).length⟩)] hv
      rw [this]
      have e : pos + (s.takeWhile isSpace).length + (s.dropWhile isSpace).length =
          pos + s.length := by omega
      rw [e]
      simp only [trimmedCaps, hl, ↓reduceIte, List.append_assoc]
    rw [hg]

/-- The sub-matches of a match with the groups `trimmedCaps`. -/
theorem trimmedCaps_sub (pos : Nat) (s : List Char) (stop : Nat) :
    (Match.sub ⟨stop, trimmedCaps pos s⟩ 1 =
      if s.takeWhile isSpace = [] then none
      else some ⟨pos, pos + (s.takeWhile isSpace).length⟩) ∧
    (Match.sub ⟨stop, trimmedCaps pos s⟩ 2 =
      if trimEnd (s.dropWhile isSpace) = [] then none
      else some ⟨pos + (s.takeWhile isSpace).length,
        pos + (s.takeWhile isSpace).length + (trimEnd (s.dropWhile isSpace)).length⟩) ∧
    (Match.sub ⟨stop, trimmedCaps pos s⟩ 3 =
      if (s.dropWhile isSpace).drop (trimEnd (s.dropWhile isSpace)).length = [] then none
      else some ⟨pos + (s.takeWhile isSpace).length + (trimEnd (s.dropWhile isSpace)).length,
        pos + s.length⟩) := by
  unfold trimmedCaps Match.sub
  generalize (s.dropWhile isSpace).drop (trimEnd (s.dropWhile isSpace)).length = A
  generalize trimEnd (s.dropWhile isSpace) = B
  generalize s.takeWhile isSpace = L
  refine ⟨?_, ?_, ?_⟩ <;>
  · by_cases h1 : A = [] <;> by_cases h2 : B = [] <;> by_cases h3 : L = [] <;>
    simp only [h1, h2, h3, if_true, if_false, List.nil_append, List.append_nil,
      List.singleton_append, List.find?, Option.map] <;> rfl

theorem collapse_cons_nonspace (x : Char) (xs : List Char) (hx : isSpace x = false) :
    collapse (x :: xs) = x :: collapse xs := by
  cases xs with
  | nil => simp [collapse, hx]
  | cons y ys => simp [collapse, hx]

theorem collapse_nonspaces_append (a r : List Char) (ha : ∀ x ∈ a, isSpace x = false) :
    collapse (a ++ r) = a ++ collapse r := by
  induction a with
  | nil => rfl
  | cons x xs ih =>
    rw [List.cons_append, collapse_cons_nonspace _ _ (ha x (List.mem_cons_self _ _)),
      ih (fun y hy => ha y (List.mem_cons_of_mem _ hy))]
    rfl

theorem collapse_spaces_append (g r : List Char) (hne : g ≠ [])
    (hg : ∀ x ∈ g, isSpace x = true) (hr : ∀ y ys, r = y :: ys → isSpace y = false) :
    collapse (g ++ r) = ' ' :: collapse r := by
  induction g with
  | nil => exact absurd rfl hne
  | cons x xs ih =>
    have hx := hg x (List.mem_cons_self _ _)
    cases xs with
    | nil =>
      cases r with
      | nil => simp [collapse, hx]
      | cons y ys => simp [collapse, hx, hr y ys rfl]
    | cons x2 xs2 =>
      have hx2 := hg x2 (by simp)
      have := ih (by simp) (fun y hy => hg y (List.mem_cons_of_mem _ hy))
      simp only [List.cons_append] at this ⊢
      rw [← this]
      simp [collapse, hx, hx2]

theorem regex_search_cons (re : Re) (start pos : Nat) (x : Char) (xs : List Char) :
    regex_search re start pos (x :: xs) =
      match Re.run start re (fun pos1 _ c => some ⟨pos1, c⟩) pos (x :: xs) [] with
      | some m => some (pos, m)
      | none => regex_search re start (pos + 1) xs := rfl

/-- A search for `\s+` finds the first run of white space, whole. -/
theorem regex_search_spaces (start : Nat) (g r : List Char) (hne : g ≠ [])
    (hg : ∀ x ∈ g, isSpace x = true) (hr : ∀ y ys, r = y :: ys → isSpace y = false) :
    ∀ (a : List Char) (pos : Nat), (∀ x ∈ a, isSpace x = false) →
      regex_search (Re.plus reSpace) start pos (a ++ (g ++ r)) =
        some (pos + a.length, ⟨pos + a.length + g.length, []⟩) := by
  intro a
  induction a with
  | nil =>
    intro pos _
    have hm := run_plus_chr_greedy start isSpace g r (fun pos1 _ c => some ⟨pos1, c⟩) pos []
      ⟨pos + g.length, []⟩ hne hg hr rfl
    cases hgr : g ++ r with
    | nil =>
      cases g with
      | nil => exact absurd rfl hne
      | cons _ _ => cases hgr
    | cons x xs =>
      rw [hgr] at hm
      simp only [List.nil_append, hgr, regex_search]
      rw [show Re.run start (Re.plus reSpace) (fun pos1 _ c => some ⟨pos1, c⟩) pos (x :: xs) [] =
        some ⟨pos + g.length, []⟩ from hm]
      simp
  | cons y ys ih =>
    intro pos ha
    have hy : isSpace y = false := ha y (List.mem_cons_self _ _)
    have hf : Re.run start (Re.plus reSpace) (fun pos1 _ c => some ⟨pos1, c⟩) pos
        (y :: (ys ++ (g ++ r))) [] = none :=
      run_plus_chr_fail start isSpace _ _ pos [] (fun z zs hz => by cases hz; exact hy)
    rw [List.cons_append, regex_search_cons, hf]
    simp only
    rw [ih (pos + 1) (fun z hz => ha z (List.mem_cons_of_mem _ hz))]
    simp only [List.length_cons]
    congr 2
    · omega
    · congr 1
      omega

/-- A search for `\s+` finds nothing where there is no white space. -/
theorem regex_search_no_spaces (start : Nat) :
    ∀ (a : List Char) (pos : Nat), (∀ x ∈ a, isSpace x = false) →
      regex_search (Re.plus reSpace) start pos a = none := by
  intro a
  induction a with
  | nil =>
    intro pos _
    simp only [regex_search]
    rw [show Re.run start (Re.plus reSpace) (fun pos1 _ c => some ⟨pos1, c⟩) pos [] [] = none
      from run_plus_chr_fail start isSpace _ _ pos [] (fun z zs hz => by cases hz)]
    rfl
  | cons y ys ih =>
    intro pos ha
    have hy : isSpace y = false := ha y (List.mem_cons_self _ _)
    have hf : Re.run start (Re.plus reSpace) (fun pos1 _ c => some ⟨pos1, c⟩) pos
        (y :: ys) [] = none :=
      run_plus_chr_fail start isSpace _ _ pos [] (fun z zs hz => by cases hz; exact hy)
    rw [regex_search_cons, hf]
    exact ih (pos + 1) (fun z hz => ha z (List.mem_cons_of_mem _ hz))

theorem collapse_nonspaces (a : List Char) (ha : ∀ x ∈ a, isSpace x = false) :
    collapse a = a := by
  have := collapse_nonspaces_append a [] ha
  simpa [collapse] using this

/-- Replacing `\s+` by one space collapses every run of white space. -/
theorem regex_replace_spaces :
    ∀ (len : Nat) (t : List Char), t.length = len → ∀ (fuel pos : Nat), t.length ≤ fuel →
      regex_replace_loop (Re.plus reSpace) [' '] fuel pos t = collapse t := by
  intro len
  induction len using Nat.strong_induction_on with
  | _ len ih =>
    intro t hlen fuel pos hf
    have hav : t.takeWhile (fun x => !isSpace x) ++ t.dropWhile (fun x => !isSpace x) = t :=
      List.takeWhile_append_dropWhile _ _
    have has : ∀ x ∈ t.takeWhile (fun x => !isSpace x), isSpace x = false := by
      intro x hx
      have := List.mem_takeWhile_imp hx
      simpa using this
    have hrest : ∀ y ys, t.dropWhile (fun x => !isSpace x) = y :: ys → isSpace y = true := by
      intro y ys h
      have := dropWhile_head _ _ _ _ h
      simpa using this
    generalize had : t.takeWhile (fun x => !isSpace x) = a at *
    generalize hrd : t.dropWhile (fun x => !isSpace x) = rest at *
    cases hrc : rest with
    | nil =>
      rw [hrc, List.append_nil] at hav
      subst hav
      rw [collapse_nonspaces a has]
      cases fuel with
      | zero => rfl
      | succ n =>
        simp only [regex_replace_loop]
        rw [regex_search_no_spaces pos a pos has]
    | cons y ys =>
      have hy : isSpace y = true := hrest y ys hrc
      have hgv : rest.takeWhile isSpace ++ rest.dropWhile isSpace = rest :=
        List.takeWhile_append_dropWhile _ _
      have hgs : ∀ x ∈ rest.takeWhile isSpace, isSpace x = true :=
        fun x hx => List.mem_takeWhile_imp hx
      have hg : rest.takeWhile isSpace ≠ [] := by
        rw [hrc]
        exact takeWhile_ne_nil _ _ _ hy
      have ht' : ∀ z zs, rest.dropWhile isSpace = z :: zs → isSpace z = false :=
        fun z zs h => dropWhile_head _ _ _ _ h
      generalize hgd : rest.takeWhile isSpace = g at *
      generalize htd : rest.dropWhile isSpace = t' at *
      have ht : t = a ++ (g ++ t') := by rw [hgv]; exact hav.symm
      have hgl : 0 < g.length := List.length_pos.mpr hg
      have hl : t.length = a.length + (g.length + t'.length) := by
        rw [ht]
        simp
      cases fuel with
      | zero => omega
      | succ n =>
        simp only [regex_replace_loop]
        rw [ht, regex_search_spaces pos g t' hg hgs ht' a pos has]
        simp only
        rw [if_neg (by omega)]
        have e1 : pos + a.length - pos = a.length := by omega
        have e2 : pos + a.length + g.length - pos = a.length + g.length := by omega
        rw [e1, e2, List.take_left, ← List.drop_drop, List.drop_left, List.drop_left]
        rw [ih t'.length (by omega) t' rfl n _ (by omega)]
        rw [collapse_nonspaces_append a _ has, collapse_spaces_append g t' hg hgs ht']
        simp

theorem regex_replace_spaces_eq (t : List Char) :
    regex_replace (Re.plus reSpace) [' '] t = collapse t :=
  regex_replace_spaces t.length t rfl _ _ (le_refl _)

theorem content_length (doc : Doc) (it : Span) (h1 : it.first ≤ it.second)
    (h2 : it.second ≤ doc.length) : (it.content doc).length = it.second - it.first := by
  simp only [Span.content, List.length_take, List.length_drop]
  omega

/-- The content of a span that lies in another span. -/
theorem content_sub (doc : Doc) (it : Span) (a b : Nat)
    (hb : b ≤ (it.content doc).length) :
    Span.content doc ⟨it.first + a, it.first + b⟩ = ((it.content doc).drop a).take (b - a) := by
  simp only [Span.content, List.length_take, List.length_drop] at hb ⊢
  rw [List.drop_take, List.take_take, List.drop_drop]
  congr 1
  omega

/-- The three parts of a list: white space, then `trimEnd` of the rest, then white space. -/
theorem lead_core_trail (s : List Char) :
    s.takeWhile isSpace ++ (trimEnd (s.dropWhile isSpace) ++
      (s.dropWhile isSpace).drop (trimEnd (s.dropWhile isSpace)).length) = s := by
  rw [(trimEnd_append_drop _).1]
  exact List.takeWhile_append_dropWhile _ _

/-- Function `toString` with `normalize` and `removeSurrSpaces`: the white space at both ends
is removed and every other run of white space becomes one space. -/
theorem toString_trim (doc : Doc) (it : Span) (h1 : it.first ≤ it.second)
    (h2 : it.second ≤ doc.length) :
    toString doc it true true = collapse (trimEnd ((it.content doc).dropWhile isSpace)) := by
  have hlen := content_length doc it h1 h2
  have hparts := lead_core_trail (it.content doc)
  have hpl := congrArg List.length hparts
  simp only [List.length_append] at hpl
  unfold toString
  simp only [Bool.not_true, Bool.false_eq_true, ↓reduceIte, Bool.false_and]
  rw [regex_match_eq]
  rw [show (doc.drop it.first).take (it.second - it.first) = it.content doc from rfl]
  rw [regexTrimmed_run]
  simp only
  rw [regex_replace_spaces_eq]
  congr 1
  have hs := (trimmedCaps_sub it.first (it.content doc) (it.first + (it.content doc).length)).2.1
  simp only [Match.matched, Match.get, hs]
  by_cases hc : trimEnd ((it.content doc).dropWhile isSpace) = []
  · simp only [hc, ↓reduceIte, Option.isSome_none, Bool.false_eq_true]
    simp [Span.content]
  · simp only [hc, ↓reduceIte, Option.isSome_some, Option.getD_some]
    rw [Nat.add_assoc, content_sub doc it _ _ (by omega)]
    conv => lhs; arg 2; arg 2; rw [← hparts]
    rw [List.drop_left]
    simp

theorem trimEnd_idem (s : List Char) : trimEnd (trimEnd s) = trimEnd s := by
  induction s with
  | nil => rfl
  | cons x xs ih =>
    cases hx : isSpace x with
    | false => rw [trimEnd_cons_nonspace _ _ hx, trimEnd_cons_nonspace _ _ hx, ih]
    | true =>
      rw [trimEnd_cons_space _ _ hx]
      split
      · rfl
      · rename_i h
        rw [trimEnd_cons_space _ _ hx, ih, if_neg h]

theorem collapse_cons_cons (x y : Char) (r : List Char) :
    collapse (x :: y :: r) =
      if isSpace x then (if isSpace y then collapse (y :: r) else ' ' :: collapse (y :: r))
      else x :: collapse (y :: r) := by
  simp [collapse]

theorem collapse_spaces (R : List Char) (hR : ∀ x ∈ R, isSpace x = true) :
    collapse R = if R = [] then [] else [' '] := by
  by_cases h : R = []
  · subst h
    rfl
  · have := collapse_spaces_append R [] h hR (fun y ys hy => by cases hy)
    rw [List.append_nil] at this
    rw [this, if_neg h]
    rfl

theorem collapse_append_spaces (R : List Char) (hR : ∀ x ∈ R, isSpace x = true) :
    ∀ (C : List Char), trimEnd C = C → C ≠ [] →
      collapse (C ++ R) = collapse C ++ (if R = [] then [] else [' ']) := by
  intro C
  induction C with
  | nil => intro _ h; exact absurd rfl h
  | cons x xs ih =>
    intro hC _
    cases xs with
    | nil =>
      have hx : isSpace x = false := by
        cases hx : isSpace x with
        | false => rfl
        | true =>
          rw [trimEnd_cons_space _ _ hx] at hC
          simp [trimEnd] at hC
      rw [List.singleton_append, collapse_cons_nonspace _ _ hx, collapse_cons_nonspace _ _ hx,
        collapse_spaces R hR]
      rfl
    | cons y ys =>
      have hys : trimEnd (y :: ys) = y :: ys := by
        cases hx : isSpace x with
        | false =>
          rw [trimEnd_cons_nonspace _ _ hx] at hC
          exact List.tail_eq_of_cons_eq hC
        | true =>
          rw [trimEnd_cons_space _ _ hx] at hC
          split at hC
          · cases hC
          · exact List.tail_eq_of_cons_eq hC
      have := ih hys (by simp)
      rw [List.cons_append, List.cons_append, collapse_cons_cons, collapse_cons_cons]
      rw [List.cons_append] at this
      rw [this]
      split
      · split <;> rfl
      · rfl

/-- The normal form of `collapse` on white space, then a text without white space at its
ends, then white space. -/
theorem collapse_parts (L C R : List Char) (hL : ∀ x ∈ L, isSpace x = true)
    (hC : trimEnd C = C) (hCh : ∀ y ys, C = y :: ys → isSpace y = false)
    (hR : ∀ x ∈ R, isSpace x = true) (hCR : C = [] → R = []) :
    collapse (L ++ (C ++ R)) =
      (if L = [] then [] else [' ']) ++ (collapse C ++ (if R = [] then [] else [' '])) := by
  have hin : collapse (C ++ R) = collapse C ++ (if R = [] then [] else [' ']) := by
    by_cases hc : C = []
    · have := hCR hc
      subst hc this
      rfl
    · exact collapse_append_spaces R hR C hC hc
  by_cases hl : L = []
  · subst hl
    simpa using hin
  · rw [collapse_spaces_append L (C ++ R) hl hL, hin, if_neg hl]
    · rfl
    · intro y ys hy
      cases C with
      | nil =>
        rw [hCR rfl] at hy
        cases hy
      | cons c cs =>
        cases hy
        exact hCh _ _ rfl

/-- Keeping one character of the white space at each end does not change `collapse`. -/
theorem collapse_pad (L C R : List Char) (hL : ∀ x ∈ L, isSpace x = true)
    (hC : trimEnd C = C) (hCh : ∀ y ys, C = y :: ys → isSpace y = false)
    (hR : ∀ x ∈ R, isSpace x = true) (hCR : C = [] → R = []) :
    collapse (((L ++ (C ++ R)).drop (L.length - 1)).take
        (L.length + C.length + (if R = [] then 0 else 1) - (L.length - 1))) =
      collapse (L ++ (C ++ R)) := by
  rw [collapse_parts L C R hL hC hCh hR hCR]
  have hRt : (C ++ R).take (C.length + (if R = [] then 0 else 1)) =
      C ++ (if R = [] then [] else R.take 1) := by
    rw [List.take_append]
    by_cases hr : R = [] <;> simp [hr]
  have hR1 : ∀ x ∈ (if R = [] then [] else R.take 1), isSpace x = true := by
    intro x hx
    split at hx
    · cases hx
    · exact hR x (List.mem_of_mem_take hx)
  have hR1e : (if R = [] then ([] : List Char) else R.take 1) = [] ↔ R = [] := by
    by_cases hr : R = []
    · simp [hr]
    · cases R with
      | nil => exact absurd rfl hr
      | cons r rs => simp
  have hCR1 : C = [] → (if R = [] then ([] : List Char) else R.take 1) = [] := by
    intro hc
    rw [hR1e]
    exact hCR hc
  rcases List.eq_nil_or_concat L with hl | ⟨init, l, hl⟩
  · subst hl
    simp only [List.length_nil, Nat.zero_sub, List.nil_append, List.drop_zero, Nat.zero_add,
      Nat.sub_zero, ↓reduceIte]
    rw [hRt]
    have := collapse_parts [] C _ (fun x hx => by cases hx) hC hCh hR1 hCR1
    simp only [List.nil_append, ↓reduceIte] at this
    rw [this]
    by_cases hr : R = []
    · simp [hr]
    · have h1 : ¬ (R.take 1 = []) := by
        cases R with
        | nil => exact absurd rfl hr
        | cons r rs => simp
      simp [hr, h1]
  · rw [List.concat_eq_append] at hl
    subst hl
    have hl' : isSpace l = true := hL l (by simp)
    have hne : init ++ [l] ≠ [] := by simp
    have e1 : (init ++ [l]).length - 1 = init.length := by simp
    have e2 : (init ++ [l]).length + C.length + (if R = [] then 0 else 1) - init.length =
        1 + (C.length + (if R = [] then 0 else 1)) := by
      simp only [List.length_append, List.length_singleton]
      omega
    rw [e1, e2, List.append_assoc, List.drop_left]
    rw [show [l] ++ (C ++ R) = l :: (C ++ R) from rfl, Nat.add_comm 1, List.take_succ_cons,
      hRt]
    have := collapse_parts [l] C _ (fun x hx => by
      simp only [List.mem_singleton] at hx; rw [hx]; exact hl') hC hCh hR1 hCR1
    rw [show l :: (C ++ if R = [] then [] else List.take 1 R) =
      [l] ++ (C ++ if R = [] then [] else List.take 1 R) from rfl, this]
    simp only [hR1e, List.cons_ne_self, ↓reduceIte, if_neg hne]

theorem toString_pad (doc : Doc) (it : Span) (h1 : it.first ≤ it.second)
    (h2 : it.second ≤ doc.length) :
    toString doc it true false = collapse (it.content doc) := by
  have hlen := content_length doc it h1 h2
  have hparts := lead_core_trail (it.content doc)
  have hpl := congrArg List.length hparts
  simp only [List.length_append] at hpl
  have hL : ∀ x ∈ (it.content doc).takeWhile isSpace, isSpace x = true :=
    fun x hx => List.mem_takeWhile_imp hx
  have hR := (trimEnd_append_drop ((it.content doc).dropWhile isSpace)).2
  have hCR0 := (trimEnd_append_drop ((it.content doc).dropWhile isSpace)).1
  have hC := trimEnd_idem ((it.content doc).dropWhile isSpace)
  have hD := dropWhile_head isSpace (it.content doc)
  have hCh : ∀ y ys, trimEnd ((it.content doc).dropWhile isSpace) = y :: ys →
      isSpace y = false := by
    intro y ys h
    rw [h] at hCR0
    exact hD y _ hCR0.symm
  have hCR : trimEnd ((it.content doc).dropWhile isSpace) = [] →
      ((it.content doc).dropWhile isSpace).drop
        (trimEnd ((it.content doc).dropWhile isSpace)).length = [] := by
    intro h
    have hall := trimEnd_eq_nil _ h
    cases hd : (it.content doc).dropWhile isSpace with
    | nil => rfl
    | cons y ys =>
      have := hD y ys hd
      rw [hall y (by rw [hd]; exact List.mem_cons_self _ _)] at this
      cases this
  have key := collapse_pad _ _ _ hL hC hCh hR hCR
  rw [hparts] at key
  unfold toString
  simp only [Bool.not_true, Bool.false_eq_true, ↓reduceIte, Bool.not_false, Bool.true_and]
  rw [regex_match_eq]
  rw [show (doc.drop it.first).take (it.second - it.first) = it.content doc from rfl]
  rw [regexTrimmed_run]
  simp only
  rw [regex_replace_spaces_eq]
  obtain ⟨hs1, hs2, hs3⟩ :=
    trimmedCaps_sub it.first (it.content doc) (it.first + (it.content doc).length)
  simp only [Match.matched, Match.get, hs1, hs2, hs3]
  have hb : (List.takeWhile isSpace (it.content doc)).length +
      (trimEnd (List.dropWhile isSpace (it.content doc))).length +
      (if List.drop (trimEnd (List.dropWhile isSpace (it.content doc))).length
        (List.dropWhile isSpace (it.content doc)) = [] then 0 else 1) ≤
      (it.content doc).length := by
    split
    · omega
    · rename_i hne
      have := List.length_pos.mpr hne
      omega
  rw [← key, ← content_sub doc it _ _ hb]
  congr 2
  generalize (it.content doc).takeWhile isSpace = L at *
  generalize hCdef : trimEnd ((it.content doc).dropWhile isSpace) = C at *
  generalize ((it.content doc).dropWhile isSpace).drop C.length = R at *
  have hl0 : L = [] ↔ L.length = 0 := List.length_eq_zero.symm
  have hc0 : C = [] ↔ C.length = 0 := List.length_eq_zero.symm
  have hr0 : R = [] ↔ R.length = 0 := List.length_eq_zero.symm
  by_cases hl : L = [] <;> by_cases hc : C = [] <;> by_cases hr : R = [] <;>
    simp only [hl, hc, hr, ↓reduceIte, Option.isSome_none, Option.isSome_some,
      Option.getD_some, Bool.false_eq_true, Span.mk.injEq] <;>
    (try (have hh := hCR hc; contradiction)) <;>
    (simp only [hl0, hc0, hr0] at hl hc hr; simp only [List.length_nil] at *;
     constructor <;> first | exact True.intro | omega)

theorem wordsGo_nonspaces (w : List Char) (hw : ∀ x ∈ w, isSpace x = false) :
    ∀ (cur r : List Char), wordsGo cur (w ++ r) = wordsGo (cur ++ w) r := by
  induction w with
  | nil => intro cur r; simp
  | cons x xs ih =>
    intro cur r
    rw [List.cons_append, wordsGo, if_neg (by rw [hw x (List.mem_cons_self _ _)]; simp),
      ih (fun y hy => hw y (List.mem_cons_of_mem _ hy))]
    simp

theorem wordsOf_cons_space (x : Char) (xs : List Char) (hx : isSpace x = true) :
    wordsOf (x :: xs) = wordsOf xs := by
  simp [wordsOf, wordsGo, hx]

theorem wordsOf_spaces_append (g r : List Char) (hg : ∀ x ∈ g, isSpace x = true) :
    wordsOf (g ++ r) = wordsOf r := by
  induction g with
  | nil => rfl
  | cons x xs ih =>
    rw [List.cons_append, wordsOf_cons_space _ _ (hg x (List.mem_cons_self _ _)),
      ih (fun y hy => hg y (List.mem_cons_of_mem _ hy))]

/-- A maximal run at the beginning of the text is its first word. -/
theorem wordsOf_word_append (w r : List Char) (hne : w ≠ [])
    (hw : ∀ x ∈ w, isSpace x = false) (hr : ∀ y ys, r = y :: ys → isSpace y = true) :
    wordsOf (w ++ r) = w :: wordsOf r := by
  unfold wordsOf
  rw [wordsGo_nonspaces w hw, List.nil_append]
  cases r with
  | nil => simp [wordsGo, hne]
  | cons y ys => simp [wordsGo, hne, hr y ys rfl]

theorem wordsOf_nil : wordsOf [] = [] := rfl

/-- A text that begins with a character that is not white space is either one run, or a run,
white space and a shorter text of the same kind. -/
theorem word_split (u : List Char) (hne : u ≠ [])
    (hu : ∀ y ys, u = y :: ys → isSpace y = false) :
    ∃ a r, u = a ++ r ∧ a ≠ [] ∧ (∀ x ∈ a, isSpace x = false) ∧
      (∀ y ys, r = y :: ys → isSpace y = true) ∧
      (r = [] ∨ ∃ g t, r = g ++ t ∧ g ≠ [] ∧ (∀ x ∈ g, isSpace x = true) ∧
        (∀ z zs, t = z :: zs → isSpace z = false) ∧ t.length < u.length) := by
  have hav : u.takeWhile (fun x => !isSpace x) ++ u.dropWhile (fun x => !isSpace x) = u :=
    List.takeWhile_append_dropWhile _ _
  have has : ∀ x ∈ u.takeWhile (fun x => !isSpace x), isSpace x = false := by
    intro x hx
    have := List.mem_takeWhile_imp hx
    simpa using this
  have hrest : ∀ y ys, u.dropWhile (fun x => !isSpace x) = y :: ys → isSpace y = true := by
    intro y ys h
    have := dropWhile_head _ _ _ _ h
    simpa using this
  have hane : u.takeWhile (fun x => !isSpace x) ≠ [] := by
    cases u with
    | nil => exact absurd rfl hne
    | cons y ys => exact takeWhile_ne_nil _ _ _ (by rw [hu y ys rfl]; rfl)
  refine ⟨_, _, hav.symm, hane, has, hrest, ?_⟩
  generalize u.takeWhile (fun x => !isSpace x) = a at *
  generalize u.dropWhile (fun x => !isSpace x) = rest at *
  cases hrc : rest with
  | nil => exact Or.inl rfl
  | cons y ys =>
    right
    rw [← hrc]
    have hy : isSpace y = true := hrest y ys hrc
    have hgv : rest.takeWhile isSpace ++ rest.dropWhile isSpace = rest :=
      List.takeWhile_append_dropWhile _ _
    have hg : rest.takeWhile isSpace ≠ [] := by
      rw [hrc]
      exact takeWhile_ne_nil _ _ _ hy
    refine ⟨_, _, hgv.symm, hg, fun x hx => List.mem_takeWhile_imp hx,
      fun z zs h => dropWhile_head _ _ _ _ h, ?_⟩
    have h1 := congrArg List.length hav
    have h2 := congrArg List.length hgv
    simp only [List.length_append] at h1 h2
    have := List.length_pos.mpr hane
    omega

theorem joinWords_cons (w : List Char) (ws : List (List Char)) (h : ws ≠ []) :
    joinWords (w :: ws) = w ++ ' ' :: joinWords ws := by
  cases ws with
  | nil => exact absurd rfl h
  | cons v vs => rfl

theorem wordsOf_ne_nil (t : List Char) (hne : t ≠ [])
    (ht : ∀ y ys, t = y :: ys → isSpace y = false) : wordsOf t ≠ [] := by
  obtain ⟨a, r, hu, ha, has, hr, _⟩ := word_split t hne ht
  rw [hu, wordsOf_word_append a r ha has hr]
  simp

theorem trimEnd_ne_nil (t : List Char) (hne : t ≠ [])
    (ht : ∀ y ys, t = y :: ys → isSpace y = false) : trimEnd t ≠ [] := by
  intro h
  cases t with
  | nil => exact hne rfl
  | cons y ys =>
    have := trimEnd_eq_nil _ h y (List.mem_cons_self _ _)
    rw [ht y ys rfl] at this
    cases this

theorem trimEnd_head (t : List Char) (ht : ∀ y ys, t = y :: ys → isSpace y = false) :
    ∀ y ys, trimEnd t = y :: ys → isSpace y = false := by
  intro y ys h
  have := (trimEnd_append_drop t).1
  rw [h] at this
  exact ht y _ this.symm

/-- The text without the white space at its end, with the runs of white space collapsed, is
the words of the text joined by single spaces. -/
theorem collapse_trimEnd_words :
    ∀ (len : Nat) (u : List Char), u.length = len →
      (∀ y ys, u = y :: ys → isSpace y = false) →
      collapse (trimEnd u) = joinWords (wordsOf u) := by
  intro len
  induction len using Nat.strong_induction_on with
  | _ len ih =>
    intro u hlen hu
    by_cases hne : u = []
    · subst hne
      rfl
    · obtain ⟨a, r, hua, ha, has, hr, hcase⟩ := word_split u hne hu
      rw [hua, wordsOf_word_append a r ha has hr, trimEnd_append_nonspaces a r has,
        collapse_nonspaces_append a _ has]
      rcases hcase with hr0 | ⟨g, t, hrg, hg, hgs, ht, hlt⟩
      · subst hr0
        simp [trimEnd, collapse, wordsOf_nil, joinWords]
      · by_cases htn : t = []
        · subst htn
          have := wordsOf_spaces_append g [] hgs
          rw [List.append_nil] at this
          rw [hrg, List.append_nil, trimEnd_spaces g hgs, this]
          simp [collapse, wordsOf_nil, joinWords]
        · have h1 := trimEnd_ne_nil t htn ht
          rw [hrg, trimEnd_append_of_ne_nil g t h1, wordsOf_spaces_append g t hgs,
            collapse_spaces_append g _ hg hgs (trimEnd_head t ht),
            joinWords_cons a _ (wordsOf_ne_nil t htn ht),
            ih t.length (by omega) t rfl ht]

theorem wordsOf_dropWhile (s : List Char) : wordsOf (s.dropWhile isSpace) = wordsOf s := by
  conv => rhs; rw [← List.takeWhile_append_dropWhile isSpace s]
  rw [wordsOf_spaces_append _ _ (fun x hx => List.mem_takeWhile_imp hx)]

/-- Function `toString` with `normalize` and `removeSurrSpaces` gives the words of the span
joined by single spaces. -/
theorem toString_trim_words (doc : Doc) (it : Span) (h1 : it.first ≤ it.second)
    (h2 : it.second ≤ doc.length) :
    toString doc it true true = joinWords (wordsOf (it.content doc)) := by
  rw [toString_trim doc it h1 h2,
    collapse_trimEnd_words _ _ rfl (dropWhile_head isSpace (it.content doc)),
    wordsOf_dropWhile]

theorem trimEnd_getLast (t : List Char) :
    ∀ x, (trimEnd t).getLast? = some x → isSpace x = false := by
  induction t with
  | nil => intro x h; cases h
  | cons y ys ih =>
    intro x h
    cases hy : isSpace y with
    | false =>
      rw [trimEnd_cons_nonspace _ _ hy] at h
      cases ht : trimEnd ys with
      | nil =>
        rw [ht] at h
        cases h
        exact hy
      | cons z zs =>
        rw [ht, List.getLast?_cons_cons] at h
        exact ih x (by rw [ht]; exact h)
    | true =>
      rw [trimEnd_cons_space _ _ hy] at h
      split at h
      · cases h
      · rename_i hne
        cases ht : trimEnd ys with
        | nil => exact absurd ht hne
        | cons z zs =>
          rw [ht, List.getLast?_cons_cons] at h
          exact ih x (by rw [ht]; exact h)

theorem startsWithSpace_iff (s : List Char) :
    startsWithSpace s = true ↔ s.takeWhile isSpace ≠ [] := by
  cases s with
  | nil => simp [startsWithSpace]
  | cons x xs =>
    cases hx : isSpace x <;> simp [startsWithSpace, List.takeWhile, hx]

theorem endsWithSpace_append (g t : List Char) (ht : t ≠ []) :
    endsWithSpace (g ++ t) = endsWithSpace t := by
  unfold endsWithSpace
  rw [List.getLast?_append_of_ne_nil _ ht]

theorem any_nonspace_false (g : List Char) (hg : ∀ x ∈ g, isSpace x = true) :
    g.any (fun x => !isSpace x) = false := by
  rw [List.any_eq_false]
  intro x hx
  simp [hg x hx]

/-- The text ends with white space and has a character that is not white space exactly when
white space follows its last character that is not white space. -/
theorem endsWithSpace_iff (s : List Char) :
    (endsWithSpace s && s.any (fun x => !isSpace x)) = true ↔
      (s.dropWhile isSpace).drop (trimEnd (s.dropWhile isSpace)).length ≠ [] := by
  have hs : s.takeWhile isSpace ++ s.dropWhile isSpace = s := List.takeWhile_append_dropWhile _ _
  have hL : ∀ x ∈ s.takeWhile isSpace, isSpace x = true := fun x hx => List.mem_takeWhile_imp hx
  have hD := dropWhile_head isSpace s
  have hCR := trimEnd_append_drop (s.dropWhile isSpace)
  have hlast := trimEnd_getLast (s.dropWhile isSpace)
  generalize s.takeWhile isSpace = L at *
  generalize s.dropWhile isSpace = t at *
  generalize hC : trimEnd t = C at *
  generalize t.drop C.length = R at *
  obtain ⟨hCR, hR⟩ := hCR
  by_cases ht : t = []
  · subst ht
    rw [List.append_nil] at hs
    subst hs
    have : R = [] := by
      cases C <;> simp_all
    rw [any_nonspace_false _ hL]
    simp [this]
  · have hany : s.any (fun x => !isSpace x) = true := by
      cases t with
      | nil => exact absurd rfl ht
      | cons y ys =>
        rw [← hs, List.any_append]
        simp [hD y ys rfl]
    rw [hany, Bool.and_true, ← hs, endsWithSpace_append _ _ ht, ← hCR]
    by_cases hr : R = []
    · subst hr
      rw [List.append_nil]
      unfold endsWithSpace
      cases hl : C.getLast? with
      | none => simp
      | some x => simp [hlast x hl]
    · rw [endsWithSpace_append _ _ hr]
      unfold endsWithSpace
      cases hl : R.getLast? with
      | none =>
        rw [List.getLast?_eq_none_iff] at hl
        exact absurd hl hr
      | some x =>
        simp [hr, hR x (List.mem_of_getLast?_eq_some hl)]

/-- Collapsing the runs of white space gives the padded words. -/
theorem collapse_eq_padded (s : List Char) : collapse s = padded s := by
  have hparts := lead_core_trail s
  have hL : ∀ x ∈ s.takeWhile isSpace, isSpace x = true := fun x hx => List.mem_takeWhile_imp hx
  have hR := (trimEnd_append_drop (s.dropWhile isSpace)).2
  have hC := trimEnd_idem (s.dropWhile isSpace)
  have hD := dropWhile_head isSpace s
  have hCh := trimEnd_head _ hD
  have hCR : trimEnd (s.dropWhile isSpace) = [] →
      (s.dropWhile isSpace).drop (trimEnd (s.dropWhile isSpace)).length = [] := by
    intro h
    by_cases hd : s.dropWhile isSpace = []
    · rw [hd]
      rfl
    · exact absurd h (trimEnd_ne_nil _ hd hD)
  have key := collapse_parts _ _ _ hL hC hCh hR hCR
  rw [hparts, collapse_trimEnd_words _ _ rfl hD, wordsOf_dropWhile] at key
  rw [key]
  unfold padded
  have e1 := startsWithSpace_iff s
  have e2 := endsWithSpace_iff s
  congr 1
  · by_cases h : s.takeWhile isSpace = []
    · have : startsWithSpace s = false := by
        cases hb : startsWithSpace s with
        | false => rfl
        | true => exact absurd h (e1.mp hb)
      rw [if_pos h, this]
      rfl
    · rw [if_neg h, e1.mpr h]
      rfl
  · congr 1
    by_cases h : (s.dropWhile isSpace).drop (trimEnd (s.dropWhile isSpace)).length = []
    · have : (endsWithSpace s && s.any (fun x => !isSpace x)) = false := by
        cases hb : (endsWithSpace s && s.any (fun x => !isSpace x)) with
        | false => rfl
        | true => exact absurd h (e2.mp hb)
      rw [if_pos h, this]
      rfl
    · rw [if_neg h, e2.mpr h]
      rfl

/-- A literal matches only where the input begins with it. -/
theorem run_lit_begins (start : Nat) :
    ∀ (e : List Char) (k : Cont) (pos : Nat) (s : List Char) (c : Caps) (m : Match),
      Re.run start (Re.lit e) k pos s c = some m → e <+: s := by
  intro e
  induction e with
  | nil => intro _ _ s _ _ _; exact List.nil_prefix
  | cons x xs ih =>
    intro k pos s c m h
    cases xs with
    | nil =>
      cases s with
      | nil => simp [Re.lit, Re.char, Re.run] at h
      | cons y ys =>
        simp only [Re.lit, Re.char, Re.run] at h
        split at h
        · rename_i hy
          have : y = x := by simpa using hy
          subst this
          exact (List.cons_prefix_cons).mpr ⟨rfl, List.nil_prefix⟩
        · cases h
    | cons x2 xs2 =>
      cases s with
      | nil => simp [Re.lit, Re.char, Re.run] at h
      | cons y ys =>
        rw [Re.lit, Re.run_seq] at h
        · simp only [Re.char, Re.run] at h
          split at h
          · rename_i hy
            have : y = x := by simpa using hy
            subst this
            exact (List.cons_prefix_cons).mpr ⟨rfl, ih _ _ _ _ _ h⟩
          · cases h
        · intro hh
          cases hh

theorem regex_search_lit_none (start : Nat) (e : List Char) :
    ∀ (s : List Char) (pos : Nat), ¬ e <:+: s → regex_search (Re.lit e) start pos s = none := by
  intro s
  induction s with
  | nil =>
    intro pos h
    simp only [regex_search]
    cases hr : Re.run start (Re.lit e) (fun pos1 _ c => some ⟨pos1, c⟩) pos [] [] with
    | none => rfl
    | some m => exact absurd (run_lit_begins start e _ _ _ _ _ hr).isInfix h
  | cons x xs ih =>
    intro pos h
    rw [regex_search_cons]
    cases hr : Re.run start (Re.lit e) (fun pos1 _ c => some ⟨pos1, c⟩) pos (x :: xs) [] with
    | none =>
      exact ih (pos + 1) (fun hi => h (List.infix_cons hi))
    | some m => exact absurd (run_lit_begins start e _ _ _ _ _ hr).isInfix h

/-- Replacing a literal that does not occur changes nothing. -/
theorem regex_replace_lit_none (e fmt s : List Char) (h : ¬ e <:+: s) :
    regex_replace (Re.lit e) fmt s = s := by
  unfold regex_replace
  cases s.length with
  | zero => rfl
  | succ n =>
    simp only [regex_replace_loop]
    rw [regex_search_lit_none 0 e s 0 h]

/-- Function `fixEscapes` changes nothing where there is no escape sequence. -/
theorem fixEscapes_none (s : List Char) (h : ∀ e ∈ escapeSequences, ¬ e <:+: s) :
    fixEscapes s = s := by
  have h1 : ¬ "&lt;".toList <:+: s := h _ (by simp [escapeSequences])
  have h2 : ¬ "&gt;".toList <:+: s := h _ (by simp [escapeSequences])
  have h3 : ¬ "&amp;".toList <:+: s := h _ (by simp [escapeSequences])
  have h4 : ¬ "&apos;".toList <:+: s := h _ (by simp [escapeSequences])
  have h5 : ¬ "&quot;".toList <:+: s := h _ (by simp [escapeSequences])
  unfold fixEscapes
  simp only [List.foldl]
  rw [regex_replace_lit_none _ _ s h1, regex_replace_lit_none _ _ s h2,
    regex_replace_lit_none _ _ s h3, regex_replace_lit_none _ _ s h4,
    regex_replace_lit_none _ _ s h5]

theorem collapse_space_cons (x : Char) (xs : List Char) (hx : isSpace x = true) :
    collapse (x :: xs) = collapse xs ∨ collapse (x :: xs) = ' ' :: collapse xs := by
  cases xs with
  | nil => right; simp [collapse, hx]
  | cons y ys =>
    rw [collapse_cons_cons, if_pos hx]
    cases hy : isSpace y
    · right; simp
    · left; simp

theorem collapse_space_head (xs : List Char) :
    ∀ (x : Char), isSpace x = true → ∃ u, collapse (x :: xs) = ' ' :: u := by
  induction xs with
  | nil => intro x hx; exact ⟨[], by simp [collapse, hx]⟩
  | cons y ys ih =>
    intro x hx
    rw [collapse_cons_cons, if_pos hx]
    cases hy : isSpace y
    · exact ⟨collapse (y :: ys), by simp⟩
    · obtain ⟨u, hu⟩ := ih y hy
      exact ⟨u, by simpa using hu⟩

theorem prefix_collapse (s : List Char) :
    ∀ (e : List Char), (∀ x ∈ e, isSpace x = false) → e <+: collapse s → e <+: s := by
  induction s with
  | nil => intro e _ h; simpa [collapse] using h
  | cons x xs ih =>
    intro e he h
    cases e with
    | nil => exact List.nil_prefix
    | cons c e1 =>
      have hc : isSpace c = false := he c (List.mem_cons_self _ _)
      cases hx : isSpace x with
      | true =>
        obtain ⟨u, hu⟩ := collapse_space_head xs x hx
        rw [hu, List.cons_prefix_cons] at h
        rw [h.1] at hc
        exact absurd hc (by decide)
      | false =>
        rw [collapse_cons_nonspace _ _ hx, List.cons_prefix_cons] at h
        exact (List.cons_prefix_cons).mpr
          ⟨h.1, ih e1 (fun y hy => he y (List.mem_cons_of_mem _ hy)) h.2⟩

/-- A text without white space that occurs in the collapsed text occurs in the text. -/
theorem infix_collapse (e : List Char) (he : ∀ x ∈ e, isSpace x = false) :
    ∀ (s : List Char), e <:+: collapse s → e <:+: s := by
  intro s
  induction s with
  | nil => intro h; simpa [collapse] using h
  | cons x xs ih =>
    intro h
    cases hx : isSpace x with
    | false =>
      have hp : collapse (x :: xs) = x :: collapse xs := collapse_cons_nonspace _ _ hx
      rw [hp, List.infix_cons_iff] at h
      rcases h with h | h
      · rw [← hp] at h
        exact (prefix_collapse _ e he h).isInfix
      · exact List.infix_cons (ih h)
    | true =>
      rcases collapse_space_cons x xs hx with hp | hp
      · rw [hp] at h
        exact List.infix_cons (ih h)
      · have hp2 := hp
        rw [hp, List.infix_cons_iff] at h
        rcases h with h | h
        · rw [← hp2] at h
          exact (prefix_collapse _ e he h).isInfix
        · exact List.infix_cons (ih h)

theorem escapeSequences_nonspace : ∀ e ∈ escapeSequences, ∀ x ∈ e, isSpace x = false := by
  decide

/-- Function `toStringValue` on a span without escape sequences. -/
theorem toStringValue_padded (doc : Doc) (it : Span) (h1 : it.first ≤ it.second)
    (h2 : it.second ≤ doc.length) (hesc : ∀ e ∈ escapeSequences, ¬ e <:+: it.content doc) :
    toStringValue doc it = padded (it.content doc) := by
  unfold toStringValue
  rw [toString_pad doc it h1 h2, fixEscapes_none, collapse_eq_padded]
  intro e he hin
  exact hesc e he (infix_collapse e (escapeSequences_nonspace e he) _ hin)

theorem wordsOf_spaces (s : List Char) (h : ∀ x ∈ s, isSpace x = true) : wordsOf s = [] := by
  have := wordsOf_spaces_append s [] h
  rwa [List.append_nil] at this

theorem padded_spaces (s : List Char) (hne : s ≠ []) (h : ∀ x ∈ s, isSpace x = true) :
    padded s = [' '] := by
  unfold padded
  rw [wordsOf_spaces s h, any_nonspace_false s h]
  cases s with
  | nil => exact absurd rfl hne
  | cons x xs => simp [startsWithSpace, h x (List.mem_cons_self _ _), joinWords]

/-- Claim C9: for every span of the document, `toStringCdata` (`toString` with `normalize`
and `removeSurrSpaces`) gives the maximal runs of characters of the span that are not white
space, in order, joined by single spaces; escape sequences stay as they are; a span of white
space only, or an empty span, gives the empty string; `"  a   b  "` gives `"a b"`. -/
theorem C9_cdata_words_joined (doc : Doc) (it : Span) (h1 : it.first ≤ it.second)
    (h2 : it.second ≤ doc.length) :
    toStringCdata doc it = joinWords (wordsOf (it.content doc)) ∧
    ((∀ x ∈ it.content doc, isSpace x = true) → toStringCdata doc it = []) ∧
    toStringCdata "  a   b  ".toList ⟨0, 9⟩ = "a b".toList ∧
    toStringCdata "<![CDATA[ x &lt;  &amp;y\t]]>".toList ⟨9, 25⟩ = "x &lt; &amp;y".toList := by
  have h := toString_trim_words doc it h1 h2
  refine ⟨h, ?_, by decide, by decide⟩
  intro hs
  unfold toStringCdata
  rw [h, wordsOf_spaces _ hs]
  rfl

theorem C9_cdata_words_joined_witness :
    toStringCdata "<a> p  q </a>".toList ⟨3, 9⟩ =
      joinWords (wordsOf (Span.content "<a> p  q </a>".toList ⟨3, 9⟩)) :=
  (C9_cdata_words_joined "<a> p  q </a>".toList ⟨3, 9⟩ (by decide) (by decide)).1

/-- Claim C10: for every span of the document without escape sequence, `toStringValue` gives
the maximal runs of characters that are not white space joined by single spaces, with one
space in front exactly when the span begins with white space, and one space behind exactly when
the span ends with white space and has a character that is not white space; a span of white
space only gives one space and the empty span gives the empty string. -/
theorem C10_value_padded (doc : Doc) (it : Span) (h1 : it.first ≤ it.second)
    (h2 : it.second ≤ doc.length) (hesc : ∀ e ∈ escapeSequences, ¬ e <:+: it.content doc) :
    toStringValue doc it = padded (it.content doc) ∧
    (it.content doc ≠ [] → (∀ x ∈ it.content doc, isSpace x = true) →
      toStringValue doc it = [' ']) ∧
    (it.content doc = [] → toStringValue doc it = []) ∧
    toStringValue "  a   b  ".toList ⟨0, 9⟩ = " a b ".toList ∧
    toStringValue " ".toList ⟨0, 1⟩ = " ".toList ∧
    toStringValue "  ".toList ⟨0, 2⟩ = " ".toList ∧
    toStringValue "  \t\t  ".toList ⟨0, 6⟩ = " ".toList := by
  have h := toStringValue_padded doc it h1 h2 hesc
  refine ⟨h, ?_, ?_, by decide, by decide, by decide, by decide⟩
  · intro hne hs
    rw [h, padded_spaces _ hne hs]
  · intro he
    rw [h, he]
    rfl

theorem C10_value_padded_witness :
    toStringValue "<a p=' x  y'/>".toList ⟨6, 11⟩ =
      padded (Span.content "<a p=' x  y'/>".toList ⟨6, 11⟩) :=
  (C10_value_padded "<a p=' x  y'/>".toList ⟨6, 11⟩ (by decide) (by decide) (by decide)).1

theorem Re.run_chr_cons (start : Nat) (p : Char → Bool) (k : Cont) (pos : Nat) (x : Char)
    (xs : List Char) (c : Caps) :
    Re.run start (.chr p) k pos (x :: xs) c = if p x then k (pos + 1) xs c else none := rfl

theorem Re.run_chr_nil (start : Nat) (p : Char → Bool) (k : Cont) (pos : Nat) (c : Caps) :
    Re.run start (.chr p) k pos [] c = none := rfl

theorem Re.run_nla (start : Nat) (a : Re) (k : Cont) (pos : Nat) (s : List Char) (c : Caps) :
    Re.run start (.nla a) k pos s c =
      match Re.run start a (fun pos1 _ c1 => some ⟨pos1, c1⟩) pos s c with
      | some _ => none
      | none => k pos s c := rfl

theorem Re.run_bol (start : Nat) (k : Cont) (pos : Nat) (s : List Char) (c : Caps) :
    Re.run start .bol k pos s c = if pos = start then k pos s c else none := rfl

theorem run_lit_append (start : Nat) :
    ∀ (e : List Char) (k : Cont) (pos : Nat) (rest : List Char) (c : Caps),
      Re.run start (Re.lit e) k pos (e ++ rest) c = k (pos + e.length) rest c := by
  intro e
  induction e with
  | nil => intro k pos rest c; rfl
  | cons x xs ih =>
    intro k pos rest c
    cases xs with
    | nil => simp [Re.lit, Re.char, Re.run]
    | cons y ys =>
      rw [Re.lit, Re.run_seq]
      · simp only [Re.char, Re.run, List.cons_append, beq_self_eq_true, ↓reduceIte]
        have := ih (k) (pos + 1) rest c
        simp only [List.cons_append] at this
        rw [this]
        congr 1
        simp only [List.length_cons]
        omega
      · intro hh
        cases hh

theorem run_lit_none (start : Nat) (e : List Char) (k : Cont) (pos : Nat) (s : List Char)
    (c : Caps) (h : ¬ e <+: s) : Re.run start (Re.lit e) k pos s c = none := by
  cases hr : Re.run start (Re.lit e) k pos s c with
  | none => rfl
  | some m => exact absurd (run_lit_begins start e _ _ _ _ _ hr) h

/-- The body of a comment, `(?:[^-]|-(?!->))*`, followed by `-->`: the comment ends at the
first `-->`. -/
theorem run_comment_body (start : Nat) (rest : List Char) :
    ∀ (b : List Char), ¬ "-->".toList <:+: b ++ "--".toList →
      ∀ (k : Cont) (pos : Nat) (c : Caps) (m : Match),
        k (pos + b.length + 3) rest c = some m →
        Re.run start (.star (.alt (.chr (fun x => x != '-'))
            (.seq (Re.char '-') (.nla (Re.lit "->".toList)))))
          (Re.run start (Re.lit "-->".toList) k) pos (b ++ ("-->".toList ++ rest)) c = some m := by
  intro b
  induction b with
  | nil =>
    intro _ k pos c m hk
    rw [Re.run_star]
    have hb : Re.run start (.alt (.chr (fun x => x != '-'))
        (.seq (Re.char '-') (.nla (Re.lit "->".toList))))
        (fun pos1 s1 c1 =>
          if s1.length < ([] ++ ("-->".toList ++ rest)).length then
            Re.run start (.star (.alt (.chr (fun x => x != '-'))
              (.seq (Re.char '-') (.nla (Re.lit "->".toList)))))
              (Re.run start (Re.lit "-->".toList) k) pos1 s1 c1
          else none) pos ([] ++ ("-->".toList ++ rest)) c = none := by
      simp [Re.run, Re.lit, Re.char]
    rw [hb]
    simp only [List.nil_append]
    rw [run_lit_append]
    simpa using hk
  | cons x b ih =>
    intro hno k pos c m hk
    have hno1 : ¬ "-->".toList <:+: b ++ "--".toList := by
      intro h
      exact hno (by rw [List.cons_append]; exact List.infix_cons h)
    have hrec := ih hno1 k (pos + 1) c m (by
      rw [← hk]
      congr 1
      simp only [List.length_cons]
      omega)
    rw [Re.run_star]
    by_cases hx : x = '-'
    · subst hx
      have hnl : Re.run start (Re.lit "->".toList) (fun pos1 _ c1 => some ⟨pos1, c1⟩) (pos + 1)
          (b ++ ("-->".toList ++ rest)) c = none := by
        apply run_lit_none
        intro hp
        apply hno
        have h3 : "-->".toList <+: '-' :: (b ++ ("-->".toList ++ rest)) := by
          rw [show "-->".toList = '-' :: "->".toList from rfl]
          exact (List.cons_prefix_cons).mpr ⟨rfl, hp⟩
        have h4 : "-->".toList <+: ('-' :: b ++ "--".toList) ++ (">".toList ++ rest) := by
          simpa using h3
        have h5 := List.prefix_of_prefix_length_le h4 (List.prefix_append _ _)
          (by simp)
        exact h5.isInfix
      rw [List.cons_append, Re.run_alt, Re.run_chr_cons, Re.run_seq, Re.char, Re.run_chr_cons,
        Re.run_nla, hnl]
      simp only [bne_self_eq_false, Bool.false_eq_true, ↓reduceIte, beq_self_eq_true,
        List.length_cons, Nat.lt_succ_self]
      rw [Re.char] at hrec
      rw [hrec]
    · have hx2 : (x != '-') = true := by simpa using hx
      rw [List.cons_append, Re.run_alt, Re.run_chr_cons]
      simp only [hx2, ↓reduceIte, List.length_cons, Nat.lt_succ_self]
      rw [hrec]

/-- Pattern `getReComment` on a comment that ends at its first `-->`. -/
theorem run_comment (start : Nat) (b rest : List Char)
    (hb : ¬ "-->".toList <:+: b ++ "--".toList) (k : Cont) (pos : Nat) (c : Caps) (m : Match)
    (hk : k (pos + (Piece.text (.comment b)).length) rest c = some m) :
    Re.run start getReComment k pos (Piece.text (.comment b) ++ rest) c = some m := by
  unfold getReComment Piece.text
  rw [Re.run_seq, List.append_assoc, run_lit_append, Re.run_seq, List.append_assoc]
  apply run_comment_body start rest b hb
  rw [← hk]
  congr 1
  simp only [Piece.text, List.length_append]
  have : "<!--".toList.length = 4 := rfl
  have : "-->".toList.length = 3 := rfl
  omega

theorem run_comment_none (start : Nat) (k : Cont) (pos : Nat) (s : List Char) (c : Caps)
    (h : ¬ "<!--".toList <+: s) : Re.run start getReComment k pos s c = none := by
  unfold getReComment
  rw [Re.run_seq]
  exact run_lit_none _ _ _ _ _ _ h

theorem piecesText_cons (p : Piece) (w : List Piece) :
    piecesText (p :: w) = p.text ++ piecesText w := by
  simp [piecesText]

theorem piecesText_append (w1 w2 : List Piece) :
    piecesText (w1 ++ w2) = piecesText w1 ++ piecesText w2 := by
  simp [piecesText]

/-- A run of pieces is white space, then nothing or a comment and more pieces. -/
theorem pieces_split (w : List Piece) (hw : ∀ p ∈ w, p.ok = true) :
    ∃ g w2, piecesText w = g ++ piecesText w2 ∧ (∀ x ∈ g, isSpace x = true) ∧
      (∀ p ∈ w2, p.ok = true) ∧ w2.length ≤ w.length ∧
      (w2 = [] ∨ ∃ b w3, w2 = .comment b :: w3) := by
  induction w with
  | nil => exact ⟨[], [], rfl, (fun x hx => by cases hx), (fun p hp => by cases hp), le_refl _,
      Or.inl rfl⟩
  | cons p w ih =>
    cases p with
    | space x =>
      obtain ⟨g, w2, h1, h2, h3, h4, h5⟩ := ih (fun q hq => hw q (List.mem_cons_of_mem _ hq))
      have hx : isSpace x = true := hw (.space x) (List.mem_cons_self _ _)
      refine ⟨x :: g, w2, ?_, ?_, h3, ?_, h5⟩
      · rw [piecesText_cons, h1]
        rfl
      · intro y hy
        rcases List.mem_cons.mp hy with rfl | hy
        · exact hx
        · exact h2 y hy
      · simp only [List.length_cons]
        omega
    | comment b =>
      exact ⟨[], .comment b :: w, rfl, (fun x hx => by cases hx), hw, le_refl _,
        Or.inr ⟨b, w, rfl⟩⟩

theorem pieces_head (w2 : List Piece) (r : List Char)
    (hr : ∀ y ys, r = y :: ys → isSpace y = false)
    (h : w2 = [] ∨ ∃ b w3, w2 = .comment b :: w3) :
    ∀ y ys, piecesText w2 ++ r = y :: ys → isSpace y = false := by
  intro y ys hy
  rcases h with rfl | ⟨b, w3, rfl⟩
  · exact hr y ys hy
  · rw [piecesText_cons] at hy
    simp only [Piece.text] at hy
    have : y = '<' := by
      have := congrArg List.head? hy
      simpa using this.symm
    rw [this]
    decide

/-- One iteration of `spacesAndComments` on a run of pieces, where the loop goes on on what
is left. -/
theorem run_skipItem (start : Nat) (r : List Char)
    (hr1 : ∀ y ys, r = y :: ys → isSpace y = false) (k : Cont) (c : Caps) (m : Match)
    (w : List Piece) (hw : ∀ p ∈ w, p.ok = true) (hne : w ≠ []) (K : Cont) (pos : Nat)
    (hK : ∀ pos1 s1 c1, s1.length < (piecesText w ++ r).length →
      K pos1 s1 c1 = Re.run start (.star reSkipItem) k pos1 s1 c1)
    (ih : ∀ w1 : List Piece, (∀ p ∈ w1, p.ok = true) → w1.length < w.length → ∀ pos1,
      k (pos1 + (piecesText w1).length) r c = some m →
      Re.run start (.star reSkipItem) k pos1 (piecesText w1 ++ r) c = some m)
    (hk : k (pos + (piecesText w).length) r c = some m) :
    Re.run start reSkipItem K pos (piecesText w ++ r) c = some m := by
  cases w with
  | nil => exact absurd rfl hne
  | cons p w1 =>
    have hw1 : ∀ q ∈ w1, q.ok = true := fun q hq => hw q (List.mem_cons_of_mem _ hq)
    obtain ⟨g, w2, h1, h2, h3, h4, h5⟩ := pieces_split w1 hw1
    have hhead := pieces_head w2 r hr1 h5
    have hlen1 : (piecesText w1).length = g.length + (piecesText w2).length := by
      rw [h1, List.length_append]
    cases p with
    | space x =>
      have hx : isSpace x = true := hw (.space x) (List.mem_cons_self _ _)
      have hs : piecesText (.space x :: w1) ++ r = (x :: g) ++ (piecesText w2 ++ r) := by
        rw [piecesText_cons, h1]
        simp [Piece.text]
      have hlen : (piecesText (.space x :: w1)).length = g.length + 1 + (piecesText w2).length := by
        rw [piecesText_cons, List.length_append, hlen1]
        simp only [Piece.text, List.length_singleton]
        omega
      rw [hs] at hK ⊢
      unfold reSkipItem
      rw [Re.run_alt]
      have hp : Re.run start (Re.plus reSpace) K pos ((x :: g) ++ (piecesText w2 ++ r)) c =
          some m := by
        apply run_plus_chr_greedy start isSpace (x :: g) (piecesText w2 ++ r) K pos c m
          (by simp) _ hhead
        · rw [hK _ _ _ (by simp only [List.length_append, List.length_cons]; omega)]
          apply ih w2 h3 (by simp only [List.length_cons]; omega)
          rw [← hk, hlen]
          congr 1
          simp only [List.length_cons]
          omega
        · intro y hy
          rcases List.mem_cons.mp hy with rfl | hy
          · exact hx
          · exact h2 y hy
      rw [hp]
    | comment b =>
      have hb : ¬ "-->".toList <:+: b ++ "--".toList := by
        have := hw (.comment b) (List.mem_cons_self _ _)
        simpa [Piece.ok] using this
      have hs : piecesText (.comment b :: w1) ++ r =
          Piece.text (.comment b) ++ (g ++ (piecesText w2 ++ r)) := by
        rw [piecesText_cons, h1]
        simp
      have hlen : (piecesText (.comment b :: w1)).length =
          (Piece.text (.comment b)).length + (g.length + (piecesText w2).length) := by
        rw [piecesText_cons, List.length_append, hlen1]
      have hlt : 0 < (Piece.text (.comment b)).length := by
        simp [Piece.text]
      rw [hs] at hK ⊢
      have hfirst : ∀ y ys, Piece.text (.comment b) ++ (g ++ (piecesText w2 ++ r)) = y :: ys →
          isSpace y = false := by
        intro y ys hy
        simp only [Piece.text] at hy
        have : y = '<' := by
          have := congrArg List.head? hy
          simpa using this.symm
        rw [this]
        decide
      unfold reSkipItem
      have hf : Re.run start (Re.plus reSpace) K pos
          (Piece.text (.comment b) ++ (g ++ (piecesText w2 ++ r))) c = none :=
        run_plus_chr_fail start isSpace _ K pos c hfirst
      rw [Re.run_alt, hf]
      simp only
      rw [Re.run_seq]
      have h0 := run_star_chr_greedy start isSpace _ hfirst []
        (Re.run start (.seq getReComment (.star reSpace)) K) pos c m (fun x hx => by cases hx)
      simp only [List.nil_append, List.length_nil, Nat.add_zero] at h0
      apply h0
      rw [Re.run_seq]
      apply run_comment start b _ hb
      apply run_star_chr_greedy start isSpace _ hhead g K _ c m h2
      rw [hK _ _ _ (by simp only [List.length_append]; omega)]
      apply ih w2 h3 (by simp only [List.length_cons]; omega)
      rw [← hk, hlen]
      congr 1
      omega

theorem run_star_chr_stop (start : Nat) (p : Char → Bool) (k : Cont) (pos : Nat)
    (s : List Char) (c : Caps) (hs : ∀ y ys, s = y :: ys → p y = false) :
    Re.run start (.star (.chr p)) k pos s c = k pos s c := by
  rw [Re.run_star]
  cases s with
  | nil => rfl
  | cons y ys =>
    rw [Re.run_chr_cons, hs y ys rfl]
    rfl

theorem run_skipItem_none (start : Nat) (r : List Char)
    (hr1 : ∀ y ys, r = y :: ys → isSpace y = false) (hr2 : ¬ "<!--".toList <+: r)
    (K : Cont) (pos : Nat) (c : Caps) :
    Re.run start reSkipItem K pos r c = none := by
  unfold reSkipItem
  have hf : Re.run start (Re.plus reSpace) K pos r c = none :=
    run_plus_chr_fail start isSpace _ K pos c hr1
  rw [Re.run_alt, hf]
  simp only
  rw [Re.run_seq]
  have hst : Re.run start (.star reSpace) (Re.run start (.seq getReComment (.star reSpace)) K)
      pos r c = Re.run start (.seq getReComment (.star reSpace)) K pos r c :=
    run_star_chr_stop start isSpace _ pos r c hr1
  rw [hst, Re.run_seq]
  exact run_comment_none _ _ _ _ _ hr2

/-- The loop of `spacesAndComments` takes a whole run of pieces, when what follows the run
is neither white space nor the beginning of a comment. -/
theorem run_skip_star (start : Nat) (r : List Char)
    (hr1 : ∀ y ys, r = y :: ys → isSpace y = false) (hr2 : ¬ "<!--".toList <+: r)
    (k : Cont) (c : Caps) (m : Match) :
    ∀ (n : Nat) (w : List Piece), w.length = n → (∀ p ∈ w, p.ok = true) → ∀ pos,
      k (pos + (piecesText w).length) r c = some m →
      Re.run start (.star reSkipItem) k pos (piecesText w ++ r) c = some m := by
  intro n
  induction n using Nat.strong_induction_on with
  | _ n ih =>
    intro w hn hw pos hk
    rw [Re.run_star]
    by_cases hne : w = []
    · subst hne
      rw [show piecesText [] ++ r = r from rfl, run_skipItem_none start _ hr1 hr2]
      simpa [piecesText] using hk
    · rw [run_skipItem start r hr1 k c m w hw hne _ pos _ _ hk]
      · intro pos1 s1 c1 hlt
        rw [if_pos hlt]
      · intro w1 hw1 hlt pos1 hk1
        exact ih w1.length (by omega) w1 rfl hw1 pos1 hk1

theorem run_skip_plus (start : Nat) (r : List Char)
    (hr1 : ∀ y ys, r = y :: ys → isSpace y = false) (hr2 : ¬ "<!--".toList <+: r)
    (k : Cont) (c : Caps) (m : Match) (w : List Piece) (hw : ∀ p ∈ w, p.ok = true)
    (hne : w ≠ []) (pos : Nat) (hk : k (pos + (piecesText w).length) r c = some m) :
    Re.run start (Re.plus reSkipItem) k pos (piecesText w ++ r) c = some m := by
  unfold Re.plus
  rw [Re.run_seq]
  apply run_skipItem start r hr1 k c m w hw hne _ pos _ _ hk
  · intro pos1 s1 c1 _
    rfl
  · intro w1 hw1 _ pos1 hk1
    exact run_skip_star start r hr1 hr2 k c m w1.length w1 rfl hw1 pos1 hk1

theorem take_drop_all (doc : Doc) (p : Nat) :
    (doc.drop p).take (doc.length - p) = doc.drop p := by
  apply List.take_of_length_le
  simp

/-- Function `skipSpacesAndComments` goes over a run of white space and comments, when what
follows is neither white space nor the beginning of a comment. -/
theorem skipSpacesAndComments_pieces (doc : Doc) (p : Nat) (w : List Piece) (r : List Char)
    (hw : ∀ q ∈ w, q.ok = true) (hr1 : ∀ y ys, r = y :: ys → isSpace y = false)
    (hr2 : ¬ "<!--".toList <+: r) (hd : doc.drop p = piecesText w ++ r) :
    skipSpacesAndComments doc p = p + (piecesText w).length := by
  unfold skipSpacesAndComments regex_search_continuous
  rw [take_drop_all, hd]
  rw [show spacesAndComments = .seq .bol (Re.plus reSkipItem) from rfl, Re.run_seq, Re.run_bol,
    if_pos rfl]
  by_cases hne : w = []
  · subst hne
    unfold Re.plus
    rw [Re.run_seq, show piecesText [] ++ r = r from rfl, run_skipItem_none p r hr1 hr2]
    rfl
  · rw [run_skip_plus p r hr1 hr2 _ [] ⟨p + (piecesText w).length, []⟩ w hw hne p rfl]

theorem isSpace_toNat (x : Char) (h : isSpace x = true) :
    x.toNat = 32 ∨ (9 ≤ x.toNat ∧ x.toNat ≤ 13) := by
  simpa [isSpace, Nat.ble_eq] using h

theorem isNameChar_of_isSpace (x : Char) (h : isSpace x = true) : isNameChar x = false := by
  have hn := isSpace_toNat x h
  have h1 : x ≠ '_' := by
    intro e
    subst e
    revert hn
    decide
  have h2 : x ≠ '.' := by
    intro e
    subst e
    revert hn
    decide
  have h3 : x ≠ '-' := by
    intro e
    subst e
    revert hn
    decide
  simp only [isNameChar, isWord, isAlpha, isDigit, Bool.or_eq_false_iff, Bool.and_eq_false_iff,
    Nat.ble_eq, beq_eq_false_iff_ne, ne_eq, h1, h2, h3, not_false_eq_true, and_true,
    Bool.not_eq_true', decide_eq_false_iff_not, Nat.not_le]
  simp only [← Bool.not_eq_true, Nat.ble_eq]
  omega

theorem isSpace_of_isNameStart (x : Char) (h : isNameStart x = true) : isSpace x = false := by
  cases hs : isSpace x with
  | false => rfl
  | true =>
    have hn := isSpace_toNat x hs
    have h1 : x ≠ '_' := by
      intro e
      subst e
      revert hn
      decide
    simp only [isNameStart, isAlpha, Bool.or_eq_true, Bool.and_eq_true, Nat.ble_eq,
      beq_iff_eq, h1, or_false] at h
    omega

/-- Pattern `getReName` takes a whole name, when no character of a name follows. -/
theorem run_name (start : Nat) (n rest : List Char) (hn : isName n = true)
    (hrest : ∀ y ys, rest = y :: ys → isNameChar y = false) (k : Cont) (pos : Nat) (c : Caps)
    (m : Match) (hk : k (pos + n.length) rest c = some m) :
    Re.run start getReName k pos (n ++ rest) c = some m := by
  cases n with
  | nil => cases hn
  | cons x xs =>
    simp only [isName, Bool.and_eq_true] at hn
    unfold getReName
    rw [Re.run_seq, List.cons_append, Re.run_chr_cons,
      if_pos (show (isAlpha x || x == '_') = true from hn.1)]
    apply run_star_chr_greedy start (fun x => isWord x || x == '.' || x == '-') rest hrest xs
    · intro y hy
      exact List.all_eq_true.mp hn.2 y hy
    · rw [← hk]
      congr 1
      simp only [List.length_cons]
      omega

theorem run_name_none (start : Nat) (s : List Char) (k : Cont) (pos : Nat) (c : Caps)
    (hs : ∀ y ys, s = y :: ys → isNameStart y = false) :
    Re.run start getReName k pos s c = none := by
  unfold getReName
  rw [Re.run_seq]
  cases s with
  | nil => rfl
  | cons y ys =>
    rw [Re.run_chr_cons, if_neg]
    have := hs y ys rfl
    simp only [isNameStart] at this
    simp [this]

/-- The greedy `*` of a character class or something else takes the longest run of the
class, when what follows the `*` then matches. -/
theorem run_star_alt_chr_greedy (start : Nat) (p : Char → Bool) (a : Re) (rest : List Char)
    (hrest : ∀ y ys, rest = y :: ys → p y = false)
    (ha : ∀ (k : Cont) (pos : Nat) (c : Caps), Re.run start a k pos rest c = none) :
    ∀ (pre : List Char) (k : Cont) (pos : Nat) (c : Caps) (m : Match),
      (∀ x ∈ pre, p x = true) → k (pos + pre.length) rest c = some m →
      Re.run start (.star (.alt (.chr p) a)) k pos (pre ++ rest) c = some m := by
  intro pre
  induction pre with
  | nil =>
    intro k pos c m _ hk
    rw [Re.run_star, List.nil_append, Re.run_alt, ha]
    cases hr : rest with
    | nil =>
      rw [Re.run_chr_nil]
      simpa [hr] using hk
    | cons y ys =>
      rw [Re.run_chr_cons, hrest y ys hr]
      simpa [hr] using hk
  | cons x pre ih =>
    intro k pos c m hp hk
    rw [Re.run_star, List.cons_append, Re.run_alt, Re.run_chr_cons,
      if_pos (hp x (List.mem_cons_self _ _))]
    simp only [List.length_cons, Nat.lt_succ_self, ↓reduceIte]
    rw [ih k (pos + 1) c m (fun y hy => hp y (List.mem_cons_of_mem _ hy)) (by
      rw [← hk]
      congr 1
      simp only [List.length_cons]
      omega)]

/-- Pattern `value` takes the characters up to the closing `"`. -/
theorem run_value (start : Nat) (v rest : List Char) (hv : v.all isValueChar = true)
    (k : Cont) (pos : Nat) (c : Caps) (m : Match)
    (hk : k (pos + v.length) ('"' :: rest) c = some m) :
    Re.run start reValue k pos (v ++ '"' :: rest) c = some m := by
  unfold reValue
  apply run_star_alt_chr_greedy start (fun x => x != '<' && x != '"') _ ('"' :: rest) _ _ v k
    pos c m _ hk
  · intro y ys h
    cases h
    rfl
  · intro k1 pos1 c1
    rw [Re.run_seq, Re.char, Re.run_chr_cons, if_neg (by decide)]
  · intro x hx
    exact List.all_eq_true.mp hv x hx

theorem all_space (g : List Char) (h : g.all isSpace = true) : ∀ x ∈ g, isSpace x = true :=
  fun x hx => List.all_eq_true.mp h x hx

/-- Pattern `\s+` name `\s*=\s*"` value `"` on the characters of `name="value"`. -/
theorem run_pseudoAttr (start : Nat) (a : PseudoAttr) (ha : a.ok = true) (rest : List Char)
    (k : Cont) (pos : Nat) (c : Caps) (m : Match)
    (hk : k (pos + a.text.length) rest c = some m) :
    Re.run start rePseudoAttribute k pos (a.text ++ rest) c = some m := by
  simp only [PseudoAttr.ok, Bool.and_eq_true, Bool.not_eq_true', List.isEmpty_eq_false] at ha
  obtain ⟨⟨⟨⟨⟨h1, h2⟩, h3⟩, h4⟩, h5⟩, h6⟩ := ha
  obtain ⟨n0, ns, hname⟩ : ∃ n0 ns, a.name = n0 :: ns := by
    cases hn : a.name with
    | nil => rw [hn] at h3; cases h3
    | cons n0 ns => exact ⟨n0, ns, rfl⟩
  have hn0 : isNameStart n0 = true := by
    rw [hname] at h3
    simp only [isName, Bool.and_eq_true] at h3
    exact h3.1
  have hlen : a.text.length = a.lead.length + (a.name.length + (a.sp1.length +
      (1 + (a.sp2.length + (1 + (a.value.length + 1)))))) := by
    simp only [PseudoAttr.text, List.length_append, List.length_cons, List.length_nil]
    omega
  have htext : a.text ++ rest = a.lead ++ (a.name ++ (a.sp1 ++ ('=' :: (a.sp2 ++
      (a.value ++ '"' :: rest |> fun t => '"' :: t))))) := by
    simp [PseudoAttr.text]
  simp only at htext
  rw [htext]
  unfold rePseudoAttribute
  rw [Re.run_seq]
  apply run_plus_chr_greedy start isSpace a.lead _ _ pos c m (by simpa using h1) (all_space _ h2)
  · intro y ys hy
    rw [hname] at hy
    cases hy
    exact isSpace_of_isNameStart _ hn0
  rw [Re.run_seq]
  apply run_name start a.name _ h3
  · intro y ys hy
    cases hs : a.sp1 with
    | nil =>
      rw [hs] at hy
      cases hy
      decide
    | cons z zs =>
      rw [hs] at hy
      cases hy
      exact isNameChar_of_isSpace _ (all_space _ h4 y (by rw [hs]; exact List.mem_cons_self _ _))
  rw [Re.run_seq]
  apply run_star_chr_greedy start isSpace _ _ a.sp1 _ _ c m (all_space _ h4)
  · rw [Re.run_seq, Re.char, Re.run_chr_cons, if_pos (by decide), Re.run_seq]
    apply run_star_chr_greedy start isSpace _ _ a.sp2 _ _ c m (all_space _ h5)
    · rw [Re.run_seq, Re.char, Re.run_chr_cons, if_pos (by decide), Re.run_seq]
      apply run_value start a.value rest h6
      rw [Re.run_chr_cons, if_pos (by decide), ← hk, hlen]
      congr 1
      omega
    · intro y ys hy
      cases hy
      decide
  · intro y ys hy
    cases hy
    decide

theorem isNameStart_of_isSpace (x : Char) (h : isSpace x = true) : isNameStart x = false := by
  cases hn : isNameStart x with
  | false => rfl
  | true =>
    rw [isSpace_of_isNameStart x hn] at h
    cases h

/-- The greedy `*` of a character class fails when what follows it fails after every part
of the run of the class. -/
theorem run_star_chr_none (start : Nat) (p : Char → Bool) (rest : List Char)
    (hrest : ∀ y ys, rest = y :: ys → p y = false) :
    ∀ (g : List Char) (K : Cont) (pos : Nat) (c : Caps), (∀ x ∈ g, p x = true) →
      (∀ pre suf, g = pre ++ suf → K (pos + pre.length) (suf ++ rest) c = none) →
      Re.run start (.star (.chr p)) K pos (g ++ rest) c = none := by
  intro g
  induction g with
  | nil =>
    intro K pos c _ h
    rw [List.nil_append, run_star_chr_stop start p K pos rest c hrest]
    exact h [] [] rfl
  | cons x g ih =>
    intro K pos c hg h
    rw [Re.run_star, List.cons_append, Re.run_chr_cons, if_pos (hg x (List.mem_cons_self _ _))]
    simp only [List.length_cons, Nat.lt_succ_self, ↓reduceIte]
    rw [ih K (pos + 1) c (fun y hy => hg y (List.mem_cons_of_mem _ hy)) (by
      intro pre suf e
      have := h (x :: pre) suf (by rw [e]; rfl)
      rw [← this]
      congr 1
      simp only [List.length_cons]
      omega)]
    exact h [] (x :: g) rfl

theorem run_plus_chr_none (start : Nat) (p : Char → Bool) (g rest : List Char) (K : Cont)
    (pos : Nat) (c : Caps) (hg : ∀ x ∈ g, p x = true)
    (hrest : ∀ y ys, rest = y :: ys → p y = false)
    (h : ∀ pre suf, g = pre ++ suf → pre ≠ [] → K (pos + pre.length) (suf ++ rest) c = none) :
    Re.run start (Re.plus (.chr p)) K pos (g ++ rest) c = none := by
  cases g with
  | nil => exact run_plus_chr_fail start p _ K pos c hrest
  | cons x g =>
    unfold Re.plus
    rw [Re.run_seq, List.cons_append, Re.run_chr_cons, if_pos (hg x (List.mem_cons_self _ _))]
    apply run_star_chr_none start p rest hrest g K (pos + 1) c
      (fun y hy => hg y (List.mem_cons_of_mem _ hy))
    intro pre suf e
    have := h (x :: pre) suf (by rw [e]; rfl) (by simp)
    rw [← this]
    congr 1
    simp only [List.length_cons]
    omega

/-- Pattern `\s+` name `\s*=\s*"` value `"` fails before `?>`. -/
theorem run_pseudoAttr_none (start : Nat) (sp rest : List Char)
    (hsp : ∀ x ∈ sp, isSpace x = true) (K : Cont) (pos : Nat) (c : Caps) :
    Re.run start rePseudoAttribute K pos (sp ++ '?' :: rest) c = none := by
  unfold rePseudoAttribute
  rw [Re.run_seq]
  apply run_plus_chr_none start isSpace sp ('?' :: rest) _ pos c hsp
  · intro y ys hy
    cases hy
    decide
  · intro pre suf e _
    rw [Re.run_seq]
    apply run_name_none
    intro y ys hy
    cases suf with
    | nil =>
      cases hy
      decide
    | cons z zs =>
      cases hy
      exact isNameStart_of_isSpace _ (hsp y (by rw [e]; simp))

theorem pseudoAttr_text_pos (a : PseudoAttr) : 0 < a.text.length := by
  simp only [PseudoAttr.text, List.length_append, List.length_cons]
  omega

/-- The loop over `name="value"` and the end `\s*\?>` of a declaration or processing
instruction. -/
theorem run_attrs_star (start : Nat) (sp rest : List Char) (hsp : ∀ x ∈ sp, isSpace x = true)
    (k : Cont) (c : Caps) (m : Match) :
    ∀ (attrs : List PseudoAttr), (∀ a ∈ attrs, a.ok = true) → ∀ pos,
      k (pos + (attrs.flatMap PseudoAttr.text).length + sp.length + 2) rest c = some m →
      Re.run start (.star rePseudoAttribute)
        (Re.run start (.seq (.star reSpace) (Re.lit "?>".toList)) k) pos
        (attrs.flatMap PseudoAttr.text ++ (sp ++ ("?>".toList ++ rest))) c = some m := by
  intro attrs
  induction attrs with
  | nil =>
    intro _ pos hk
    rw [Re.run_star, List.flatMap_nil, List.nil_append,
      show sp ++ ("?>".toList ++ rest) = sp ++ '?' :: ('>' :: rest) from rfl,
      run_pseudoAttr_none start sp _ hsp]
    simp only
    rw [Re.run_seq]
    apply run_star_chr_greedy start isSpace _ _ sp _ pos c m hsp
    · rw [show '?' :: '>' :: rest = "?>".toList ++ rest from rfl, run_lit_append, ← hk]
      congr 1
    · intro y ys hy
      cases hy
      decide
  | cons a attrs ih =>
    intro hok pos hk
    have ha := hok a (List.mem_cons_self _ _)
    have hpos := pseudoAttr_text_pos a
    rw [Re.run_star, List.flatMap_cons, List.append_assoc]
    rw [run_pseudoAttr start a ha _ _ pos c m]
    rw [if_pos (by simp only [List.length_append]; omega)]
    apply ih (fun b hb => hok b (List.mem_cons_of_mem _ hb))
    rw [← hk]
    congr 1
    simp only [List.flatMap_cons, List.length_append]
    omega

/-- Pattern `regexXmlDeclaration` matches a declaration, whole. -/
theorem search_declaration (doc : Doc) (p : Nat) (attrs : List PseudoAttr) (sp rest : List Char)
    (hne : attrs ≠ []) (hok : ∀ a ∈ attrs, a.ok = true) (hsp : ∀ x ∈ sp, isSpace x = true)
    (hd : doc.drop p = declText attrs sp ++ rest) :
    regex_search_continuous regexXmlDeclaration doc p doc.length =
      some ⟨p + (declText attrs sp).length, []⟩ := by
  unfold regex_search_continuous
  rw [take_drop_all, hd]
  cases attrs with
  | nil => exact absurd rfl hne
  | cons a attrs =>
    have ha := hok a (List.mem_cons_self _ _)
    unfold regexXmlDeclaration declText
    rw [Re.run_seq, Re.run_bol, if_pos rfl, Re.run_seq, List.append_assoc, run_lit_append]
    unfold Re.plus
    rw [Re.run_seq, List.flatMap_cons, List.append_assoc, List.append_assoc, List.append_assoc,
      List.append_assoc]
    apply run_pseudoAttr p a ha
    apply run_attrs_star _ sp rest hsp _ [] _ attrs (fun b hb => hok b (List.mem_cons_of_mem _ hb))
    simp only [List.length_append, List.flatMap_cons, Option.some.injEq, Match.mk.injEq, and_true]
    have : "<?xml".toList.length = 5 := rfl
    have : "?>".toList.length = 2 := rfl
    omega

/-- Pattern `regexXmlPI` matches a declaration, whole. -/
theorem search_pi_declaration (doc : Doc) (p : Nat) (attrs : List PseudoAttr)
    (sp rest : List Char) (hne : attrs ≠ []) (hok : ∀ a ∈ attrs, a.ok = true)
    (hsp : ∀ x ∈ sp, isSpace x = true) (hd : doc.drop p = declText attrs sp ++ rest) :
    regex_search_continuous regexXmlPI doc p doc.length =
      some ⟨p + (declText attrs sp).length, []⟩ := by
  unfold regex_search_continuous
  rw [take_drop_all, hd]
  unfold regexXmlPI declText
  rw [show "<?xml".toList = "<?".toList ++ "xml".toList from rfl]
  rw [Re.run_seq, Re.run_bol, if_pos rfl, Re.run_seq, List.append_assoc, List.append_assoc,
    run_lit_append, Re.run_seq, List.append_assoc]
  apply run_name _ "xml".toList _ (by decide)
  · intro y ys hy
    cases attrs with
    | nil => exact absurd rfl hne
    | cons a attrs =>
      have ha := hok a (List.mem_cons_self _ _)
      simp only [PseudoAttr.ok, Bool.and_eq_true, Bool.not_eq_true',
        List.isEmpty_eq_false] at ha
      obtain ⟨⟨⟨⟨⟨h1, h2⟩, _⟩, _⟩, _⟩, _⟩ := ha
      cases hl : a.lead with
      | nil => rw [hl] at h1; simp at h1
      | cons z zs =>
        rw [List.flatMap_cons, PseudoAttr.text, hl] at hy
        cases hy
        exact isNameChar_of_isSpace _ (all_space _ h2 y (by rw [hl]; exact List.mem_cons_self _ _))
  · rw [Re.run_seq, List.append_assoc]
    apply run_attrs_star _ sp rest hsp _ [] _ attrs hok
    simp only [List.length_append, Option.some.injEq, Match.mk.injEq, and_true]
    have : "<?".toList.length = 2 := rfl
    have : "xml".toList.length = 3 := rfl
    have : "?>".toList.length = 2 := rfl
    omega

theorem run_bol_lit_begins (start : Nat) (e : List Char) (r : Re) (k : Cont) (pos : Nat)
    (s : List Char) (c : Caps) (m : Match)
    (h : Re.run start (.seq .bol (.seq (Re.lit e) r)) k pos s c = some m) : e <+: s := by
  rw [Re.run_seq, Re.run_bol] at h
  split at h
  · rw [Re.run_seq] at h
    exact run_lit_begins _ _ _ _ _ _ _ h
  · cases h

theorem run_bol_lit_none (start : Nat) (e : List Char) (r : Re) (k : Cont) (pos : Nat)
    (s : List Char) (c : Caps) (h : ¬ e <+: s) :
    Re.run start (.seq .bol (.seq (Re.lit e) r)) k pos s c = none := by
  cases hr : Re.run start (.seq .bol (.seq (Re.lit e) r)) k pos s c with
  | none => rfl
  | some m => exact absurd (run_bol_lit_begins _ _ _ _ _ _ _ _ hr) h

theorem search_bol_lit_none (re : Re) (e : List Char) (r : Re) (doc : Doc) (p : Nat)
    (hre : re = .seq .bol (.seq (Re.lit e) r)) (h : ¬ e <+: doc.drop p) :
    regex_search_continuous re doc p doc.length = none := by
  unfold regex_search_continuous
  rw [take_drop_all, hre]
  exact run_bol_lit_none _ _ _ _ _ _ _ h

theorem doctypeAt_search (doc : Doc) (p : Nat) (t : List Char) (h : doctypeAt doc p t = true) :
    ∃ m, regex_search_continuous regexDoctype doc p doc.length = some m ∧
      m.stop = p + t.length ∧ "<!DOCTYPE".toList <+: doc.drop p := by
  unfold doctypeAt at h
  cases hs : regex_search_continuous regexDoctype doc p doc.length with
  | none => rw [hs] at h; cases h
  | some m =>
    rw [hs] at h
    refine ⟨m, rfl, by simpa using h, ?_⟩
    unfold regex_search_continuous at hs
    rw [take_drop_all] at hs
    exact run_bol_lit_begins _ _ _ _ _ _ _ _ hs

/-- A text that begins with `<`, then a character that is not `!`, or with `<!D`. -/
theorem prefix_facts (e r : List Char) (he : e <+: r) (x y : Char) (es : List Char)
    (hx : e = '<' :: x :: y :: es) (hxy : ¬ (x = '!' ∧ y = '-')) :
    (∀ z zs, r = z :: zs → isSpace z = false) ∧ ¬ "<!--".toList <+: r := by
  obtain ⟨t, ht⟩ := he
  subst hx
  subst ht
  constructor
  · intro z zs h
    cases h
    decide
  · intro h
    have h2 : "<!-".toList <+: '<' :: x :: y :: es ++ t :=
      List.IsPrefix.trans (by decide : "<!-".toList <+: "<!--".toList) h
    have h3 : "<!-".toList <+: ('<' :: x :: [y]) ++ (es ++ t) := by simpa using h2
    have h4 := List.prefix_of_prefix_length_le h3 (List.prefix_append _ _) (by simp)
    have h5 := List.IsPrefix.eq_of_length h4 (by simp)
    simp only [String.toList, List.cons.injEq, and_true, true_and] at h5
    exact hxy ⟨h5.1.symm, h5.2.symm⟩

theorem not_prefix_of_head (e r : List Char) (a b : Char) (es rs : List Char)
    (he : e = a :: es) (hr : r = b :: rs) (hab : a ≠ b) : ¬ e <+: r := by
  subst he hr
  intro h
  exact hab ((List.cons_prefix_cons).mp h).1

/-- What follows the white space before the DOCTYPE block, or the end of the document. -/
theorem doctypeTail_stops (doc : Doc) (p : Nat) (h : DoctypeTail doc p) :
    (∀ z zs, doc.drop p = z :: zs → isSpace z = false) ∧ ¬ "<!--".toList <+: doc.drop p ∧
      ¬ "<?xml".toList <+: doc.drop p := by
  rcases h with h | ⟨t, w, _, _, hdt⟩
  · rw [h]
    exact ⟨(fun z zs hz => by cases hz), (by decide), (by decide)⟩
  · obtain ⟨m, _, _, hp⟩ := doctypeAt_search doc p t hdt
    obtain ⟨h1, h2⟩ := prefix_facts _ _ hp '!' 'D' "OCTYPE".toList rfl (by decide)
    refine ⟨h1, h2, ?_⟩
    intro h3
    obtain ⟨u, hu⟩ := hp
    obtain ⟨u2, hu2⟩ := h3
    rw [← hu] at hu2
    have := congrArg (fun l => l.take 2) hu2
    simp [String.toList] at this

/-- Function `skipDoctype` goes to the end of the document. -/
theorem doctypeTail_skip (doc : Doc) (p : Nat) (hp : p ≤ doc.length) (h : DoctypeTail doc p) :
    skipDoctype doc p = doc.length := by
  unfold skipDoctype
  rcases h with h | ⟨t, w, hw, hd, hdt⟩
  · have hlen : p = doc.length := by
      have := congrArg List.length h
      simp only [List.length_drop, List.length_nil] at this
      omega
    rw [search_bol_lit_none regexDoctype "<!DOCTYPE".toList _ doc p rfl (by rw [h]; decide)]
    exact hlen
  · obtain ⟨m, hm, hstop, _⟩ := doctypeAt_search doc p t hdt
    rw [hm]
    simp only
    have hlen := congrArg List.length hd
    simp only [List.length_drop, List.length_append] at hlen
    rw [hstop, skipSpacesAndComments_pieces doc (p + t.length) w [] hw
      (fun y ys hy => by cases hy) (by decide)]
    · omega
    · rw [List.append_nil, ← List.drop_drop, hd, List.drop_left]

theorem declText_begins (attrs : List PseudoAttr) (sp rest : List Char) :
    "<?xml".toList <+: declText attrs sp ++ rest := by
  unfold declText
  rw [List.append_assoc]
  exact List.prefix_append _ _

theorem declText_stops (attrs : List PseudoAttr) (sp rest : List Char) :
    (∀ z zs, declText attrs sp ++ rest = z :: zs → isSpace z = false) ∧
      ¬ "<!--".toList <+: declText attrs sp ++ rest :=
  prefix_facts _ _ (declText_begins attrs sp rest) '?' 'x' "ml".toList rfl (by decide)

/-- The prolog scan of white space and comments, a declaration, white space and comments, and
the rest of the prolog goes to the end of the document. -/
theorem prolog_decl (doc : Doc) (w1 w2 : List Piece) (attrs : List PseudoAttr)
    (sp rest : List Char) (hw1 : ∀ q ∈ w1, q.ok = true) (hw2 : ∀ q ∈ w2, q.ok = true)
    (hne : attrs ≠ []) (hok : ∀ a ∈ attrs, a.ok = true) (hsp : ∀ x ∈ sp, isSpace x = true)
    (hdoc : doc = piecesText w1 ++ (declText attrs sp ++ (piecesText w2 ++ rest)))
    (htail : DoctypeTail doc
      ((piecesText w1).length + (declText attrs sp).length + (piecesText w2).length)) :
    prolog doc = doc.length := by
  have hlen : doc.length = (piecesText w1).length + (declText attrs sp).length +
      (piecesText w2).length + rest.length := by
    rw [hdoc]
    simp only [List.length_append]
    omega
  have hd1 : doc.drop (piecesText w1).length =
      declText attrs sp ++ (piecesText w2 ++ rest) := by
    rw [hdoc, List.drop_left]
  have hd2 : doc.drop ((piecesText w1).length + (declText attrs sp).length) =
      piecesText w2 ++ rest := by
    rw [← List.drop_drop, hd1, List.drop_left]
  have hd3 : doc.drop ((piecesText w1).length + (declText attrs sp).length +
      (piecesText w2).length) = rest := by
    rw [← List.drop_drop, hd2, List.drop_left]
  obtain ⟨s1, s2, _⟩ := doctypeTail_stops doc _ htail
  rw [hd3] at s1 s2
  obtain ⟨t1, t2⟩ := declText_stops attrs sp (piecesText w2 ++ rest)
  have h0 : skipSpacesAndComments doc 0 = (piecesText w1).length := by
    rw [skipSpacesAndComments_pieces doc 0 w1 _ hw1 t1 t2 (by rw [List.drop_zero]; exact hdoc)]
    omega
  have h1 := search_declaration doc (piecesText w1).length attrs sp _ hne hok hsp hd1
  have h2 := skipSpacesAndComments_pieces doc _ w2 rest hw2 s1 s2 hd2
  have hp : (piecesText w1).length + (declText attrs sp).length + (piecesText w2).length ≤
      doc.length := by omega
  unfold prolog
  simp only [h0, h1, h2]
  exact doctypeTail_skip doc _ hp htail

/-- The prolog scan of white space and comments and the rest of the prolog, without a
declaration, goes to the end of the document. -/
theorem prolog_nodecl (doc : Doc) (w : List Piece) (rest : List Char)
    (hw : ∀ q ∈ w, q.ok = true) (hdoc : doc = piecesText w ++ rest)
    (htail : DoctypeTail doc (piecesText w).length) :
    prolog doc = doc.length := by
  have hlen : doc.length = (piecesText w).length + rest.length := by
    rw [hdoc]
    simp only [List.length_append]
  have hd1 : doc.drop (piecesText w).length = rest := by
    rw [hdoc, List.drop_left]
  obtain ⟨s1, s2, s3⟩ := doctypeTail_stops doc _ htail
  have h1 := search_bol_lit_none regexXmlDeclaration "<?xml".toList _ doc _ rfl s3
  rw [hd1] at s1 s2
  have h0 : skipSpacesAndComments doc 0 = (piecesText w).length := by
    rw [skipSpacesAndComments_pieces doc 0 w _ hw s1 s2 (by rw [List.drop_zero]; exact hdoc)]
    omega
  have hp : (piecesText w).length ≤ doc.length := by omega
  unfold prolog
  simp only [h0, h1]
  exact doctypeTail_skip doc _ hp htail

/-- Function `parse` returns true at once, with no call, when the prolog is the whole
document. -/
theorem parse_prolog_only (v : Visitor σ) (doc : Doc) (vis : σ) (nodeStack : List Span)
    (h : prolog doc = doc.length) :
    ∃ st, parse v doc vis nodeStack = some st ∧ st.retCode = true ∧ st.log = [] ∧
      st.vis = vis := by
  unfold parse
  rw [if_pos (by omega)]
  exact ⟨_, rfl, rfl, rfl, rfl⟩


theorem doctypeAt_stops (doc : Doc) (p : Nat) (t : List Char) (h : doctypeAt doc p t = true) :
    (∀ z zs, doc.drop p = z :: zs → isSpace z = false) ∧ ¬ "<!--".toList <+: doc.drop p ∧
      ¬ "<?xml".toList <+: doc.drop p := by
  obtain ⟨m, _, _, hp⟩ := doctypeAt_search doc p t h
  obtain ⟨h1, h2⟩ := prefix_facts _ _ hp '!' 'D' "OCTYPE".toList rfl (by decide)
  refine ⟨h1, h2, ?_⟩
  intro h3
  obtain ⟨u, hu⟩ := hp
  obtain ⟨u2, hu2⟩ := h3
  rw [← hu] at hu2
  have := congrArg (fun l => l.take 2) hu2
  simp [String.toList] at this

/-- The open-tag pattern does not match at `<?`. -/
theorem search_nodeOpen_none (doc : Doc) (p : Nat) (rest : List Char)
    (hd : doc.drop p = '<' :: '?' :: rest) :
    regex_search_continuous regexNodeOpen doc p doc.length = none := by
  unfold regex_search_continuous
  rw [take_drop_all, hd]
  unfold regexNodeOpen
  rw [Re.run_seq, Re.run_bol, if_pos rfl, Re.run_seq, Re.char, Re.run_chr_cons,
    if_pos (by decide), Re.run_seq, Re.run_group]
  unfold reElementName
  rw [Re.run_seq, Re.opt, Re.run_alt, Re.run_seq,
    run_name_none _ ('?' :: rest) _ _ _ (fun y ys hy => by cases hy; decide)]
  simp only
  rw [Re.run_eps, run_name_none _ ('?' :: rest) _ _ _ (fun y ys hy => by cases hy; decide)]

theorem textEnd_none_of_lt (doc : Doc) (p : Nat) (rest : List Char)
    (hd : doc.drop p = '<' :: rest) : textEnd doc p = none := by
  unfold textEnd strchr
  rw [hd]
  simp [strchrFrom]

/-- An iteration of the loop at a declaration: it is skipped as a processing instruction,
without a call. -/
theorem bodyStep_declaration (v : Visitor σ) (doc : Doc) (st : State σ)
    (attrs : List PseudoAttr) (sp rest : List Char) (hne : attrs ≠ [])
    (hok : ∀ a ∈ attrs, a.ok = true) (hsp : ∀ x ∈ sp, isSpace x = true)
    (hd : doc.drop st.docPos = declText attrs sp ++ rest) :
    bodyStep v doc st = some (State.finish doc st (st.docPos + (declText attrs sp).length)) := by
  have hd2 : doc.drop st.docPos = '<' :: '?' :: ("xml".toList ++
      (attrs.flatMap PseudoAttr.text ++ (sp ++ "?>".toList)) ++ rest) := by
    rw [hd]
    rfl
  have hpre : "<?".toList <+: doc.drop st.docPos := by
    rw [hd2]
    exact ⟨_, rfl⟩
  unfold bodyStep
  rw [search_nodeOpen_none doc _ _ hd2]
  simp only
  rw [search_bol_lit_none regexNodeClose "</".toList _ doc _ rfl (by
    rw [hd2]
    intro h
    have := (List.cons_prefix_cons.mp (List.cons_prefix_cons.mp h).2).1
    revert this
    decide)]
  simp only
  rw [textEnd_none_of_lt doc _ _ hd2]
  simp only
  rw [search_bol_lit_none regexXmlCDATA "<![CDATA[".toList _ doc _ rfl (by
    rw [hd2]
    intro h
    have := (List.cons_prefix_cons.mp (List.cons_prefix_cons.mp h).2).1
    revert this
    decide)]
  simp only
  rw [search_pi_declaration doc _ attrs sp rest hne hok hsp hd]

/-- The prolog scan of white space and comments, a DOCTYPE block that its pattern matches
exactly, and white space and comments, stops at the declaration that follows. -/
theorem prolog_doctype_first (doc : Doc) (w1 w2 : List Piece) (t : List Char)
    (attrs : List PseudoAttr) (sp rest : List Char) (hw1 : ∀ q ∈ w1, q.ok = true)
    (hw2 : ∀ q ∈ w2, q.ok = true)
    (hdoc : doc = piecesText w1 ++ (t ++ (piecesText w2 ++ (declText attrs sp ++ rest))))
    (hdt : doctypeAt doc (piecesText w1).length t = true) :
    prolog doc = (piecesText w1).length + t.length + (piecesText w2).length := by
  have hd1 : doc.drop (piecesText w1).length =
      t ++ (piecesText w2 ++ (declText attrs sp ++ rest)) := by
    rw [hdoc, List.drop_left]
  have hd2 : doc.drop ((piecesText w1).length + t.length) =
      piecesText w2 ++ (declText attrs sp ++ rest) := by
    rw [← List.drop_drop, hd1, List.drop_left]
  obtain ⟨s1, s2, s3⟩ := doctypeAt_stops doc _ t hdt
  obtain ⟨t1, t2⟩ := declText_stops attrs sp rest
  obtain ⟨m, hm, hstop, _⟩ := doctypeAt_search doc _ t hdt
  have h1 := search_bol_lit_none regexXmlDeclaration "<?xml".toList _ doc _ rfl s3
  rw [hd1] at s1 s2
  have h0 : skipSpacesAndComments doc 0 = (piecesText w1).length := by
    rw [skipSpacesAndComments_pieces doc 0 w1 _ hw1 s1 s2 (by rw [List.drop_zero]; exact hdoc)]
    omega
  have h2 := skipSpacesAndComments_pieces doc _ w2 _ hw2 t1 t2 hd2
  unfold prolog
  simp only [h0, h1]
  unfold skipDoctype
  rw [hm]
  simp only
  rw [hstop, h2]

/-- A document with the DOCTYPE block before the declaration: `parse` returns true without
a call. -/
theorem parse_doctype_first (v : Visitor σ) (doc : Doc) (vis : σ) (nodeStack : List Span)
    (w1 w2 : List Piece) (t : List Char)
    (attrs : List PseudoAttr) (sp rest : List Char) (hw1 : ∀ q ∈ w1, q.ok = true)
    (hw2 : ∀ q ∈ w2, q.ok = true) (hne : attrs ≠ [])
    (hok : ∀ a ∈ attrs, a.ok = true) (hsp : ∀ x ∈ sp, isSpace x = true)
    (hdoc : doc = piecesText w1 ++ (t ++ (piecesText w2 ++ (declText attrs sp ++ rest))))
    (hdt : doctypeAt doc (piecesText w1).length t = true) :
    ∃ st, parse v doc vis nodeStack = some st ∧ st.retCode = true ∧ st.log = [] ∧
      st.vis = vis := by
  have hp := prolog_doctype_first doc w1 w2 t attrs sp rest hw1 hw2 hdoc hdt
  have hlen : doc.length = (piecesText w1).length + t.length + (piecesText w2).length +
      ((declText attrs sp).length + rest.length) := by
    rw [hdoc]
    simp only [List.length_append]
    omega
  have hdl : 0 < (declText attrs sp).length := by
    simp [declText]
  have hd3 : doc.drop (bodyInit doc vis).docPos = declText attrs sp ++ rest := by
    show doc.drop (prolog doc) = _
    rw [hp, hdoc, ← List.drop_drop, ← List.drop_drop, List.drop_left, List.drop_left,
      List.drop_left]
  rw [parse_eq_bodyLoop v doc vis nodeStack (by omega)]
  simp only [bodyLoop]
  rw [bodyStep_declaration v doc _ attrs sp rest hne hok hsp hd3]
  simp only [State.finish, bodyInit, ↓reduceIte, List.isEmpty_nil, Bool.not_true,
    Bool.and_false, Bool.false_eq_true]
  exact ⟨_, rfl, rfl, rfl, rfl⟩

theorem pieces_ok_append (w1 w2 : List Piece) (h1 : ∀ q ∈ w1, q.ok = true)
    (h2 : ∀ q ∈ w2, q.ok = true) : ∀ q ∈ w1 ++ w2, q.ok = true := by
  intro q hq
  rcases List.mem_append.mp hq with h | h
  · exact h1 q h
  · exact h2 q h

theorem doctypeTail_nil (doc : Doc) : DoctypeTail doc doc.length :=
  Or.inl (List.drop_length doc)

/-- A document of white space and comments with at most one XML declaration and at most one
DOCTYPE block that its pattern matches exactly: `parse` returns true without a call. -/
theorem parse_prologDoc (d : PrologDoc) (hok : d.ok = true) (hdt : d.doctypeExact = true)
    (v : Visitor σ) (vis : σ) (nodeStack : List Span) :
    ∃ st, parse v d.text vis nodeStack = some st ∧ st.retCode = true ∧ st.log = [] ∧
      st.vis = vis := by
  obtain ⟨w1, w2, w3, decl, doctype, first⟩ := d
  simp only [PrologDoc.ok, Bool.and_eq_true, List.all_eq_true] at hok
  obtain ⟨⟨⟨hw1, hw2⟩, hw3⟩, hdecl⟩ := hok
  have h12 := pieces_ok_append w1 w2 hw1 hw2
  have h23 := pieces_ok_append w2 w3 hw2 hw3
  have h123 := pieces_ok_append (w1 ++ w2) w3 h12 hw3
  cases decl with
  | none =>
    cases doctype with
    | none =>
      have ht : PrologDoc.text ⟨w1, w2, w3, none, none, first⟩ =
          piecesText (w1 ++ w2 ++ w3) ++ [] := by
        cases first <;>
          simp [PrologDoc.text, PrologDoc.declChars, PrologDoc.doctypeChars, piecesText_append]
      apply parse_prolog_only
      apply prolog_nodecl _ (w1 ++ w2 ++ w3) [] h123 ht
      have hl : (piecesText (w1 ++ w2 ++ w3)).length =
          (PrologDoc.text ⟨w1, w2, w3, none, none, first⟩).length := by
        rw [ht, List.append_nil]
      rw [hl]
      exact doctypeTail_nil _
    | some t =>
      simp only [PrologDoc.doctypeExact] at hdt
      cases first with
      | false =>
        have ht : PrologDoc.text ⟨w1, w2, w3, none, some t, false⟩ =
            piecesText (w1 ++ w2) ++ (t ++ piecesText w3) := by
          simp [PrologDoc.text, PrologDoc.declChars, PrologDoc.doctypeChars, piecesText_append]
        have ho : PrologDoc.doctypeOffset ⟨w1, w2, w3, none, some t, false⟩ =
            (piecesText (w1 ++ w2)).length := by
          simp [PrologDoc.doctypeOffset, PrologDoc.declChars, piecesText_append]
        rw [ho] at hdt
        apply parse_prolog_only
        apply prolog_nodecl _ (w1 ++ w2) _ h12 ht
        refine Or.inr ⟨t, w3, hw3, ?_, hdt⟩
        rw [ht, List.drop_left]
      | true =>
        have ht : PrologDoc.text ⟨w1, w2, w3, none, some t, true⟩ =
            piecesText w1 ++ (t ++ piecesText (w2 ++ w3)) := by
          simp [PrologDoc.text, PrologDoc.declChars, PrologDoc.doctypeChars, piecesText_append]
        have ho : PrologDoc.doctypeOffset ⟨w1, w2, w3, none, some t, true⟩ =
            (piecesText w1).length := by
          simp [PrologDoc.doctypeOffset]
        rw [ho] at hdt
        apply parse_prolog_only
        apply prolog_nodecl _ w1 _ hw1 ht
        refine Or.inr ⟨t, w2 ++ w3, h23, ?_, hdt⟩
        rw [ht, List.drop_left]
  | some da =>
    obtain ⟨attrs, sp⟩ := da
    simp only [Bool.and_eq_true, Bool.not_eq_true', List.isEmpty_eq_false,
      List.all_eq_true] at hdecl
    obtain ⟨⟨hne, hattrs⟩, hsp⟩ := hdecl
    cases doctype with
    | none =>
      cases first with
      | false =>
        have ht : PrologDoc.text ⟨w1, w2, w3, some (attrs, sp), none, false⟩ =
            piecesText w1 ++ (declText attrs sp ++ (piecesText (w2 ++ w3) ++ [])) := by
          simp [PrologDoc.text, PrologDoc.declChars, PrologDoc.doctypeChars, piecesText_append]
        apply parse_prolog_only
        apply prolog_decl _ w1 (w2 ++ w3) attrs sp [] hw1 h23 hne hattrs hsp ht
        have hl : (piecesText w1).length + (declText attrs sp).length +
            (piecesText (w2 ++ w3)).length =
            (PrologDoc.text ⟨w1, w2, w3, some (attrs, sp), none, false⟩).length := by
          rw [ht]
          simp only [List.length_append, List.length_nil]
          omega
        rw [hl]
        exact doctypeTail_nil _
      | true =>
        have ht : PrologDoc.text ⟨w1, w2, w3, some (attrs, sp), none, true⟩ =
            piecesText (w1 ++ w2) ++ (declText attrs sp ++ (piecesText w3 ++ [])) := by
          simp [PrologDoc.text, PrologDoc.declChars, PrologDoc.doctypeChars, piecesText_append]
        apply parse_prolog_only
        apply prolog_decl _ (w1 ++ w2) w3 attrs sp [] h12 hw3 hne hattrs hsp ht
        have hl : (piecesText (w1 ++ w2)).length + (declText attrs sp).length +
            (piecesText w3).length =
            (PrologDoc.text ⟨w1, w2, w3, some (attrs, sp), none, true⟩).length := by
          rw [ht]
          simp only [List.length_append, List.length_nil]
          omega
        rw [hl]
        exact doctypeTail_nil _
    | some t =>
      simp only [PrologDoc.doctypeExact] at hdt
      cases first with
      | false =>
        have ht : PrologDoc.text ⟨w1, w2, w3, some (attrs, sp), some t, false⟩ =
            piecesText w1 ++ (declText attrs sp ++ (piecesText w2 ++ (t ++ piecesText w3))) := by
          simp [PrologDoc.text, PrologDoc.declChars, PrologDoc.doctypeChars]
        have ho : PrologDoc.doctypeOffset ⟨w1, w2, w3, some (attrs, sp), some t, false⟩ =
            (piecesText w1).length + (declText attrs sp).length + (piecesText w2).length := by
          simp [PrologDoc.doctypeOffset, PrologDoc.declChars]
        rw [ho] at hdt
        apply parse_prolog_only
        apply prolog_decl _ w1 w2 attrs sp _ hw1 hw2 hne hattrs hsp ht
        refine Or.inr ⟨t, w3, hw3, ?_, hdt⟩
        rw [ht, ← List.drop_drop, ← List.drop_drop, List.drop_left, List.drop_left,
          List.drop_left]
      | true =>
        have ht : PrologDoc.text ⟨w1, w2, w3, some (attrs, sp), some t, true⟩ =
            piecesText w1 ++ (t ++ (piecesText w2 ++ (declText attrs sp ++ piecesText w3))) := by
          simp [PrologDoc.text, PrologDoc.declChars, PrologDoc.doctypeChars]
        have ho : PrologDoc.doctypeOffset ⟨w1, w2, w3, some (attrs, sp), some t, true⟩ =
            (piecesText w1).length := by
          simp [PrologDoc.doctypeOffset]
        rw [ho] at hdt
        exact parse_doctype_first v _ vis nodeStack w1 w2 t attrs sp _ hw1 hw2 hne hattrs hsp
          ht hdt


/-- C7, as stated, fails: the document `<!DOCTYPE d [<!ENTITY a "x">]><!-- "> ]>-->` is a
DOCTYPE block, which the DOCTYPE pattern matches whole when it stands alone, and a comment;
yet in the document the quoted string of the pattern runs up to the last `"` of the line, the
match ends inside the comment, at offset 40, and `parse` calls `error` there and returns
false. -/
theorem C7_counterexample :
    PrologDoc.ok ⟨[], [], [.comment " \"> ]>".toList], none,
      some "<!DOCTYPE d [<!ENTITY a \"x\">]>".toList, false⟩ = true ∧
    PrologDoc.text ⟨[], [], [.comment " \"> ]>".toList], none,
      some "<!DOCTYPE d [<!ENTITY a \"x\">]>".toList, false⟩ =
      "<!DOCTYPE d [<!ENTITY a \"x\">]><!-- \"> ]>-->".toList ∧
    regex_match regexDoctype "<!DOCTYPE d [<!ENTITY a \"x\">]>".toList 0 30 =
      some ⟨30, []⟩ ∧
    regex_search_continuous regexDoctype
      "<!DOCTYPE d [<!ENTITY a \"x\">]><!-- \"> ]>-->".toList 0 43 = some ⟨40, []⟩ ∧
    parse (constVisitor true) "<!DOCTYPE d [<!ENTITY a \"x\">]><!-- \"> ]>-->".toList () [] =
      some { vis := (), log := [(.error msgInvalid 40, true)], nodeStack := [], docPos := 40,
             retCode := false } := by
  refine ⟨by decide, by decide, by decide, by decide, by decide⟩

/-- Claim C7, amended: for every document that consists only of white space and comments,
together with at most one XML declaration and at most one DOCTYPE block that the DOCTYPE
pattern, applied where the block begins, matches exactly, `parse` returns true and makes no call
of the visitor at all, for every visitor; so for the empty string, a string of white space, a
string of comments, and a comment, a declaration and a comment. -/
theorem C7_prolog_only (d : PrologDoc) (hok : d.ok = true) (hdt : d.doctypeExact = true)
    (v : Visitor σ) (vis : σ) (nodeStack : List Span) :
    (∃ st, parse v d.text vis nodeStack = some st ∧ st.retCode = true ∧ st.log = []) ∧
    (∃ st, parse v "".toList vis nodeStack = some st ∧ st.retCode = true ∧ st.log = []) ∧
    (∃ st, parse v "  \r  \t  \n  \r\n  \t".toList vis nodeStack = some st ∧
      st.retCode = true ∧ st.log = []) ∧
    (∃ st, parse v "  <!-- oneline comment  --> <!-- oneline comment  --> ".toList vis
      nodeStack = some st ∧ st.retCode = true ∧ st.log = []) ∧
    (∃ st, parse v (" <!-- oneline comment  --> \n".toList ++
      "<?xml version=\"1.0\" encoding=\"utf-8\"?> \n".toList ++
      "<!-- oneline comment  --> \n".toList) vis nodeStack = some st ∧
      st.retCode = true ∧ st.log = []) := by
  refine ⟨?_, ?_, ?_, ?_, ?_⟩
  · obtain ⟨st, h1, h2, h3, _⟩ := parse_prologDoc d hok hdt v vis nodeStack
    exact ⟨st, h1, h2, h3⟩
  · obtain ⟨st, h1, h2, h3, _⟩ := parse_prolog_only v "".toList vis nodeStack (by decide)
    exact ⟨st, h1, h2, h3⟩
  · obtain ⟨st, h1, h2, h3, _⟩ :=
      parse_prolog_only v "  \r  \t  \n  \r\n  \t".toList vis nodeStack (by decide)
    exact ⟨st, h1, h2, h3⟩
  · obtain ⟨st, h1, h2, h3, _⟩ := parse_prolog_only v
      "  <!-- oneline comment  --> <!-- oneline comment  --> ".toList vis nodeStack (by decide)
    exact ⟨st, h1, h2, h3⟩
  · obtain ⟨st, h1, h2, h3, _⟩ := parse_prolog_only v (" <!-- oneline comment  --> \n".toList ++
      "<?xml version=\"1.0\" encoding=\"utf-8\"?> \n".toList ++
      "<!-- oneline comment  --> \n".toList) vis nodeStack (by decide)
    exact ⟨st, h1, h2, h3⟩

theorem C7_prolog_only_witness :
    ∃ st, parse (constVisitor true)
        (PrologDoc.text ⟨[.comment " c ".toList],
          [.space ' ', .comment "-".toList, .space '\n'], [.space '\n'],
          some ([⟨" ".toList, "version".toList, [], " ".toList, "1.0".toList⟩], " ".toList),
          some "<!DOCTYPE d [<!ELEMENT a (b)>]>".toList, false⟩) () [] = some st ∧
      st.retCode = true ∧ st.log = [] :=
  (C7_prolog_only ⟨[.comment " c ".toList],
      [.space ' ', .comment "-".toList, .space '\n'], [.space '\n'],
      some ([⟨" ".toList, "version".toList, [], " ".toList, "1.0".toList⟩], " ".toList),
      some "<!DOCTYPE d [<!ELEMENT a (b)>]>".toList, false⟩ (by decide) (by decide)
    (constVisitor true) () []).1


/-- The open-tag pattern does not match where `<` is followed by a character that does not
begin a name. -/
theorem search_nodeOpen_none_of (doc : Doc) (p : Nat) (y : Char) (rest : List Char)
    (hd : doc.drop p = '<' :: y :: rest) (hy : isNameStart y = false) :
    regex_search_continuous regexNodeOpen doc p doc.length = none := by
  unfold regex_search_continuous
  rw [take_drop_all, hd]
  unfold regexNodeOpen
  rw [Re.run_seq, Re.run_bol, if_pos rfl, Re.run_seq, Re.char, Re.run_chr_cons,
    if_pos (by decide), Re.run_seq, Re.run_group]
  unfold reElementName
  rw [Re.run_seq, Re.opt, Re.run_alt, Re.run_seq,
    run_name_none _ (y :: rest) _ _ _ (fun z zs hz => by cases hz; exact hy)]
  simp only
  rw [Re.run_eps, run_name_none _ (y :: rest) _ _ _ (fun z zs hz => by cases hz; exact hy)]

/-- Where the close-tag pattern matches, the open-tag pattern does not. -/
theorem nodeOpen_none_of_close (doc : Doc) (p : Nat) (m : Match)
    (h : regex_search_continuous regexNodeClose doc p doc.length = some m) :
    regex_search_continuous regexNodeOpen doc p doc.length = none := by
  have hp := regexNodeClose_prefix doc p m h
  cases hd : doc.drop p with
  | nil => rw [hd] at hp; cases hp
  | cons x xs =>
    cases xs with
    | nil => rw [hd] at hp; cases hp
    | cons y ys =>
      rw [hd] at hp
      have h1 : x = '<' ∧ y = '/' := by
        simp only [List.take_succ_cons, List.take_zero] at hp
        have := List.cons.inj hp
        exact ⟨this.1, (List.cons.inj this.2).1⟩
      rw [h1.1, h1.2] at hd
      exact search_nodeOpen_none_of doc p '/' ys hd (by decide)

/-- Claim C16: when the first token after the prolog is a close tag (the close-tag pattern
matches at the cursor the prolog scan leaves), `parse` calls `error` once, with the position
of the `</` of that close tag, makes no other call and returns false. -/
theorem C16_close_tag_first (v : Visitor σ) (doc : Doc) (vis : σ) (stack0 : List Span)
    (m : Match)
    (hclose : regex_search_continuous regexNodeClose doc (prolog doc) doc.length = some m) :
    ∃ st, parse v doc vis stack0 = some st ∧ st.retCode = false ∧
      st.log = [(.error msgNoOpening (prolog doc), true)] ∧
      (doc.drop (prolog doc)).take 2 = "</".toList := by
  have hlt := (search_stop_lt (strict_regexNodeClose (prolog doc)) hclose)
  have hopen := nodeOpen_none_of_close doc _ m hclose
  have h0 : iterStart v doc vis 0 = some (bodyInit doc vis) := by
    simp only [iterStart]
    rw [if_neg (by omega)]
  have hstep : bodyStep v doc (bodyInit doc vis) =
      some (stepClose v doc (bodyInit doc vis) m) := by
    unfold bodyStep
    rw [show (bodyInit doc vis).docPos = prolog doc from rfl, hopen, hclose]
  refine ⟨_, parse_of_iter v doc vis stack0 0 _ _ h0 hstep rfl, rfl, rfl,
    regexNodeClose_prefix doc _ m hclose⟩

theorem C16_close_tag_first_witness :
    ∃ st, parse (constVisitor true) " </a>".toList () [] = some st ∧ st.retCode = false ∧
      st.log = [(.error msgNoOpening (prolog " </a>".toList), true)] ∧
      (" </a>".toList.drop (prolog " </a>".toList)).take 2 = "</".toList :=
  C16_close_tag_first (constVisitor true) " </a>".toList () [] ⟨5, [(1, ⟨3, 4⟩)]⟩ (by decide)

/-- Claim C17: at a cursor of the body loop at which none of open tag, close tag, text run
ending at a later `<`, CDATA block and processing instruction matches, `parse` calls `error`
with the position of the cursor, as its last call, and returns false; so for the open tag with
an attribute without value, `<Elem1 par=" val " par6=>`, with the position 0. -/
theorem C17_invalid_token (v : Visitor σ) (vis : σ) (stack0 : List Span) :
    (∀ (doc : Doc) (n : Nat) (sn : State σ), iterStart v doc vis n = some sn →
      regex_search_continuous regexNodeOpen doc sn.docPos doc.length = none →
      regex_search_continuous regexNodeClose doc sn.docPos doc.length = none →
      textEnd doc sn.docPos = none →
      regex_search_continuous regexXmlCDATA doc sn.docPos doc.length = none →
      regex_search_continuous regexXmlPI doc sn.docPos doc.length = none →
      ∃ st, parse v doc vis stack0 = some st ∧ st.retCode = false ∧
        st.log = sn.log ++ [(.error msgInvalid sn.docPos, true)]) ∧
    regex_search_continuous regexNodeOpen
      "<Elem1 par=\" val \" par6=>\nPreamble\n<FirstElement></FirstElement>   \n</Elem1> \n".toList
      0 78 = none ∧
    ∃ st, parse v
        "<Elem1 par=\" val \" par6=>\nPreamble\n<FirstElement></FirstElement>   \n</Elem1> \n".toList
        vis stack0 = some st ∧
      st.retCode = false ∧ st.log = [(.error msgInvalid 0, true)] := by
  have gen : ∀ (doc : Doc) (n : Nat) (sn : State σ), iterStart v doc vis n = some sn →
      regex_search_continuous regexNodeOpen doc sn.docPos doc.length = none →
      regex_search_continuous regexNodeClose doc sn.docPos doc.length = none →
      textEnd doc sn.docPos = none →
      regex_search_continuous regexXmlCDATA doc sn.docPos doc.length = none →
      regex_search_continuous regexXmlPI doc sn.docPos doc.length = none →
      ∃ st, parse v doc vis stack0 = some st ∧ st.retCode = false ∧
        st.log = sn.log ++ [(.error msgInvalid sn.docPos, true)] := by
    intro doc n sn hs h1 h2 h3 h4 h5
    have hstep : bodyStep v doc sn = some (stepInvalid v sn) := by
      unfold bodyStep
      rw [h1, h2, h3, h4, h5]
    exact ⟨_, parse_of_iter v doc vis stack0 n _ _ hs hstep rfl, rfl, rfl⟩
  refine ⟨gen, by decide, ?_⟩
  generalize hD :
    "<Elem1 par=\" val \" par6=>\nPreamble\n<FirstElement></FirstElement>   \n</Elem1> \n".toList
      = D
  have hp : prolog D = 0 := by rw [← hD]; decide
  have hl : ¬ D.length ≤ prolog D := by rw [← hD]; decide
  have h0 : iterStart v D vis 0 = some (bodyInit D vis) := by
    simp only [iterStart]
    rw [if_neg hl]
  have e : (bodyInit D vis).docPos = 0 := hp
  obtain ⟨st, g1, g2, g3⟩ := gen D 0 _ h0 (by rw [e, ← hD]; decide) (by rw [e, ← hD]; decide)
    (by rw [e, ← hD]; decide) (by rw [e, ← hD]; decide) (by rw [e, ← hD]; decide)
  refine ⟨st, g1, g2, ?_⟩
  rw [g3, e]
  rfl

theorem C17_invalid_token_witness :
    ∃ st, parse (constVisitor true) "<a>".toList () [] = some st ∧ st.retCode = false ∧
      st.log = [(.enter ⟨1, 2⟩ false, true)] ++ [(.error msgInvalid 3, true)] :=
  (C17_invalid_token (constVisitor true) () []).1 "<a>".toList 1
    ⟨(), [(.enter ⟨1, 2⟩ false, true)], [⟨1, 2⟩], 3, true⟩ (by decide) (by decide) (by decide)
    (by decide) (by decide) (by decide)

/-- Claim C25: when `enter` returns false for an open tag, `parse` makes no further call (no
`attribute`, no `exit` even for an empty-element tag, no `error`) and returns false. -/
theorem C25_enter_cancels (v : Visitor σ) (doc : Doc) (vis : σ) (stack0 : List Span) (n : Nat)
    (sn : State σ) (m : Match) (hs : iterStart v doc vis n = some sn)
    (hopen : regex_search_continuous regexNodeOpen doc sn.docPos doc.length = some m)
    (hent : (v.enter sn.vis (m.get 1) (m.matched 4)).2 = false) :
    ∃ st, parse v doc vis stack0 = some st ∧ st.retCode = false ∧
      st.log = sn.log ++ [(.enter (m.get 1) (m.matched 4), false)] ∧ errors st.log = [] := by
  obtain ⟨st, hst⟩ := bodyStep_total v doc sn
  have hstep : stepOpen v doc sn m = some st := by
    simpa [bodyStep, hopen] using hst
  obtain ⟨ext, ok, g1, _, _, g4⟩ := stepOpen_enter v doc sn st m hstep
  obtain ⟨e1, e2⟩ := g1 hent
  subst e1 e2
  obtain ⟨h1, _, h3, _⟩ := g4 rfl
  rw [hent] at h1
  have hi := iterStart_inv v doc vis n sn hs
  refine ⟨st, parse_of_iter v doc vis stack0 n sn st hs hst (by rw [h3]; rfl), h3, h1, ?_⟩
  rw [h1, errors_append, hi.2.1]
  rfl

theorem C25_enter_cancels_witness :
    ∃ st, parse refuseEnter "<a p=\"1\"/>".toList () [] = some st ∧ st.retCode = false ∧
      st.log = [] ++ [(.enter ⟨1, 2⟩ true, false)] ∧ errors st.log = [] :=
  C25_enter_cancels refuseEnter "<a p=\"1\"/>".toList () [] 0 ⟨(), [], [], 0, true⟩
    ⟨10, [(4, ⟨8, 9⟩), (3, ⟨6, 7⟩), (2, ⟨3, 4⟩), (1, ⟨1, 2⟩)]⟩ (by decide) (by decide)
    (by decide)

/-- Function `parse` returns true with an empty stack, or it returned at once after the
prolog and left the stack as it found it. -/
theorem parse_stack (v : Visitor σ) (doc : Doc) (vis : σ) (stack0 : List Span) :
    ∃ st, parse v doc vis stack0 = some st ∧
      (st.retCode = true → st.nodeStack = [] ∨
        (doc.length ≤ prolog doc ∧ st.nodeStack = stack0)) := by
  obtain ⟨st, h1, h2⟩ := parse_cases v doc vis stack0
  refine ⟨st, h1, fun hr => ?_⟩
  rcases h2 with ⟨h3, rfl⟩ | ⟨_, n, sn, _, _, h5⟩
  · exact Or.inr ⟨h3, rfl⟩
  · left
    rw [hr] at h5
    simpa using h5

theorem parseSeq_stack (v : Visitor σ) :
    ∀ (docs : List Doc) (vis : σ), ∃ rs, parseSeq v docs vis [] = some rs ∧
      ∀ pre r post, rs = pre ++ r :: post → (∀ x ∈ pre, x.1 = true) → r.1 = true →
        r.2 = [] := by
  intro docs
  induction docs with
  | nil =>
    intro vis
    refine ⟨[], rfl, ?_⟩
    intro pre r post h
    cases pre <;> cases h
  | cons d ds ih =>
    intro vis
    obtain ⟨st, h1, h2⟩ := parse_stack v d vis []
    simp only [parseSeq, h1]
    cases hr : st.retCode with
    | true =>
      have hst : st.nodeStack = [] := by
        rcases h2 hr with h | ⟨_, h⟩ <;> exact h
      obtain ⟨rs, g1, g2⟩ := ih st.vis
      rw [hst, g1]
      refine ⟨_, rfl, ?_⟩
      intro pre r post h hpre hr1
      cases pre with
      | nil =>
        cases h
        rfl
      | cons x pre =>
        have h' := (List.cons.inj h).2
        exact g2 pre r post h' (fun y hy => hpre y (List.mem_cons_of_mem _ hy)) hr1
    | false =>
      cases hs : parseSeq v ds st.vis st.nodeStack with
      | none =>
        -- the calls that follow return as well
        exfalso
        have : ∀ (docs : List Doc) (vis : σ) (stack : List Span),
            parseSeq v docs vis stack ≠ none := by
          intro docs
          induction docs with
          | nil => intro _ _ h; cases h
          | cons d ds ih2 =>
            intro vis stack
            obtain ⟨st2, k1, _⟩ := parse_stack v d vis stack
            simp only [parseSeq, k1]
            cases hq : parseSeq v ds st2.vis st2.nodeStack with
            | none => exact absurd hq (ih2 _ _)
            | some rs => simp
        exact this _ _ _ hs
      | some rs =>
        refine ⟨_, rfl, ?_⟩
        intro pre r post h hpre hr1
        cases pre with
        | nil =>
          cases h
          cases hr1
        | cons x pre =>
          have hx := (List.cons.inj h).1
          have := hpre _ (List.mem_cons_self _ _)
          rw [← hx] at this
          cases this

/-- C21, as stated, fails: on one parser object, `parse` of `<a>` returns false and leaves
the element `a` on the stack; `parse` of a document of white space then returns true at once,
before the stack is cleared, and the stack still holds `a`. -/
theorem C21_counterexample :
    parseSeq (constVisitor true) ["<a>".toList, " ".toList] () [] =
      some [(false, [⟨1, 2⟩]), (true, [⟨1, 2⟩])] := by
  decide

/-- Claim C21, amended: whenever a call of `parse` returns true, the stack is empty when the
call returns, or the document is a prolog only, so that the call returned before the loop, and
the stack is as the call found it; so on a parser object all of whose calls so far returned
true, the stack is empty after each of them. Every call returns. -/
theorem C21_stack_empty_after_success (v : Visitor σ) :
    (∀ (doc : Doc) (vis : σ) (stack0 : List Span), ∃ st, parse v doc vis stack0 = some st ∧
      (st.retCode = true → st.nodeStack = [] ∨
        (doc.length ≤ prolog doc ∧ st.nodeStack = stack0))) ∧
    (∀ (docs : List Doc) (vis : σ), ∃ rs, parseSeq v docs vis [] = some rs ∧
      ∀ pre r post, rs = pre ++ r :: post → (∀ x ∈ pre, x.1 = true) → r.1 = true →
        r.2 = []) :=
  ⟨parse_stack v, parseSeq_stack v⟩

/-- C27 (what the code does): on the document `<a>` the first iteration goes well, leaves the
cursor at the end of the document and the element `a` on the stack, so the condition of the
assertion at its end is false; without the assertion the next iteration reports the error. -/
theorem C27_assertion_fails :
    iterEnd (constVisitor true) "<a>".toList () 0 =
      some ⟨(), [(.enter ⟨1, 2⟩ false, true)], [⟨1, 2⟩], 3, true⟩ ∧
    assertAtEnd "<a>".toList
      (⟨(), [(.enter ⟨1, 2⟩ false, true)], [⟨1, 2⟩], 3, true⟩ : State Unit) = false ∧
    parse (constVisitor true) "<a>".toList () [] =
      some ⟨(), [(.enter ⟨1, 2⟩ false, true), (.error msgInvalid 3, true)], [⟨1, 2⟩], 3,
        false⟩ := by
  refine ⟨by decide, by decide, by decide⟩


theorem iterStart_zero (v : Visitor σ) (doc : Doc) (vis : σ) (h : ¬ doc.length ≤ prolog doc) :
    iterStart v doc vis 0 = some (bodyInit doc vis) := by
  simp only [iterStart]
  rw [if_neg h]

theorem finish_log (doc : Doc) (st : State σ) (next : Nat) :
    (State.finish doc st next).log = st.log := by
  unfold State.finish
  split <;> rfl

theorem finish_nodeStack (doc : Doc) (st : State σ) (next : Nat) :
    (State.finish doc st next).nodeStack = st.nodeStack := by
  unfold State.finish
  split <;> rfl

theorem finish_retCode (doc : Doc) (st : State σ) (next : Nat) :
    (State.finish doc st next).retCode = st.retCode := by
  unfold State.finish
  split <;> rfl

theorem finish_vis (doc : Doc) (st : State σ) (next : Nat) :
    (State.finish doc st next).vis = st.vis := by
  unfold State.finish
  split <;> rfl

/-- Claim C30: when the first token after the prolog is not an open tag (and not a close
tag) but a text run, a CDATA block or a processing instruction, `parse` makes one iteration
only: it calls `text`, or `cdata`, once and returns the value that call returned, or for a
processing instruction makes no call and returns true; `error` is not called. The document
`hello<a></a>` gives the one call `text("hello")`, and its value is returned. -/
theorem C30_first_token_not_a_tag (v : Visitor σ) (doc : Doc) (vis : σ) (stack0 : List Span)
    (hlen : ¬ doc.length ≤ prolog doc)
    (hopen : regex_search_continuous regexNodeOpen doc (prolog doc) doc.length = none)
    (hclose : regex_search_continuous regexNodeClose doc (prolog doc) doc.length = none) :
    (∀ t, textEnd doc (prolog doc) = some t →
      ∃ st, parse v doc vis stack0 = some st ∧ iterEnd v doc vis 0 = some st ∧
        st.log = [(.text ⟨prolog doc, t⟩, st.retCode)]) ∧
    (∀ m, textEnd doc (prolog doc) = none →
      regex_search_continuous regexXmlCDATA doc (prolog doc) doc.length = some m →
      ∃ st, parse v doc vis stack0 = some st ∧ iterEnd v doc vis 0 = some st ∧
        st.log = [(.cdata (m.get 1), st.retCode)]) ∧
    (∀ m, textEnd doc (prolog doc) = none →
      regex_search_continuous regexXmlCDATA doc (prolog doc) doc.length = none →
      regex_search_continuous regexXmlPI doc (prolog doc) doc.length = some m →
      ∃ st, parse v doc vis stack0 = some st ∧ iterEnd v doc vis 0 = some st ∧
        st.log = [] ∧ st.retCode = true) ∧
    (∃ st, parse v "hello<a></a>".toList vis stack0 = some st ∧
      st.log = [(.text ⟨0, 5⟩, st.retCode)] ∧
      Span.content "hello<a></a>".toList ⟨0, 5⟩ = "hello".toList) := by
  have h0 := iterStart_zero v doc vis hlen
  have hp : (bodyInit doc vis).docPos = prolog doc := rfl
  have key : ∀ st, bodyStep v doc (bodyInit doc vis) = some st → st.nodeStack = [] →
      parse v doc vis stack0 = some st ∧ iterEnd v doc vis 0 = some st := by
    intro st hst hn
    refine ⟨parse_of_iter v doc vis stack0 0 _ st h0 hst (by rw [hn]; simp), ?_⟩
    rw [iterEnd_some]
    exact ⟨_, h0, hst⟩
  refine ⟨?_, ?_, ?_, ?_⟩
  · intro t ht
    have hst : bodyStep v doc (bodyInit doc vis) = some (stepText v doc (bodyInit doc vis) t) := by
      unfold bodyStep
      rw [hp, hopen, hclose, ht]
    obtain ⟨k1, k2⟩ := key _ hst (by unfold stepText; rw [finish_nodeStack]; rfl)
    refine ⟨_, k1, k2, ?_⟩
    unfold stepText
    rw [finish_log, finish_retCode]
    rfl
  · intro m ht hm
    have hst : bodyStep v doc (bodyInit doc vis) = some (stepCdata v doc (bodyInit doc vis) m) := by
      unfold bodyStep
      rw [hp, hopen, hclose, ht, hm]
    obtain ⟨k1, k2⟩ := key _ hst (by unfold stepCdata; rw [finish_nodeStack]; rfl)
    refine ⟨_, k1, k2, ?_⟩
    unfold stepCdata
    rw [finish_log, finish_retCode]
    rfl
  · intro m ht hc hm
    have hst : bodyStep v doc (bodyInit doc vis) =
        some (State.finish doc (bodyInit doc vis) m.stop) := by
      unfold bodyStep
      rw [hp, hopen, hclose, ht, hc, hm]
    obtain ⟨k1, k2⟩ := key _ hst (by rw [finish_nodeStack]; rfl)
    exact ⟨_, k1, k2, by rw [finish_log]; rfl, by rw [finish_retCode]; rfl⟩
  · generalize hD : "hello<a></a>".toList = D
    have e0 : prolog D = 0 := by rw [← hD]; decide
    have hl : ¬ D.length ≤ prolog D := by rw [← hD]; decide
    have i0 := iterStart_zero v D vis hl
    have hst : bodyStep v D (bodyInit D vis) = some (stepText v D (bodyInit D vis) 5) := by
      unfold bodyStep
      rw [show (bodyInit D vis).docPos = 0 from e0,
        show regex_search_continuous regexNodeOpen D 0 D.length = none by rw [← hD]; decide,
        show regex_search_continuous regexNodeClose D 0 D.length = none by rw [← hD]; decide,
        show textEnd D 0 = some 5 by rw [← hD]; decide]
    refine ⟨_, parse_of_iter v D vis stack0 0 _ _ i0 hst
      (by unfold stepText; rw [finish_nodeStack]; simp [bodyInit, State.call]), ?_,
      by rw [← hD]; decide⟩
    unfold stepText
    rw [finish_log, finish_retCode]
    simp [bodyInit, State.call, e0]

theorem C30_first_token_not_a_tag_witness :
    ∃ st, parse (constVisitor true) "<?pi?><a/>".toList () [] = some st ∧
      iterEnd (constVisitor true) "<?pi?><a/>".toList () 0 = some st ∧
      st.log = [] ∧ st.retCode = true :=
  (C30_first_token_not_a_tag (constVisitor true) "<?pi?><a/>".toList () [] (by decide)
    (by decide) (by decide)).2.2.1 ⟨6, []⟩ (by decide) (by decide) (by decide)


theorem strict_group (start : Nat) (i : Nat) (a : Re) (ha : ContStrict (Re.run start a)) :
    ContStrict (Re.run start (.group i a)) := by
  intro k pos s c m h
  rw [Re.run_group] at h
  obtain ⟨pre, s1, c1, hne, hs, hk⟩ := ha _ _ _ _ _ h
  exact ⟨pre, s1, _, hne, hs, hk⟩

theorem strict_getReName (start : Nat) : ContStrict (Re.run start getReName) :=
  strict_seq_left _ _ _ (strict_chr _ _)

theorem strict_reElementName (start : Nat) : ContStrict (Re.run start reElementName) :=
  strict_seq_right _ _ _ (strict_getReName _)

/-- An open tag has at least two characters. -/
theorem nodeOpen_stop_ge (doc : Doc) (p : Nat) (m : Match)
    (h : regex_search_continuous regexNodeOpen doc p doc.length = some m) : p + 2 ≤ m.stop := by
  unfold regex_search_continuous regexNodeOpen at h
  rw [Re.run_seq, Re.run_bol, if_pos rfl, Re.run_seq] at h
  obtain ⟨pre, s1, c1, hne, _, hk⟩ := strict_chr _ _ _ _ _ _ _ h
  obtain ⟨pre2, s2, c2, hne2, _, hk2⟩ :=
    strict_seq_left _ _ _ (strict_group _ 1 _ (strict_reElementName _)) _ _ _ _ _ hk
  simp only [Option.some.injEq] at hk2
  subst hk2
  have := List.length_pos.mpr hne
  have := List.length_pos.mpr hne2
  simp only
  omega

/-- After the first iteration the cursor is at offset 2 at least, when the loop goes on. -/
theorem iterStart_one_ge (v : Visitor σ) (doc : Doc) (vis : σ) (s1 : State σ)
    (h : iterStart v doc vis 1 = some s1) : 2 ≤ s1.docPos := by
  obtain ⟨s0, h0, hstep, hc⟩ := (iterStart_succ v doc vis 0 s1).mp h
  have hs0 : s0 = bodyInit doc vis := by
    simp only [iterStart] at h0
    split at h0
    · cases h0
    · exact (Option.some.inj h0).symm
  subst hs0
  simp only [Bool.and_eq_true, Bool.not_eq_true', List.isEmpty_eq_false] at hc
  obtain ⟨hr, hn⟩ := hc
  rcases bodyStep_cases v doc _ s1 hstep with ⟨m, hm, h1⟩ | ⟨m, _, hm, rfl⟩ | ⟨t, _, _, ht, rfl⟩ |
    ⟨m, _, _, _, hm, rfl⟩ | ⟨m, _, _, _, _, hm, rfl⟩ | ⟨_, _, _, _, _, rfl⟩
  · have hge := nodeOpen_stop_ge doc _ m hm
    have hb := search_stop_lt (strict_regexNodeOpen _) hm
    have hs := skipSpacesAndComments_bounds doc m.stop hb.2.2
    obtain ⟨ext, ok, _, _, g3, g4⟩ := stepOpen_enter v doc _ s1 m h1
    cases hc : (ok && m.matched 4)
    · obtain ⟨_, _, h5, h6⟩ := g4 hc
      rw [hr] at h5
      rw [h6, ← h5]
      simp only [↓reduceIte]
      omega
    · obtain ⟨_, _, _, _, h6⟩ := g3 hc
      rw [h6]
      omega
  · simp [stepClose, bodyInit] at hr
  · rw [stepText, finish_nodeStack] at hn
    exact absurd rfl hn
  · rw [stepCdata, finish_nodeStack] at hn
    exact absurd rfl hn
  · rw [finish_nodeStack] at hn
    exact absurd rfl hn
  · simp [stepInvalid] at hr

theorem iterStart_succ_ge (v : Visitor σ) (doc : Doc) (vis : σ) :
    ∀ (n : Nat) (sn : State σ), iterStart v doc vis (n + 1) = some sn → n + 2 ≤ sn.docPos := by
  intro n
  induction n with
  | zero => intro sn h; exact iterStart_one_ge v doc vis sn h
  | succ n ih =>
    intro sn h
    obtain ⟨s0, h0, hstep, hc⟩ := (iterStart_succ v doc vis (n + 1) sn).mp h
    have h1 := ih s0 h0
    have hi := iterStart_inv v doc vis (n + 1) s0 h0
    have h2 := (bodyStep_docPos v doc s0 sn hstep hi.2.2.1).2
    simp only [Bool.and_eq_true] at hc
    have := h2 hc.1
    omega

/-- Claim C28: `parse` returns for every document and visitor; every iteration of the body
loop returns, leaves the cursor inside the document or at its end, and, when it neither fails
nor is cancelled, further than it found it; the number of iterations is at most the length of
the document. -/
theorem C28_parse_terminates (v : Visitor σ) (doc : Doc) (vis : σ) (stack0 : List Span) :
    (∃ st, parse v doc vis stack0 = some st) ∧
    (∀ n sn, iterStart v doc vis n = some sn →
      ∃ st1, bodyStep v doc sn = some st1 ∧ st1.docPos ≤ doc.length ∧
        (st1.retCode = true → sn.docPos < st1.docPos)) ∧
    (∀ n sn, iterStart v doc vis n = some sn → n + 1 ≤ doc.length) := by
  refine ⟨?_, ?_, ?_⟩
  · obtain ⟨st, h, _⟩ := parse_cases v doc vis stack0
    exact ⟨st, h⟩
  · intro n sn h
    obtain ⟨st1, h1⟩ := bodyStep_total v doc sn
    have hi := iterStart_inv v doc vis n sn h
    exact ⟨st1, h1, bodyStep_docPos v doc sn st1 h1 hi.2.2.1⟩
  · intro n sn h
    have hi := iterStart_inv v doc vis n sn h
    cases n with
    | zero =>
      simp only [iterStart] at h
      split at h
      · cases h
      · omega
    | succ n =>
      have := iterStart_succ_ge v doc vis n sn h
      omega


/-- A greedy `*` succeeds when what follows it does. -/
theorem run_star_some (start : Nat) (a : Re) (k : Cont) (pos : Nat) (s : List Char) (c : Caps)
    (h : k pos s c ≠ none) : Re.run start (.star a) k pos s c ≠ none := by
  rw [Re.run_star]
  split
  · simp
  · exact h

/-- One iteration of `spacesAndComments` matches at a white space character, when the
continuation succeeds on what follows. -/
theorem run_skipItem_space (start : Nat) (K : Cont) (pos : Nat) (x : Char) (xs : List Char)
    (c : Caps) (hx : isSpace x = true) (hK : ∀ pos1 s1 c1, s1.length < (x :: xs).length →
      K pos1 s1 c1 ≠ none) :
    Re.run start reSkipItem K pos (x :: xs) c ≠ none := by
  unfold reSkipItem
  rw [Re.run_alt]
  have h1 : Re.run start (Re.plus reSpace) K pos (x :: xs) c ≠ none := by
    unfold Re.plus reSpace
    rw [Re.run_seq, Re.run_chr_cons, if_pos hx]
    apply run_star_some
    exact hK _ _ _ (by simp)
  split
  · simp
  · rename_i hn
    exact absurd hn h1

/-- The loop of `spacesAndComments`, followed by nothing, stops where no white space
character follows. -/
theorem run_skip_star_stop (start : Nat) :
    ∀ (n : Nat) (s : List Char), s.length = n → ∀ (pos : Nat) (c : Caps) (m : Match),
      Re.run start (.star reSkipItem) (fun pos _ c => some ⟨pos, c⟩) pos s c = some m →
      ∃ pre rest, s = pre ++ rest ∧ m.stop = pos + pre.length ∧
        ∀ y ys, rest = y :: ys → isSpace y = false := by
  intro n
  induction n using Nat.strong_induction_on with
  | _ n ih =>
    intro s hn pos c m h
    rw [Re.run_star] at h
    split at h
    · rename_i m1 hm1
      cases h
      obtain ⟨pre, s1, c1, hs, hk⟩ := Re.run_sound start reSkipItem _ _ _ _ _ hm1
      split at hk
      · rename_i hlt
        obtain ⟨pre2, rest, e1, e2, e3⟩ := ih s1.length (by omega) s1 rfl _ _ _ hk
        refine ⟨pre ++ pre2, rest, by rw [hs, e1, List.append_assoc], ?_, e3⟩
        rw [e2, List.length_append]
        omega
      · cases hk
    · rename_i hnone
      cases h
      refine ⟨[], s, rfl, rfl, ?_⟩
      intro y ys hs
      cases hy : isSpace y with
      | false => rfl
      | true =>
        exfalso
        subst hs
        refine run_skipItem_space start _ pos y ys c hy ?_ hnone
        intro pos1 s1 c1 hlt
        rw [if_pos hlt]
        exact run_star_some _ _ _ _ _ _ (by simp)

/-- Function `skipSpacesAndComments` never stops at a white space character. -/
theorem skipSpacesAndComments_stop (doc : Doc) (q : Nat) (x : Char)
    (h : doc[skipSpacesAndComments doc q]? = some x) : isSpace x = false := by
  unfold skipSpacesAndComments regex_search_continuous at h
  rw [take_drop_all] at h
  rw [show spacesAndComments = .seq .bol (.seq reSkipItem (.star reSkipItem)) from rfl,
    Re.run_seq, Re.run_bol, if_pos rfl, Re.run_seq] at h
  split at h
  · rename_i m hm
    obtain ⟨pre, s1, c1, hs, hk⟩ := Re.run_sound q reSkipItem _ _ _ _ _ hm
    obtain ⟨pre2, rest, e1, e2, e3⟩ := run_skip_star_stop q s1.length s1 rfl _ _ _ hk
    have hd : doc.drop (q + pre.length + pre2.length) = rest := by
      rw [Nat.add_assoc, ← List.drop_drop, hs, e1, ← List.append_assoc, ← List.length_append,
        List.drop_left]
    have hx : doc[m.stop]? = rest[0]? := by
      rw [e2, ← hd, List.getElem?_drop]
      rfl
    rw [hx] at h
    cases rest with
    | nil => simp at h
    | cons y ys =>
      simp only [List.getElem?_cons_zero, Option.some.injEq] at h
      rw [← h]
      exact e3 y ys rfl
  · rename_i hnone
    cases hx : isSpace x with
    | false => rfl
    | true =>
      exfalso
      have hd : doc.drop q = x :: doc.drop (q + 1) := by
        obtain ⟨hlt, hq⟩ := List.getElem?_eq_some.mp h
        rw [← hq]
        exact List.drop_eq_getElem_cons hlt
      rw [hd] at hnone
      refine run_skipItem_space q _ q x _ [] hx ?_ hnone
      intro pos1 s1 c1 _
      exact run_star_some _ _ _ _ _ _ (by simp)

theorem strchrFrom_spec (ch : Char) : ∀ (s : List Char) (pos t : Nat),
    strchrFrom ch pos s = some t →
      s[t - pos]? = some ch ∧ ch ∉ s.take (t - pos) := by
  intro s
  induction s with
  | nil => intro pos t h; simp [strchrFrom] at h
  | cons x xs ih =>
    intro pos t h
    simp only [strchrFrom] at h
    split at h
    · rename_i hx
      cases h
      simp only [beq_iff_eq] at hx
      simp [hx]
    · rename_i hx
      have hb := strchrFrom_bounds _ _ _ _ h
      obtain ⟨h1, h2⟩ := ih _ _ h
      have e : t - pos = (t - (pos + 1)) + 1 := by omega
      rw [e]
      simp only [List.getElem?_cons_succ, List.take_succ_cons, List.mem_cons, not_or]
      simp only [beq_iff_eq] at hx
      exact ⟨h1, fun hc => hx hc.symm, h2⟩

theorem strchrFrom_none (ch : Char) : ∀ (s : List Char) (pos : Nat), ch ∉ s →
    strchrFrom ch pos s = none := by
  intro s
  induction s with
  | nil => intro pos _; rfl
  | cons x xs ih =>
    intro pos h
    simp only [List.mem_cons, not_or] at h
    simp only [strchrFrom]
    rw [if_neg (by simpa using fun hc => h.1 hc.symm)]
    exact ih _ h.2

/-- Where a text run is found: it is not empty, holds no `<`, and a `<` follows it. -/
theorem textEnd_spec (doc : Doc) (p t : Nat) (h : textEnd doc p = some t) :
    p < t ∧ doc[t]? = some '<' ∧ '<' ∉ (⟨p, t⟩ : Span).content doc := by
  have hb := textEnd_bounds doc p t h
  unfold textEnd strchr at h
  split at h
  · rename_i tp htp
    split at h
    · cases h
      obtain ⟨h1, h2⟩ := strchrFrom_spec _ _ _ _ htp
      refine ⟨hb.1, ?_, ?_⟩
      · rw [List.getElem?_drop] at h1
        rw [← h1]
        congr 1
        omega
      · simpa [Span.content] using h2
    · cases h
  · cases h

theorem textEnd_none_of_not_mem (doc : Doc) (p : Nat) (h : '<' ∉ doc.drop p) :
    textEnd doc p = none := by
  unfold textEnd strchr
  rw [strchrFrom_none _ _ _ h]

/-- The calls `text` of an iteration: at most the one of the text branch. -/
theorem bodyStep_texts (v : Visitor σ) (doc : Doc) (st st1 : State σ) (P : Span → Prop)
    (h : bodyStep v doc st = some st1) (h0 : ∀ sp b, (Call.text sp, b) ∈ st.log → P sp)
    (h1 : ∀ t, textEnd doc st.docPos = some t → P ⟨st.docPos, t⟩) :
    ∀ sp b, (Call.text sp, b) ∈ st1.log → P sp := by
  intro sp b hmem
  rcases bodyStep_cases v doc st st1 h with ⟨m, hm, hopen⟩ | ⟨m, _, hm, rfl⟩ | ⟨t, _, _, ht, rfl⟩ |
    ⟨m, _, _, _, hm, rfl⟩ | ⟨m, _, _, _, _, hm, rfl⟩ | ⟨_, _, _, _, _, rfl⟩
  · obtain ⟨r, ext, ok, g1, g2, g3, g4⟩ := stepOpen_spec v doc st st1 m hopen
    have hext : (Call.text sp, b) ∉ ext := by
      intro hc
      cases r
      · rw [(g1 rfl).1] at hc
        cases hc
      · rcases attrLog_mem (g2 rfl) _ hc with ⟨n, x, e⟩ | e | ⟨msg, e, _⟩ <;> cases e
    cases hc : (ok && m.matched 4)
    · rw [(g4 hc).1] at hmem
      simp only [List.mem_append, List.mem_cons, Prod.mk.injEq, reduceCtorEq, false_and, false_or] at hmem
      rcases hmem with hm | hm
      · exact h0 sp b hm
      · exact absurd hm hext
    · obtain ⟨r2, g5, _⟩ := g3 hc
      rw [g5] at hmem
      simp only [List.mem_append, List.mem_cons, Prod.mk.injEq, reduceCtorEq, false_and, false_or,
        List.mem_singleton, or_false, List.not_mem_nil] at hmem
      rcases hmem with hm | hm
      · exact h0 sp b hm
      · exact absurd hm hext
  · unfold stepClose at hmem
    split at hmem
    · simp only [State.call, List.mem_append, List.mem_singleton, Prod.mk.injEq, reduceCtorEq, false_and,
        or_false] at hmem
      exact h0 sp b hmem
    · split at hmem
      · simp only [State.call, List.mem_append, List.mem_singleton, Prod.mk.injEq, reduceCtorEq, false_and,
          or_false] at hmem
        exact h0 sp b hmem
      · rw [finish_log] at hmem
        simp only [State.call, List.mem_append, List.mem_singleton, Prod.mk.injEq, reduceCtorEq, false_and,
          or_false] at hmem
        exact h0 sp b hmem
  · unfold stepText at hmem
    rw [finish_log] at hmem
    simp only [State.call, List.mem_append, List.mem_singleton, Prod.mk.injEq,
      Call.text.injEq] at hmem
    rcases hmem with hm | ⟨rfl, _⟩
    · exact h0 sp b hm
    · exact h1 t ht
  · unfold stepCdata at hmem
    rw [finish_log] at hmem
    simp only [State.call, List.mem_append, List.mem_singleton, Prod.mk.injEq, reduceCtorEq, false_and,
      or_false] at hmem
    exact h0 sp b hmem
  · rw [finish_log] at hmem
    exact h0 sp b hmem
  · unfold stepInvalid at hmem
    simp only [State.call, List.mem_append, List.mem_singleton, Prod.mk.injEq, reduceCtorEq, false_and,
      or_false] at hmem
    exact h0 sp b hmem


/-- The cursor the prolog leaves is one at which `skipSpacesAndComments` stopped. -/
theorem prolog_is_skip (doc : Doc) : ∃ q, prolog doc = skipSpacesAndComments doc q := by
  unfold prolog skipDoctype
  simp only
  split
  · exact ⟨_, rfl⟩
  · split
    · exact ⟨_, rfl⟩
    · exact ⟨_, rfl⟩

theorem finish_is_skip (doc : Doc) (st : State σ) (next : Nat)
    (h : (State.finish doc st next).retCode = true) :
    (State.finish doc st next).docPos = skipSpacesAndComments doc next := by
  unfold State.finish at h ⊢
  split
  · rfl
  · rename_i hr
    rw [if_neg hr] at h
    exact absurd h hr

/-- The cursor an iteration leaves, when it neither fails nor is cancelled, is one at which
`skipSpacesAndComments` stopped. -/
theorem bodyStep_is_skip (v : Visitor σ) (doc : Doc) (st st1 : State σ)
    (h : bodyStep v doc st = some st1) (hr : st1.retCode = true) :
    ∃ q, st1.docPos = skipSpacesAndComments doc q := by
  rcases bodyStep_cases v doc st st1 h with ⟨m, hm, hopen⟩ | ⟨m, _, hm, rfl⟩ |
    ⟨t, _, _, ht, rfl⟩ | ⟨m, _, _, _, hm, rfl⟩ | ⟨m, _, _, _, _, hm, rfl⟩ | ⟨_, _, _, _, _, rfl⟩
  · obtain ⟨ext, ok, _, _, g3, g4⟩ := stepOpen_enter v doc _ st1 m hopen
    cases hc : (ok && m.matched 4)
    · obtain ⟨_, _, h5, h6⟩ := g4 hc
      rw [hr] at h5
      rw [h6, ← h5]
      exact ⟨_, rfl⟩
    · obtain ⟨_, _, _, _, h6⟩ := g3 hc
      exact ⟨_, h6⟩
  · unfold stepClose at hr ⊢
    split
    · rename_i hs
      simp [hs] at hr
    · rename_i top rest hs
      rw [hs] at hr
      simp only at hr
      split
      · rename_i he
        rw [if_pos he] at hr
        cases hr
      · rename_i he
        rw [if_neg he] at hr
        exact ⟨_, finish_is_skip _ _ _ hr⟩
  · exact ⟨_, finish_is_skip _ _ _ hr⟩
  · exact ⟨_, finish_is_skip _ _ _ hr⟩
  · exact ⟨_, finish_is_skip _ _ _ hr⟩
  · simp [stepInvalid] at hr

/-- The cursor of the body loop is never at a white space character. -/
theorem iterStart_cursor (v : Visitor σ) (doc : Doc) (vis : σ) (n : Nat) (sn : State σ)
    (h : iterStart v doc vis n = some sn) (x : Char) (hx : doc[sn.docPos]? = some x) :
    isSpace x = false := by
  cases n with
  | zero =>
    simp only [iterStart] at h
    split at h
    · cases h
    · cases h
      obtain ⟨q, hq⟩ := prolog_is_skip doc
      simp only [bodyInit] at hx
      rw [hq] at hx
      exact skipSpacesAndComments_stop doc q x hx
  | succ n =>
    obtain ⟨s0, _, hstep, hc⟩ := (iterStart_succ v doc vis n sn).mp h
    simp only [Bool.and_eq_true] at hc
    obtain ⟨q, hq⟩ := bodyStep_is_skip v doc s0 sn hstep hc.1
    rw [hq] at hx
    exact skipSpacesAndComments_stop doc q x hx

/-- Every call `text` in the log at the beginning of an iteration was made by the text branch
of an earlier iteration. -/
theorem iterStart_texts (v : Visitor σ) (doc : Doc) (vis : σ) (n : Nat) :
    ∀ (sn : State σ), iterStart v doc vis n = some sn →
      ∀ sp b, (Call.text sp, b) ∈ sn.log →
        ∃ k sk, iterStart v doc vis k = some sk ∧ sk.docPos = sp.first ∧
          textEnd doc sk.docPos = some sp.second := by
  induction n with
  | zero =>
    intro sn h sp b hm
    simp only [iterStart] at h
    split at h
    · cases h
    · cases h
      simp [bodyInit] at hm
  | succ n ih =>
    intro sn h
    obtain ⟨s0, h0, hstep, _⟩ := (iterStart_succ v doc vis n sn).mp h
    exact bodyStep_texts v doc s0 sn _ hstep (ih s0 h0) (fun t ht => ⟨n, s0, h0, rfl, ht⟩)

/-- Where no `<` follows the cursor, an iteration finds no token. -/
theorem bodyStep_no_lt (v : Visitor σ) (doc : Doc) (st : State σ)
    (h : '<' ∉ doc.drop st.docPos) : bodyStep v doc st = some (stepInvalid v st) := by
  have hpre : ∀ e : List Char, e.head? = some '<' → ¬ e <+: doc.drop st.docPos := by
    intro e he hp
    obtain ⟨t, ht⟩ := hp
    cases e with
    | nil => cases he
    | cons y ys =>
      simp only [List.head?_cons, Option.some.injEq] at he
      subst he
      apply h
      rw [← ht]
      simp
  have h1 : regex_search_continuous regexNodeOpen doc st.docPos doc.length = none := by
    cases hq : regex_search_continuous regexNodeOpen doc st.docPos doc.length with
    | none => rfl
    | some m =>
      have := regexNodeOpen_prefix doc _ m hq
      exfalso
      apply h
      exact List.mem_of_mem_head? this
  have h2 : regex_search_continuous regexNodeClose doc st.docPos doc.length = none :=
    search_bol_lit_none _ "</".toList _ doc _ rfl (hpre _ rfl)
  have h3 : regex_search_continuous regexXmlCDATA doc st.docPos doc.length = none :=
    search_bol_lit_none _ "<![CDATA[".toList _ doc _ rfl (hpre _ rfl)
  have h4 : regex_search_continuous regexXmlPI doc st.docPos doc.length = none :=
    search_bol_lit_none _ "<?".toList _ doc _ rfl (hpre _ rfl)
  unfold bodyStep
  rw [h1, h2, textEnd_none_of_not_mem doc _ h, h3, h4]

/-- Claim C26: every span passed to `text` begins at the cursor of an iteration of the body
loop, is not empty, begins with a character that is not white space, holds no `<` and ends
at a `<` of the document, so that it does not consist of white space only; and where no `<`
follows the cursor of an iteration, the iteration makes no call `text` but the call `error`
for an invalid statement, and fails. -/
theorem C26_text_spans (v : Visitor σ) (doc : Doc) (vis : σ) :
    (∀ (stack0 : List Span) (st : State σ), parse v doc vis stack0 = some st →
      ∀ sp b, (Call.text sp, b) ∈ st.log →
        (∃ n sn, iterStart v doc vis n = some sn ∧ sn.docPos = sp.first) ∧
        sp.first < sp.second ∧
        (∃ x, doc[sp.first]? = some x ∧ isSpace x = false) ∧
        '<' ∉ sp.content doc ∧ doc[sp.second]? = some '<' ∧
        (sp.content doc).all isSpace = false) ∧
    (∀ n sn, iterStart v doc vis n = some sn → '<' ∉ doc.drop sn.docPos →
      ∃ st1, bodyStep v doc sn = some st1 ∧ st1.retCode = false ∧
        st1.log = sn.log ++ [(.error msgInvalid sn.docPos, true)]) := by
  constructor
  · intro stack0 st hp sp b hm
    obtain ⟨st', h1, h2⟩ := parse_cases v doc vis stack0
    rw [hp] at h1
    cases h1
    rcases h2 with ⟨_, rfl⟩ | ⟨_, n, sn, g1, g2, _⟩
    · cases hm
    · have key : ∃ k sk, iterStart v doc vis k = some sk ∧ sk.docPos = sp.first ∧
          textEnd doc sk.docPos = some sp.second :=
        bodyStep_texts v doc sn st _ g2 (iterStart_texts v doc vis n sn g1)
          (fun t ht => ⟨n, sn, g1, rfl, ht⟩) sp b hm
      obtain ⟨k, sk, e1, e2, e3⟩ := key
      rw [e2] at e3
      obtain ⟨t1, t2, t3⟩ := textEnd_spec doc _ _ e3
      have hb := textEnd_bounds doc _ _ e3
      have hlt : sp.first < doc.length := by omega
      have hx : doc[sp.first]? = some doc[sp.first] := List.getElem?_eq_getElem hlt
      have hns : isSpace doc[sp.first] = false :=
        iterStart_cursor v doc vis k sk e1 _ (by rw [e2]; exact hx)
      refine ⟨⟨k, sk, e1, e2⟩, t1, ⟨_, hx, hns⟩, t3, t2, ?_⟩
      have hc : sp.content doc = doc[sp.first] :: (doc.drop (sp.first + 1)).take
          (sp.second - sp.first - 1) := by
        unfold Span.content
        rw [List.drop_eq_getElem_cons hlt]
        have e : sp.second - sp.first = (sp.second - sp.first - 1) + 1 := by omega
        rw [e, List.take_succ_cons]
        simp
      rw [hc, List.all_cons, hns]
      rfl
  · intro n sn _ hlt
    exact ⟨_, bodyStep_no_lt v doc sn hlt, rfl, rfl⟩

theorem C26_text_spans_witness :
    4 < 7 ∧ '<' ∉ (⟨4, 7⟩ : Span).content "<a> hi <b/></a>".toList ∧
      "<a> hi <b/></a>".toList[7]? = some '<' :=
  have h := (C26_text_spans (constVisitor true) "<a> hi <b/></a>".toList ()).1 []
    ⟨(), [(.enter ⟨1, 2⟩ false, true), (.text ⟨4, 7⟩, true), (.enter ⟨8, 9⟩ true, true),
      (.exit ⟨8, 9⟩ true, true), (.exit ⟨13, 14⟩ false, true)], [], 15, true⟩ (by decide)
    ⟨4, 7⟩ true (by decide)
  ⟨h.2.1, h.2.2.2.1, h.2.2.2.2.1⟩

theorem run_lit_search (start : Nat) (e : List Char) (pos : Nat) (s : List Char) :
    Re.run start (Re.lit e) (fun pos1 _ c => some ⟨pos1, c⟩) pos s [] =
      if e.isPrefixOf s then some ⟨pos + e.length, []⟩ else none := by
  split
  · rename_i h
    obtain ⟨r, hr⟩ := List.isPrefixOf_iff_prefix.mp h
    rw [← hr, run_lit_append]
  · rename_i h
    exact run_lit_none _ _ _ _ _ _ (fun hp => h (List.isPrefixOf_iff_prefix.mpr hp))

theorem replaceScan_skip (tbl : List (List Char × List Char)) :
    ∀ (pre r : List Char), replaceScan tbl pre.length (pre ++ r) = replaceScan tbl 0 r := by
  intro pre
  induction pre with
  | nil => intro r; rfl
  | cons x xs ih =>
    intro r
    simp only [List.length_cons, List.cons_append, replaceScan]
    exact ih r

theorem replaceAll_nil (e f : List Char) : replaceAll e f [] = [] := rfl

theorem replaceAll_match (e f r : List Char) (he : e ≠ []) :
    replaceAll e f (e ++ r) = f ++ replaceAll e f r := by
  cases e with
  | nil => exact absurd rfl he
  | cons x xs =>
    unfold replaceAll
    simp only [List.cons_append, replaceScan, List.find?_cons, List.find?_nil]
    have hp : (x :: xs).isPrefixOf (x :: xs.append r) = true :=
      List.isPrefixOf_iff_prefix.mpr ⟨r, rfl⟩
    rw [hp]
    simp only [List.length_cons, Nat.add_sub_cancel]
    exact congrArg _ (replaceScan_skip _ xs r)

theorem replaceAll_cons (e f : List Char) (x : Char) (xs : List Char)
    (h : e.isPrefixOf (x :: xs) = false) :
    replaceAll e f (x :: xs) = x :: replaceAll e f xs := by
  unfold replaceAll
  simp only [replaceScan, List.find?_cons, List.find?_nil, h]

/-- A search for a literal finds its first occurrence; `replaceAll` goes on behind it. -/
theorem regex_search_lit (start : Nat) (e f : List Char) (he : e ≠ []) :
    ∀ (s : List Char) (pos : Nat),
      (regex_search (Re.lit e) start pos s = none ∧ replaceAll e f s = s) ∨
      (∃ a r, s = a ++ (e ++ r) ∧
        regex_search (Re.lit e) start pos s =
          some (pos + a.length, ⟨pos + a.length + e.length, []⟩) ∧
        replaceAll e f s = a ++ (f ++ replaceAll e f r)) := by
  intro s
  induction s with
  | nil =>
    intro pos
    left
    refine ⟨?_, rfl⟩
    simp only [regex_search, run_lit_search]
    cases e with
    | nil => exact absurd rfl he
    | cons x xs => rfl
  | cons x xs ih =>
    intro pos
    rw [regex_search_cons, run_lit_search]
    cases hp : e.isPrefixOf (x :: xs) with
    | true =>
      right
      obtain ⟨r, hr⟩ := List.isPrefixOf_iff_prefix.mp hp
      refine ⟨[], r, hr.symm, by simp, ?_⟩
      rw [← hr, replaceAll_match e f r he]
      rfl
    | false =>
      simp only [Bool.false_eq_true, ↓reduceIte]
      rw [replaceAll_cons e f x xs hp]
      rcases ih (pos + 1) with ⟨h1, h2⟩ | ⟨a, r, h1, h2, h3⟩
      · left
        exact ⟨h1, by rw [h2]⟩
      · right
        refine ⟨x :: a, r, by rw [h1]; rfl, ?_, by rw [h3]; rfl⟩
        rw [h2]
        simp only [List.length_cons]
        congr 2
        · omega
        · congr 1
          omega

theorem regex_replace_loop_lit (e f : List Char) (he : e ≠ []) :
    ∀ (n : Nat) (s : List Char) (pos : Nat), s.length ≤ n →
      regex_replace_loop (Re.lit e) f n pos s = replaceAll e f s := by
  intro n
  induction n with
  | zero =>
    intro s pos h
    have : s = [] := List.eq_nil_of_length_eq_zero (by omega)
    subst this
    rfl
  | succ n ih =>
    intro s pos h
    simp only [regex_replace_loop]
    rcases regex_search_lit pos e f he s pos with ⟨h1, h2⟩ | ⟨a, r, h1, h2, h3⟩
    · rw [h1, h2]
    · rw [h2, h3]
      simp only
      have hel : 0 < e.length := List.length_pos.mpr he
      rw [if_neg (by omega)]
      have e1 : pos + a.length - pos = a.length := by omega
      have e2 : pos + a.length + e.length - pos = (a ++ e).length := by
        rw [List.length_append]
        omega
      have hs : s = (a ++ e) ++ r := by rw [h1, List.append_assoc]
      rw [e1, e2]
      have hlen : r.length ≤ n := by
        have := congrArg List.length hs
        simp only [List.length_append] at this
        omega
      have hd : List.drop (a ++ e).length s = r := by rw [hs, List.drop_left]
      have ht : List.take a.length s = a := by rw [h1, List.take_left]
      rw [hd, ht, ih _ _ hlen, List.append_assoc]

/-- Call `regex_replace` with a literal pattern replaces all its occurrences, found from left
to right. -/
theorem regex_replace_lit (e f s : List Char) (he : e ≠ []) :
    regex_replace (Re.lit e) f s = replaceAll e f s :=
  regex_replace_loop_lit e f he _ s 0 (le_refl _)

/-- Function `fixEscapes` is the five replacements in order. -/
theorem fixEscapes_eq (s : List Char) : fixEscapes s = decodeInOrder s := by
  unfold fixEscapes decodeInOrder escapeTable
  simp only [List.foldl]
  rw [regex_replace_lit _ _ _ (by decide), regex_replace_lit _ _ _ (by decide),
    regex_replace_lit _ _ _ (by decide), regex_replace_lit _ _ _ (by decide),
    regex_replace_lit _ _ _ (by decide)]

/-- Claim C11: for every text span, `toStringText` gives the words of the span joined by
single spaces (the trimmed and collapsed text) in which all `&lt;`, then all `&gt;`, then all
`&amp;`, then all `&apos;`, then all `&quot;` have been replaced by their characters;
`"&lt;x&gt;"` gives `"<x>"` and `"Last Text > &gt; - -> --> &lt;!-- "` gives
`"Last Text > > - -> --> <!--"`. -/
theorem C11_text_decoded (doc : Doc) (it : Span) (h1 : it.first ≤ it.second)
    (h2 : it.second ≤ doc.length) :
    toStringText doc it =
      replaceAll "&quot;".toList "\"".toList (replaceAll "&apos;".toList "\x27".toList
        (replaceAll "&amp;".toList "&".toList (replaceAll "&gt;".toList ">".toList
          (replaceAll "&lt;".toList "<".toList (joinWords (wordsOf (it.content doc))))))) ∧
    toStringText "&lt;x&gt;".toList ⟨0, 9⟩ = "<x>".toList ∧
    toStringText "Last Text > &gt; - -> --> &lt;!-- ".toList ⟨0, 34⟩ =
      "Last Text > > - -> --> <!--".toList := by
  refine ⟨?_, by decide, by decide⟩
  unfold toStringText
  rw [toString_trim_words doc it h1 h2, fixEscapes_eq]
  rfl

theorem C11_text_decoded_witness :
    toStringText "<a> x &amp;  &lt;y </a>".toList ⟨3, 19⟩ = "x & <y".toList := by
  have h := (C11_text_decoded "<a> x &amp;  &lt;y </a>".toList ⟨3, 19⟩ (by decide)
    (by decide)).1
  rw [h]
  decide

/-- Claim C13: `toStringValue` decodes the five escape sequences: for every attribute-value
span it gives the padded words of the span (the normalisation that keeps one surrounding
space) in which the five escape sequences have been replaced, in the order of `fixEscapes`;
the values `&lt;`, `&gt;`, `&amp;`, `&apos;`, `&quot;` of the element `Escapes` of the test
give `<`, `>`, `&`, the apostrophe and the quotation mark. -/
theorem C13_value_decoded (doc : Doc) (it : Span) (h1 : it.first ≤ it.second)
    (h2 : it.second ≤ doc.length) :
    toStringValue doc it = decodeInOrder (padded (it.content doc)) ∧
    toStringValue "&lt;".toList ⟨0, 4⟩ = "<".toList ∧
    toStringValue "&gt;".toList ⟨0, 4⟩ = ">".toList ∧
    toStringValue "&amp;".toList ⟨0, 5⟩ = "&".toList ∧
    toStringValue "&apos;".toList ⟨0, 6⟩ = "\x27".toList ∧
    toStringValue "&quot;".toList ⟨0, 6⟩ = "\"".toList ∧
    toStringValue "<Escapes v-_1=\"&lt;\" v_-2=\"&gt;\" v3=\"&amp;\">".toList ⟨15, 19⟩ =
      "<".toList := by
  refine ⟨?_, by decide, by decide, by decide, by decide, by decide, by decide⟩
  unfold toStringValue
  rw [toString_pad doc it h1 h2, fixEscapes_eq, collapse_eq_padded]

theorem C13_value_decoded_witness :
    toStringValue "<a p=\" &gt;  x\"/>".toList ⟨6, 14⟩ = " > x".toList := by
  have h := (C13_value_decoded "<a p=\" &gt;  x\"/>".toList ⟨6, 14⟩ (by decide)
    (by decide)).1
  rw [h]
  decide

theorem trimEnd_cons (x : Char) (xs : List Char) :
    trimEnd (x :: xs) = if trimEnd xs = [] then (if isSpace x then [] else [x])
      else x :: trimEnd xs := by
  simp only [trimEnd]
  cases trimEnd xs with
  | nil => simp
  | cons y ys => simp

theorem prefix_trimEnd_of (e : List Char) (he : ∀ x ∈ e, isSpace x = false) :
    ∀ (s : List Char), e <+: s → e <+: trimEnd s := by
  induction e with
  | nil => intro s _; exact List.nil_prefix
  | cons a e1 ih =>
    intro s h
    cases s with
    | nil => simp at h
    | cons x xs =>
      obtain ⟨rfl, h1⟩ := List.cons_prefix_cons.mp h
      have ha : isSpace a = false := he a (List.mem_cons_self _ _)
      have h2 := ih (fun y hy => he y (List.mem_cons_of_mem _ hy)) xs h1
      rw [trimEnd_cons]
      split
      · rename_i hnil
        rw [hnil] at h2
        rw [List.prefix_nil.mp h2, ha]
        simp
      · exact List.cons_prefix_cons.mpr ⟨rfl, h2⟩

theorem infix_trimEnd_of (e : List Char) (hne : e ≠ []) (he : ∀ x ∈ e, isSpace x = false) :
    ∀ (s : List Char), e <:+: s → e <:+: trimEnd s := by
  intro s
  induction s with
  | nil => intro h; simpa [trimEnd] using h
  | cons x xs ih =>
    intro h
    rcases List.infix_cons_iff.mp h with h | h
    · exact (prefix_trimEnd_of e he _ h).isInfix
    · have h1 := ih h
      rw [trimEnd_cons]
      split
      · rename_i hnil
        rw [hnil] at h1
        exact absurd (List.infix_nil.mp h1) hne
      · exact List.infix_cons h1

theorem infix_dropWhile_of (e : List Char) (hne : e ≠ []) (he : ∀ x ∈ e, isSpace x = false) :
    ∀ (s : List Char), e <:+: s → e <:+: s.dropWhile isSpace := by
  intro s
  induction s with
  | nil => intro h; simpa using h
  | cons x xs ih =>
    intro h
    cases hx : isSpace x with
    | false => rw [List.dropWhile_cons_of_neg (by simp [hx])]; exact h
    | true =>
      rw [List.dropWhile_cons_of_pos hx]
      rcases List.infix_cons_iff.mp h with h | h
      · cases e with
        | nil => exact absurd rfl hne
        | cons a e1 =>
          obtain ⟨rfl, _⟩ := List.cons_prefix_cons.mp h
          rw [he a (List.mem_cons_self _ _)] at hx
          cases hx
      · exact ih h

theorem prefix_collapse_of (e : List Char) (he : ∀ x ∈ e, isSpace x = false) :
    ∀ (s : List Char), e <+: s → e <+: collapse s := by
  induction e with
  | nil => intro s _; exact List.nil_prefix
  | cons a e1 ih =>
    intro s h
    cases s with
    | nil => simp at h
    | cons x xs =>
      obtain ⟨rfl, h1⟩ := List.cons_prefix_cons.mp h
      rw [collapse_cons_nonspace a xs (he a (List.mem_cons_self _ _))]
      exact List.cons_prefix_cons.mpr
        ⟨rfl, ih (fun y hy => he y (List.mem_cons_of_mem _ hy)) xs h1⟩

theorem infix_collapse_of (e : List Char) (he : ∀ x ∈ e, isSpace x = false) :
    ∀ (s : List Char), e <:+: s → e <:+: collapse s := by
  intro s
  induction s with
  | nil => intro h; simpa [collapse] using h
  | cons x xs ih =>
    intro h
    rcases List.infix_cons_iff.mp h with h | h
    · exact (prefix_collapse_of e he _ h).isInfix
    · have h1 := ih h
      cases hx : isSpace x with
      | false => rw [collapse_cons_nonspace x xs hx]; exact List.infix_cons h1
      | true =>
        rcases collapse_space_cons x xs hx with hp | hp
        · rw [hp]; exact h1
        · rw [hp]; exact List.infix_cons h1

theorem padded_eq_words (s : List Char) (h1 : startsWithSpace s = false)
    (h2 : endsWithSpace s = false) : padded s = joinWords (wordsOf s) := by
  unfold padded
  rw [h1, h2]
  simp

/-- The helper `toStringValue` decodes: the value `&lt;x&gt;` does not stay as it is. -/
theorem C12_counterexample :
    toStringValue "&lt;x&gt;".toList ⟨0, 9⟩ = "<x>".toList ∧
    toStringValue "&lt;x&gt;".toList ⟨0, 9⟩ ≠ "&lt;x&gt;".toList ∧
    ¬ "&lt;".toList <:+: toStringValue "&lt;x&gt;".toList ⟨0, 9⟩ := by
  decide

/-- Claim C12, amended: `toStringValue` decodes the escape sequences as `toStringText` does:
on a span that neither begins nor ends with white space the two give the same string, and
`toStringValue` of `&lt;x&gt;` is `<x>`; it is `toStringCdata` that does not decode: every
escape sequence that occurs in the span occurs in what `toStringCdata` gives. -/
theorem C12_value_decodes_as_text (doc : Doc) (it : Span) (h1 : it.first ≤ it.second)
    (h2 : it.second ≤ doc.length) :
    (startsWithSpace (it.content doc) = false → endsWithSpace (it.content doc) = false →
      toStringValue doc it = toStringText doc it) ∧
    toStringValue "&lt;x&gt;".toList ⟨0, 9⟩ = toStringText "&lt;x&gt;".toList ⟨0, 9⟩ ∧
    toStringValue "&lt;x&gt;".toList ⟨0, 9⟩ = "<x>".toList ∧
    (∀ e ∈ escapeSequences, e <:+: it.content doc → e <:+: toStringCdata doc it) ∧
    toStringCdata "&lt;x&gt;".toList ⟨0, 9⟩ = "&lt;x&gt;".toList := by
  refine ⟨?_, by decide, by decide, ?_, by decide⟩
  · intro hs he
    unfold toStringValue toStringText
    rw [toString_pad doc it h1 h2, toString_trim_words doc it h1 h2, collapse_eq_padded,
      padded_eq_words _ hs he]
  · intro e he hin
    have hall : ∀ e ∈ escapeSequences, e ≠ [] := by decide
    have hne : e ≠ [] := hall e he
    have hns := escapeSequences_nonspace e he
    unfold toStringCdata
    rw [toString_trim doc it h1 h2]
    exact infix_collapse_of e hns _ (infix_trimEnd_of e hne hns _
      (infix_dropWhile_of e hne hns _ hin))

theorem C12_value_decodes_as_text_witness :
    toStringValue "<a p=\"&amp;b\"/>".toList ⟨6, 12⟩ =
      toStringText "<a p=\"&amp;b\"/>".toList ⟨6, 12⟩ :=
  (C12_value_decodes_as_text "<a p=\"&amp;b\"/>".toList ⟨6, 12⟩ (by decide) (by decide)).1
    (by decide) (by decide)

theorem escapesOnly_head (tbl : List (List Char × List Char)) (h : escapesOnly tbl = true)
    (e : List Char × List Char) (he : e ∈ tbl) :
    ∃ t c, e.1 = '&' :: t ∧ (∀ x ∈ t, isDecodedChar x = false) ∧ e.2 = [c] ∧
      isDecodedChar c = true := by
  unfold escapesOnly at h
  rw [List.all_eq_true] at h
  have h1 := h e he
  simp only [Bool.and_eq_true, beq_iff_eq, List.all_eq_true, Bool.not_eq_true'] at h1
  obtain ⟨⟨⟨h1, h2⟩, h3⟩, h4⟩ := h1
  obtain ⟨e1, e2⟩ := e
  cases e1 with
  | nil => cases h1
  | cons a t =>
    simp only [List.head?_cons, Option.some.injEq] at h1
    subst h1
    cases e2 with
    | nil => simp at h3
    | cons c r =>
      cases r with
      | nil => exact ⟨t, c, rfl, h2, rfl, h4 c (List.mem_singleton.mpr rfl)⟩
      | cons d r => simp at h3

theorem replaceScan_succ (tbl : List (List Char × List Char)) (k : Nat) (x : Char)
    (xs : List Char) : replaceScan tbl (k + 1) (x :: xs) = replaceScan tbl k xs := rfl

theorem replaceScan_zero (tbl : List (List Char × List Char)) (x : Char) (xs : List Char) :
    replaceScan tbl 0 (x :: xs) =
      match tbl.find? (fun e => e.1.isPrefixOf (x :: xs)) with
      | some e => e.2 ++ replaceScan tbl (e.1.length - 1) xs
      | none => x :: replaceScan tbl 0 xs := rfl

theorem isPrefixOf_cons_cons (a : Char) (t : List Char) (y : Char) (u : List Char) :
    (a :: t).isPrefixOf (y :: u) = (a == y && t.isPrefixOf u) := rfl

theorem find_congr {α : Type} (p q : α → Bool) :
    ∀ (l : List α), (∀ e ∈ l, p e = q e) → l.find? p = l.find? q := by
  intro l
  induction l with
  | nil => intro _; rfl
  | cons a l ih =>
    intro h
    simp only [List.find?_cons]
    rw [h a (List.mem_cons_self _ _), ih (fun e he => h e (List.mem_cons_of_mem _ he))]

theorem isPrefixOf_amp (t : List Char) (x : Char) (xs : List Char) (hx : x ≠ '&') :
    ('&' :: t).isPrefixOf (x :: xs) = false := by
  cases h : ('&' :: t).isPrefixOf (x :: xs) with
  | false => rfl
  | true =>
    obtain ⟨hh, _⟩ := List.cons_prefix_cons.mp (List.isPrefixOf_iff_prefix.mp h)
    exact absurd hh.symm hx

theorem find_none_of_ne_amp (tbl : List (List Char × List Char)) (h : escapesOnly tbl = true)
    (x : Char) (xs : List Char) (hx : x ≠ '&') :
    tbl.find? (fun e => e.1.isPrefixOf (x :: xs)) = none := by
  rw [List.find?_eq_none]
  intro e he
  obtain ⟨t, c, e1, _, _, _⟩ := escapesOnly_head tbl h e he
  rw [e1, isPrefixOf_amp t x xs hx]
  simp

/-- Where there is no `&` a pass changes nothing. -/
theorem replaceScan_noamp (tbl : List (List Char × List Char)) (h : escapesOnly tbl = true) :
    ∀ (s : List Char) (k : Nat), '&' ∉ s → replaceScan tbl k s = s.drop k := by
  intro s
  induction s with
  | nil => intro k _; simp [replaceScan]
  | cons x xs ih =>
    intro k hs
    simp only [List.mem_cons, not_or] at hs
    cases k with
    | zero =>
      simp only [replaceScan, List.drop_zero]
      rw [find_none_of_ne_amp tbl h x xs (fun hh => hs.1 hh.symm)]
      simp only
      rw [ih 0 hs.2, List.drop_zero]
    | succ k =>
      simp only [replaceScan, List.drop_succ_cons]
      exact ih k hs.2

/-- A sequence of characters that no replacement writes begins `u ++ w` only where it begins
`u`, when `w` is empty or begins with a character that a replacement writes. -/
theorem isPrefixOf_append_decoded (w : List Char)
    (hw : ∀ y ys, w = y :: ys → isDecodedChar y = true) :
    ∀ (t u : List Char), (∀ x ∈ t, isDecodedChar x = false) →
      t.isPrefixOf (u ++ w) = t.isPrefixOf u := by
  intro t
  induction t with
  | nil => intro u _; simp [List.isPrefixOf]
  | cons a t ih =>
    intro u ht
    have ha := ht a (List.mem_cons_self _ _)
    cases u with
    | nil =>
      cases w with
      | nil => rfl
      | cons y ys =>
        have hy := hw y ys rfl
        simp only [List.nil_append, List.isPrefixOf]
        have : (a == y) = false := by
          rw [beq_eq_false_iff_ne]
          intro hh
          rw [hh, hy] at ha
          cases ha
        rw [this]
        rfl
    | cons y u =>
      rw [List.cons_append, isPrefixOf_cons_cons, isPrefixOf_cons_cons,
        ih u (fun x hx => ht x (List.mem_cons_of_mem _ hx))]

theorem isPrefixOf_length (e s : List Char) (h : e.isPrefixOf s = true) :
    e.length ≤ s.length := (List.isPrefixOf_iff_prefix.mp h).length_le

/-- A pass over `u ++ w` is a pass over `u` followed by a pass over `w`, when `w` is empty or
begins with a character that a replacement writes. -/
theorem replaceScan_append (tbl : List (List Char × List Char)) (h : escapesOnly tbl = true)
    (w : List Char) (hw : ∀ y ys, w = y :: ys → isDecodedChar y = true) :
    ∀ (u : List Char) (k : Nat), k ≤ u.length →
      replaceScan tbl k (u ++ w) = replaceScan tbl k u ++ replaceScan tbl 0 w := by
  intro u
  induction u with
  | nil =>
    intro k hk
    have : k = 0 := by simpa using hk
    subst this
    cases w <;> simp [replaceScan]
  | cons x xs ih =>
    intro k hk
    cases k with
    | succ k =>
      rw [List.cons_append, replaceScan_succ, replaceScan_succ]
      exact ih k (by simpa using hk)
    | zero =>
      rw [List.cons_append, replaceScan_zero, replaceScan_zero]
      have hfind : tbl.find? (fun e => e.1.isPrefixOf (x :: (xs ++ w))) =
          tbl.find? (fun e => e.1.isPrefixOf (x :: xs)) := by
        apply find_congr
        intro e he
        obtain ⟨t, c, e1, e2, _, _⟩ := escapesOnly_head tbl h e he
        simp only [e1]
        rw [isPrefixOf_cons_cons, isPrefixOf_cons_cons, isPrefixOf_append_decoded w hw t xs e2]
      rw [hfind]
      cases hf : tbl.find? (fun e => e.1.isPrefixOf (x :: xs)) with
      | none =>
        simp only
        rw [ih 0 (Nat.zero_le _)]
        rfl
      | some e =>
        simp only
        have hp := List.find?_some hf
        have hl := isPrefixOf_length _ _ hp
        simp only [List.length_cons] at hl
        rw [ih _ (by omega), List.append_assoc]

/-- What a pass gives is empty or begins with a character that a replacement writes, when
what it reads is. -/
theorem replaceScan_head (tbl : List (List Char × List Char)) (h : escapesOnly tbl = true)
    (w : List Char) (hw : ∀ y ys, w = y :: ys → isDecodedChar y = true) :
    ∀ y ys, replaceScan tbl 0 w = y :: ys → isDecodedChar y = true := by
  intro y ys hy
  cases w with
  | nil => simp [replaceScan] at hy
  | cons x xs =>
    simp only [replaceScan] at hy
    cases hf : tbl.find? (fun e => e.1.isPrefixOf (x :: xs)) with
    | none =>
      rw [hf] at hy
      simp only [List.cons.injEq] at hy
      rw [← hy.1]
      exact hw x xs rfl
    | some e =>
      rw [hf] at hy
      obtain ⟨t, c, _, _, e3, e4⟩ := escapesOnly_head tbl h e (List.mem_of_find?_eq_some hf)
      simp only [e3, List.singleton_append, List.cons.injEq] at hy
      rw [← hy.1]
      exact e4

theorem replaceAll_append (e f : List Char) (h : escapesOnly [(e, f)] = true)
    (u w : List Char) (hw : ∀ y ys, w = y :: ys → isDecodedChar y = true) :
    replaceAll e f (u ++ w) = replaceAll e f u ++ replaceAll e f w :=
  replaceScan_append _ h w hw u 0 (Nat.zero_le _)

/-- The five replacements in order on `u ++ w` are those on `u` followed by those on `w`,
when `w` is empty or begins with a character that a replacement writes. -/
theorem decodeInOrder_append (u w : List Char)
    (hw : ∀ y ys, w = y :: ys → isDecodedChar y = true) :
    decodeInOrder (u ++ w) = decodeInOrder u ++ decodeInOrder w := by
  unfold decodeInOrder escapeTable
  simp only [List.foldl]
  unfold replaceAll
  have h1 := replaceScan_head [("&lt;".toList, "<".toList)] (by decide) w hw
  have h2 := replaceScan_head [("&gt;".toList, ">".toList)] (by decide) _ h1
  have h3 := replaceScan_head [("&amp;".toList, "&".toList)] (by decide) _ h2
  have h4 := replaceScan_head [("&apos;".toList, "\x27".toList)] (by decide) _ h3
  rw [replaceScan_append _ (by decide) w hw u 0 (Nat.zero_le _),
    replaceScan_append _ (by decide) _ h1 _ 0 (Nat.zero_le _),
    replaceScan_append _ (by decide) _ h2 _ 0 (Nat.zero_le _),
    replaceScan_append _ (by decide) _ h3 _ 0 (Nat.zero_le _),
    replaceScan_append _ (by decide) _ h4 _ 0 (Nat.zero_le _)]

theorem decodeOnePass_append (u w : List Char)
    (hw : ∀ y ys, w = y :: ys → isDecodedChar y = true) :
    decodeOnePass (u ++ w) = decodeOnePass u ++ decodeOnePass w :=
  replaceScan_append _ (by decide) w hw u 0 (Nat.zero_le _)

theorem replaceAll_noamp (e f : List Char) (h : escapesOnly [(e, f)] = true) (s : List Char)
    (hs : '&' ∉ s) : replaceAll e f s = s := by
  unfold replaceAll
  rw [replaceScan_noamp _ h s 0 hs, List.drop_zero]

theorem replaceScan_amp (tbl : List (List Char × List Char)) (h : escapesOnly tbl = true)
    (u : List Char) (hu : '&' ∉ u) :
    replaceScan tbl 0 ('&' :: u) =
      match tbl.find? (fun e => e.1.isPrefixOf ('&' :: u)) with
      | some e => e.2 ++ u.drop (e.1.length - 1)
      | none => '&' :: u := by
  rw [replaceScan_zero]
  split
  · rw [replaceScan_noamp tbl h u _ hu]
  · rw [replaceScan_noamp tbl h u _ hu, List.drop_zero]

theorem replaceAll_amp (e f : List Char) (h : escapesOnly [(e, f)] = true) (u : List Char)
    (hu : '&' ∉ u) :
    replaceAll e f ('&' :: u) =
      if e.isPrefixOf ('&' :: u) then f ++ u.drop (e.length - 1) else '&' :: u := by
  unfold replaceAll
  rw [replaceScan_amp _ h u hu]
  simp only [List.find?_cons, List.find?_nil]
  cases e.isPrefixOf ('&' :: u) <;> rfl

theorem not_mem_drop {x : Char} {u : List Char} (h : x ∉ u) (k : Nat) : x ∉ u.drop k :=
  fun hh => h (List.mem_of_mem_drop hh)

/-- After `&amp;` has been replaced, a second escape sequence begins only where the text had
`&amp;` followed by the rest of that sequence. -/
theorem amp_twice (t u : List Char) (h1 : "&amp;".toList.isPrefixOf ('&' :: u) = true)
    (h2 : ('&' :: t).isPrefixOf ('&' :: u.drop 4) = true) :
    ("&amp;".toList ++ t) <+: '&' :: u := by
  obtain ⟨r, hr⟩ := List.isPrefixOf_iff_prefix.mp h1
  have hu : u = "amp;".toList ++ r := (List.cons.inj hr).2.symm
  subst hu
  obtain ⟨r2, hr2⟩ := List.isPrefixOf_iff_prefix.mp h2
  have hr3 : r = t ++ r2 := by
    have := (List.cons.inj hr2).2
    exact this.symm
  subst hr3
  exact ⟨r2, by simp⟩

/-- The five replacements in order and the one pass agree on `x` followed by characters that
no replacement writes, unless it begins with `&amp;apos;` or `&amp;quot;`. -/
theorem decode_block (x : Char) (u : List Char) (hu : ∀ c ∈ u, isDecodedChar c = false)
    (h1 : ¬ "&amp;apos;".toList <+: x :: u) (h2 : ¬ "&amp;quot;".toList <+: x :: u) :
    decodeInOrder (x :: u) = decodeOnePass (x :: u) := by
  have hamp : '&' ∉ u := fun hh => by
    have := hu _ hh
    revert this
    decide
  unfold decodeInOrder decodeOnePass
  by_cases hx : x = '&'
  · subst hx
    rw [replaceScan_amp _ (by decide) u hamp]
    unfold escapeTable
    simp only [List.foldl, List.find?_cons, List.find?_nil]
    rw [replaceAll_amp _ _ (by decide) u hamp]
    cases p1 : "&lt;".toList.isPrefixOf ('&' :: u) with
    | true =>
      simp only [↓reduceIte]
      have hn : '&' ∉ "<".toList ++ u.drop ("&lt;".toList.length - 1) := by
        simp only [List.mem_append, not_or]
        exact ⟨by decide, not_mem_drop hamp _⟩
      rw [replaceAll_noamp _ _ (by decide) _ hn, replaceAll_noamp _ _ (by decide) _ hn,
        replaceAll_noamp _ _ (by decide) _ hn, replaceAll_noamp _ _ (by decide) _ hn]
    | false =>
      simp only [Bool.false_eq_true, ↓reduceIte]
      rw [replaceAll_amp _ _ (by decide) u hamp]
      cases p2 : "&gt;".toList.isPrefixOf ('&' :: u) with
      | true =>
        simp only [↓reduceIte]
        have hn : '&' ∉ ">".toList ++ u.drop ("&gt;".toList.length - 1) := by
          simp only [List.mem_append, not_or]
          exact ⟨by decide, not_mem_drop hamp _⟩
        rw [replaceAll_noamp _ _ (by decide) _ hn, replaceAll_noamp _ _ (by decide) _ hn,
          replaceAll_noamp _ _ (by decide) _ hn]
      | false =>
        simp only [Bool.false_eq_true, ↓reduceIte]
        rw [replaceAll_amp _ _ (by decide) u hamp]
        cases p3 : "&amp;".toList.isPrefixOf ('&' :: u) with
        | true =>
          simp only [↓reduceIte]
          have e : "&".toList ++ u.drop ("&amp;".toList.length - 1) = '&' :: u.drop 4 := rfl
          rw [e, replaceAll_amp _ _ (by decide) _ (not_mem_drop hamp _)]
          have q4 : "&apos;".toList.isPrefixOf ('&' :: u.drop 4) = false := by
            cases hq : "&apos;".toList.isPrefixOf ('&' :: u.drop 4) with
            | false => rfl
            | true => exact absurd (amp_twice "apos;".toList u p3 hq) h1
          have q5 : "&quot;".toList.isPrefixOf ('&' :: u.drop 4) = false := by
            cases hq : "&quot;".toList.isPrefixOf ('&' :: u.drop 4) with
            | false => rfl
            | true => exact absurd (amp_twice "quot;".toList u p3 hq) h2
          rw [q4]
          simp only [Bool.false_eq_true, ↓reduceIte]
          rw [replaceAll_amp _ _ (by decide) _ (not_mem_drop hamp _), q5]
          simp only [Bool.false_eq_true, ↓reduceIte]
        | false =>
          simp only [Bool.false_eq_true, ↓reduceIte]
          rw [replaceAll_amp _ _ (by decide) u hamp]
          cases p4 : "&apos;".toList.isPrefixOf ('&' :: u) with
          | true =>
            simp only [↓reduceIte]
            have hn : '&' ∉ "\x27".toList ++ u.drop ("&apos;".toList.length - 1) := by
              simp only [List.mem_append, not_or]
              exact ⟨by decide, not_mem_drop hamp _⟩
            rw [replaceAll_noamp _ _ (by decide) _ hn]
          | false =>
            simp only [Bool.false_eq_true, ↓reduceIte]
            rw [replaceAll_amp _ _ (by decide) u hamp]
            cases p5 : "&quot;".toList.isPrefixOf ('&' :: u) <;> simp
  · have hn : '&' ∉ x :: u := by
      simp only [List.mem_cons, not_or]
      exact ⟨fun hh => hx hh.symm, hamp⟩
    rw [replaceScan_noamp _ (by decide) _ 0 hn, List.drop_zero]
    unfold escapeTable
    simp only [List.foldl]
    rw [replaceAll_noamp _ _ (by decide) _ hn, replaceAll_noamp _ _ (by decide) _ hn,
      replaceAll_noamp _ _ (by decide) _ hn, replaceAll_noamp _ _ (by decide) _ hn,
      replaceAll_noamp _ _ (by decide) _ hn]

/-- The five replacements in order give what one pass gives, on a text in which neither
`&amp;apos;` nor `&amp;quot;` occurs. -/
theorem decodeInOrder_eq_onePass :
    ∀ (n : Nat) (t : List Char), t.length ≤ n → ¬ "&amp;apos;".toList <:+: t →
      ¬ "&amp;quot;".toList <:+: t → decodeInOrder t = decodeOnePass t := by
  intro n
  induction n with
  | zero =>
    intro t h _ _
    have : t = [] := List.eq_nil_of_length_eq_zero (by omega)
    subst this
    rfl
  | succ n ih =>
    intro t h h1 h2
    cases t with
    | nil => rfl
    | cons x xs =>
      have hsplit : x :: xs = (x :: xs.takeWhile (fun c => !isDecodedChar c)) ++
          xs.dropWhile (fun c => !isDecodedChar c) := by
        rw [List.cons_append, List.takeWhile_append_dropWhile]
      have hw : ∀ y ys, xs.dropWhile (fun c => !isDecodedChar c) = y :: ys →
          isDecodedChar y = true := by
        intro y ys hy
        have := dropWhile_head _ xs y ys hy
        simpa using this
      have hu : ∀ c ∈ xs.takeWhile (fun c => !isDecodedChar c), isDecodedChar c = false := by
        intro c hc
        have := List.mem_takeWhile_imp hc
        simpa using this
      have hpre : (x :: xs.takeWhile (fun c => !isDecodedChar c)) <+: x :: xs :=
        ⟨_, hsplit.symm⟩
      have hsuf : xs.dropWhile (fun c => !isDecodedChar c) <:+ x :: xs := ⟨_, hsplit.symm⟩
      have hlen : (xs.dropWhile (fun c => !isDecodedChar c)).length ≤ n := by
        have := congrArg List.length hsplit
        simp only [List.length_append, List.length_cons] at this h
        omega
      rw [hsplit, decodeInOrder_append _ _ hw, decodeOnePass_append _ _ hw,
        decode_block x _ hu (fun hh => h1 (hh.trans hpre).isInfix)
          (fun hh => h2 (hh.trans hpre).isInfix),
        ih _ hlen (fun hh => h1 (hh.trans hsuf.isInfix)) (fun hh => h2 (hh.trans hsuf.isInfix))]

/-- The replacements of `fixEscapes` are not one pass: the `&` that the third writes is read
by the fourth. -/
theorem C14_counterexample :
    fixEscapes "&amp;apos;".toList = "\x27".toList ∧
    decodeOnePass "&amp;apos;".toList = "&apos;".toList ∧
    fixEscapes "&amp;apos;".toList ≠ decodeOnePass "&amp;apos;".toList := by
  decide

/-- Claim C14, amended: for every string in which neither `&amp;apos;` nor `&amp;quot;`
occurs, `fixEscapes` gives what one pass from left to right gives that replaces each
occurrence of one of the five escape sequences by its character; `&amp;lt;` gives `&lt;`,
while `&amp;apos;` gives the apostrophe and `&amp;quot;` the quotation mark. -/
theorem C14_one_pass (t : List Char) (h1 : ¬ "&amp;apos;".toList <:+: t)
    (h2 : ¬ "&amp;quot;".toList <:+: t) :
    fixEscapes t = decodeOnePass t ∧
    fixEscapes "&amp;lt;".toList = "&lt;".toList ∧
    fixEscapes "&amp;apos;".toList = "\x27".toList ∧
    fixEscapes "&amp;quot;".toList = "\"".toList := by
  refine ⟨?_, by decide, by decide, by decide⟩
  rw [fixEscapes_eq]
  exact decodeInOrder_eq_onePass _ t (le_refl _) h1 h2

theorem C14_one_pass_witness :
    fixEscapes "a &amp;amp; &lt;b&gt;".toList = decodeOnePass "a &amp;amp; &lt;b&gt;".toList :=
  (C14_one_pass "a &amp;amp; &lt;b&gt;".toList (by decide) (by decide)).1

theorem run_newline (start pos : Nat) (x : Char) (xs : List Char) :
    Re.run start reNewline (fun pos1 _ c => some ⟨pos1, c⟩) pos (x :: xs) [] =
      if x == '\r' && xs.head? == some '\n' then some ⟨pos + 2, []⟩
      else if x == '\r' || x == '\n' then some ⟨pos + 1, []⟩ else none := by
  unfold reNewline
  rw [Re.run_alt, Re.run_seq, Re.char, Re.run_chr_cons, Re.run_alt, Re.run_chr_cons, Re.char,
    Re.run_chr_cons]
  cases hx : x == '\r'
  · simp only [Bool.false_eq_true, ↓reduceIte, Bool.false_and, Bool.false_or]
  · simp only [↓reduceIte, Bool.true_and, Bool.true_or]
    cases xs with
    | nil => rfl
    | cons y ys =>
      rw [Re.run_chr_cons]
      simp only [List.head?_cons]
      by_cases hy : y = '\n'
      · subst hy
        simp
      · have h1 : (y == '\n') = false := by simpa using hy
        have h2 : (some y == some '\n') = false := by simpa using hy
        simp only [h1, h2, Bool.false_eq_true, ↓reduceIte]

theorem run_newline_nil (start pos : Nat) :
    Re.run start reNewline (fun pos1 _ c => some ⟨pos1, c⟩) pos [] [] = none := rfl

theorem lineScan_one (pos : Nat) (y : Char) (ys : List Char) (acc : Nat × Nat) :
    lineScan 1 pos (y :: ys) acc = lineScan 0 (pos + 1) ys acc := rfl

/-- A search for a line terminator finds the first one; the scan goes on behind it. -/
theorem regex_search_newline (start : Nat) :
    ∀ (s : List Char) (pos : Nat) (acc : Nat × Nat),
      (regex_search reNewline start pos s = none ∧ lineScan 0 pos s acc = acc) ∨
      (∃ b m, regex_search reNewline start pos s = some (b, m) ∧ pos ≤ b ∧ b < m.stop ∧
        m.stop ≤ pos + s.length ∧
        lineScan 0 pos s acc =
          lineScan 0 m.stop (s.drop (m.stop - pos)) (acc.1 + 1, m.stop)) := by
  intro s
  induction s with
  | nil =>
    intro pos acc
    left
    exact ⟨rfl, rfl⟩
  | cons x xs ih =>
    intro pos acc
    rw [regex_search_cons, run_newline]
    by_cases h1 : (x == '\r' && xs.head? == some '\n') = true
    · right
      rw [if_pos h1]
      refine ⟨pos, _, rfl, le_refl _, by show pos < pos + 2; omega, ?_, ?_⟩
      · cases xs with
        | nil => simp at h1
        | cons y ys => show pos + 2 ≤ pos + (ys.length + 1 + 1); omega
      · cases xs with
        | nil => simp at h1
        | cons y ys =>
          simp only [lineScan]
          rw [if_pos h1]
          have : pos + 2 - pos = 2 := by omega
          rw [this]
          simp only [List.drop_succ_cons, List.drop_zero]
    · rw [if_neg h1]
      by_cases h2 : (x == '\r' || x == '\n') = true
      · right
        rw [if_pos h2]
        refine ⟨pos, _, rfl, le_refl _, by show pos < pos + 1; omega,
          by show pos + 1 ≤ pos + (xs.length + 1); omega, ?_⟩
        simp only [lineScan]
        rw [if_neg h1, if_pos h2]
        have : pos + 1 - pos = 1 := by omega
        rw [this]
        rfl
      · rw [if_neg h2]
        simp only [lineScan]
        rw [if_neg h1, if_neg h2]
        rcases ih (pos + 1) acc with ⟨g1, g2⟩ | ⟨b, m, g1, g2, g3, g4, g5⟩
        · left
          exact ⟨g1, g2⟩
        · right
          refine ⟨b, m, g1, by omega, g3, by simp only [List.length_cons]; omega, ?_⟩
          rw [g5]
          have : m.stop - pos = (m.stop - (pos + 1)) + 1 := by omega
          rw [this, List.drop_succ_cons]

theorem positionLoop_eq :
    ∀ (n : Nat) (s : List Char) (pos : Nat) (acc : Nat × Nat), s.length ≤ n →
      positionLoop reNewline n pos s acc = lineScan 0 pos s acc := by
  intro n
  induction n with
  | zero =>
    intro s pos acc h
    have : s = [] := List.eq_nil_of_length_eq_zero (by omega)
    subst this
    rfl
  | succ n ih =>
    intro s pos acc h
    simp only [positionLoop]
    rcases regex_search_newline pos s pos acc with ⟨g1, g2⟩ | ⟨b, m, g1, g2, g3, g4, g5⟩
    · rw [g1, g2]
    · rw [g1, g5]
      simp only
      rw [if_neg (by omega)]
      apply ih
      rw [List.length_drop]
      omega

/-- The counts of the scan: the line counter only grows, and the offset behind the last
terminator stays within what has been read. -/
theorem lineScan_bounds :
    ∀ (s : List Char) (k pos : Nat) (acc : Nat × Nat), acc.2 ≤ pos + k → k ≤ s.length →
      acc.1 ≤ (lineScan k pos s acc).1 ∧ (lineScan k pos s acc).2 ≤ pos + s.length := by
  intro s
  induction s with
  | nil =>
    intro k pos acc h hk
    simp only [lineScan, List.length_nil] at hk ⊢
    exact ⟨le_refl _, by omega⟩
  | cons x xs ih =>
    intro k pos acc h hk
    simp only [List.length_cons] at hk ⊢
    cases k with
    | succ k =>
      simp only [lineScan]
      have := ih k (pos + 1) acc (by omega) (by omega)
      exact ⟨this.1, by omega⟩
    | zero =>
      simp only [lineScan]
      split
      · rename_i h1
        have hl : 1 ≤ xs.length := by
          cases xs with
          | nil => simp at h1
          | cons y ys => simp
        have := ih 1 (pos + 1) (acc.1 + 1, pos + 2) (by simp) hl
        exact ⟨by have := this.1; simp only at this; omega, by omega⟩
      · split
        · have := ih 0 (pos + 1) (acc.1 + 1, pos + 1) (by simp) (Nat.zero_le _)
          exact ⟨by have := this.1; simp only at this; omega, by omega⟩
        · have := ih 0 (pos + 1) acc (by omega) (Nat.zero_le _)
          exact ⟨this.1, by omega⟩

theorem lineScan_shift :
    ∀ (s : List Char) (k pos a e c : Nat),
      lineScan k pos s (a + c, e) = ((lineScan k pos s (a, e)).1 + c, (lineScan k pos s (a, e)).2) := by
  intro s
  induction s with
  | nil => intro k pos a e c; simp [lineScan]
  | cons x xs ih =>
    intro k pos a e c
    cases k with
    | succ k =>
      simp only [lineScan]
      exact ih k (pos + 1) a e c
    | zero =>
      simp only [lineScan]
      split
      · have := ih 1 (pos + 1) (a + 1) (pos + 2) c
        rw [← this]
        congr 2
        omega
      · split
        · have := ih 0 (pos + 1) (a + 1) (pos + 1) c
          rw [← this]
          congr 2
          omega
        · exact ih 0 (pos + 1) a e c

/-- Claim C15: for every document and every offset `k` within it, `position` gives the pair
`(1 + n, 1 + k - e)` where `n` is the number of line terminators read from left to right in
the first `k` characters, `\r\n` being one terminator, and `e` the offset just behind the
last of them (0 when there is none); `e` is at most `k`, so the assertion of the function
holds; the position of offset 0 is `(1, 1)`, and both numbers are at least 1. -/
theorem C15_position (doc : Doc) (k : Nat) (hk : k ≤ doc.length) :
    position doc k = (1 + (lineScan 0 0 (doc.take k) (0, 0)).1,
      1 + k - (lineScan 0 0 (doc.take k) (0, 0)).2) ∧
    (lineScan 0 0 (doc.take k) (0, 0)).2 ≤ k ∧
    position doc 0 = (1, 1) ∧
    1 ≤ (position doc k).1 ∧ 1 ≤ (position doc k).2 ∧
    position "ab\r\nc\rd\n\nef".toList 10 = (5, 2) ∧
    position "ab\r\nc\rd\n\nef".toList 3 = (2, 1) ∧
    lineScan 0 0 ("ab\r\nc\rd\n\nef".toList.take 10) (0, 0) = (4, 9) := by
  have hlen : (doc.take k).length = k := by
    rw [List.length_take]
    omega
  have hb := lineScan_bounds (doc.take k) 0 0 (0, 0) (by simp) (Nat.zero_le _)
  rw [hlen, Nat.zero_add] at hb
  have hp : position doc k = (1 + (lineScan 0 0 (doc.take k) (0, 0)).1,
      1 + k - (lineScan 0 0 (doc.take k) (0, 0)).2) := by
    unfold position
    simp only
    rw [positionLoop_eq k (doc.take k) 0 (1, 0) (by omega),
      lineScan_shift (doc.take k) 0 0 0 0 1]
    simp only [Nat.zero_add, Prod.mk.injEq]
    constructor
    · omega
    · omega
  refine ⟨hp, hb.2, ?_, ?_, ?_, by decide, by decide, by decide⟩
  · unfold position
    simp [positionLoop]
  · rw [hp]
    simp only
    omega
  · rw [hp]
    simp only
    omega

theorem C15_position_witness :
    position "<a>\r\n<b/>\n</a>".toList 9 =
      (1 + (lineScan 0 0 ("<a>\r\n<b/>\n</a>".toList.take 9) (0, 0)).1,
        1 + 9 - (lineScan 0 0 ("<a>\r\n<b/>\n</a>".toList.take 9) (0, 0)).2) :=
  (C15_position "<a>\r\n<b/>\n</a>".toList 9 (by decide)).1

theorem starLoop_lang (start : Nat) (a : Re) (ha : ContLang (Re.run start a) (Re.Lang start a))
    (n : Nat) : ContLang (starLoop (Re.run start a) n) (Re.Lang start (.star a)) := by
  induction n with
  | zero =>
    intro k pos s c m h
    exact ⟨[], s, c, rfl, Re.Lang.starNil a pos s, by simpa [starLoop] using h⟩
  | succ n ih =>
    intro k pos s c m h
    simp only [starLoop] at h
    split at h
    · rename_i m1 hm1
      cases h
      obtain ⟨pre, s1, c1, hs, hl, hk⟩ := ha _ _ _ _ _ hm1
      split at hk
      · rename_i hlt
        obtain ⟨pre2, s2, c2, hs2, hl2, hk2⟩ := ih _ _ _ _ _ hk
        have hne : pre ≠ [] := by
          intro he
          rw [he] at hs
          rw [hs] at hlt
          simp at hlt
        subst hs2
        refine ⟨pre ++ pre2, s2, c2, by rw [hs, List.append_assoc],
          Re.Lang.starCons a pos pre pre2 s2 hne hl hl2, ?_⟩
        rw [List.length_append, ← Nat.add_assoc]
        exact hk2
      · cases hk
    · exact ⟨[], s, c, rfl, Re.Lang.starNil a pos s, by simpa using h⟩

/-- The matcher is sound for the language: it only succeeds through its continuation, called
after characters that the pattern can match. -/
theorem Re.run_lang (start : Nat) (r : Re) : ContLang (Re.run start r) (Re.Lang start r) := by
  induction r with
  | chr p =>
    intro k pos s c m h
    cases s with
    | nil => simp [Re.run] at h
    | cons x xs =>
      rw [Re.run_chr_cons] at h
      split at h
      · rename_i hp
        exact ⟨[x], xs, c, rfl, Re.Lang.chr p pos x xs hp, h⟩
      · cases h
  | eps =>
    intro k pos s c m h
    exact ⟨[], s, c, rfl, Re.Lang.eps pos s, h⟩
  | seq a b iha ihb =>
    intro k pos s c m h
    rw [Re.run_seq] at h
    obtain ⟨p1, s1, c1, hs, hl, hk⟩ := iha _ _ _ _ _ h
    obtain ⟨p2, s2, c2, hs2, hl2, hk2⟩ := ihb _ _ _ _ _ hk
    subst hs2
    refine ⟨p1 ++ p2, s2, c2, by rw [hs, List.append_assoc],
      Re.Lang.seq a b pos p1 p2 s2 hl hl2, ?_⟩
    rw [List.length_append, ← Nat.add_assoc]
    exact hk2
  | alt a b iha ihb =>
    intro k pos s c m h
    rw [Re.run_alt] at h
    split at h
    · rename_i m1 hm1
      cases h
      obtain ⟨pre, s1, c1, hs, hl, hk⟩ := iha _ _ _ _ _ hm1
      exact ⟨pre, s1, c1, hs, Re.Lang.altL a b pos pre s1 hl, hk⟩
    · obtain ⟨pre, s1, c1, hs, hl, hk⟩ := ihb _ _ _ _ _ h
      exact ⟨pre, s1, c1, hs, Re.Lang.altR a b pos pre s1 hl, hk⟩
  | star a iha =>
    intro k pos s c m h
    exact starLoop_lang start a iha _ k pos s c m h
  | group i a iha =>
    intro k pos s c m h
    rw [Re.run_group] at h
    obtain ⟨pre, s1, c1, hs, hl, hk⟩ := iha _ _ _ _ _ h
    exact ⟨pre, s1, _, hs, Re.Lang.group i a pos pre s1 hl, hk⟩
  | nla a _ =>
    intro k pos s c m h
    rw [Re.run_nla] at h
    split at h
    · cases h
    · rename_i hn
      exact ⟨[], s, c, rfl, Re.Lang.nla a pos s c hn, h⟩
  | bol =>
    intro k pos s c m h
    rw [Re.run_bol] at h
    split at h
    · rename_i hp
      exact ⟨[], s, c, rfl, Re.Lang.bol pos s hp, h⟩
    · cases h


/-! ## The language of the patterns of the source -/

theorem lang_chr {start : Nat} {p : Char → Bool} {pos : Nat} {pre rest : List Char}
    (h : Re.Lang start (.chr p) pos pre rest) : ∃ x, pre = [x] ∧ p x = true := by
  cases h with
  | chr _ _ x _ hp => exact ⟨x, rfl, hp⟩

theorem lang_char {start : Nat} {x : Char} {pos : Nat} {pre rest : List Char}
    (h : Re.Lang start (Re.char x) pos pre rest) : pre = [x] := by
  obtain ⟨y, rfl, hy⟩ := lang_chr h
  simp only [beq_iff_eq] at hy
  rw [hy]

theorem lang_eps {start : Nat} {pos : Nat} {pre rest : List Char}
    (h : Re.Lang start .eps pos pre rest) : pre = [] := by
  cases h
  rfl

theorem lang_bol {start : Nat} {pos : Nat} {pre rest : List Char}
    (h : Re.Lang start .bol pos pre rest) : pre = [] ∧ pos = start := by
  cases h with
  | bol _ _ hp => exact ⟨rfl, hp⟩

theorem lang_seq {start : Nat} {a b : Re} {pos : Nat} {pre rest : List Char}
    (h : Re.Lang start (.seq a b) pos pre rest) :
    ∃ p1 p2, pre = p1 ++ p2 ∧ Re.Lang start a pos p1 (p2 ++ rest) ∧
      Re.Lang start b (pos + p1.length) p2 rest := by
  cases h with
  | seq _ _ _ p1 p2 _ h1 h2 => exact ⟨p1, p2, rfl, h1, h2⟩

theorem lang_alt {start : Nat} {a b : Re} {pos : Nat} {pre rest : List Char}
    (h : Re.Lang start (.alt a b) pos pre rest) :
    Re.Lang start a pos pre rest ∨ Re.Lang start b pos pre rest := by
  cases h with
  | altL _ _ _ _ _ h1 => exact Or.inl h1
  | altR _ _ _ _ _ h1 => exact Or.inr h1

theorem lang_group {start : Nat} {i : Nat} {a : Re} {pos : Nat} {pre rest : List Char}
    (h : Re.Lang start (.group i a) pos pre rest) : Re.Lang start a pos pre rest := by
  cases h with
  | group _ _ _ _ _ h1 => exact h1

theorem lang_nla {start : Nat} {a : Re} {pos : Nat} {pre rest : List Char}
    (h : Re.Lang start (.nla a) pos pre rest) :
    pre = [] ∧ ∃ c, Re.run start a (fun pos1 _ c1 => some ⟨pos1, c1⟩) pos rest c = none := by
  cases h with
  | nla _ _ _ c h1 => exact ⟨rfl, c, h1⟩

theorem lang_opt {start : Nat} {a : Re} {pos : Nat} {pre rest : List Char}
    (h : Re.Lang start (Re.opt a) pos pre rest) : Re.Lang start a pos pre rest ∨ pre = [] := by
  rcases lang_alt h with h1 | h1
  · exact Or.inl h1
  · exact Or.inr (lang_eps h1)

theorem lang_star_cases {start : Nat} {a : Re} {pos : Nat} {pre rest : List Char}
    (h : Re.Lang start (.star a) pos pre rest) :
    pre = [] ∨ ∃ p1 p2, p1 ≠ [] ∧ pre = p1 ++ p2 ∧ Re.Lang start a pos p1 (p2 ++ rest) ∧
      Re.Lang start (.star a) (pos + p1.length) p2 rest := by
  cases h with
  | starNil => exact Or.inl rfl
  | starCons _ _ p1 p2 _ hne h1 h2 => exact Or.inr ⟨p1, p2, hne, rfl, h1, h2⟩

/-- The iterations of a `*`, one by one. -/
theorem lang_star_map {α : Type} {start : Nat} {a : Re} (f : α → List Char) (P : α → Prop)
    (ha : ∀ pos pre rest, Re.Lang start a pos pre rest → ∃ x, P x ∧ pre = f x) :
    ∀ (n : Nat) (pos : Nat) (pre rest : List Char), pre.length ≤ n →
      Re.Lang start (.star a) pos pre rest →
      ∃ xs : List α, (∀ x ∈ xs, P x) ∧ pre = xs.flatMap f := by
  intro n
  induction n with
  | zero =>
    intro pos pre rest hn _
    have : pre = [] := List.eq_nil_of_length_eq_zero (by omega)
    exact ⟨[], (fun x hx => by cases hx), by rw [this]; rfl⟩
  | succ n ih =>
    intro pos pre rest hn h
    rcases lang_star_cases h with h1 | ⟨p1, p2, hne, h1, h2, h3⟩
    · exact ⟨[], (fun x hx => by cases hx), by rw [h1]; rfl⟩
    · obtain ⟨x, hx, hfx⟩ := ha _ _ _ h2
      have hl : 0 < p1.length := List.length_pos.mpr hne
      have hlen : p2.length ≤ n := by
        rw [h1, List.length_append] at hn
        omega
      obtain ⟨xs, hxs, hfxs⟩ := ih _ _ _ hlen h3
      refine ⟨x :: xs, ?_, ?_⟩
      · intro y hy
        rcases List.mem_cons.mp hy with rfl | hy
        · exact hx
        · exact hxs y hy
      · rw [h1, hfx, hfxs]
        simp

theorem lang_star_chr {start : Nat} {p : Char → Bool} {pos : Nat} {pre rest : List Char}
    (h : Re.Lang start (.star (.chr p)) pos pre rest) : ∀ x ∈ pre, p x = true := by
  obtain ⟨xs, hxs, hpre⟩ := lang_star_map (fun x : Char => [x]) (fun x => p x = true)
    (fun pos pre rest hl => by
      obtain ⟨x, h1, h2⟩ := lang_chr hl
      exact ⟨x, h2, h1⟩) pre.length pos pre rest (le_refl _) h
  intro x hx
  rw [hpre] at hx
  simp only [List.mem_flatMap, List.mem_singleton] at hx
  obtain ⟨y, hy, rfl⟩ := hx
  exact hxs _ hy

theorem lang_plus_chr {start : Nat} {p : Char → Bool} {pos : Nat} {pre rest : List Char}
    (h : Re.Lang start (Re.plus (.chr p)) pos pre rest) :
    pre ≠ [] ∧ ∀ x ∈ pre, p x = true := by
  obtain ⟨p1, p2, rfl, h1, h2⟩ := lang_seq h
  obtain ⟨x, rfl, hx⟩ := lang_chr h1
  refine ⟨by simp, ?_⟩
  intro y hy
  rcases List.mem_cons.mp hy with rfl | hy
  · exact hx
  · exact lang_star_chr h2 y hy

theorem lang_lit {start : Nat} : ∀ (e : List Char) {pos : Nat} {pre rest : List Char},
    Re.Lang start (Re.lit e) pos pre rest → pre = e := by
  intro e
  induction e with
  | nil => intro pos pre rest h; exact lang_eps h
  | cons x xs ih =>
    intro pos pre rest h
    cases xs with
    | nil => exact lang_char h
    | cons y ys =>
      rw [Re.lit] at h
      · obtain ⟨p1, p2, rfl, h1, h2⟩ := lang_seq h
        rw [lang_char h1, ih h2]
        rfl
      · intro hh
        cases hh

theorem lang_name {start : Nat} {pos : Nat} {pre rest : List Char}
    (h : Re.Lang start getReName pos pre rest) : isName pre = true := by
  obtain ⟨p1, p2, rfl, h1, h2⟩ := lang_seq h
  obtain ⟨x, rfl, hx⟩ := lang_chr h1
  have := lang_star_chr h2
  simp only [List.singleton_append, isName, Bool.and_eq_true, List.all_eq_true]
  exact ⟨hx, this⟩

theorem lang_value {start : Nat} {pos : Nat} {pre rest : List Char}
    (h : Re.Lang start reValue pos pre rest) : pre.all isValueChar = true := by
  obtain ⟨xs, hxs, hpre⟩ := lang_star_map (fun x : List Char => x)
    (fun x => x.all isValueChar = true)
    (fun pos pre rest hl => by
      refine ⟨pre, ?_, rfl⟩
      rcases lang_alt hl with h1 | h1
      · obtain ⟨x, rfl, hx⟩ := lang_chr h1
        simpa [isValueChar] using hx
      · obtain ⟨p1, p2, rfl, h2, h3⟩ := lang_seq h1
        obtain ⟨p3, p4, rfl, h4, h5⟩ := lang_seq h3
        rw [lang_char h2, lang_char h5]
        have h6 : p3 = "lt".toList ∨ p3 = "gt".toList ∨ p3 = "amp".toList ∨
            p3 = "apos".toList ∨ p3 = "quot".toList := by
          rcases lang_alt h4 with g | g
          · exact Or.inl (lang_lit _ g)
          rcases lang_alt g with g | g
          · exact Or.inr (Or.inl (lang_lit _ g))
          rcases lang_alt g with g | g
          · exact Or.inr (Or.inr (Or.inl (lang_lit _ g)))
          rcases lang_alt g with g | g
          · exact Or.inr (Or.inr (Or.inr (Or.inl (lang_lit _ g))))
          · exact Or.inr (Or.inr (Or.inr (Or.inr (lang_lit _ g))))
        rcases h6 with rfl | rfl | rfl | rfl | rfl <;> decide)
    pre.length pos pre rest (le_refl _) h
  rw [hpre, List.all_eq_true]
  intro x hx
  simp only [List.mem_flatMap] at hx
  obtain ⟨y, hy, hxy⟩ := hx
  exact List.all_eq_true.mp (hxs y hy) x hxy

theorem regexXmlCDATA_eq :
    regexXmlCDATA = .seq .bol (.seq (Re.lit "<![CDATA[".toList)
      (.seq (.group 1 (reBody ']')) (Re.lit "]]>".toList))) := rfl

/-- The body pattern followed by `dd>`: the body ends at the first `dd>`. -/
theorem run_body (start : Nat) (d : Char) (rest : List Char) :
    ∀ (b : List Char), ¬ [d, d, '>'] <:+: b ++ [d, d] →
      ∀ (K : Cont) (pos : Nat) (c : Caps) (m : Match),
        K (pos + b.length) ([d, d, '>'] ++ rest) c = some m →
        Re.run start (reBody d) K pos (b ++ ([d, d, '>'] ++ rest)) c = some m := by
  intro b
  induction b with
  | nil =>
    intro _ K pos c m hk
    unfold reBody
    rw [Re.run_star]
    have hb : Re.run start (.alt (.chr (fun x => x != d))
        (.seq (Re.char d) (.nla (Re.lit [d, '>']))))
        (fun pos1 s1 c1 =>
          if s1.length < ([] ++ ([d, d, '>'] ++ rest)).length then
            Re.run start (.star (.alt (.chr (fun x => x != d))
              (.seq (Re.char d) (.nla (Re.lit [d, '>'])))))
              K pos1 s1 c1
          else none) pos ([] ++ ([d, d, '>'] ++ rest)) c = none := by
      simp [Re.run, Re.lit, Re.char]
    rw [hb]
    simpa using hk
  | cons x b ih =>
    intro hno K pos c m hk
    have hno1 : ¬ [d, d, '>'] <:+: b ++ [d, d] := by
      intro h
      exact hno (by rw [List.cons_append]; exact List.infix_cons h)
    have hrec := ih hno1 K (pos + 1) c m (by
      rw [← hk]
      congr 1
      simp only [List.length_cons]
      omega)
    unfold reBody at hrec ⊢
    rw [Re.run_star]
    by_cases hx : x = d
    · subst hx
      have hnl : Re.run start (Re.lit [x, '>']) (fun pos1 _ c1 => some ⟨pos1, c1⟩) (pos + 1)
          (b ++ ([x, x, '>'] ++ rest)) c = none := by
        apply run_lit_none
        intro hp
        apply hno
        have h3 : [x, x, '>'] <+: x :: (b ++ ([x, x, '>'] ++ rest)) :=
          (List.cons_prefix_cons).mpr ⟨rfl, hp⟩
        have h4 : [x, x, '>'] <+: (x :: b ++ [x, x]) ++ ('>' :: rest) := by
          simpa using h3
        have h5 := List.prefix_of_prefix_length_le h4 (List.prefix_append _ _)
          (by simp)
        exact h5.isInfix
      rw [List.cons_append, Re.run_alt, Re.run_chr_cons, Re.run_seq, Re.char, Re.run_chr_cons,
        Re.run_nla, hnl]
      simp only [bne_self_eq_false, Bool.false_eq_true, ↓reduceIte, beq_self_eq_true,
        List.length_cons, Nat.lt_succ_self]
      rw [Re.char] at hrec
      rw [hrec]
    · have hx2 : (x != d) = true := by simpa using hx
      rw [List.cons_append, Re.run_alt, Re.run_chr_cons]
      simp only [hx2, ↓reduceIte, List.length_cons, Nat.lt_succ_self]
      rw [hrec]

/-- In a body that the body pattern can match, no `d` is followed by `d>`. -/
theorem lang_body (start : Nat) (d : Char) :
    ∀ (n : Nat) (pos : Nat) (b rest : List Char), b.length ≤ n →
      Re.Lang start (reBody d) pos b rest →
      ∀ u w, b = u ++ d :: w → ¬ [d, '>'] <+: w ++ rest := by
  intro n
  induction n with
  | zero =>
    intro pos b rest hn _ u w hb
    rw [hb] at hn
    simp at hn
  | succ n ih =>
    intro pos b rest hn h u w hb
    unfold reBody at h
    rcases lang_star_cases h with h1 | ⟨p1, p2, hne, h1, h2, h3⟩
    · rw [h1] at hb
      simp at hb
    · have hlen : p2.length ≤ n := by
        have := List.length_pos.mpr hne
        rw [h1, List.length_append] at hn
        omega
      have hrec := ih _ p2 rest hlen h3
      rcases lang_alt h2 with g | g
      · obtain ⟨x, rfl, hx⟩ := lang_chr g
        have hxd : x ≠ d := by simpa using hx
        cases u with
        | nil =>
          rw [h1] at hb
          simp only [List.singleton_append, List.nil_append, List.cons.injEq] at hb
          exact absurd hb.1 hxd
        | cons y u =>
          rw [h1] at hb
          simp only [List.singleton_append, List.cons_append, List.cons.injEq] at hb
          exact hrec u w hb.2
      · obtain ⟨q1, q2, rfl, g1, g2⟩ := lang_seq g
        have e1 := lang_char g1
        obtain ⟨e2, c, hc⟩ := lang_nla g2
        subst e1 e2
        cases u with
        | nil =>
          rw [h1] at hb
          simp only [List.append_nil, List.singleton_append, List.nil_append,
            List.cons.injEq, true_and] at hb
          subst hb
          intro hp
          obtain ⟨r, hr⟩ := hp
          rw [← hr, run_lit_append] at hc
          cases hc
        | cons y u =>
          rw [h1] at hb
          simp only [List.append_nil, List.singleton_append, List.cons_append,
            List.cons.injEq] at hb
          exact hrec u w hb.2

/-- A body that the body pattern can match before `dd>` does not hold `dd>`, also not
together with the first two characters of that `dd>`. -/
theorem lang_body_first (start : Nat) (d : Char) (pos : Nat) (b rest : List Char)
    (h : Re.Lang start (reBody d) pos b ([d, d, '>'] ++ rest)) :
    ¬ [d, d, '>'] <:+: b ++ [d, d] := by
  intro hin
  obtain ⟨u, w, hw⟩ := hin
  have hlen := congrArg List.length hw
  simp only [List.length_append, List.length_cons, List.length_nil] at hlen
  -- the occurrence begins inside `b`
  have hub : u.length < b.length := by omega
  have hsplit : b = u ++ b.drop u.length := by
    have h1 : (u ++ [d, d, '>'] ++ w).take u.length = u := by
      rw [List.append_assoc, List.take_left]
    have h2 : (b ++ [d, d]).take u.length = b.take u.length := by
      rw [List.take_append_of_le_length (by omega)]
    rw [hw, h2] at h1
    conv_lhs => rw [← List.take_append_drop u.length b]
    rw [h1]
  cases hdrop : b.drop u.length with
  | nil =>
    have := congrArg List.length hdrop
    simp only [List.length_drop, List.length_nil] at this
    omega
  | cons y w2 =>
    rw [hdrop] at hsplit
    have hw2 : y :: (w2 ++ [d, d]) = [d, d, '>'] ++ w := by
      have h3 : u ++ (y :: (w2 ++ [d, d])) = u ++ ([d, d, '>'] ++ w) := by
        rw [← List.append_assoc u [d, d, '>'] w, hw]
        conv_rhs => rw [hsplit]
        simp
      exact List.append_cancel_left h3
    simp only [List.cons_append, List.nil_append, List.cons.injEq] at hw2
    obtain ⟨hy, hw3⟩ := hw2
    subst hy
    have hno := lang_body start y b.length pos b _ (le_refl _) h u w2 hsplit
    apply hno
    have hp : [y, '>'] <+: w2 ++ [y, y] := ⟨w, hw3.symm⟩
    have hq : w2 ++ [y, y] <+: w2 ++ ([y, y, '>'] ++ rest) := by
      refine ⟨'>' :: rest, ?_⟩
      simp
    exact hp.trans hq

/-- The CDATA pattern on a block that ends at its first `]]>`: the match is the block, and
group 1 is between `<![CDATA[` and `]]>`. -/
theorem run_cdata (pos : Nat) (body rest : List Char) (hok : cdataOk body = true) :
    Re.run pos regexXmlCDATA (fun pos1 _ c => some ⟨pos1, c⟩) pos (cdataText body ++ rest) [] =
      some ⟨pos + (cdataText body).length, [(1, ⟨pos + 9, pos + 9 + body.length⟩)]⟩ := by
  have hno : ¬ "]]>".toList <:+: body ++ "]]".toList := by
    simpa [cdataOk] using hok
  rw [regexXmlCDATA_eq, Re.run_seq, Re.run_bol, if_pos rfl, Re.run_seq]
  unfold cdataText
  rw [List.append_assoc, run_lit_append, Re.run_seq, Re.run_group, List.append_assoc]
  apply run_body pos ']' rest body hno
  have e : [']', ']', '>'] = "]]>".toList := rfl
  rw [e, run_lit_append]
  have h1 : "<![CDATA[".toList.length = 9 := rfl
  have h2 : "]]>".toList.length = 3 := rfl
  simp only [List.length_append, h1, h2, Option.some.injEq, Match.mk.injEq, and_true]
  omega

theorem search_cdata (doc : Doc) (p : Nat) (body rest : List Char) (hok : cdataOk body = true)
    (hd : doc.drop p = cdataText body ++ rest) :
    regex_search_continuous regexXmlCDATA doc p doc.length =
      some ⟨p + (cdataText body).length, [(1, ⟨p + 9, p + 9 + body.length⟩)]⟩ := by
  unfold regex_search_continuous
  rw [take_drop_all, hd]
  exact run_cdata p body rest hok

/-- Where the CDATA pattern matches, there is a block that ends at its first `]]>`. -/
theorem search_cdata_shape (doc : Doc) (p : Nat) (m : Match)
    (h : regex_search_continuous regexXmlCDATA doc p doc.length = some m) :
    ∃ body rest, cdataOk body = true ∧ doc.drop p = cdataText body ++ rest := by
  unfold regex_search_continuous at h
  rw [take_drop_all] at h
  obtain ⟨pre, s1, c1, hs, hl, _⟩ := Re.run_lang p regexXmlCDATA _ _ _ _ _ h
  rw [regexXmlCDATA_eq] at hl
  obtain ⟨p1, p2, rfl, h1, h2⟩ := lang_seq hl
  obtain ⟨rfl, _⟩ := lang_bol h1
  obtain ⟨p3, p4, rfl, h3, h4⟩ := lang_seq h2
  have e3 := lang_lit _ h3
  subst e3
  obtain ⟨p5, p6, rfl, h5, h6⟩ := lang_seq h4
  have e6 := lang_lit _ h6
  subst e6
  have h7 := lang_group h5
  have hno := lang_body_first p ']' _ p5 s1 h7
  refine ⟨p5, s1, ?_, ?_⟩
  · simpa [cdataOk] using hno
  · rw [hs]
    simp [cdataText]

/-- The calls `cdata` of an iteration: at most the one of the CDATA branch. -/
theorem bodyStep_cdatas (v : Visitor σ) (doc : Doc) (st st1 : State σ) (P : Span → Prop)
    (h : bodyStep v doc st = some st1) (h0 : ∀ sp b, (Call.cdata sp, b) ∈ st.log → P sp)
    (h1 : ∀ m, regex_search_continuous regexXmlCDATA doc st.docPos doc.length = some m →
      st1 = stepCdata v doc st m → P (m.get 1)) :
    ∀ sp b, (Call.cdata sp, b) ∈ st1.log → P sp := by
  intro sp b hmem
  rcases bodyStep_cases v doc st st1 h with ⟨m, hm, hopen⟩ | ⟨m, _, hm, rfl⟩ |
    ⟨t, _, _, ht, rfl⟩ | ⟨m, _, _, _, hm, rfl⟩ | ⟨m, _, _, _, _, hm, rfl⟩ | ⟨_, _, _, _, _, rfl⟩
  · obtain ⟨r, ext, ok, g1, g2, g3, g4⟩ := stepOpen_spec v doc st st1 m hopen
    have hext : (Call.cdata sp, b) ∉ ext := by
      intro hc
      cases r
      · rw [(g1 rfl).1] at hc
        cases hc
      · rcases attrLog_mem (g2 rfl) _ hc with ⟨n, x, e⟩ | e | ⟨msg, e, _⟩ <;> cases e
    cases hc : (ok && m.matched 4)
    · rw [(g4 hc).1] at hmem
      simp only [List.mem_append, List.mem_cons, Prod.mk.injEq, reduceCtorEq, false_and,
        false_or] at hmem
      rcases hmem with hm | hm
      · exact h0 sp b hm
      · exact absurd hm hext
    · obtain ⟨r2, g5, _⟩ := g3 hc
      rw [g5] at hmem
      simp only [List.mem_append, List.mem_cons, Prod.mk.injEq, reduceCtorEq, false_and,
        false_or, List.mem_singleton, or_false, List.not_mem_nil] at hmem
      rcases hmem with hm | hm
      · exact h0 sp b hm
      · exact absurd hm hext
  · unfold stepClose at hmem
    split at hmem
    · simp only [State.call, List.mem_append, List.mem_singleton, Prod.mk.injEq, reduceCtorEq,
        false_and, or_false] at hmem
      exact h0 sp b hmem
    · split at hmem
      · simp only [State.call, List.mem_append, List.mem_singleton, Prod.mk.injEq,
          reduceCtorEq, false_and, or_false] at hmem
        exact h0 sp b hmem
      · rw [finish_log] at hmem
        simp only [State.call, List.mem_append, List.mem_singleton, Prod.mk.injEq,
          reduceCtorEq, false_and, or_false] at hmem
        exact h0 sp b hmem
  · unfold stepText at hmem
    rw [finish_log] at hmem
    simp only [State.call, List.mem_append, List.mem_singleton, Prod.mk.injEq, reduceCtorEq,
      false_and, or_false] at hmem
    exact h0 sp b hmem
  · have hP := h1 m hm rfl
    unfold stepCdata at hmem
    rw [finish_log] at hmem
    simp only [State.call, List.mem_append, List.mem_singleton, Prod.mk.injEq,
      Call.cdata.injEq] at hmem
    rcases hmem with hm1 | ⟨rfl, _⟩
    · exact h0 sp b hm1
    · exact hP
  · rw [finish_log] at hmem
    exact h0 sp b hmem
  · unfold stepInvalid at hmem
    simp only [State.call, List.mem_append, List.mem_singleton, Prod.mk.injEq, reduceCtorEq,
      false_and, or_false] at hmem
    exact h0 sp b hmem

/-- Every call `cdata` in the log at the beginning of an iteration was made by the CDATA
branch of an earlier iteration. -/
theorem iterStart_cdatas (v : Visitor σ) (doc : Doc) (vis : σ) (n : Nat) :
    ∀ (sn : State σ), iterStart v doc vis n = some sn →
      ∀ sp b, (Call.cdata sp, b) ∈ sn.log →
        ∃ k sk m, iterStart v doc vis k = some sk ∧
          regex_search_continuous regexXmlCDATA doc sk.docPos doc.length = some m ∧
          bodyStep v doc sk = some (stepCdata v doc sk m) ∧ sp = m.get 1 := by
  induction n with
  | zero =>
    intro sn h sp b hm
    simp only [iterStart] at h
    split at h
    · cases h
    · cases h
      simp [bodyInit] at hm
  | succ n ih =>
    intro sn h
    obtain ⟨s0, h0, hstep, _⟩ := (iterStart_succ v doc vis n sn).mp h
    exact bodyStep_cdatas v doc s0 sn _ hstep (ih s0 h0)
      (fun m hm he => ⟨n, s0, m, h0, hm, by rw [hstep, he], rfl⟩)

theorem content_of_drop (doc : Doc) (p : Nat) (a b rest : List Char)
    (hd : doc.drop p = a ++ (b ++ rest)) :
    (⟨p + a.length, p + a.length + b.length⟩ : Span).content doc = b := by
  unfold Span.content
  simp only [Nat.add_sub_cancel_left]
  rw [← List.drop_drop, hd, List.drop_left, List.take_left]

/-- Claim C22: where the CDATA pattern matches, the text at the cursor is `<![CDATA[`, a body
and `]]>`, with no `]]>` that begins in the body, so that the body is the text up to the first
`]]>`; group 1 of the match, the span passed to `cdata`, is the body, and the match ends
behind that `]]>`; every call `cdata` of `parse` is made with group 1 of such a match at the
cursor of an iteration, after which the scan goes on behind the match; the body may be empty
and may hold `]`, `]]` and `]>`; `<![CDATA[  ] ]] ]> ]]>` reports `  ] ]] ]> `. -/
theorem C22_cdata_span (v : Visitor σ) (doc : Doc) (vis : σ) :
    (∀ p m, regex_search_continuous regexXmlCDATA doc p doc.length = some m →
      ∃ body rest, doc.drop p = "<![CDATA[".toList ++ (body ++ ("]]>".toList ++ rest)) ∧
        ¬ "]]>".toList <:+: body ++ "]]".toList ∧
        m.get 1 = ⟨p + 9, p + 9 + body.length⟩ ∧ (m.get 1).content doc = body ∧
        m.stop = p + 9 + body.length + 3) ∧
    (∀ (stack0 : List Span) (st : State σ), parse v doc vis stack0 = some st →
      ∀ sp b, (Call.cdata sp, b) ∈ st.log →
        ∃ n sn m st1, iterStart v doc vis n = some sn ∧
          regex_search_continuous regexXmlCDATA doc sn.docPos doc.length = some m ∧
          sp = m.get 1 ∧ bodyStep v doc sn = some st1 ∧
          (st1.retCode = true → st1.docPos = skipSpacesAndComments doc m.stop)) ∧
    (∀ body ∈ ["".toList, "]".toList, "]]".toList, "]>".toList, " ]]".toList],
      ∀ p rest, doc.drop p = "<![CDATA[".toList ++ (body ++ ("]]>".toList ++ rest)) →
        ∃ m, regex_search_continuous regexXmlCDATA doc p doc.length = some m ∧
          (m.get 1).content doc = body) ∧
    (∃ st, parse (constVisitor true) "<a><![CDATA[  ] ]] ]> ]]></a>".toList () [] = some st ∧
      calls st.log = [.enter ⟨1, 2⟩ false, .cdata ⟨12, 22⟩, .exit ⟨27, 28⟩ false] ∧
      (⟨12, 22⟩ : Span).content "<a><![CDATA[  ] ]] ]> ]]></a>".toList = "  ] ]] ]> ".toList) := by
  have key : ∀ p m, regex_search_continuous regexXmlCDATA doc p doc.length = some m →
      ∃ body rest, doc.drop p = "<![CDATA[".toList ++ (body ++ ("]]>".toList ++ rest)) ∧
        ¬ "]]>".toList <:+: body ++ "]]".toList ∧
        m.get 1 = ⟨p + 9, p + 9 + body.length⟩ ∧ (m.get 1).content doc = body ∧
        m.stop = p + 9 + body.length + 3 := by
    intro p m hm
    obtain ⟨body, rest, hok, hd⟩ := search_cdata_shape doc p m hm
    have hm2 := search_cdata doc p body rest hok hd
    rw [hm] at hm2
    have hm3 := Option.some.inj hm2
    have hd2 : doc.drop p = "<![CDATA[".toList ++ (body ++ ("]]>".toList ++ rest)) := by
      rw [hd]
      simp [cdataText]
    have hget : m.get 1 = ⟨p + 9, p + 9 + body.length⟩ := by
      rw [hm3]
      rfl
    refine ⟨body, rest, hd2, by simpa [cdataOk] using hok, hget, ?_, ?_⟩
    · rw [hget]
      exact content_of_drop doc p "<![CDATA[".toList body _ hd2
    · rw [hm3]
      have h1 : "<![CDATA[".toList.length = 9 := rfl
      have h2 : "]]>".toList.length = 3 := rfl
      simp only [cdataText, List.length_append, h1, h2]
      omega
  refine ⟨key, ?_, ?_, ?_⟩
  · intro stack0 st hp sp b hmem
    obtain ⟨st', h1, h2⟩ := parse_cases v doc vis stack0
    rw [hp] at h1
    cases h1
    rcases h2 with ⟨_, rfl⟩ | ⟨_, n, sn, g1, g2, _⟩
    · cases hmem
    · obtain ⟨k, sk, m, e1, e2, e3, e4⟩ :=
        bodyStep_cdatas v doc sn st
          (fun sp => ∃ k sk m, iterStart v doc vis k = some sk ∧
            regex_search_continuous regexXmlCDATA doc sk.docPos doc.length = some m ∧
            bodyStep v doc sk = some (stepCdata v doc sk m) ∧ sp = m.get 1)
          g2 (iterStart_cdatas v doc vis n sn g1)
          (fun m hm he => ⟨n, sn, m, g1, hm, by rw [g2, he], rfl⟩) sp b hmem
      exact ⟨k, sk, m, _, e1, e2, e4, e3, fun hr => finish_is_skip _ _ _ hr⟩
  · intro body hb p rest hd
    have hall : ∀ b ∈ ["".toList, "]".toList, "]]".toList, "]>".toList, " ]]".toList],
        cdataOk b = true := by decide
    have hok : cdataOk body = true := hall body hb
    have hm := search_cdata doc p body rest hok (by rw [hd]; simp [cdataText])
    obtain ⟨b2, r2, _, _, _, hc, _⟩ := key p _ hm
    refine ⟨_, hm, ?_⟩
    exact content_of_drop doc p "<![CDATA[".toList body _ hd
  · exact ⟨⟨(), [(.enter ⟨1, 2⟩ false, true), (.cdata ⟨12, 22⟩, true),
      (.exit ⟨27, 28⟩ false, true)], [], 29, true⟩, by decide, by decide, by decide⟩

theorem C22_cdata_span_witness :
    ∃ body rest, "<a><![CDATA[x]y]]></a>".toList.drop 3 =
        "<![CDATA[".toList ++ (body ++ ("]]>".toList ++ rest)) ∧
      ¬ "]]>".toList <:+: body ++ "]]".toList ∧
      (⟨12, 15⟩ : Span) = ⟨3 + 9, 3 + 9 + body.length⟩ ∧
      (⟨12, 15⟩ : Span).content "<a><![CDATA[x]y]]></a>".toList = body ∧
      18 = 3 + 9 + body.length + 3 :=
  (C22_cdata_span (constVisitor true) "<a><![CDATA[x]y]]></a>".toList ()).1 3
    ⟨18, [(1, ⟨12, 15⟩)]⟩ (by decide)

/-- Two ways to split a string into a run of a class and a rest that does not begin with the
class are the same. -/
theorem span_unique (P : Char → Bool) :
    ∀ (a b ra rb : List Char), (∀ x ∈ a, P x = true) → (∀ x ∈ b, P x = true) →
      (∀ y ys, ra = y :: ys → P y = false) → (∀ y ys, rb = y :: ys → P y = false) →
      a ++ ra = b ++ rb → a = b ∧ ra = rb := by
  intro a
  induction a with
  | nil =>
    intro b ra rb _ hb hra _ h
    cases b with
    | nil => exact ⟨rfl, h⟩
    | cons y b =>
      simp only [List.nil_append, List.cons_append] at h
      have h1 := hra y _ h
      rw [hb y (List.mem_cons_self _ _)] at h1
      cases h1
  | cons x a ih =>
    intro b ra rb ha hb hra hrb h
    cases b with
    | nil =>
      simp only [List.nil_append, List.cons_append] at h
      have h1 := hrb x _ h.symm
      rw [ha x (List.mem_cons_self _ _)] at h1
      cases h1
    | cons y b =>
      simp only [List.cons_append, List.cons.injEq] at h
      obtain ⟨rfl, h2⟩ := h
      obtain ⟨e1, e2⟩ := ih b ra rb (fun z hz => ha z (List.mem_cons_of_mem _ hz))
        (fun z hz => hb z (List.mem_cons_of_mem _ hz)) hra hrb h2
      exact ⟨by rw [e1], e2⟩

theorem isName_chars (n : List Char) (h : isName n = true) : ∀ x ∈ n, isNameChar x = true := by
  cases n with
  | nil => cases h
  | cons y ys =>
    simp only [isName, Bool.and_eq_true, List.all_eq_true] at h
    intro x hx
    rcases List.mem_cons.mp hx with rfl | hx
    · have := h.1
      simp only [isNameStart, Bool.or_eq_true] at this
      simp only [isNameChar, isWord, Bool.or_eq_true]
      rcases this with h1 | h1
      · exact Or.inl (Or.inl (Or.inl (Or.inl h1)))
      · exact Or.inl (Or.inl (Or.inr h1))
    · exact h.2 x hx

theorem isName_head (n : List Char) (h : isName n = true) :
    ∃ y ys, n = y :: ys ∧ isNameStart y = true := by
  cases n with
  | nil => cases h
  | cons y ys =>
    simp only [isName, Bool.and_eq_true] at h
    exact ⟨y, ys, rfl, h.1⟩

theorem isName_ne_nil (n : List Char) (h : isName n = true) : n ≠ [] := by
  intro hn
  rw [hn] at h
  cases h

/-- A name followed by `:` is not matched where the name is followed by something else. -/
theorem run_name_colon_none (start : Nat) (n rest : List Char) (hn : isName n = true)
    (hrest : ∀ y ys, rest = y :: ys → isNameChar y = false ∧ y ≠ ':') (K : Cont) (pos : Nat)
    (c : Caps) :
    Re.run start (.seq getReName (Re.char ':')) K pos (n ++ rest) c = none := by
  cases hq : Re.run start (.seq getReName (Re.char ':')) K pos (n ++ rest) c with
  | none => rfl
  | some m =>
    exfalso
    obtain ⟨pre, s1, c1, hs, hl, _⟩ := Re.run_lang start _ _ _ _ _ _ hq
    obtain ⟨p1, p2, rfl, h1, h2⟩ := lang_seq hl
    have e2 := lang_char h2
    subst e2
    have hp1 := isName_chars p1 (lang_name h1)
    rw [List.append_assoc] at hs
    obtain ⟨_, e⟩ := span_unique isNameChar n p1 rest ([':'] ++ s1) (isName_chars n hn) hp1
      (fun y ys hy => (hrest y ys hy).1) (fun y ys hy => by
        simp only [List.singleton_append, List.cons.injEq] at hy
        rw [← hy.1]
        decide) hs
    exact (hrest ':' s1 e).2 rfl

/-- The element-name pattern takes a whole name with its prefix, when what follows is neither
a character of a name nor a colon. -/
theorem run_elementName (start : Nat) (q : QName) (hq : q.ok = true) (rest : List Char)
    (hrest : ∀ y ys, rest = y :: ys → isNameChar y = false ∧ y ≠ ':') (k : Cont) (pos : Nat)
    (c : Caps) (m : Match) (hk : k (pos + q.text.length) rest c = some m) :
    Re.run start reElementName k pos (q.text ++ rest) c = some m := by
  obtain ⟨pfx, name⟩ := q
  simp only [QName.ok, Bool.and_eq_true, Bool.or_eq_true] at hq
  obtain ⟨hp, hn⟩ := hq
  unfold reElementName
  rw [Re.run_seq, Re.opt, Re.run_alt]
  by_cases he : pfx = []
  · subst he
    simp only [QName.text, List.isEmpty_nil, ↓reduceIte, List.nil_append] at hk ⊢
    rw [run_name_colon_none start name rest hn hrest]
    simp only
    rw [Re.run_eps]
    exact run_name start name rest hn (fun y ys hy => (hrest y ys hy).1) k pos c m hk
  · have hpn : isName pfx = true := by
      rcases hp with hp | hp
      · simp only [List.isEmpty_iff] at hp
        exact absurd hp he
      · exact hp
    have hie : pfx.isEmpty = false := by
      cases pfx with
      | nil => exact absurd rfl he
      | cons _ _ => rfl
    simp only [QName.text, hie, Bool.false_eq_true, ↓reduceIte] at hk ⊢
    have h1 : Re.run start (.seq getReName (Re.char ':')) (Re.run start getReName k) pos
        (pfx ++ [':'] ++ name ++ rest) c = some m := by
      rw [Re.run_seq, List.append_assoc, List.append_assoc]
      apply run_name start pfx _ hpn (fun y ys hy => by
        simp only [List.singleton_append, List.cons_append, List.cons.injEq] at hy
        rw [← hy.1]
        decide)
      rw [List.singleton_append, Re.char, Re.run_chr_cons, if_pos (by simp)]
      apply run_name start name rest hn (fun y ys hy => (hrest y ys hy).1)
      rw [← hk]
      congr 1
      simp only [List.length_append, List.length_singleton]
      omega
    rw [h1]

theorem lang_elementName {start : Nat} {pos : Nat} {pre rest : List Char}
    (h : Re.Lang start reElementName pos pre rest) : ∃ q : QName, q.ok = true ∧ pre = q.text := by
  unfold reElementName at h
  obtain ⟨p1, p2, rfl, h1, h2⟩ := lang_seq h
  have hn := lang_name h2
  rcases lang_opt h1 with g | g
  · obtain ⟨p3, p4, rfl, g1, g2⟩ := lang_seq g
    have e := lang_char g2
    subst e
    have hp := lang_name g1
    have hie : p3.isEmpty = false := by
      cases p3 with
      | nil => cases hp
      | cons _ _ => rfl
    refine ⟨⟨p3, p2⟩, ?_, ?_⟩
    · simp [QName.ok, hp, hn]
    · simp [QName.text, hie]
  · subst g
    exact ⟨⟨[], p2⟩, by simp [QName.ok, hn], by simp [QName.text]⟩

theorem qname_head (q : QName) (h : q.ok = true) :
    ∃ y ys, q.text = y :: ys ∧ isNameStart y = true := by
  obtain ⟨pfx, name⟩ := q
  simp only [QName.ok, Bool.and_eq_true, Bool.or_eq_true] at h
  obtain ⟨hp, hn⟩ := h
  cases pfx with
  | nil =>
    obtain ⟨y, ys, e, hy⟩ := isName_head name hn
    exact ⟨y, ys, by simp [QName.text, e], hy⟩
  | cons x xs =>
    have hx : isName (x :: xs) = true := by
      rcases hp with hp | hp
      · cases hp
      · exact hp
    obtain ⟨y, ys, e, hy⟩ := isName_head _ hx
    obtain ⟨rfl, rfl⟩ := List.cons.inj e
    exact ⟨x, xs ++ [':'] ++ name, by simp [QName.text], hy⟩

theorem regexNodeClose_eq :
    regexNodeClose = .seq .bol (.seq (Re.lit "</".toList) (.seq (.group 1 reElementName)
      (.seq (.star reSpace) (Re.char '>')))) := rfl

/-- The close-tag pattern on a close tag: the match is the tag, and group 1 is its name. -/
theorem run_close (pos : Nat) (t : CloseTag) (rest : List Char) (hok : t.ok = true) :
    Re.run pos regexNodeClose (fun pos1 _ c => some ⟨pos1, c⟩) pos (t.text ++ rest) [] =
      some ⟨pos + t.text.length, [(1, ⟨pos + 2, pos + 2 + t.name.text.length⟩)]⟩ := by
  obtain ⟨q, sp⟩ := t
  simp only [CloseTag.ok, Bool.and_eq_true, List.all_eq_true] at hok
  obtain ⟨hq, hsp⟩ := hok
  rw [regexNodeClose_eq, Re.run_seq, Re.run_bol, if_pos rfl, Re.run_seq]
  simp only [CloseTag.text]
  rw [List.append_assoc, run_lit_append, Re.run_seq, Re.run_group, List.append_assoc]
  apply run_elementName pos q hq
  · intro y ys hy
    cases sp with
    | nil =>
      simp only [List.nil_append, List.singleton_append, List.cons.injEq] at hy
      rw [← hy.1]
      decide
    | cons z zs =>
      simp only [List.cons_append, List.cons.injEq] at hy
      rw [← hy.1]
      have hz := hsp z (List.mem_cons_self _ _)
      refine ⟨isNameChar_of_isSpace z hz, ?_⟩
      intro hc
      rw [hc] at hz
      revert hz
      decide
  · rw [Re.run_seq, List.append_assoc]
    unfold reSpace
    apply run_star_chr_greedy pos isSpace (['>'] ++ rest) (fun y ys hy => by
      simp only [List.singleton_append, List.cons.injEq] at hy
      rw [← hy.1]
      decide) sp _ _ _ _ hsp
    rw [List.singleton_append, Re.char, Re.run_chr_cons, if_pos (by simp)]
    have h2 : "</".toList.length = 2 := rfl
    simp only [List.length_append, List.length_singleton, h2, Option.some.injEq, Match.mk.injEq,
      and_true]
    omega

theorem search_close (doc : Doc) (p : Nat) (t : CloseTag) (rest : List Char)
    (hok : t.ok = true) (hd : doc.drop p = t.text ++ rest) :
    regex_search_continuous regexNodeClose doc p doc.length =
      some ⟨p + t.text.length, [(1, ⟨p + 2, p + 2 + t.name.text.length⟩)]⟩ := by
  unfold regex_search_continuous
  rw [take_drop_all, hd]
  exact run_close p t rest hok

/-- Where the close-tag pattern matches, there is a close tag. -/
theorem search_close_shape (doc : Doc) (p : Nat) (m : Match)
    (h : regex_search_continuous regexNodeClose doc p doc.length = some m) :
    ∃ (t : CloseTag) (rest : List Char), t.ok = true ∧ doc.drop p = t.text ++ rest := by
  unfold regex_search_continuous at h
  rw [take_drop_all] at h
  obtain ⟨pre, s1, c1, hs, hl, _⟩ := Re.run_lang p regexNodeClose _ _ _ _ _ h
  rw [regexNodeClose_eq] at hl
  obtain ⟨p1, p2, rfl, h1, h2⟩ := lang_seq hl
  obtain ⟨rfl, _⟩ := lang_bol h1
  obtain ⟨p3, p4, rfl, h3, h4⟩ := lang_seq h2
  have e3 := lang_lit _ h3
  subst e3
  obtain ⟨p5, p6, rfl, h5, h6⟩ := lang_seq h4
  obtain ⟨q, hq, rfl⟩ := lang_elementName (lang_group h5)
  obtain ⟨p7, p8, rfl, h7, h8⟩ := lang_seq h6
  have e8 := lang_char h8
  subst e8
  have hsp := lang_star_chr h7
  refine ⟨⟨q, p7⟩, s1, ?_, ?_⟩
  · simp only [CloseTag.ok, Bool.and_eq_true, List.all_eq_true]
    exact ⟨hq, hsp⟩
  · rw [hs]
    simp [CloseTag.text]

/-- The close-tag pattern takes white space between the name and `>`: `</a >` is a close
tag, and `<a></a >` is parsed, with the call `exit`. -/
theorem C18_counterexample :
    regex_search_continuous regexNodeClose "</a >".toList 0 5 = some ⟨5, [(1, ⟨2, 3⟩)]⟩ ∧
    parse (constVisitor true) "<a></a >".toList () [] =
      some { vis := (), log := [(.enter ⟨1, 2⟩ false, true), (.exit ⟨5, 6⟩ false, true)],
             nodeStack := [], docPos := 8, retCode := true } := by
  refine ⟨by decide, by decide⟩

/-- Claim C18, amended: the close-tag pattern matches at a cursor exactly the strings `</`,
a name with an optional prefix, white space or none, `>`: group 1 of the match is the name and
the match ends behind the `>`; there is no white space between `</` and the name: `</ a>` is
not a close tag, while `</a >` is. -/
theorem C18_close_tag_shape (doc : Doc) (p : Nat) :
    (∀ m, regex_search_continuous regexNodeClose doc p doc.length = some m →
      ∃ (q : QName) (sp rest : List Char), q.ok = true ∧ (∀ x ∈ sp, isSpace x = true) ∧
        doc.drop p = "</".toList ++ (q.text ++ (sp ++ '>' :: rest)) ∧
        m.stop = p + 2 + q.text.length + sp.length + 1 ∧
        m.get 1 = ⟨p + 2, p + 2 + q.text.length⟩) ∧
    (∀ (q : QName) (sp rest : List Char), q.ok = true → (∀ x ∈ sp, isSpace x = true) →
      doc.drop p = "</".toList ++ (q.text ++ (sp ++ '>' :: rest)) →
      regex_search_continuous regexNodeClose doc p doc.length =
        some ⟨p + 2 + q.text.length + sp.length + 1, [(1, ⟨p + 2, p + 2 + q.text.length⟩)]⟩) ∧
    (∀ (x : Char) (rest : List Char), isSpace x = true →
      doc.drop p = "</".toList ++ x :: rest →
      regex_search_continuous regexNodeClose doc p doc.length = none) ∧
    regex_search_continuous regexNodeClose "</ a>".toList 0 5 = none ∧
    regex_search_continuous regexNodeClose "</a>".toList 0 4 = some ⟨4, [(1, ⟨2, 3⟩)]⟩ ∧
    regex_search_continuous regexNodeClose "</a:b \n>".toList 0 8 = some ⟨8, [(1, ⟨2, 5⟩)]⟩ := by
  have fwd : ∀ (q : QName) (sp rest : List Char), q.ok = true → (∀ x ∈ sp, isSpace x = true) →
      doc.drop p = "</".toList ++ (q.text ++ (sp ++ '>' :: rest)) →
      regex_search_continuous regexNodeClose doc p doc.length =
        some ⟨p + 2 + q.text.length + sp.length + 1,
          [(1, ⟨p + 2, p + 2 + q.text.length⟩)]⟩ := by
    intro q sp rest hq hsp hd
    have h := search_close doc p ⟨q, sp⟩ rest
      (by simp only [CloseTag.ok, Bool.and_eq_true, List.all_eq_true]; exact ⟨hq, hsp⟩)
      (by rw [hd]; simp [CloseTag.text])
    rw [h]
    have h2 : "</".toList.length = 2 := rfl
    simp only [CloseTag.text, List.length_append, List.length_singleton, h2, Option.some.injEq,
      Match.mk.injEq, and_true]
    omega
  have shape : ∀ m, regex_search_continuous regexNodeClose doc p doc.length = some m →
      ∃ (q : QName) (sp rest : List Char), q.ok = true ∧ (∀ x ∈ sp, isSpace x = true) ∧
        doc.drop p = "</".toList ++ (q.text ++ (sp ++ '>' :: rest)) ∧
        m.stop = p + 2 + q.text.length + sp.length + 1 ∧
        m.get 1 = ⟨p + 2, p + 2 + q.text.length⟩ := by
    intro m hm
    obtain ⟨⟨q, sp⟩, rest, hok, hd⟩ := search_close_shape doc p m hm
    simp only [CloseTag.ok, Bool.and_eq_true, List.all_eq_true] at hok
    have hd2 : doc.drop p = "</".toList ++ (q.text ++ (sp ++ '>' :: rest)) := by
      rw [hd]
      simp [CloseTag.text]
    have h := fwd q sp rest hok.1 hok.2 hd2
    rw [hm] at h
    have hm2 := Option.some.inj h
    refine ⟨q, sp, rest, hok.1, hok.2, hd2, by rw [hm2], by rw [hm2]; rfl⟩
  refine ⟨shape, fwd, ?_, by decide, by decide, by decide⟩
  intro x rest hx hd
  cases hq : regex_search_continuous regexNodeClose doc p doc.length with
  | none => rfl
  | some m =>
    exfalso
    obtain ⟨q, sp, rest2, hok, _, hd2, _, _⟩ := shape m hq
    obtain ⟨y, ys, hy, hys⟩ := qname_head q hok
    rw [hd, hy] at hd2
    have h3 := List.append_cancel_left hd2
    simp only [List.cons_append, List.cons.injEq] at h3
    rw [h3.1, isSpace_of_isNameStart y hys] at hx
    cases hx

theorem C18_close_tag_shape_witness :
    regex_search_continuous regexNodeClose "<r></ns:r >".toList 3 11 =
      some ⟨3 + 2 + (QName.text ⟨"ns".toList, "r".toList⟩).length + " ".toList.length + 1,
        [(1, ⟨3 + 2, 3 + 2 + (QName.text ⟨"ns".toList, "r".toList⟩).length⟩)]⟩ :=
  (C18_close_tag_shape "<r></ns:r >".toList 3).2.1 ⟨"ns".toList, "r".toList⟩ " ".toList []
    (by decide) (by decide) (by decide)

theorem attrQName_head (q : QName) (h : q.attrOk = true) :
    ∃ y ys, q.text = y :: ys ∧ isNameStart y = true := by
  obtain ⟨pfx, name⟩ := q
  simp only [QName.attrOk, Bool.and_eq_true, Bool.or_eq_true, beq_iff_eq] at h
  obtain ⟨hp, hn⟩ := h
  rcases hp with (hp | hp) | hp
  · simp only [List.isEmpty_iff] at hp
    subst hp
    obtain ⟨y, ys, e, hy⟩ := isName_head name hn
    exact ⟨y, ys, by simp [QName.text, e], hy⟩
  · subst hp
    exact ⟨'x', "ml:".toList ++ name, rfl, by decide⟩
  · subst hp
    exact ⟨'x', "mlns:".toList ++ name, rfl, by decide⟩

theorem not_colon_prefix (e n rest r : List Char) (he : ∀ x ∈ e, isNameChar x = true)
    (hn : ∀ x ∈ n, isNameChar x = true)
    (hrest : ∀ y ys, rest = y :: ys → isNameChar y = false ∧ y ≠ ':')
    (h : e ++ ':' :: r = n ++ rest) : False := by
  obtain ⟨_, e2⟩ := span_unique isNameChar e n (':' :: r) rest he hn
    (fun y ys hy => by rw [← (List.cons.inj hy).1]; decide)
    (fun y ys hy => (hrest y ys hy).1) h
  exact (hrest ':' r e2.symm).2 rfl

/-- The attribute-name pattern takes a whole name with its prefix `xml:` or `xmlns:`, when
what follows is neither a character of a name nor a colon. -/
theorem run_attributeName (start : Nat) (q : QName) (hq : q.attrOk = true) (rest : List Char)
    (hrest : ∀ y ys, rest = y :: ys → isNameChar y = false ∧ y ≠ ':') (k : Cont) (pos : Nat)
    (c : Caps) (m : Match) (hk : k (pos + q.text.length) rest c = some m) :
    Re.run start reAttributeName k pos (q.text ++ rest) c = some m := by
  obtain ⟨pfx, name⟩ := q
  simp only [QName.attrOk, Bool.and_eq_true, Bool.or_eq_true, beq_iff_eq] at hq
  obtain ⟨hp, hn⟩ := hq
  have hnr := run_name start name rest hn (fun y ys hy => (hrest y ys hy).1) k
  unfold reAttributeName
  rw [Re.run_seq, Re.opt, Re.run_alt, Re.run_alt]
  rcases hp with (hp | hp) | hp
  · simp only [List.isEmpty_iff] at hp
    subst hp
    simp only [QName.text, List.isEmpty_nil, ↓reduceIte, List.nil_append] at hk ⊢
    have h1 : ¬ "xml:".toList <+: name ++ rest := by
      rintro ⟨r, hr⟩
      exact not_colon_prefix "xml".toList name rest r (by decide) (isName_chars name hn) hrest
        (by rw [← hr]; rfl)
    have h2 : ¬ "xmlns:".toList <+: name ++ rest := by
      rintro ⟨r, hr⟩
      exact not_colon_prefix "xmlns".toList name rest r (by decide) (isName_chars name hn)
        hrest (by rw [← hr]; rfl)
    rw [run_lit_none _ _ _ _ _ _ h1, run_lit_none _ _ _ _ _ _ h2]
    simp only
    rw [Re.run_eps]
    exact hnr pos c m hk
  · subst hp
    have e : QName.text ⟨"xml".toList, name⟩ = "xml:".toList ++ name := rfl
    rw [e] at hk ⊢
    rw [List.append_assoc, run_lit_append, hnr _ c m (by
      rw [← hk]
      congr 1
      simp only [List.length_append]
      omega)]
  · subst hp
    have e : QName.text ⟨"xmlns".toList, name⟩ = "xmlns:".toList ++ name := rfl
    rw [e] at hk ⊢
    have h1 : ¬ "xml:".toList <+: "xmlns:".toList ++ name ++ rest := by
      intro h
      have := List.isPrefixOf_iff_prefix.mpr h
      revert this
      simp [List.isPrefixOf]
    rw [run_lit_none _ _ _ _ _ _ h1]
    simp only
    rw [List.append_assoc, run_lit_append, hnr _ c m (by
      rw [← hk]
      congr 1
      simp only [List.length_append]
      omega)]

theorem lang_attributeName {start : Nat} {pos : Nat} {pre rest : List Char}
    (h : Re.Lang start reAttributeName pos pre rest) :
    ∃ q : QName, q.attrOk = true ∧ pre = q.text := by
  unfold reAttributeName at h
  obtain ⟨p1, p2, rfl, h1, h2⟩ := lang_seq h
  have hn := lang_name h2
  rcases lang_opt h1 with g | g
  · rcases lang_alt g with g1 | g1
    · have e := lang_lit _ g1
      subst e
      exact ⟨⟨"xml".toList, p2⟩, by simp [QName.attrOk, hn], rfl⟩
    · have e := lang_lit _ g1
      subst e
      exact ⟨⟨"xmlns".toList, p2⟩, by simp [QName.attrOk, hn], rfl⟩
  · subst g
    exact ⟨⟨[], p2⟩, by simp [QName.attrOk, hn], by simp [QName.text]⟩

theorem attr_ok_iff (a : Attr) :
    a.ok = true ↔ a.lead ≠ [] ∧ (∀ x ∈ a.lead, isSpace x = true) ∧ a.name.attrOk = true ∧
      (∀ x ∈ a.sp1, isSpace x = true) ∧ (∀ x ∈ a.sp2, isSpace x = true) ∧
      a.value.all isValueChar = true := by
  simp only [Attr.ok, Bool.and_eq_true, Bool.not_eq_true', List.all_eq_true, ne_eq,
    List.isEmpty_eq_false]
  constructor
  · rintro ⟨⟨⟨⟨⟨h1, h2⟩, h3⟩, h4⟩, h5⟩, h6⟩
    exact ⟨h1, h2, h3, h4, h5, h6⟩
  · rintro ⟨h1, h2, h3, h4, h5, h6⟩
    exact ⟨⟨⟨⟨⟨h1, h2⟩, h3⟩, h4⟩, h5⟩, h6⟩

theorem space_or_eq_stops (sp : List Char) (x : Char) (rest : List Char)
    (hsp : ∀ z ∈ sp, isSpace z = true) (hx : isNameChar x = false ∧ x ≠ ':') :
    ∀ y ys, sp ++ x :: rest = y :: ys → isNameChar y = false ∧ y ≠ ':' := by
  intro y ys hy
  cases sp with
  | nil =>
    simp only [List.nil_append, List.cons.injEq] at hy
    rw [← hy.1]
    exact hx
  | cons z zs =>
    simp only [List.cons_append, List.cons.injEq] at hy
    rw [← hy.1]
    have hz := hsp z (List.mem_cons_self _ _)
    refine ⟨isNameChar_of_isSpace z hz, ?_⟩
    intro hc
    rw [hc] at hz
    revert hz
    decide

/-- The attribute pattern on an attribute: its groups are the name and the value. -/
theorem run_attribute (start : Nat) (g : Nat) (a : Attr) (ha : a.ok = true) (rest : List Char)
    (K : Cont) (pos : Nat) (c : Caps) (m : Match)
    (hk : K (pos + a.text.length) rest ((g + 1, a.valueSpan pos) :: (g, a.nameSpan pos) :: c) =
      some m) :
    Re.run start (reAttribute g) K pos (a.text ++ rest) c = some m := by
  obtain ⟨h1, h2, h3, h4, h5, h6⟩ := (attr_ok_iff a).mp ha
  obtain ⟨lead, name, sp1, sp2, value⟩ := a
  simp only at h1 h2 h3 h4 h5 h6
  obtain ⟨y0, ys0, hy0, hys0⟩ := attrQName_head name h3
  have hform : Attr.text ⟨lead, name, sp1, sp2, value⟩ ++ rest =
      lead ++ (name.text ++ (sp1 ++ ('=' :: (sp2 ++ ('"' :: (value ++ ('"' :: rest))))))) := by
    simp [Attr.text]
  rw [hform]
  unfold reAttribute
  rw [Re.run_seq]
  unfold reSpace
  apply run_plus_chr_greedy start isSpace lead _ _ pos c m h1 h2
  · intro y ys hy
    rw [hy0, List.cons_append, List.cons.injEq] at hy
    rw [← hy.1]
    exact isSpace_of_isNameStart y0 hys0
  rw [Re.run_seq, Re.run_group]
  apply run_attributeName start name h3 _
    (space_or_eq_stops sp1 '=' _ h4 (by decide))
  rw [Re.run_seq]
  apply run_star_chr_greedy start isSpace _ (fun y ys hy => by
      rw [List.cons.injEq] at hy
      rw [← hy.1]
      decide) sp1 _ _ _ _ h4
  rw [Re.run_seq, Re.char, Re.run_chr_cons, if_pos (by simp), Re.run_seq]
  apply run_star_chr_greedy start isSpace _ (fun y ys hy => by
      rw [List.cons.injEq] at hy
      rw [← hy.1]
      decide) sp2 _ _ _ _ h5
  rw [Re.run_seq, Re.char, Re.run_chr_cons, if_pos (by simp), Re.run_seq, Re.run_group]
  apply run_value start value rest h6
  rw [Re.run_chr_cons, if_pos (by simp), ← hk]
  simp only [Attr.text, Attr.valueSpan, Attr.nameSpan, List.length_append, List.length_cons,
    List.length_nil]
  congr 1
  omega

theorem lang_attribute {start : Nat} {g : Nat} {pos : Nat} {pre rest : List Char}
    (h : Re.Lang start (reAttribute g) pos pre rest) : ∃ a : Attr, a.ok = true ∧ pre = a.text := by
  unfold reAttribute at h
  obtain ⟨p1, q1, rfl, h1, g1⟩ := lang_seq h
  obtain ⟨p2, q2, rfl, h2, g2⟩ := lang_seq g1
  obtain ⟨p3, q3, rfl, h3, g3⟩ := lang_seq g2
  obtain ⟨p4, q4, rfl, h4, g4⟩ := lang_seq g3
  obtain ⟨p5, q5, rfl, h5, g5⟩ := lang_seq g4
  obtain ⟨p6, q6, rfl, h6, g6⟩ := lang_seq g5
  obtain ⟨p7, q7, rfl, h7, g7⟩ := lang_seq g6
  obtain ⟨hne, hlead⟩ := lang_plus_chr h1
  obtain ⟨q, hq, rfl⟩ := lang_attributeName (lang_group h2)
  have hsp1 := lang_star_chr h3
  have e4 := lang_char h4
  have hsp2 := lang_star_chr h5
  have e6 := lang_char h6
  have hv := lang_value (lang_group h7)
  have e7 := lang_char g7
  subst e4 e6 e7
  refine ⟨⟨p1, q, p3, p5, p7⟩, (attr_ok_iff _).mpr ⟨hne, hlead, hq, hsp1, hsp2, hv⟩, ?_⟩
  simp [Attr.text]

theorem attr_text_split (a : Attr) (h : a.ok = true) :
    ∃ y ys, a.lead ≠ [] ∧ (∀ x ∈ a.lead, isSpace x = true) ∧
      a.text = a.lead ++ y :: ys ∧ isNameStart y = true := by
  obtain ⟨h1, h2, h3, _⟩ := (attr_ok_iff a).mp h
  obtain ⟨y, ys, e, hy⟩ := attrQName_head a.name h3
  refine ⟨y, ys ++ (a.sp1 ++ ('=' :: (a.sp2 ++ ('"' :: (a.value ++ ['"']))))), h1, h2, ?_, hy⟩
  simp only [Attr.text, e, List.cons_append]

theorem attr_text_pos (a : Attr) (h : a.ok = true) : 0 < a.text.length := by
  obtain ⟨y, ys, _, _, e, _⟩ := attr_text_split a h
  rw [e]
  simp

/-- The attribute pattern does not match where white space is followed by something that
does not begin a name. -/
theorem run_attribute_none (start : Nat) (g : Nat) (sp r : List Char)
    (hsp : ∀ x ∈ sp, isSpace x = true)
    (hr : ∀ y ys, r = y :: ys → isSpace y = false ∧ isNameStart y = false) (K : Cont)
    (pos : Nat) (c : Caps) :
    Re.run start (reAttribute g) K pos (sp ++ r) c = none := by
  cases hq : Re.run start (reAttribute g) K pos (sp ++ r) c with
  | none => rfl
  | some m =>
    exfalso
    obtain ⟨pre, s1, c1, hs, hl, _⟩ := Re.run_lang start _ _ _ _ _ _ hq
    obtain ⟨a, ha, rfl⟩ := lang_attribute hl
    obtain ⟨y, ys, _, hlead, e, hy⟩ := attr_text_split a ha
    rw [e, List.append_assoc] at hs
    obtain ⟨_, e2⟩ := span_unique isSpace sp a.lead r (y :: ys ++ s1) hsp hlead
      (fun z zs hz => (hr z zs hz).1)
      (fun z zs hz => by
        rw [List.cons_append, List.cons.injEq] at hz
        rw [← hz.1]
        exact isSpace_of_isNameStart y hy) hs
    have := (hr y _ e2).2
    rw [hy] at this
    cases this

theorem openTag_ok_iff (t : OpenTag) :
    t.ok = true ↔ t.name.ok = true ∧ (∀ a ∈ t.attrs, a.ok = true) ∧
      ∀ x ∈ t.sp, isSpace x = true := by
  simp only [OpenTag.ok, Bool.and_eq_true, List.all_eq_true]
  constructor
  · rintro ⟨⟨h1, h2⟩, h3⟩
    exact ⟨h1, h2, h3⟩
  · rintro ⟨h1, h2, h3⟩
    exact ⟨⟨h1, h2⟩, h3⟩

/-- The end of an open tag is white space followed by `/` or `>`. -/
theorem openTail_split (t : OpenTag) :
    ∃ y ys, t.tail = t.sp ++ y :: ys ∧ (y = '/' ∨ y = '>') := by
  unfold OpenTag.tail
  cases t.selfClosing
  · exact ⟨'>', [], rfl, Or.inr rfl⟩
  · exact ⟨'/', ['>'], rfl, Or.inl rfl⟩

/-- The loop over the attributes of the open-tag pattern takes all the attributes. -/
theorem run_attrs_open (start : Nat) (sp r : List Char) (hsp : ∀ x ∈ sp, isSpace x = true)
    (hr : ∀ y ys, r = y :: ys → isSpace y = false ∧ isNameStart y = false) (K : Cont)
    (m : Match) :
    ∀ (attrs : List Attr), (∀ a ∈ attrs, a.ok = true) → ∀ (pos : Nat) (c : Caps),
      K (pos + (attrs.flatMap Attr.text).length) (sp ++ r) (attrCaps pos attrs c) = some m →
      Re.run start (.star (reAttribute 2)) K pos (attrs.flatMap Attr.text ++ (sp ++ r)) c =
        some m := by
  intro attrs
  induction attrs with
  | nil =>
    intro _ pos c hk
    rw [Re.run_star]
    simp only [List.flatMap_nil, List.nil_append, List.length_nil, Nat.add_zero, attrCaps] at hk ⊢
    rw [run_attribute_none start 2 sp r hsp hr]
    exact hk
  | cons a as ih =>
    intro hok pos c hk
    have ha := hok a (List.mem_cons_self _ _)
    have hpos := attr_text_pos a ha
    rw [Re.run_star]
    simp only [List.flatMap_cons, List.append_assoc]
    have h1 : Re.run start (reAttribute 2) (fun pos1 s1 c1 =>
        if s1.length < (a.text ++ (as.flatMap Attr.text ++ (sp ++ r))).length then
          Re.run start (.star (reAttribute 2)) K pos1 s1 c1 else none) pos
        (a.text ++ (as.flatMap Attr.text ++ (sp ++ r))) c = some m := by
      apply run_attribute start 2 a ha
      rw [if_pos (by simp only [List.length_append]; omega)]
      apply ih (fun b hb => hok b (List.mem_cons_of_mem _ hb))
      rw [← hk]
      simp only [List.flatMap_cons, List.length_append, attrCaps]
      congr 1
      omega
    rw [h1]

theorem attrCaps_find (i : Nat) (hi2 : i ≠ 2) (hi3 : i ≠ 3) :
    ∀ (attrs : List Attr) (pos : Nat) (c : Caps),
      (attrCaps pos attrs c).find? (fun e => e.1 == i) = c.find? (fun e => e.1 == i) := by
  intro attrs
  induction attrs with
  | nil => intro pos c; rfl
  | cons a as ih =>
    intro pos c
    simp only [attrCaps]
    rw [ih]
    have h3 : ((3 : Nat) == i) = false := by simpa using fun h => hi3 h.symm
    have h2 : ((2 : Nat) == i) = false := by simpa using fun h => hi2 h.symm
    simp only [List.find?_cons, h3, h2]

theorem openCaps_get (pos : Nat) (t : OpenTag) :
    (⟨pos + t.text.length, t.caps pos⟩ : Match).get 1 =
      ⟨pos + 1, pos + 1 + t.name.text.length⟩ ∧
    (⟨pos + t.text.length, t.caps pos⟩ : Match).matched 4 = t.selfClosing := by
  unfold Match.get Match.matched Match.sub OpenTag.caps
  cases t.selfClosing
  · simp only [Bool.false_eq_true, ↓reduceIte, List.nil_append]
    rw [attrCaps_find 1 (by decide) (by decide), attrCaps_find 4 (by decide) (by decide)]
    simp
  · simp only [↓reduceIte, List.singleton_append, List.find?_cons]
    rw [attrCaps_find 1 (by decide) (by decide)]
    simp

theorem regexNodeOpen_eq :
    regexNodeOpen = .seq .bol (.seq (Re.char '<') (.seq (.group 1 reElementName)
      (.seq (.star (reAttribute 2))
        (.seq (.star reSpace) (.seq (Re.opt (.group 4 (Re.char '/'))) (Re.char '>')))))) := rfl

theorem attrs_or_tail_stops (t : OpenTag) (hok : t.ok = true) (rest : List Char) :
    ∀ y ys, t.attrs.flatMap Attr.text ++ t.tail ++ rest = y :: ys →
      isNameChar y = false ∧ y ≠ ':' := by
  obtain ⟨_, hattrs, hsp⟩ := (openTag_ok_iff t).mp hok
  intro y ys hy
  cases hat : t.attrs with
  | nil =>
    obtain ⟨z, zs, e, hz⟩ := openTail_split t
    rw [hat, e] at hy
    simp only [List.flatMap_nil, List.nil_append, List.append_assoc, List.cons_append] at hy
    exact space_or_eq_stops t.sp z _ hsp (by rcases hz with rfl | rfl <;> decide) y ys hy
  | cons a as =>
    have ha := hattrs a (by rw [hat]; exact List.mem_cons_self _ _)
    obtain ⟨z, zs, hne, hlead, e, _⟩ := attr_text_split a ha
    rw [hat] at hy
    simp only [List.flatMap_cons, e, List.append_assoc] at hy
    cases hl : a.lead with
    | nil => exact absurd hl hne
    | cons w ws =>
      rw [hl, List.cons_append, List.cons.injEq] at hy
      rw [← hy.1]
      have hw := hlead w (by rw [hl]; exact List.mem_cons_self _ _)
      refine ⟨isNameChar_of_isSpace w hw, ?_⟩
      intro hc
      rw [hc] at hw
      revert hw
      decide

/-- The open-tag pattern on an open tag: the match is the tag, group 1 is its name and
group 4 its `/`. -/
theorem run_open (pos : Nat) (t : OpenTag) (rest : List Char) (hok : t.ok = true) :
    Re.run pos regexNodeOpen (fun pos1 _ c => some ⟨pos1, c⟩) pos (t.text ++ rest) [] =
      some ⟨pos + t.text.length, t.caps pos⟩ := by
  obtain ⟨hq, hattrs, hsp⟩ := (openTag_ok_iff t).mp hok
  have hstops := attrs_or_tail_stops t hok rest
  obtain ⟨z, zs, etail, hz⟩ := openTail_split t
  rw [regexNodeOpen_eq, Re.run_seq, Re.run_bol, if_pos rfl, Re.run_seq]
  have hform : t.text ++ rest =
      '<' :: (t.name.text ++ (t.attrs.flatMap Attr.text ++ t.tail ++ rest)) := by
    simp [OpenTag.text]
  rw [hform, Re.char, Re.run_chr_cons, if_pos (by simp), Re.run_seq, Re.run_group]
  apply run_elementName pos t.name hq _ hstops
  rw [Re.run_seq]
  have hform2 : t.attrs.flatMap Attr.text ++ t.tail ++ rest =
      t.attrs.flatMap Attr.text ++ (t.sp ++ (z :: zs ++ rest)) := by
    rw [etail]
    simp
  rw [hform2]
  apply run_attrs_open pos t.sp (z :: zs ++ rest) hsp (fun y ys hy => by
      rw [List.cons_append, List.cons.injEq] at hy
      rw [← hy.1]
      rcases hz with rfl | rfl <;> exact ⟨by decide, by decide⟩) _ _ t.attrs hattrs
  rw [Re.run_seq]
  unfold reSpace
  apply run_star_chr_greedy pos isSpace (z :: zs ++ rest) (fun y ys hy => by
      rw [List.cons_append, List.cons.injEq] at hy
      rw [← hy.1]
      rcases hz with rfl | rfl <;> decide) t.sp _ _ _ _ hsp
  rw [Re.run_seq, Re.opt, Re.run_alt, Re.run_group]
  have hlen : t.text.length =
      1 + t.name.text.length + (t.attrs.flatMap Attr.text).length + t.sp.length +
        (z :: zs).length := by
    simp only [OpenTag.text, etail, List.length_cons, List.length_append]
    omega
  unfold OpenTag.tail at etail
  unfold OpenTag.caps
  cases hsc : t.selfClosing
  · rw [hsc] at etail
    simp only [Bool.false_eq_true, ↓reduceIte] at etail
    have e2 := List.append_cancel_left etail
    obtain ⟨rfl, rfl⟩ := List.cons.inj e2.symm
    simp only [List.cons_append, List.nil_append, Re.char, Re.run_chr_cons,
      Bool.false_eq_true, ↓reduceIte, Re.run_eps]
    rw [if_neg (by decide), if_pos (by simp)]
    simp only [hlen, List.length_cons, List.length_nil, Option.some.injEq, Match.mk.injEq]
    constructor
    · omega
    · exact True.intro
  · rw [hsc] at etail
    simp only [↓reduceIte] at etail
    have e2 := List.append_cancel_left etail
    obtain ⟨rfl, rfl⟩ := List.cons.inj e2.symm
    simp only [List.cons_append, List.nil_append, Re.char, Re.run_chr_cons, ↓reduceIte]
    rw [if_pos (by simp), if_pos (by simp)]
    simp only [hlen, List.length_cons, List.length_nil, Option.some.injEq, Match.mk.injEq,
      List.singleton_append, List.cons.injEq, Prod.mk.injEq, Span.mk.injEq, true_and, and_true]
    omega

theorem search_open (doc : Doc) (p : Nat) (t : OpenTag) (rest : List Char)
    (hok : t.ok = true) (hd : doc.drop p = t.text ++ rest) :
    regex_search_continuous regexNodeOpen doc p doc.length =
      some ⟨p + t.text.length, t.caps p⟩ := by
  unfold regex_search_continuous
  rw [take_drop_all, hd]
  exact run_open p t rest hok

/-- Where the open-tag pattern matches, there is an open tag. -/
theorem search_open_shape (doc : Doc) (p : Nat) (m : Match)
    (h : regex_search_continuous regexNodeOpen doc p doc.length = some m) :
    ∃ (t : OpenTag) (rest : List Char), t.ok = true ∧ doc.drop p = t.text ++ rest := by
  unfold regex_search_continuous at h
  rw [take_drop_all] at h
  obtain ⟨pre, s1, c1, hs, hl, _⟩ := Re.run_lang p regexNodeOpen _ _ _ _ _ h
  rw [regexNodeOpen_eq] at hl
  obtain ⟨p1, q1, rfl, h1, g1⟩ := lang_seq hl
  obtain ⟨rfl, _⟩ := lang_bol h1
  obtain ⟨p2, q2, rfl, h2, g2⟩ := lang_seq g1
  have e2 := lang_char h2
  subst e2
  obtain ⟨p3, q3, rfl, h3, g3⟩ := lang_seq g2
  obtain ⟨q, hq, rfl⟩ := lang_elementName (lang_group h3)
  obtain ⟨p4, q4, rfl, h4, g4⟩ := lang_seq g3
  obtain ⟨attrs, hattrs, rfl⟩ := lang_star_map Attr.text (fun a => a.ok = true)
    (fun pos pre rest hl => lang_attribute hl) _ _ _ _ (le_refl _) h4
  obtain ⟨p5, q5, rfl, h5, g5⟩ := lang_seq g4
  have hsp := lang_star_chr h5
  obtain ⟨p6, q6, rfl, h6, g6⟩ := lang_seq g5
  have e6 := lang_char g6
  subst e6
  rcases lang_opt h6 with g | g
  · have e := lang_char (lang_group g)
    subst e
    refine ⟨⟨q, attrs, p5, true⟩, s1, (openTag_ok_iff _).mpr ⟨hq, hattrs, hsp⟩, ?_⟩
    rw [hs]
    simp [OpenTag.text, OpenTag.tail]
  · subst g
    refine ⟨⟨q, attrs, p5, false⟩, s1, (openTag_ok_iff _).mpr ⟨hq, hattrs, hsp⟩, ?_⟩
    rw [hs]
    simp [OpenTag.text, OpenTag.tail]


theorem regexNodeAttrList_search (doc : Doc) (cbegin last : Nat) :
    regex_search_continuous regexNodeAttrList doc cbegin last =
      Re.run cbegin (reAttribute 1) (fun pos _ c => some ⟨pos, c⟩) cbegin
        ((doc.drop cbegin).take (last - cbegin)) [] := by
  unfold regex_search_continuous regexNodeAttrList
  rw [Re.run_seq, Re.run_bol, if_pos rfl]

theorem attrs_length_le (attrs : List Attr) (h : ∀ a ∈ attrs, a.ok = true) :
    attrs.length ≤ (attrs.flatMap Attr.text).length := by
  induction attrs with
  | nil => simp
  | cons a as ih =>
    have := attr_text_pos a (h a (List.mem_cons_self _ _))
    have := ih (fun b hb => h b (List.mem_cons_of_mem _ hb))
    simp only [List.length_cons, List.flatMap_cons, List.length_append]
    omega

/-- The attribute loop finds the attributes of the tag one after the other. -/
theorem tagAttrs_eq (doc : Doc) (last : Nat) (sp r : List Char)
    (hsp : ∀ x ∈ sp, isSpace x = true)
    (hr : ∀ y ys, r = y :: ys → isSpace y = false ∧ isNameStart y = false) :
    ∀ (attrs : List Attr) (fuel cbegin : Nat), (∀ a ∈ attrs, a.ok = true) →
      attrs.length < fuel →
      (doc.drop cbegin).take (last - cbegin) = attrs.flatMap Attr.text ++ (sp ++ r) →
      tagAttrs doc last fuel cbegin = attrSpans cbegin attrs := by
  intro attrs
  induction attrs with
  | nil =>
    intro fuel cbegin _ hf hd
    cases fuel with
    | zero => omega
    | succ n =>
      simp only [tagAttrs, attrSpans]
      rw [regexNodeAttrList_search, hd]
      simp only [List.flatMap_nil, List.nil_append]
      rw [run_attribute_none cbegin 1 sp r hsp hr]
  | cons a as ih =>
    intro fuel cbegin hok hf hd
    cases fuel with
    | zero => omega
    | succ n =>
      have ha := hok a (List.mem_cons_self _ _)
      simp only [tagAttrs, attrSpans]
      rw [regexNodeAttrList_search, hd]
      simp only [List.flatMap_cons, List.append_assoc]
      rw [run_attribute cbegin 1 a ha _ _ cbegin [] _ rfl]
      simp only
      have hrec := ih n (cbegin + a.text.length) (fun b hb => hok b (List.mem_cons_of_mem _ hb))
        (by simp only [List.length_cons] at hf; omega) (by
          have h1 := congrArg (List.drop a.text.length) hd
          rw [List.drop_take, List.drop_drop] at h1
          simp only [List.flatMap_cons, List.append_assoc, List.drop_left] at h1
          rw [← h1]
          congr 1
          omega)
      rw [hrec]
      rfl

/-- The attributes that the attribute loop finds in an open tag are the attributes of the
tag. -/
theorem attrsOf_eq (doc : Doc) (p : Nat) (t : OpenTag) (rest : List Char) (hok : t.ok = true)
    (hd : doc.drop p = t.text ++ rest) :
    attrsOf doc ⟨p + t.text.length, t.caps p⟩ = attrSpans (p + 1 + t.name.text.length) t.attrs := by
  obtain ⟨_, hattrs, hsp⟩ := (openTag_ok_iff t).mp hok
  obtain ⟨z, zs, etail, hz⟩ := openTail_split t
  unfold attrsOf
  rw [(openCaps_get p t).1]
  simp only
  have hlen : t.text.length =
      1 + t.name.text.length + ((t.attrs.flatMap Attr.text).length + t.tail.length) := by
    simp only [OpenTag.text, List.length_cons, List.length_append]
    omega
  apply tagAttrs_eq doc _ t.sp (z :: zs) hsp (fun y ys hy => by
      rw [List.cons.injEq] at hy
      rw [← hy.1]
      rcases hz with rfl | rfl <;> exact ⟨by decide, by decide⟩) t.attrs _ _ hattrs
  · have := attrs_length_le t.attrs hattrs
    omega
  · have h1 : doc.drop (p + 1 + t.name.text.length) =
        t.attrs.flatMap Attr.text ++ t.tail ++ rest := by
      rw [Nat.add_assoc, ← List.drop_drop, hd]
      simp only [OpenTag.text, List.cons_append]
      rw [show 1 + t.name.text.length = t.name.text.length + 1 from Nat.add_comm _ _,
        List.drop_succ_cons, List.append_assoc, List.drop_left, List.append_assoc]
    rw [h1, ← etail]
    have h2 : p + t.text.length - (p + 1 + t.name.text.length) =
        (t.attrs.flatMap Attr.text ++ t.tail).length := by
      rw [hlen, List.length_append]
      omega
    rw [h2, List.take_left]

/-- The attribute loop, when it ends without an error: the calls are `attribute` and
`validate` for each attribute. -/
theorem attrLoop_ok (v : Visitor σ) (doc : Doc) (last : Nat) :
    ∀ (fuel cbegin : Nat) (names : List Span) (st st1 : State σ), st.retCode = true →
      attrLoop v doc last fuel cbegin names st = some st1 → st1.retCode = true →
      ∃ ext, st1.log = st.log ++ ext ∧ calls ext = attrCalls (tagAttrs doc last fuel cbegin) := by
  intro fuel
  induction fuel with
  | zero => intro cbegin names st st1 _ h; simp [attrLoop] at h
  | succ n ih =>
    intro cbegin names st st1 hr h hr1
    simp only [attrLoop, hr, Bool.not_true, Bool.false_eq_true, ↓reduceIte] at h
    simp only [tagAttrs]
    split at h
    · cases h
      exact ⟨[], by simp, by simp [calls, attrCalls]⟩
    · rename_i am ham
      have hstep : ∀ (names2 : List Span),
          attrLoop v doc last n am.stop names2
            ((st.call v (.attribute (am.get 1) (am.get 2))).1.call v .validate).1 = some st1 →
          ∃ ext, st1.log = st.log ++ ext ∧
            calls ext = attrCalls ((am.get 1, am.get 2) :: tagAttrs doc last n am.stop) := by
        intro names2 h2
        obtain ⟨ext, e1, e2⟩ := ih _ _ _ _ (by simpa [State.call] using hr) h2 hr1
        refine ⟨(.attribute (am.get 1) (am.get 2),
          (st.call v (.attribute (am.get 1) (am.get 2))).2) :: (.validate,
          ((st.call v (.attribute (am.get 1) (am.get 2))).1.call v .validate).2) :: ext, ?_, ?_⟩
        · rw [e1]
          simp [State.call]
        · simp only [calls, List.map_cons, attrCalls, List.flatMap_cons, List.cons_append,
            List.nil_append, List.cons.injEq, true_and]
          exact e2
      split at h
      · split at h
        · have := attrLoop_of_retCode_false v doc last _ _ _ _ _ rfl h
          rw [this] at hr1
          cases hr1
        · exact hstep _ h
      · exact hstep _ h

/-- The branch of an open tag, when it ends without an error or a cancellation: `enter`
returned true, and the calls are `enter`, then `attribute` and `validate` for each attribute
of the tag, then `exit` if the tag ends with `/>`. -/
theorem stepOpen_ok (v : Visitor σ) (doc : Doc) (st st1 : State σ) (m : Match)
    (h : stepOpen v doc st m = some st1) (hr1 : st1.retCode = true) :
    (v.enter st.vis (m.get 1) (m.matched 4)).2 = true ∧
      ∃ ext, st1.log = st.log ++ ext ∧
        calls ext = .enter (m.get 1) (m.matched 4) :: attrCalls (attrsOf doc m) ++
          (if m.matched 4 then [.exit (m.get 1) true] else []) := by
  have hcall : (State.call v { st with nodeStack := m.get 1 :: st.nodeStack }
        (Call.enter (m.get 1) (m.matched 4))).2 = (v.enter st.vis (m.get 1) (m.matched 4)).2 :=
    rfl
  have h0 := h
  unfold stepOpen at h
  simp only at h
  split at h
  · cases h
  · rename_i st2 hst2
    have hr2 : st2.retCode = true := by
      split at h
      · rename_i hc
        simp only [Bool.and_eq_true] at hc
        exact hc.1
      · cases h
        rw [finish_retCode] at hr1
        exact hr1
    cases henter : (v.enter st.vis (m.get 1) (m.matched 4)).2 with
    | false =>
      rw [hcall, henter] at hst2
      have := attrLoop_of_retCode_false v doc _ _ _ _ _ _ rfl hst2
      rw [this] at hr2
      cases hr2
    | true =>
      refine ⟨rfl, ?_⟩
      rw [hcall, henter] at hst2
      obtain ⟨ext, g2, g3⟩ := attrLoop_ok v doc _ _ _ _ _ _ rfl hst2 hr2
      obtain ⟨f1, _, _⟩ := attrLoop_spec v doc _ _ _ _ _ _ rfl hst2
      simp only [State.call_log, State.call_nodeStack] at g2 f1
      rw [hr2] at h
      simp only [Bool.true_and] at h
      cases hm : m.matched 4
      · rw [hm] at h
        simp only [Bool.false_eq_true, ↓reduceIte, Option.some.injEq] at h
        subst h
        refine ⟨(Call.enter (m.get 1) false, true) :: ext, ?_, ?_⟩
        · rw [hcall, henter, hm] at g2
          simp only [State.finish, hr2, ↓reduceIte, g2, List.append_assoc,
            List.singleton_append]
        · simp only [calls, List.map_cons, Bool.false_eq_true, ↓reduceIte, List.append_nil,
            List.cons.injEq, true_and]
          exact g3
      · rw [hm] at h
        simp only [↓reduceIte, Option.some.injEq] at h
        subst h
        refine ⟨(Call.enter (m.get 1) true, true) :: ext ++
          [(Call.exit (m.get 1) true,
            (State.call v st2 (Call.exit (st2.nodeStack.headD ⟨0, 0⟩) true)).2)], ?_, ?_⟩
        · rw [hcall, henter, hm] at g2
          simp [State.finish, hr2, g2, f1]
        · simp only [calls, List.map_append, List.map_cons, List.map_nil, ↓reduceIte,
            List.cons_append, List.cons.injEq, true_and]
          rw [show List.map Prod.fst ext = calls ext from rfl, g3]
          rfl

theorem attrSpans_content (doc : Doc) :
    ∀ (attrs : List Attr) (pos : Nat) (rest : List Char),
      doc.drop pos = attrs.flatMap Attr.text ++ rest →
      (attrSpans pos attrs).map (fun s => (s.1.content doc, s.2.content doc)) =
        attrs.map (fun a => (a.name.text, a.value)) := by
  intro attrs
  induction attrs with
  | nil => intro pos rest _; rfl
  | cons a as ih =>
    intro pos rest hd
    simp only [attrSpans, List.map_cons, List.cons.injEq, Prod.mk.injEq]
    simp only [List.flatMap_cons, List.append_assoc] at hd
    refine ⟨⟨?_, ?_⟩, ?_⟩
    · exact content_of_drop doc pos a.lead a.name.text
        (a.sp1 ++ ('=' :: (a.sp2 ++ ('"' :: (a.value ++ ['"'])))) ++
          (as.flatMap Attr.text ++ rest)) (by rw [hd]; simp [Attr.text])
    · have h := content_of_drop doc pos
        (a.lead ++ (a.name.text ++ (a.sp1 ++ ('=' :: (a.sp2 ++ ['"']))))) a.value
        ('"' :: (as.flatMap Attr.text ++ rest)) (by rw [hd]; simp [Attr.text])
      have e : (Attr.valueSpan pos a) = ⟨pos + (a.lead ++ (a.name.text ++ (a.sp1 ++
          ('=' :: (a.sp2 ++ ['"']))))).length, pos + (a.lead ++ (a.name.text ++ (a.sp1 ++
          ('=' :: (a.sp2 ++ ['"']))))).length + a.value.length⟩ := by
        simp only [Attr.valueSpan, List.length_append, List.length_cons, List.length_nil,
          Span.mk.injEq]
        omega
      rw [e]
      exact h
    · apply ih (pos + a.text.length) rest
      rw [← List.drop_drop, hd, List.drop_left]

/-- Claim C23: where the open-tag pattern matches there is an open tag: `<`, a name, the
attributes (white space, a name, `=`, a value between double quotes without `<` and `"`),
white space or none, `>` or `/>`; the attribute loop finds the attributes of the tag, in
order, the name span of each being its name and the value span the raw characters between
its quotes; when the iteration at an open tag ends without an error or a cancellation,
`enter` returned true and the calls are `enter`, then `attribute` (and `validate`) once for
each attribute, in order, then `exit` for a tag that ends with `/>`; every value without `<`
and `"` is taken as it is: `x > ' & ]]>  y` is reported with its two spaces. -/
theorem C23_attribute_events (v : Visitor σ) (doc : Doc) :
    (∀ p m, regex_search_continuous regexNodeOpen doc p doc.length = some m →
      ∃ (t : OpenTag) (rest : List Char), t.ok = true ∧ doc.drop p = t.text ++ rest ∧
        m.stop = p + t.text.length ∧ m.get 1 = ⟨p + 1, p + 1 + t.name.text.length⟩ ∧
        m.matched 4 = t.selfClosing ∧
        attrsOf doc m = attrSpans (p + 1 + t.name.text.length) t.attrs ∧
        (attrsOf doc m).map (fun s => (s.1.content doc, s.2.content doc)) =
          t.attrs.map (fun a => (a.name.text, a.value)) ∧
        ∀ a ∈ t.attrs, a.value.all isValueChar = true) ∧
    (∀ (st st1 : State σ) (m : Match), stepOpen v doc st m = some st1 → st1.retCode = true →
      (v.enter st.vis (m.get 1) (m.matched 4)).2 = true ∧
      ∃ ext, st1.log = st.log ++ ext ∧
        calls ext = .enter (m.get 1) (m.matched 4) :: attrCalls (attrsOf doc m) ++
          (if m.matched 4 then [.exit (m.get 1) true] else [])) ∧
    (∀ (p : Nat) (t : OpenTag) (rest : List Char), t.ok = true →
      doc.drop p = t.text ++ rest →
      regex_search_continuous regexNodeOpen doc p doc.length =
        some ⟨p + t.text.length, t.caps p⟩) ∧
    (parse (constVisitor true) "<a p=\"x > ' & ]]>  y\" xml:q = \"\"/>".toList () [] =
      some { vis := (), log := [(.enter ⟨1, 2⟩ true, true), (.attribute ⟨3, 4⟩ ⟨6, 20⟩, true),
          (.validate, true), (.attribute ⟨22, 27⟩ ⟨31, 31⟩, true), (.validate, true),
          (.exit ⟨1, 2⟩ true, true)], nodeStack := [], docPos := 34, retCode := true } ∧
      (⟨6, 20⟩ : Span).content "<a p=\"x > ' & ]]>  y\" xml:q = \"\"/>".toList =
        "x > ' & ]]>  y".toList) := by
  refine ⟨?_, fun st st1 m h hr => stepOpen_ok v doc st st1 m h hr,
    fun p t rest hok hd => search_open doc p t rest hok hd, by decide, by decide⟩
  intro p m hm
  obtain ⟨t, rest, hok, hd⟩ := search_open_shape doc p m hm
  have h := search_open doc p t rest hok hd
  rw [hm] at h
  have hm2 := Option.some.inj h
  have hattrs := attrsOf_eq doc p t rest hok hd
  rw [← hm2] at hattrs
  obtain ⟨_, hall, _⟩ := (openTag_ok_iff t).mp hok
  refine ⟨t, rest, hok, hd, by rw [hm2], by rw [hm2]; exact (openCaps_get p t).1,
    by rw [hm2]; exact (openCaps_get p t).2, hattrs, ?_, ?_⟩
  · rw [hattrs]
    apply attrSpans_content doc t.attrs _ (t.tail ++ rest)
    rw [Nat.add_assoc, ← List.drop_drop, hd]
    simp only [OpenTag.text, List.cons_append]
    rw [show 1 + t.name.text.length = t.name.text.length + 1 from Nat.add_comm _ _,
      List.drop_succ_cons, List.append_assoc, List.drop_left, List.append_assoc]
  · intro a ha
    exact ((attr_ok_iff a).mp (hall a ha)).2.2.2.2.2

theorem C23_attribute_events_witness :
    ∃ ext, (State.mk () ([] ++ [(Call.enter ⟨1, 2⟩ true, true),
          (Call.attribute ⟨3, 4⟩ ⟨6, 7⟩, true), (Call.validate, false),
          (Call.exit ⟨1, 2⟩ true, true)]) [] 10 true).log = [] ++ ext ∧
      calls ext = .enter ((⟨10, [(4, ⟨8, 9⟩), (3, ⟨6, 7⟩), (2, ⟨3, 4⟩), (1, ⟨1, 2⟩)]⟩ :
          Match).get 1) ((⟨10, [(4, ⟨8, 9⟩), (3, ⟨6, 7⟩), (2, ⟨3, 4⟩), (1, ⟨1, 2⟩)]⟩ :
          Match).matched 4) ::
        attrCalls (attrsOf "<a p=\"1\"/>".toList
          ⟨10, [(4, ⟨8, 9⟩), (3, ⟨6, 7⟩), (2, ⟨3, 4⟩), (1, ⟨1, 2⟩)]⟩) ++
        (if (⟨10, [(4, ⟨8, 9⟩), (3, ⟨6, 7⟩), (2, ⟨3, 4⟩), (1, ⟨1, 2⟩)]⟩ : Match).matched 4
          then [.exit ((⟨10, [(4, ⟨8, 9⟩), (3, ⟨6, 7⟩), (2, ⟨3, 4⟩), (1, ⟨1, 2⟩)]⟩ :
            Match).get 1) true] else []) :=
  ((C23_attribute_events (constVisitor false) "<a p=\"1\"/>".toList).2.1
    ⟨(), [], [], 0, true⟩ _ ⟨10, [(4, ⟨8, 9⟩), (3, ⟨6, 7⟩), (2, ⟨3, 4⟩), (1, ⟨1, 2⟩)]⟩
    (by decide) (by decide)).2


/-- A document that begins with `<` and the first character of a name has no prolog. -/
theorem prolog_at_tag (doc : Doc) (y : Char) (ys : List Char) (hd : doc = '<' :: y :: ys)
    (hy : isNameStart y = true) : prolog doc = 0 := by
  have hy1 : y ≠ '!' := by
    intro h
    rw [h] at hy
    revert hy
    decide
  have hy2 : y ≠ '?' := by
    intro h
    rw [h] at hy
    revert hy
    decide
  have hnp : ∀ e : List Char, (e.take 2 = "<!".toList ∨ e.take 2 = "<?".toList) →
      ¬ e <+: doc.drop 0 := by
    intro e he hp
    obtain ⟨r, hr⟩ := hp
    rw [List.drop_zero, hd] at hr
    cases e with
    | nil => rcases he with he | he <;> cases he
    | cons a e =>
      cases e with
      | nil => rcases he with he | he <;> cases he
      | cons b e =>
        simp only [List.cons_append, List.cons.injEq] at hr
        rcases he with he | he
        · simp only [List.take_succ_cons, List.take_zero] at he
          have := (List.cons.inj (List.cons.inj he).2).1
          exact hy1 (by rw [← hr.2.1, this])
        · simp only [List.take_succ_cons, List.take_zero] at he
          have := (List.cons.inj (List.cons.inj he).2).1
          exact hy2 (by rw [← hr.2.1, this])
  have h0 : skipSpacesAndComments doc 0 = 0 := by
    have := skipSpacesAndComments_pieces doc 0 [] doc (fun q hq => by cases hq)
      (fun z zs hz => by
        rw [hd] at hz
        rw [← (List.cons.inj hz).1]
        decide)
      (by have := hnp "<!--".toList (Or.inl rfl); rwa [List.drop_zero] at this)
      (by simp [piecesText])
    simpa [piecesText] using this
  have h1 := search_bol_lit_none regexXmlDeclaration "<?xml".toList _ doc 0 rfl
    (hnp _ (Or.inr rfl))
  have h2 := search_bol_lit_none regexDoctype "<!DOCTYPE".toList _ doc 0 rfl
    (hnp _ (Or.inl rfl))
  unfold prolog skipDoctype
  simp only [h0, h1, h2]

/-- The branch of an open tag for a visitor in validate mode, when no attribute has the name
of an attribute before it. -/
theorem stepOpen_validating_ok (v : Visitor σ) (hv : v.ValidateIs true) (doc : Doc)
    (st st1 : State σ) (m : Match)
    (henter : (v.enter st.vis (m.get 1) (m.matched 4)).2 = true)
    (hd : firstDup doc [] (attrsOf doc m) = none)
    (h : stepOpen v doc st m = some st1) : st1.retCode = true := by
  have hcall : (State.call v { st with nodeStack := m.get 1 :: st.nodeStack }
        (Call.enter (m.get 1) (m.matched 4))).2 = (v.enter st.vis (m.get 1) (m.matched 4)).2 :=
    rfl
  unfold stepOpen at h
  simp only at h
  split at h
  · cases h
  · rename_i st2 hst2
    rw [hcall, henter] at hst2
    have g := attrLoop_validating v hv doc _ _ _ _ _ _ rfl hst2
    unfold attrsOf at hd
    rw [hd] at g
    simp only at g
    rw [g] at h
    split at h
    · cases h
      rw [finish_retCode]
      exact g
    · cases h
      rw [finish_retCode]
      exact g

/-- The document `<`, a name, attributes, `/>`: one element without content. The visitor
accepts every call; in validate mode no attribute has the name of an attribute before it. -/
theorem parse_selfClosing (v : Visitor σ) (b : Bool) (ha : v.AllTrue) (hv : v.ValidateIs b)
    (vis : σ) (stack0 : List Span) (t : OpenTag) (rest : List Char) (hok : t.ok = true)
    (hsc : t.selfClosing = true)
    (hdup : b = true → firstDup (t.text ++ rest) [] (attrSpans (1 + t.name.text.length) t.attrs) =
      none) :
    ∃ st, parse v (t.text ++ rest) vis stack0 = some st ∧ st.retCode = true ∧
      st.nodeStack = [] ∧
      calls st.log = .enter ⟨1, 1 + t.name.text.length⟩ true ::
        attrCalls (attrSpans (1 + t.name.text.length) t.attrs) ++
        [.exit ⟨1, 1 + t.name.text.length⟩ true] := by
  obtain ⟨hq, _, _⟩ := (openTag_ok_iff t).mp hok
  obtain ⟨y, ys, hy, hys⟩ := qname_head t.name hq
  have hdoc : t.text ++ rest = '<' :: y :: (ys ++ (t.attrs.flatMap Attr.text ++ t.tail) ++ rest) := by
    simp [OpenTag.text, hy]
  have hpro := prolog_at_tag (t.text ++ rest) y _ hdoc hys
  have hlen : ¬ (t.text ++ rest).length ≤ prolog (t.text ++ rest) := by
    rw [hpro, hdoc]
    simp
  have hm := search_open (t.text ++ rest) 0 t rest hok (by rw [List.drop_zero])
  have hat := attrsOf_eq (t.text ++ rest) 0 t rest hok (by rw [List.drop_zero])
  obtain ⟨hg1, hg4⟩ := openCaps_get 0 t
  rw [hsc] at hg4
  simp only [Nat.zero_add] at hm hat hg1 hg4
  obtain ⟨st1, hst1⟩ := bodyStep_total v (t.text ++ rest) (bodyInit (t.text ++ rest) vis)
  have hstep : stepOpen v (t.text ++ rest) (bodyInit (t.text ++ rest) vis)
      ⟨t.text.length, t.caps 0⟩ = some st1 := by
    rw [← hst1]
    unfold bodyStep
    have e : (bodyInit (t.text ++ rest) vis).docPos = 0 := hpro
    rw [e, hm]
  have henter : (v.enter (bodyInit (t.text ++ rest) vis).vis
      ((⟨t.text.length, t.caps 0⟩ : Match).get 1)
      ((⟨t.text.length, t.caps 0⟩ : Match).matched 4)).2 = true :=
    ha _ (.enter _ _) rfl
  have hr : st1.retCode = true := by
    cases b with
    | false => exact (stepOpen_nonvalidating v hv _ _ _ _ henter hstep).1
    | true =>
      apply stepOpen_validating_ok v hv _ _ _ _ henter _ hstep
      rw [hat]
      exact hdup rfl
  obtain ⟨_, ext, e1, e2⟩ := stepOpen_ok v _ _ _ _ hstep hr
  have hstack : st1.nodeStack = [] := by
    obtain ⟨r, ext2, ok, _, _, g3, g4⟩ := stepOpen_spec v _ _ _ _ hstep
    cases hc : (ok && (⟨t.text.length, t.caps 0⟩ : Match).matched 4)
    · have h5 := (g4 hc).2.2.1
      rw [hg4, Bool.and_true] at hc
      rw [hc, hr] at h5
      cases h5
    · obtain ⟨r2, _, h6, _⟩ := g3 hc
      rw [h6]
      rfl
  refine ⟨st1, ?_, hr, hstack, ?_⟩
  · apply parse_of_iter v _ vis stack0 0 _ st1 (iterStart_zero v _ vis hlen) hst1
    rw [hstack]
    simp
  · rw [e1]
    have e0 : (bodyInit (t.text ++ rest) vis).log = [] := rfl
    rw [e0, List.nil_append, e2, hat, hg1, hg4]
    rfl

/-- The name of an attribute cannot have any prefix: `<a b:c="v"/>` is not an open tag,
and `parse` calls `error` and returns false. -/
theorem C19_counterexample :
    isName "b".toList = true ∧ isName "c".toList = true ∧
    regex_search_continuous regexNodeOpen "<a b:c=\"v\"/>".toList 0 12 = none ∧
    parse (constVisitor true) "<a b:c=\"v\"/>".toList () [] =
      some { vis := (), log := [(.error msgInvalid 0, true)], nodeStack := [], docPos := 0,
             retCode := false } := by
  refine ⟨by decide, by decide, by decide, by decide⟩

/-- Claim C19, amended: the name of an attribute may have the prefix `xml:` or `xmlns:`: for
the prefix `xml` or `xmlns`, every name `n` and every value `v` without `<` and `"`, and
every visitor that accepts the calls, `parse` on the document `<a p:n="v"/>` returns true and
calls `enter`, `attribute` with the spans of `p:n` and of `v`, `validate` and `exit`. -/
theorem C19_attribute_prefix (v : Visitor σ) (b : Bool) (ha : v.AllTrue) (hv : v.ValidateIs b)
    (vis : σ) (stack0 : List Span) (pfx n val : List Char)
    (hp : pfx = "xml".toList ∨ pfx = "xmlns".toList) (hn : isName n = true)
    (hval : val.all isValueChar = true) :
    ∃ st, parse v ("<a ".toList ++ (pfx ++ (':' :: (n ++ ("=\"".toList ++
        (val ++ "\"/>".toList)))))) vis stack0 = some st ∧ st.retCode = true ∧
      calls st.log = [.enter ⟨1, 2⟩ true,
        .attribute ⟨3, 3 + (pfx ++ ':' :: n).length⟩
          ⟨3 + (pfx ++ ':' :: n).length + 2, 3 + (pfx ++ ':' :: n).length + 2 + val.length⟩,
        .validate, .exit ⟨1, 2⟩ true] ∧
      (⟨3, 3 + (pfx ++ ':' :: n).length⟩ : Span).content ("<a ".toList ++ (pfx ++ (':' :: (n ++
        ("=\"".toList ++ (val ++ "\"/>".toList)))))) = pfx ++ ':' :: n ∧
      (⟨3 + (pfx ++ ':' :: n).length + 2, 3 + (pfx ++ ':' :: n).length + 2 + val.length⟩ :
        Span).content ("<a ".toList ++ (pfx ++ (':' :: (n ++ ("=\"".toList ++
          (val ++ "\"/>".toList)))))) = val := by
  have hpe : pfx.isEmpty = false := by
    rcases hp with rfl | rfl <;> rfl
  have hqt : QName.text ⟨pfx, n⟩ = pfx ++ ':' :: n := by
    simp [QName.text, hpe]
  have hqok : QName.attrOk ⟨pfx, n⟩ = true := by
    simp only [QName.attrOk, Bool.and_eq_true, Bool.or_eq_true, beq_iff_eq]
    exact ⟨by rcases hp with rfl | rfl <;> simp, hn⟩
  have hnil : ∀ x ∈ ([] : List Char), isSpace x = true := fun x hx => by cases hx
  have hsp1 : ∀ x ∈ " ".toList, isSpace x = true := by decide
  have haok : Attr.ok ⟨" ".toList, ⟨pfx, n⟩, [], [], val⟩ = true :=
    (attr_ok_iff _).mpr ⟨(by simp), hsp1, hqok, hnil, hnil, hval⟩
  have hqa : QName.ok ⟨[], "a".toList⟩ = true := by decide
  have hok : OpenTag.ok ⟨⟨[], "a".toList⟩, [⟨" ".toList, ⟨pfx, n⟩, [], [], val⟩], [], true⟩ =
      true :=
    (openTag_ok_iff _).mpr ⟨hqa, (fun a ha => by
      rw [List.mem_singleton] at ha
      rw [ha]
      exact haok), hnil⟩
  have htext : OpenTag.text ⟨⟨[], "a".toList⟩, [⟨" ".toList, ⟨pfx, n⟩, [], [], val⟩], [],
      true⟩ ++ [] = "<a ".toList ++ (pfx ++ (':' :: (n ++ ("=\"".toList ++
        (val ++ "\"/>".toList))))) := by
    have hqa_t : QName.text ⟨[], "a".toList⟩ = "a".toList := rfl
    have hat : Attr.text ⟨" ".toList, ⟨pfx, n⟩, [], [], val⟩ =
        ' ' :: (pfx ++ ':' :: (n ++ '=' :: '"' :: (val ++ ['"']))) := by
      simp only [Attr.text, hqt]
      simp
    have hat2 : Attr.text ⟨[' '], ⟨pfx, n⟩, [], [], val⟩ =
        ' ' :: (pfx ++ ':' :: (n ++ '=' :: '"' :: (val ++ ['"']))) := hat
    simp only [OpenTag.text, OpenTag.tail, hat, hqa_t]
    simp [hat2]
  obtain ⟨st, h1, h2, _, h4⟩ := parse_selfClosing v b ha hv vis stack0 _ [] hok rfl
    (fun _ => by simp [attrSpans, firstDup])
  rw [htext] at h1
  refine ⟨st, h1, h2, ?_, ?_, ?_⟩
  · rw [h4]
    have hqa_t : QName.text ⟨[], "a".toList⟩ = "a".toList := rfl
    have h1a : "a".toList.length = 1 := rfl
    have h1s : " ".toList.length = 1 := rfl
    simp only [attrSpans, attrCalls, Attr.nameSpan, Attr.valueSpan, hqt, hqa_t, h1a, h1s,
      List.flatMap_cons, List.flatMap_nil, List.append_nil, List.length_nil, Nat.add_zero,
      List.cons_append, List.nil_append]
  · have := content_of_drop ("<a ".toList ++ (pfx ++ (':' :: (n ++ ("=\"".toList ++
        (val ++ "\"/>".toList)))))) 0 "<a ".toList (pfx ++ ':' :: n)
        ("=\"".toList ++ (val ++ "\"/>".toList)) (by simp)
    simpa using this
  · have := content_of_drop ("<a ".toList ++ (pfx ++ (':' :: (n ++ ("=\"".toList ++
        (val ++ "\"/>".toList)))))) 0 ("<a ".toList ++ (pfx ++ ':' :: n) ++ "=\"".toList) val
        "\"/>".toList (by simp)
    have e : 0 + ("<a ".toList ++ (pfx ++ ':' :: n) ++ "=\"".toList).length =
        3 + (pfx ++ ':' :: n).length + 2 := by
      have h3 : "<a ".toList.length = 3 := rfl
      have h2 : "=\"".toList.length = 2 := rfl
      simp only [List.length_append, h3, h2]
      omega
    rw [e] at this
    exact this

theorem C19_attribute_prefix_witness :
    ∃ st, parse (constVisitor true) ("<a ".toList ++ ("xmlns".toList ++ (':' :: ("hr".toList ++
        ("=\"".toList ++ ("u".toList ++ "\"/>".toList)))))) () [] = some st ∧
      st.retCode = true ∧
      calls st.log = [.enter ⟨1, 2⟩ true,
        .attribute ⟨3, 3 + ("xmlns".toList ++ ':' :: "hr".toList).length⟩
          ⟨3 + ("xmlns".toList ++ ':' :: "hr".toList).length + 2,
            3 + ("xmlns".toList ++ ':' :: "hr".toList).length + 2 + "u".toList.length⟩,
        .validate, .exit ⟨1, 2⟩ true] :=
  have h := C19_attribute_prefix (constVisitor true) true (allTrue_constVisitor true)
    (validateIs_constVisitor true) () [] "xmlns".toList "hr".toList "u".toList (Or.inr rfl)
    (by decide) (by decide)
  h.elim fun st hst => ⟨st, hst.1, hst.2.1, hst.2.2.1⟩

theorem procInstr_ok_iff (t : ProcInstr) :
    t.ok = true ↔ isName t.name = true ∧ (∀ a ∈ t.attrs, a.ok = true) ∧
      ∀ x ∈ t.sp, isSpace x = true := by
  simp only [ProcInstr.ok, Bool.and_eq_true, List.all_eq_true]
  constructor
  · rintro ⟨⟨h1, h2⟩, h3⟩
    exact ⟨h1, h2, h3⟩
  · rintro ⟨h1, h2, h3⟩
    exact ⟨⟨h1, h2⟩, h3⟩

theorem pseudoAttr_ok_iff (a : PseudoAttr) :
    a.ok = true ↔ a.lead ≠ [] ∧ (∀ x ∈ a.lead, isSpace x = true) ∧ isName a.name = true ∧
      (∀ x ∈ a.sp1, isSpace x = true) ∧ (∀ x ∈ a.sp2, isSpace x = true) ∧
      a.value.all isValueChar = true := by
  simp only [PseudoAttr.ok, Bool.and_eq_true, Bool.not_eq_true', List.all_eq_true, ne_eq,
    List.isEmpty_eq_false]
  constructor
  · rintro ⟨⟨⟨⟨⟨h1, h2⟩, h3⟩, h4⟩, h5⟩, h6⟩
    exact ⟨h1, h2, h3, h4, h5, h6⟩
  · rintro ⟨h1, h2, h3, h4, h5, h6⟩
    exact ⟨⟨⟨⟨⟨h1, h2⟩, h3⟩, h4⟩, h5⟩, h6⟩

theorem regexXmlPI_eq :
    regexXmlPI = .seq .bol (.seq (Re.lit "<?".toList) (.seq getReName
      (.seq (.star rePseudoAttribute) (.seq (.star reSpace) (Re.lit "?>".toList))))) := rfl

/-- The pattern of processing instructions on a processing instruction: the match is the
instruction. -/
theorem run_pi (pos : Nat) (t : ProcInstr) (rest : List Char) (hok : t.ok = true) :
    Re.run pos regexXmlPI (fun pos1 _ c => some ⟨pos1, c⟩) pos (t.text ++ rest) [] =
      some ⟨pos + t.text.length, []⟩ := by
  obtain ⟨hn, hattrs, hsp⟩ := (procInstr_ok_iff t).mp hok
  have hform : t.text ++ rest = "<?".toList ++ (t.name ++
      (t.attrs.flatMap PseudoAttr.text ++ (t.sp ++ ("?>".toList ++ rest)))) := by
    simp [ProcInstr.text]
  rw [hform, regexXmlPI_eq, Re.run_seq, Re.run_bol, if_pos rfl, Re.run_seq, run_lit_append,
    Re.run_seq]
  apply run_name _ t.name _ hn
  · intro y ys hy
    cases hat : t.attrs with
    | nil =>
      rw [hat] at hy
      simp only [List.flatMap_nil, List.nil_append] at hy
      cases hs : t.sp with
      | nil =>
        rw [hs] at hy
        cases hy
        decide
      | cons z zs =>
        rw [hs] at hy
        cases hy
        exact isNameChar_of_isSpace _ (hsp y (by rw [hs]; exact List.mem_cons_self _ _))
    | cons a attrs =>
      have ha := hattrs a (by rw [hat]; exact List.mem_cons_self _ _)
      obtain ⟨h1, h2, _⟩ := (pseudoAttr_ok_iff a).mp ha
      cases hl : a.lead with
      | nil => exact absurd hl h1
      | cons z zs =>
        rw [hat, List.flatMap_cons, PseudoAttr.text, hl] at hy
        cases hy
        exact isNameChar_of_isSpace _ (h2 y (by rw [hl]; exact List.mem_cons_self _ _))
  · rw [Re.run_seq]
    apply run_attrs_star _ t.sp rest hsp _ [] _ t.attrs hattrs
    have h2 : "<?".toList.length = 2 := rfl
    have h3 : "?>".toList.length = 2 := rfl
    simp only [ProcInstr.text, List.length_append, h2, h3, Option.some.injEq, Match.mk.injEq,
      and_true]
    omega

theorem search_pi (doc : Doc) (p : Nat) (t : ProcInstr) (rest : List Char)
    (hok : t.ok = true) (hd : doc.drop p = t.text ++ rest) :
    regex_search_continuous regexXmlPI doc p doc.length = some ⟨p + t.text.length, []⟩ := by
  unfold regex_search_continuous
  rw [take_drop_all, hd]
  exact run_pi p t rest hok

theorem lang_pseudoAttr {start : Nat} {pos : Nat} {pre rest : List Char}
    (h : Re.Lang start rePseudoAttribute pos pre rest) :
    ∃ a : PseudoAttr, a.ok = true ∧ pre = a.text := by
  unfold rePseudoAttribute at h
  obtain ⟨p1, q1, rfl, h1, g1⟩ := lang_seq h
  obtain ⟨p2, q2, rfl, h2, g2⟩ := lang_seq g1
  obtain ⟨p3, q3, rfl, h3, g3⟩ := lang_seq g2
  obtain ⟨p4, q4, rfl, h4, g4⟩ := lang_seq g3
  obtain ⟨p5, q5, rfl, h5, g5⟩ := lang_seq g4
  obtain ⟨p6, q6, rfl, h6, g6⟩ := lang_seq g5
  obtain ⟨p7, q7, rfl, h7, g7⟩ := lang_seq g6
  obtain ⟨hne, hlead⟩ := lang_plus_chr h1
  have hn := lang_name h2
  have hsp1 := lang_star_chr h3
  have e4 := lang_char h4
  have hsp2 := lang_star_chr h5
  have e6 := lang_char h6
  have hv := lang_value h7
  have e7 := lang_char g7
  subst e4 e6 e7
  refine ⟨⟨p1, p2, p3, p5, p7⟩, (pseudoAttr_ok_iff _).mpr ⟨hne, hlead, hn, hsp1, hsp2, hv⟩, ?_⟩
  simp [PseudoAttr.text]

/-- Where the pattern of processing instructions matches, there is a processing
instruction. -/
theorem search_pi_shape (doc : Doc) (p : Nat) (m : Match)
    (h : regex_search_continuous regexXmlPI doc p doc.length = some m) :
    ∃ (t : ProcInstr) (rest : List Char), t.ok = true ∧ doc.drop p = t.text ++ rest := by
  unfold regex_search_continuous at h
  rw [take_drop_all] at h
  obtain ⟨pre, s1, c1, hs, hl, _⟩ := Re.run_lang p regexXmlPI _ _ _ _ _ h
  rw [regexXmlPI_eq] at hl
  obtain ⟨p1, q1, rfl, h1, g1⟩ := lang_seq hl
  obtain ⟨rfl, _⟩ := lang_bol h1
  obtain ⟨p2, q2, rfl, h2, g2⟩ := lang_seq g1
  have e2 := lang_lit _ h2
  subst e2
  obtain ⟨p3, q3, rfl, h3, g3⟩ := lang_seq g2
  have hn := lang_name h3
  obtain ⟨p4, q4, rfl, h4, g4⟩ := lang_seq g3
  obtain ⟨attrs, hattrs, rfl⟩ := lang_star_map PseudoAttr.text (fun a => a.ok = true)
    (fun pos pre rest hl => lang_pseudoAttr hl) _ _ _ _ (le_refl _) h4
  obtain ⟨p5, q5, rfl, h5, g5⟩ := lang_seq g4
  have hsp := lang_star_chr h5
  have e5 := lang_lit _ g5
  subst e5
  refine ⟨⟨p3, attrs, p5⟩, s1, (procInstr_ok_iff _).mpr ⟨hn, hattrs, hsp⟩, ?_⟩
  rw [hs]
  simp [ProcInstr.text]

/-! ## White space and comments: what `skipSpacesAndComments` goes over -/

theorem piecesText_spaces (g : List Char) : piecesText (g.map Piece.space) = g := by
  induction g with
  | nil => rfl
  | cons x xs ih =>
    rw [List.map_cons, piecesText_cons, ih]
    rfl

theorem lang_comment {start : Nat} {pos : Nat} {pre rest : List Char}
    (h : Re.Lang start getReComment pos pre rest) :
    ∃ body, Piece.ok (.comment body) = true ∧ pre = Piece.text (.comment body) := by
  have e : getReComment = .seq (Re.lit "<!--".toList) (.seq (reBody '-')
      (Re.lit "-->".toList)) := rfl
  rw [e] at h
  obtain ⟨p1, q1, rfl, h1, g1⟩ := lang_seq h
  have e1 := lang_lit _ h1
  subst e1
  obtain ⟨p2, q2, rfl, h2, g2⟩ := lang_seq g1
  have e2 := lang_lit _ g2
  subst e2
  have hno := lang_body_first start '-' _ p2 rest h2
  refine ⟨p2, ?_, ?_⟩
  · simpa [Piece.ok] using hno
  · simp [Piece.text]

theorem lang_skipItem {start : Nat} {pos : Nat} {pre rest : List Char}
    (h : Re.Lang start reSkipItem pos pre rest) :
    ∃ w : List Piece, (∀ q ∈ w, q.ok = true) ∧ pre = piecesText w := by
  unfold reSkipItem at h
  have hspaces : ∀ g : List Char, (∀ x ∈ g, isSpace x = true) →
      ∀ q ∈ g.map Piece.space, q.ok = true := by
    intro g hg q hq
    obtain ⟨x, hx, rfl⟩ := List.mem_map.mp hq
    exact hg x hx
  rcases lang_alt h with g | g
  · obtain ⟨_, hsp⟩ := lang_plus_chr g
    exact ⟨pre.map Piece.space, hspaces pre hsp, (piecesText_spaces pre).symm⟩
  · obtain ⟨p1, q1, rfl, h1, g1⟩ := lang_seq g
    obtain ⟨p2, q2, rfl, h2, g2⟩ := lang_seq g1
    have hs1 := lang_star_chr h1
    have hs2 := lang_star_chr g2
    obtain ⟨body, hb, rfl⟩ := lang_comment h2
    refine ⟨p1.map Piece.space ++ (Piece.comment body :: q2.map Piece.space), ?_, ?_⟩
    · intro q hq
      rcases List.mem_append.mp hq with hq | hq
      · exact hspaces p1 hs1 q hq
      · rcases List.mem_cons.mp hq with rfl | hq
        · exact hb
        · exact hspaces q2 hs2 q hq
    · rw [piecesText_append, piecesText_cons, piecesText_spaces, piecesText_spaces]

/-- Function `skipSpacesAndComments` goes over a run of white space and comments. -/
theorem skip_pieces (doc : Doc) (e : Nat) :
    ∃ w : List Piece, (∀ q ∈ w, q.ok = true) ∧
      doc.drop e = piecesText w ++ doc.drop (skipSpacesAndComments doc e) ∧
      skipSpacesAndComments doc e = e + (piecesText w).length := by
  unfold skipSpacesAndComments regex_search_continuous
  rw [take_drop_all]
  split
  · rename_i m hm
    obtain ⟨pre, s1, c1, hs, hl, hk⟩ := Re.run_lang e spacesAndComments _ _ _ _ _ hm
    have estop : m.stop = e + pre.length := by
      simp only [Option.some.injEq] at hk
      rw [← hk]
    rw [show spacesAndComments = .seq .bol (.seq reSkipItem (.star reSkipItem)) from rfl] at hl
    obtain ⟨p1, q1, rfl, h1, g1⟩ := lang_seq hl
    obtain ⟨rfl, _⟩ := lang_bol h1
    obtain ⟨p2, q2, rfl, h2, g2⟩ := lang_seq g1
    obtain ⟨w1, hw1, rfl⟩ := lang_skipItem h2
    obtain ⟨ws, hws, rfl⟩ := lang_star_map piecesText (fun w => ∀ q ∈ w, q.ok = true)
      (fun pos pre rest hl => lang_skipItem hl) _ _ _ _ (le_refl _) g2
    have hflat : ∀ l : List (List Piece), l.flatMap piecesText = piecesText l.flatten := by
      intro l
      induction l with
      | nil => rfl
      | cons a l ih =>
        rw [List.flatMap_cons, List.flatten_cons, piecesText_append, ih]
    refine ⟨w1 ++ ws.flatten, ?_, ?_, ?_⟩
    · intro q hq
      rcases List.mem_append.mp hq with hq | hq
      · exact hw1 q hq
      · obtain ⟨l, hl, hql⟩ := List.mem_flatten.mp hq
        exact hws l hl q hql
    · have hd : doc.drop m.stop = s1 := by
        rw [estop, ← List.drop_drop, hs, List.drop_left]
      rw [hd, hs, piecesText_append, hflat]
      simp
    · rw [estop, piecesText_append, hflat]
      simp
  · exact ⟨[], (fun q hq => by cases hq), by simp [piecesText], by simp [piecesText]⟩

theorem attrRun_false (v : Visitor σ) (doc : Doc) (pos : Nat) (attrs : List (Span × Span))
    (names : List Span) (st : State σ) (h : st.retCode = false) :
    attrRun v doc pos attrs names st = st := by
  cases attrs with
  | nil => rfl
  | cons a rest => simp [attrRun, h]

/-- The attribute loop is the loop over the attributes it finds. -/
theorem attrLoop_eq_run (v : Visitor σ) (doc : Doc) (last : Nat) :
    ∀ (fuel cbegin : Nat) (names : List Span) (st st1 : State σ),
      attrLoop v doc last fuel cbegin names st = some st1 →
      st1 = attrRun v doc st.docPos (tagAttrs doc last fuel cbegin) names st := by
  intro fuel
  induction fuel with
  | zero => intro cbegin names st st1 h; simp [attrLoop] at h
  | succ n ih =>
    intro cbegin names st st1 h
    cases hr : st.retCode with
    | false =>
      simp only [attrLoop, hr, Bool.not_false, ↓reduceIte, Option.some.injEq] at h
      rw [attrRun_false v doc _ _ _ _ hr]
      exact h.symm
    | true =>
      simp only [attrLoop, hr, Bool.not_true, Bool.false_eq_true, ↓reduceIte] at h
      simp only [tagAttrs]
      cases hm : regex_search_continuous regexNodeAttrList doc cbegin last with
      | none =>
        rw [hm] at h
        simp only [Option.some.injEq] at h
        exact h.symm
      | some am =>
        rw [hm] at h
        simp only at h
        simp only [attrRun, hr, Bool.not_true, Bool.false_eq_true, ↓reduceIte]
        split at h
        · rename_i hv
          rw [if_pos hv]
          split at h
          · rename_i it hit
            try rw [hit]
            exact ih _ _ _ _ h
          · rename_i hit
            try rw [hit]
            exact ih _ _ _ _ h
        · rename_i hv
          rw [if_neg hv]
          exact ih _ _ _ _ h

theorem attrRun_retCode (v : Visitor σ) (doc : Doc) (pos : Nat) :
    ∀ (attrs : List (Span × Span)) (names : List Span) (st : State σ),
      (attrRun v doc pos attrs names st).retCode = true → st.retCode = true := by
  intro attrs
  induction attrs with
  | nil => intro names st h; exact h
  | cons a rest ih =>
    intro names st h
    cases hr : st.retCode with
    | false => rw [attrRun_false v doc _ _ _ _ hr, hr] at h; cases h
    | true => rfl

theorem equalStrings_rel (d d' : Doc) (R : Span → Span → Prop) (hR : SpanSame d d' R)
    (a a' b b' : Span) (ha : R a a') (hb : R b b') :
    equalStrings d' a' b' = equalStrings d a b := by
  obtain ⟨la, ca⟩ := hR a a' ha
  obtain ⟨lb, cb⟩ := hR b b' hb
  unfold Span.content at ca cb
  unfold equalStrings
  rw [la, lb]
  by_cases hl : a.second - a.first = b.second - b.first
  · rw [la] at ca
    rw [lb, ← hl] at cb
    rw [ca, cb]
  · have : (a.second - a.first == b.second - b.first) = false := by simpa using hl
    rw [this]
    rfl

theorem find_rel (d d' : Doc) (R : Span → Span → Prop) (hR : SpanSame d d' R)
    (a a' : Span) (ha : R a a') :
    ∀ (names names' : List Span), List.Forall₂ R names names' →
      names.find? (fun x => equalStrings d a x) = none →
      names'.find? (fun x => equalStrings d' a' x) = none := by
  intro names names' h
  induction h with
  | nil => intro _; rfl
  | cons hxy _ ih =>
    intro hf
    rw [List.find?_cons] at hf ⊢
    rw [equalStrings_rel d d' R hR _ _ _ _ ha hxy]
    cases he : equalStrings d a _ with
    | true => rw [he] at hf; cases hf
    | false =>
      rw [he] at hf
      exact ih hf

theorem call_rel (R : Span → Span → Prop) (v v' : Visitor σ) (hv : VisSame R v v')
    (st st' : State σ) (c c' : Call) (h : StRel R st st') (hc : CallRel R c c') :
    StRel R (st.call v c).1 (st'.call v' c').1 ∧ (st'.call v' c').2 = (st.call v c).2 ∧
      (st.call v c).1.retCode = st.retCode ∧ (st.call v c).1.nodeStack = st.nodeStack ∧
      (st'.call v' c').1.nodeStack = st'.nodeStack := by
  have e := hv st.vis c c' hc
  have e1 : v'.call st'.vis c' = v.call st.vis c := by rw [h.vis, e]
  refine ⟨⟨?_, h.retCode, h.stack, ?_⟩, ?_, rfl, rfl, rfl⟩
  · show (v'.call st'.vis c').1 = (v.call st.vis c).1
    rw [e1]
  · show LogRel R (st.log ++ [(c, (v.call st.vis c).2)]) (st'.log ++ [(c', (v'.call st'.vis c').2)])
    exact List.rel_append h.log (List.Forall₂.cons ⟨hc, by rw [e1]⟩ List.Forall₂.nil)
  · show (v'.call st'.vis c').2 = (v.call st.vis c).2
    rw [e1]

/-- The attribute loops of two documents on related attributes: when the one does not fail,
the other ends in a related state. -/
theorem attrRun_sim (d d' : Doc) (R : Span → Span → Prop) (hR : SpanSame d d' R)
    (v v' : Visitor σ) (hv : VisSame R v v') (pos pos' : Nat) :
    ∀ (attrs attrs' : List (Span × Span)),
      List.Forall₂ (fun s s' => R s.1 s'.1 ∧ R s.2 s'.2) attrs attrs' →
      ∀ (names names' : List Span) (st st' : State σ), List.Forall₂ R names names' →
        StRel R st st' → (attrRun v d pos attrs names st).retCode = true →
        StRel R (attrRun v d pos attrs names st) (attrRun v' d' pos' attrs' names' st') ∧
        (attrRun v d pos attrs names st).nodeStack = st.nodeStack ∧
        (attrRun v' d' pos' attrs' names' st').nodeStack = st'.nodeStack := by
  intro attrs attrs' h
  induction h with
  | nil => intro names names' st st' _ hs _; exact ⟨hs, rfl, rfl⟩
  | cons hab _ ih =>
    rename_i a a' rest rest' _
    intro names names' st st' hn hs hr
    have hr0 := attrRun_retCode v d pos _ _ _ hr
    have hr0' : st'.retCode = true := by rw [hs.retCode, hr0]
    obtain ⟨g1, _, g3, g4, g5⟩ := call_rel R v v' hv st st' _ _ hs
      (CallRel.attribute _ _ _ _ hab.1 hab.2)
    obtain ⟨k1, k2, k3, k4, k5⟩ := call_rel R v v' hv _ _ _ _ g1 CallRel.validate
    simp only [attrRun, hr0, hr0', Bool.not_true, Bool.false_eq_true, ↓reduceIte] at hr ⊢
    rw [k2]
    split
    · rename_i hval
      rw [if_pos hval] at hr
      cases hf : names.find? (fun x => equalStrings d a.1 x) with
      | some it =>
        rw [hf] at hr
        simp only at hr
        have := attrRun_retCode v d pos _ _ _ hr
        cases this
      | none =>
        rw [hf] at hr
        rw [find_rel d d' R hR _ _ hab.1 _ _ hn hf]
        simp only at hr ⊢
        obtain ⟨i1, i2, i3⟩ := ih (names ++ [a.1]) (names' ++ [a'.1]) _ _
          (List.rel_append hn (List.Forall₂.cons hab.1 List.Forall₂.nil)) k1 hr
        exact ⟨i1, by rw [i2, k4, g4], by rw [i3, k5, g5]⟩
    · rename_i hval
      rw [if_neg hval] at hr
      obtain ⟨i1, i2, i3⟩ := ih names names' _ _ hn k1 hr
      exact ⟨i1, by rw [i2, k4, g4], by rw [i3, k5, g5]⟩

theorem agree_split (d d' : Doc) (p p' L : Nat) (T rest : List Char)
    (hag : (d'.drop p').take L = (d.drop p).take L) (hd : d.drop p = T ++ rest)
    (hT : T.length ≤ L) : d'.drop p' = T ++ d'.drop (p' + T.length) := by
  have h1 : (d'.drop p').take T.length = T := by
    have e1 : ((d'.drop p').take L).take T.length = (d'.drop p').take T.length := by
      rw [List.take_take, Nat.min_eq_left hT]
    have e2 : ((d.drop p).take L).take T.length = (d.drop p).take T.length := by
      rw [List.take_take, Nat.min_eq_left hT]
    rw [← e1, hag, e2, hd, List.take_left]
  have h2 := List.take_append_drop T.length (d'.drop p')
  rw [h1, List.drop_drop] at h2
  rw [← h2]

theorem stRel_finish (R : Span → Span → Prop) (d d' : Doc) (s s' : State σ) (e e' : Nat)
    (h : StRel R s s') : StRel R (State.finish d s e) (State.finish d' s' e') := by
  refine ⟨?_, ?_, ?_, ?_⟩
  · rw [finish_vis, finish_vis]; exact h.vis
  · rw [finish_retCode, finish_retCode]; exact h.retCode
  · rw [finish_nodeStack, finish_nodeStack]; exact h.stack
  · rw [finish_log, finish_log]; exact h.log

theorem finish_docPos_true (d : Doc) (s : State σ) (e : Nat) (h : s.retCode = true) :
    (State.finish d s e).docPos = skipSpacesAndComments d e := by
  unfold State.finish
  rw [if_pos h]

theorem stRel_setRet (R : Span → Span → Prop) (s s' : State σ) (b : Bool)
    (h : StRel R s s') : StRel R { s with retCode := b } { s' with retCode := b } :=
  ⟨h.vis, rfl, h.stack, h.log⟩

theorem stRel_setStack (R : Span → Span → Prop) (s s' : State σ) (l l' : List Span)
    (h : StRel R s s') (hl : List.Forall₂ R l l') :
    StRel R { s with nodeStack := l } { s' with nodeStack := l' } :=
  ⟨h.vis, h.retCode, hl, h.log⟩

theorem stepOpen_eq (v : Visitor σ) (doc : Doc) (st st2 : State σ) (m : Match)
    (h : attrLoop v doc m.stop (m.stop - (m.get 1).second + 1) (m.get 1).second []
      (enterState v st (m.get 1) (m.matched 4)) = some st2) :
    stepOpen v doc st m =
      some (if st2.retCode && m.matched 4 then State.finish doc (exitState v st2) m.stop
        else State.finish doc st2 m.stop) := by
  unfold enterState at h
  unfold stepOpen exitState
  simp only
  rw [h]
  simp only
  split <;> rfl

theorem enterState_sim (R : Span → Span → Prop) (v v' : Visitor σ) (hv : VisSame R v v')
    (st st' : State σ) (e e' : Span) (b : Bool) (hrel : StRel R st st') (he : R e e') :
    StRel R (enterState v st e b) (enterState v' st' e' b) ∧
      (enterState v st e b).nodeStack = e :: st.nodeStack ∧
      (enterState v' st' e' b).nodeStack = e' :: st'.nodeStack ∧
      (enterState v st e b).docPos = st.docPos ∧
      (enterState v' st' e' b).docPos = st'.docPos := by
  have hrel1 : StRel R { st with nodeStack := e :: st.nodeStack }
      { st' with nodeStack := e' :: st'.nodeStack } :=
    stRel_setStack R st st' _ _ hrel (List.Forall₂.cons he hrel.stack)
  obtain ⟨c1, c2, _, _, _⟩ := call_rel R v v' hv _ _ _ _ hrel1 (CallRel.enter _ _ b he)
  refine ⟨?_, rfl, rfl, rfl, rfl⟩
  unfold enterState
  rw [c2]
  exact stRel_setRet R _ _ _ c1

theorem exitState_sim (R : Span → Span → Prop) (v v' : Visitor σ) (hv : VisSame R v v')
    (st st' : State σ) (e e' : Span) (l l' : List Span) (hrel : StRel R st st')
    (hst : st.nodeStack = e :: l) (hst' : st'.nodeStack = e' :: l') :
    StRel R (exitState v st) (exitState v' st') ∧
      (exitState v st).retCode = st.retCode ∧ (exitState v' st').retCode = st'.retCode := by
  refine ⟨?_, rfl, rfl⟩
  have hs := hrel.stack
  rw [hst, hst'] at hs
  have he : R e e' := by
    cases hs with
    | cons h1 _ => exact h1
  have hl : List.Forall₂ R l l' := by
    cases hs with
    | cons _ h2 => exact h2
  unfold exitState
  rw [hst, hst']
  simp only [List.headD_cons]
  obtain ⟨x1, _, _, x4, x5⟩ := call_rel R v v' hv _ _ _ _ hrel (CallRel.exit _ _ true he)
  refine stRel_setStack R _ _ _ _ x1 ?_
  rw [x4, x5, hst, hst']
  exact hl

theorem attrSpans_rel (R : Span → Span → Prop) (p p' L : Nat)
    (hspan : ∀ a b, a + b ≤ L → R ⟨p + a, p + a + b⟩ ⟨p' + a, p' + a + b⟩) :
    ∀ (attrs : List Attr) (off : Nat), off + (attrs.flatMap Attr.text).length ≤ L →
      List.Forall₂ (fun s s' => R s.1 s'.1 ∧ R s.2 s'.2) (attrSpans (p + off) attrs)
        (attrSpans (p' + off) attrs) := by
  intro attrs
  induction attrs with
  | nil => intro off _; exact List.Forall₂.nil
  | cons a as ih =>
    intro off h
    simp only [List.flatMap_cons, List.length_append] at h
    have hlen : a.text.length = a.lead.length + (a.name.text.length + (a.sp1.length +
        (1 + (a.sp2.length + (1 + (a.value.length + 1)))))) := by
      simp only [Attr.text, List.length_append, List.length_cons, List.length_nil]
      omega
    simp only [attrSpans]
    refine List.Forall₂.cons ⟨?_, ?_⟩ ?_
    · have := hspan (off + a.lead.length) a.name.text.length (by omega)
      simp only [Attr.nameSpan]
      rw [show p + off + a.lead.length = p + (off + a.lead.length) by omega,
        show p' + off + a.lead.length = p' + (off + a.lead.length) by omega]
      exact this
    · have := hspan (off + a.lead.length + a.name.text.length + a.sp1.length + 1 +
        a.sp2.length + 1) a.value.length (by omega)
      simp only [Attr.valueSpan]
      rw [show p + off + a.lead.length + a.name.text.length + a.sp1.length + 1 +
          a.sp2.length + 1 = p + (off + a.lead.length + a.name.text.length + a.sp1.length + 1 +
          a.sp2.length + 1) by omega,
        show p' + off + a.lead.length + a.name.text.length + a.sp1.length + 1 +
          a.sp2.length + 1 = p' + (off + a.lead.length + a.name.text.length + a.sp1.length + 1 +
          a.sp2.length + 1) by omega]
      exact this
    · have := ih (off + a.text.length) (by omega)
      rw [show p + off + a.text.length = p + (off + a.text.length) by omega,
        show p' + off + a.text.length = p' + (off + a.text.length) by omega]
      exact this

theorem forall₂_tail (R : Span → Span → Prop) (l l' : List Span) (h : List.Forall₂ R l l') :
    List.Forall₂ R l.tail l'.tail := by
  cases h with
  | nil => exact List.Forall₂.nil
  | cons _ h2 => exact h2

theorem openTag_length (t : OpenTag) :
    t.text.length = 1 + t.name.text.length + (t.attrs.flatMap Attr.text).length +
      t.tail.length ∧ 1 ≤ t.tail.length := by
  constructor
  · simp only [OpenTag.text, List.length_cons, List.length_append]
    omega
  · unfold OpenTag.tail
    cases t.selfClosing <;> simp

/-- The open-tag branch of an iteration on two documents that hold the same open tag at
their cursors. -/
theorem stepOpen_sim (d d' : Doc) (R : Span → Span → Prop) (hR : SpanSame d d' R)
    (v v' : Visitor σ) (hv : VisSame R v v') (st st' s1 : State σ) (t : OpenTag)
    (rest rest' : List Char) (hok : t.ok = true)
    (hd : d.drop st.docPos = t.text ++ rest) (hd' : d'.drop st'.docPos = t.text ++ rest')
    (hspan : ∀ a b, a + b ≤ t.text.length →
      R ⟨st.docPos + a, st.docPos + a + b⟩ ⟨st'.docPos + a, st'.docPos + a + b⟩)
    (hrel : StRel R st st')
    (hs : stepOpen v d st ⟨st.docPos + t.text.length, t.caps st.docPos⟩ = some s1)
    (hr : s1.retCode = true) :
    ∃ s1', stepOpen v' d' st' ⟨st'.docPos + t.text.length, t.caps st'.docPos⟩ = some s1' ∧
      StRel R s1 s1' ∧
      s1.docPos = skipSpacesAndComments d (st.docPos + t.text.length) ∧
      s1'.docPos = skipSpacesAndComments d' (st'.docPos + t.text.length) := by
  obtain ⟨hlen, htail⟩ := openTag_length t
  obtain ⟨g1, g4⟩ := openCaps_get st.docPos t
  obtain ⟨g1', g4'⟩ := openCaps_get st'.docPos t
  have hname : R ⟨st.docPos + 1, st.docPos + 1 + t.name.text.length⟩
      ⟨st'.docPos + 1, st'.docPos + 1 + t.name.text.length⟩ :=
    hspan 1 t.name.text.length (by omega)
  obtain ⟨n1, n2, n3, n4, n5⟩ := enterState_sim R v v' hv st st' _ _ t.selfClosing hrel hname
  -- the attribute loops
  have hfuel : ∀ q : Nat, (q + t.text.length) - (q + 1 + t.name.text.length) <
      (q + t.text.length) - (q + 1 + t.name.text.length) + 1 := fun q => by omega
  obtain ⟨st2, hal⟩ := attrLoop_total v d (st.docPos + t.text.length)
      (st.docPos + t.text.length - (st.docPos + 1 + t.name.text.length) + 1)
      (st.docPos + 1 + t.name.text.length) []
      (enterState v st ⟨st.docPos + 1, st.docPos + 1 + t.name.text.length⟩ t.selfClosing)
      (hfuel st.docPos)
  obtain ⟨st2', hal'⟩ := attrLoop_total v' d' (st'.docPos + t.text.length)
      (st'.docPos + t.text.length - (st'.docPos + 1 + t.name.text.length) + 1)
      (st'.docPos + 1 + t.name.text.length) []
      (enterState v' st' ⟨st'.docPos + 1, st'.docPos + 1 + t.name.text.length⟩ t.selfClosing)
      (hfuel st'.docPos)
  have hA := attrsOf_eq d st.docPos t rest hok hd
  have hA' := attrsOf_eq d' st'.docPos t rest' hok hd'
  unfold attrsOf at hA hA'
  simp only [g1, g1'] at hA hA'
  have e2 := attrLoop_eq_run v d _ _ _ _ _ _ hal
  have e2' := attrLoop_eq_run v' d' _ _ _ _ _ _ hal'
  rw [hA] at e2
  rw [hA'] at e2'
  -- the result on d
  have hs1 := stepOpen_eq v d st st2 ⟨st.docPos + t.text.length, t.caps st.docPos⟩
    (by rw [g1, g4]; exact hal)
  rw [hs] at hs1
  simp only [g4, Option.some.injEq] at hs1
  have hs1' := stepOpen_eq v' d' st' st2' ⟨st'.docPos + t.text.length, t.caps st'.docPos⟩
    (by rw [g1', g4']; exact hal')
  simp only [g4'] at hs1'
  have hr2 : st2.retCode = true := by
    cases h2 : st2.retCode with
    | true => rfl
    | false =>
      rw [h2] at hs1
      simp only [Bool.false_and, Bool.false_eq_true, ↓reduceIte] at hs1
      rw [hs1, finish_retCode, h2] at hr
      cases hr
  have hatt := attrSpans_rel R st.docPos st'.docPos t.text.length hspan t.attrs
    (1 + t.name.text.length) (by omega)
  rw [show st.docPos + (1 + t.name.text.length) = st.docPos + 1 + t.name.text.length by omega,
    show st'.docPos + (1 + t.name.text.length) = st'.docPos + 1 + t.name.text.length by omega]
    at hatt
  have hsim := attrRun_sim d d' R hR v v' hv
    (enterState v st ⟨st.docPos + 1, st.docPos + 1 + t.name.text.length⟩ t.selfClosing).docPos
    (enterState v' st' ⟨st'.docPos + 1, st'.docPos + 1 + t.name.text.length⟩
      t.selfClosing).docPos _ _ hatt [] [] _ _ List.Forall₂.nil n1
    (by rw [← e2]; exact hr2)
  rw [← e2, ← e2'] at hsim
  obtain ⟨k1, k2, k3⟩ := hsim
  rw [n2] at k2
  rw [n3] at k3
  have hr2' : st2'.retCode = true := by rw [k1.retCode, hr2]
  refine ⟨_, hs1', ?_⟩
  rw [hs1, hr2, hr2']
  cases hsc : t.selfClosing with
  | false =>
    simp only [Bool.and_false, Bool.false_eq_true, ↓reduceIte]
    exact ⟨stRel_finish R d d' _ _ _ _ k1, finish_docPos_true d _ _ hr2,
      finish_docPos_true d' _ _ hr2'⟩
  | true =>
    simp only [Bool.and_self, ↓reduceIte]
    obtain ⟨x1, x2, x3⟩ := exitState_sim R v v' hv st2 st2' _ _ _ _ k1 k2 k3
    exact ⟨stRel_finish R d d' _ _ _ _ x1, finish_docPos_true d _ _ (by rw [x2, hr2]),
      finish_docPos_true d' _ _ (by rw [x3, hr2'])⟩


theorem open_none_of_head (doc : Doc) (p : Nat) (x : Char) (rest : List Char)
    (hd : doc.drop p = x :: rest) (hx : x ≠ '<') :
    regex_search_continuous regexNodeOpen doc p doc.length = none := by
  cases h : regex_search_continuous regexNodeOpen doc p doc.length with
  | none => rfl
  | some m =>
    have := regexNodeOpen_prefix doc p m h
    rw [hd] at this
    simp only [List.head?_cons, Option.some.injEq] at this
    exact absurd this hx

theorem close_none_of_head (doc : Doc) (p : Nat) (x : Char) (rest : List Char)
    (hd : doc.drop p = x :: rest) (hx : x ≠ '<') :
    regex_search_continuous regexNodeClose doc p doc.length = none := by
  cases h : regex_search_continuous regexNodeClose doc p doc.length with
  | none => rfl
  | some m =>
    have := regexNodeClose_prefix doc p m h
    rw [hd] at this
    cases rest with
    | nil => cases this
    | cons y ys =>
      simp only [List.take_succ_cons, List.take_zero] at this
      exact absurd (List.cons.inj this).1 hx

theorem close_none_of_second (doc : Doc) (p : Nat) (x y : Char) (rest : List Char)
    (hd : doc.drop p = x :: y :: rest) (hy : y ≠ '/') :
    regex_search_continuous regexNodeClose doc p doc.length = none := by
  cases h : regex_search_continuous regexNodeClose doc p doc.length with
  | none => rfl
  | some m =>
    have := regexNodeClose_prefix doc p m h
    rw [hd] at this
    simp only [List.take_succ_cons, List.take_zero] at this
    exact absurd (List.cons.inj (List.cons.inj this).2).1 hy

theorem strchrFrom_append (ch : Char) (rest : List Char) :
    ∀ (X : List Char) (pos : Nat), ch ∉ X →
      strchrFrom ch pos (X ++ ch :: rest) = some (pos + X.length) := by
  intro X
  induction X with
  | nil => intro pos _; simp [strchrFrom]
  | cons x xs ih =>
    intro pos h
    have hx : (x == ch) = false := by
      simp only [beq_eq_false_iff_ne, ne_eq]
      intro e
      exact h (by rw [e]; exact List.mem_cons_self _ _)
    have e : strchrFrom ch pos ((x :: xs) ++ ch :: rest) =
        strchrFrom ch (pos + 1) (xs ++ ch :: rest) := by
      show (if x == ch then some pos else strchrFrom ch (pos + 1) (xs ++ ch :: rest)) = _
      rw [hx]
      rfl
    rw [e, ih (pos + 1) (fun hm => h (List.mem_cons_of_mem _ hm))]
    simp only [List.length_cons, Option.some.injEq]
    omega

/-- A text run before a `<`: the text branch ends at that `<`. -/
theorem textEnd_of_split (doc : Doc) (p : Nat) (X rest : List Char)
    (hd : doc.drop p = X ++ '<' :: rest) (hX : '<' ∉ X) (hne : X ≠ []) :
    textEnd doc p = some (p + X.length) := by
  unfold textEnd strchr
  rw [hd, strchrFrom_append '<' rest X p hX]
  have := List.length_pos.mpr hne
  simp only
  rw [if_pos (by omega)]

/-- Where the text branch is taken, the text at the cursor is a run without `<`, not empty,
and a `<`. -/
theorem textEnd_split (doc : Doc) (p t : Nat) (h : textEnd doc p = some t) :
    ∃ X rest, doc.drop p = X ++ '<' :: rest ∧ '<' ∉ X ∧ X ≠ [] ∧ t = p + X.length := by
  obtain ⟨h1, h2, h3⟩ := textEnd_spec doc p t h
  have hb := textEnd_bounds doc p t h
  have ht : t < doc.length := hb.2
  have e1 : doc.drop t = '<' :: doc.drop (t + 1) := by
    rw [List.drop_eq_getElem_cons ht]
    congr 1
    rw [List.getElem?_eq_getElem ht] at h2
    exact Option.some.inj h2
  have hlen : ((doc.drop p).take (t - p)).length = t - p := by
    rw [List.length_take, List.length_drop]
    omega
  refine ⟨(doc.drop p).take (t - p), doc.drop (t + 1), ?_, h3, ?_, ?_⟩
  · rw [← e1]
    have := List.take_append_drop (t - p) (doc.drop p)
    rw [List.drop_drop] at this
    rw [show p + (t - p) = t by omega] at this
    exact this.symm
  · intro e
    rw [e] at hlen
    simp only [List.length_nil] at hlen
    omega
  · rw [hlen]
    omega

theorem stepClose_eq (v : Visitor σ) (doc : Doc) (st : State σ) (m : Match) (top : Span)
    (l : List Span) (hst : st.nodeStack = top :: l)
    (he : equalStrings doc top (m.get 1) = true) :
    stepClose v doc st m = State.finish doc (closeState v st (m.get 1) l) m.stop := by
  unfold stepClose closeState
  rw [hst]
  simp only [he, Bool.not_true, Bool.false_eq_true, ↓reduceIte]

theorem stepClose_true (v : Visitor σ) (doc : Doc) (st : State σ) (m : Match)
    (h : (stepClose v doc st m).retCode = true) :
    ∃ top l, st.nodeStack = top :: l ∧ equalStrings doc top (m.get 1) = true := by
  unfold stepClose at h
  cases hst : st.nodeStack with
  | nil =>
    rw [hst] at h
    simp at h
  | cons top l =>
    rw [hst] at h
    simp only at h
    cases he : equalStrings doc top (m.get 1) with
    | true => exact ⟨top, l, rfl, he⟩
    | false =>
      rw [he] at h
      simp at h

theorem closeState_sim (R : Span → Span → Prop) (v v' : Visitor σ) (hv : VisSame R v v')
    (st st' : State σ) (e e' : Span) (l l' : List Span) (hrel : StRel R st st')
    (he : R e e') (hl : List.Forall₂ R l l') :
    StRel R (closeState v st e l) (closeState v' st' e' l') := by
  obtain ⟨x1, x2, _, _, _⟩ := call_rel R v v' hv _ _ _ _ hrel (CallRel.exit _ _ false he)
  exact ⟨x1.vis, x2, hl, x1.log⟩

theorem content_window (d d' : Doc) (p p' L a b : Nat)
    (hag : (d'.drop p').take L = (d.drop p).take L) (hab : a + b ≤ L) :
    (⟨p' + a, p' + a + b⟩ : Span).content d' = (⟨p + a, p + a + b⟩ : Span).content d := by
  unfold Span.content
  simp only [Nat.add_sub_cancel_left]
  have key : ∀ (l : List Char), (l.drop a).take b = ((l.take L).drop a).take b := by
    intro l
    rw [List.drop_take, List.take_take, Nat.min_eq_left (by omega)]
  rw [← List.drop_drop, ← List.drop_drop, key (d'.drop p'), key (d.drop p), hag]

/-- One iteration of the loop on two documents that agree on a window that holds the token
at the cursor, from related states: when the iteration on `d` neither fails nor is cancelled,
the iteration on `d'` takes the same token and ends in a related state. -/
theorem bodyStep_sim (d d' : Doc) (R : Span → Span → Prop) (hR : SpanSame d d' R)
    (v v' : Visitor σ) (hv : VisSame R v v') (st st' s1 : State σ) (L : Nat)
    (hrel : StRel R st st')
    (hag : (d'.drop st'.docPos).take L = (d.drop st.docPos).take L)
    (hL : tokenEnd d st.docPos ≤ st.docPos + L)
    (hspan : ∀ a b, a + b ≤ L →
      R ⟨st.docPos + a, st.docPos + a + b⟩ ⟨st'.docPos + a, st'.docPos + a + b⟩)
    (hs : bodyStep v d st = some s1) (hr : s1.retCode = true) :
    ∃ s1', bodyStep v' d' st' = some s1' ∧ StRel R s1 s1' ∧
      st.docPos < tokenStop d st.docPos ∧
      s1.docPos = skipSpacesAndComments d (tokenStop d st.docPos) ∧
      s1'.docPos =
        skipSpacesAndComments d' (st'.docPos + (tokenStop d st.docPos - st.docPos)) := by
  rcases bodyStep_cases v d st s1 hs with ⟨m, hm, hopen⟩ | ⟨m, ho, hm, rfl⟩ |
    ⟨t, ho, hc, ht, rfl⟩ | ⟨m, ho, hc, hte, hm, rfl⟩ | ⟨m, ho, hc, hte, hcd, hm, rfl⟩ |
    ⟨_, _, _, _, _, rfl⟩
  · -- an open tag
    obtain ⟨t, rest, hok, hd⟩ := search_open_shape d st.docPos m hm
    have hm2 := search_open d st.docPos t rest hok hd
    rw [hm] at hm2
    cases hm2
    have hts : tokenStop d st.docPos = st.docPos + t.text.length := by
      simp only [tokenStop, hm]
    have hte : tokenEnd d st.docPos = st.docPos + t.text.length := by
      simp only [tokenEnd, hm, hts]
    have hlen : t.text.length ≤ L := by omega
    have hd' := agree_split d d' _ _ L t.text rest hag hd hlen
    have hm' := search_open d' st'.docPos t _ hok hd'
    obtain ⟨s1', g1, g2, g3, g4⟩ := stepOpen_sim d d' R hR v v' hv st st' s1 t rest _ hok hd hd'
      (fun a b hab => hspan a b (by omega)) hrel hopen hr
    refine ⟨s1', ?_, g2, ?_, ?_, ?_⟩
    · unfold bodyStep
      rw [hm']
      exact g1
    · rw [hts]
      have := (openTag_length t).1
      omega
    · rw [hts]
      exact g3
    · rw [hts, Nat.add_sub_cancel_left]
      exact g4
  · -- a close tag
    obtain ⟨t, rest, hok, hd⟩ := search_close_shape d st.docPos m hm
    have hm2 := search_close d st.docPos t rest hok hd
    rw [hm] at hm2
    cases hm2
    have hts : tokenStop d st.docPos = st.docPos + t.text.length := by
      simp only [tokenStop, ho, hm]
    have hte : tokenEnd d st.docPos = st.docPos + t.text.length := by
      simp only [tokenEnd, ho, hm, hts]
    have hlenT : t.text.length = 2 + t.name.text.length + t.sp.length + 1 := by
      simp only [CloseTag.text, List.length_append, List.length_cons, List.length_nil]
      have : "</".toList.length = 2 := rfl
      omega
    have hlen : t.text.length ≤ L := by omega
    have hd' := agree_split d d' _ _ L t.text rest hag hd hlen
    have hm' := search_close d' st'.docPos t _ hok hd'
    have ho' := nodeOpen_none_of_close d' st'.docPos _ hm'
    obtain ⟨top, l, hst, he⟩ := stepClose_true v d st _ hr
    have hstk := hrel.stack
    rw [hst] at hstk
    cases hstk' : st'.nodeStack with
    | nil => rw [hstk'] at hstk; cases hstk
    | cons top' l' =>
      rw [hstk'] at hstk
      have htop : R top top' := by
        cases hstk with
        | cons h1 _ => exact h1
      have hl : List.Forall₂ R l l' := by
        cases hstk with
        | cons _ h2 => exact h2
      have hname : R ⟨st.docPos + 2, st.docPos + 2 + t.name.text.length⟩
          ⟨st'.docPos + 2, st'.docPos + 2 + t.name.text.length⟩ := hspan 2 _ (by omega)
      have hg : ∀ q : Nat, (⟨q + t.text.length,
          [(1, ⟨q + 2, q + 2 + t.name.text.length⟩)]⟩ : Match).get 1 =
          ⟨q + 2, q + 2 + t.name.text.length⟩ := fun q => rfl
      have he' : equalStrings d' top' ((⟨st'.docPos + t.text.length,
          [(1, ⟨st'.docPos + 2, st'.docPos + 2 + t.name.text.length⟩)]⟩ : Match).get 1) =
          true := by
        rw [hg, equalStrings_rel d d' R hR _ _ _ _ htop hname, ← hg st.docPos]
        exact he
      rw [stepClose_eq v d st _ top l hst he] at hr ⊢
      rw [finish_retCode] at hr
      have hcs := closeState_sim R v v' hv st st' _ _ l l' hrel hname hl
      rw [hg] at hr ⊢
      refine ⟨State.finish d' (closeState v' st' ⟨st'.docPos + 2,
          st'.docPos + 2 + t.name.text.length⟩ l') (st'.docPos + t.text.length), ?_,
        stRel_finish R d d' _ _ _ _ hcs, ?_, ?_, ?_⟩
      · unfold bodyStep
        rw [ho', hm']
        simp only
        rw [stepClose_eq v' d' st' _ top' l' hstk' he', hg]
      · rw [hts]
        omega
      · rw [hts]
        exact finish_docPos_true d _ _ hr
      · rw [hts, Nat.add_sub_cancel_left]
        exact finish_docPos_true d' _ _ (by rw [hcs.retCode]; exact hr)
  · -- a text run
    obtain ⟨X, rest, hd, hX, hne, rfl⟩ := textEnd_split d st.docPos t ht
    have hts : tokenStop d st.docPos = st.docPos + X.length := by
      simp only [tokenStop, ho, hc, ht]
    have hte : tokenEnd d st.docPos = st.docPos + X.length + 1 := by
      simp only [tokenEnd, ho, hc, ht, hts]
    have hd2 : d.drop st.docPos = (X ++ ['<']) ++ rest := by
      rw [hd]
      simp
    have hlen2 : (X ++ ['<']).length = X.length + 1 := by simp
    have hd' := agree_split d d' _ _ L (X ++ ['<']) rest hag hd2 (by omega)
    have hd3 : d'.drop st'.docPos = X ++ '<' :: d'.drop (st'.docPos + (X ++ ['<']).length) := by
      have := hd'
      rw [List.append_assoc] at this
      exact this
    have ht' := textEnd_of_split d' st'.docPos X _ hd3 hX hne
    obtain ⟨x, xs, rfl⟩ : ∃ x xs, X = x :: xs := List.exists_cons_of_ne_nil hne
    have hx : x ≠ '<' := fun e => hX (by rw [e]; exact List.mem_cons_self _ _)
    have ho' := open_none_of_head d' st'.docPos x _
      (show _ = x :: (xs ++ '<' :: d'.drop (st'.docPos + (x :: xs ++ ['<']).length)) from hd3) hx
    have hc' := close_none_of_head d' st'.docPos x _
      (show _ = x :: (xs ++ '<' :: d'.drop (st'.docPos + (x :: xs ++ ['<']).length)) from hd3) hx
    have hname : R ⟨st.docPos, st.docPos + (x :: xs).length⟩
        ⟨st'.docPos, st'.docPos + (x :: xs).length⟩ := by
      have := hspan 0 (x :: xs).length (by omega)
      simpa using this
    obtain ⟨x1, x2, _, _, _⟩ := call_rel R v v' hv st st' _ _ hrel (CallRel.text _ _ hname)
    unfold stepText at hr ⊢
    simp only at hr ⊢
    rw [finish_retCode] at hr
    refine ⟨State.finish d'
        { (st'.call v' (.text ⟨st'.docPos, st'.docPos + (x :: xs).length⟩)).1 with
          retCode := (st'.call v' (.text ⟨st'.docPos, st'.docPos + (x :: xs).length⟩)).2,
          docPos := st'.docPos + (x :: xs).length } (st'.docPos + (x :: xs).length), ?_,
      stRel_finish R d d' _ _ _ _ ⟨x1.vis, x2, x1.stack, x1.log⟩, ?_, ?_, ?_⟩
    · unfold bodyStep
      rw [ho', hc', ht']
      rfl
    · rw [hts]
      simp
    · rw [hts]
      exact finish_docPos_true d _ _ hr
    · rw [hts, Nat.add_sub_cancel_left]
      exact finish_docPos_true d' _ _ (by
        show (st'.call v' (.text ⟨st'.docPos, st'.docPos + (x :: xs).length⟩)).2 = true
        rw [x2]
        exact hr)
  · -- a CDATA block
    obtain ⟨body, rest, hok, hd⟩ := search_cdata_shape d st.docPos m hm
    have hm2 := search_cdata d st.docPos body rest hok hd
    rw [hm] at hm2
    cases hm2
    have hts : tokenStop d st.docPos = st.docPos + (cdataText body).length := by
      simp only [tokenStop, ho, hc, hte, hm]
    have hten : tokenEnd d st.docPos = st.docPos + (cdataText body).length := by
      simp only [tokenEnd, ho, hc, hte, hts]
    have hlenT : (cdataText body).length = 9 + body.length + 3 := by
      simp only [cdataText, List.length_append]
      have h9 : "<![CDATA[".toList.length = 9 := rfl
      have h3 : "]]>".toList.length = 3 := rfl
      omega
    have hd' := agree_split d d' _ _ L (cdataText body) rest hag hd (by omega)
    have hm' := search_cdata d' st'.docPos body _ hok hd'
    have hhead : ∀ r, cdataText body ++ r =
        '<' :: '!' :: ("[CDATA[".toList ++ (body ++ "]]>".toList) ++ r) := fun r => rfl
    rw [hhead] at hd'
    have ho' := search_nodeOpen_none_of d' st'.docPos '!' _ hd' (by decide)
    have hc' := close_none_of_second d' st'.docPos '<' '!' _ hd' (by decide)
    have hte' := textEnd_none_of_lt d' st'.docPos _ hd'
    have hname : R ⟨st.docPos + 9, st.docPos + 9 + body.length⟩
        ⟨st'.docPos + 9, st'.docPos + 9 + body.length⟩ := hspan 9 _ (by omega)
    have hg : ∀ q : Nat, (⟨q + (cdataText body).length,
        [(1, ⟨q + 9, q + 9 + body.length⟩)]⟩ : Match).get 1 = ⟨q + 9, q + 9 + body.length⟩ :=
      fun q => rfl
    obtain ⟨x1, x2, _, _, _⟩ := call_rel R v v' hv st st' _ _ hrel (CallRel.cdata _ _ hname)
    unfold stepCdata at hr ⊢
    simp only [hg] at hr ⊢
    rw [finish_retCode] at hr
    refine ⟨State.finish d'
        { (st'.call v' (.cdata ⟨st'.docPos + 9, st'.docPos + 9 + body.length⟩)).1 with
          retCode := (st'.call v' (.cdata ⟨st'.docPos + 9, st'.docPos + 9 + body.length⟩)).2 }
        (st'.docPos + (cdataText body).length), ?_,
      stRel_finish R d d' _ _ _ _ ⟨x1.vis, x2, x1.stack, x1.log⟩, ?_, ?_, ?_⟩
    · unfold bodyStep
      rw [ho', hc', hte', hm']
      simp only [stepCdata, hg]
    · rw [hts]
      omega
    · rw [hts]
      exact finish_docPos_true d _ _ hr
    · rw [hts, Nat.add_sub_cancel_left]
      exact finish_docPos_true d' _ _ (by
        show (st'.call v' (.cdata ⟨st'.docPos + 9, st'.docPos + 9 + body.length⟩)).2 = true
        rw [x2]
        exact hr)
  · -- a processing instruction
    obtain ⟨t, rest, hok, hd⟩ := search_pi_shape d st.docPos m hm
    have hm2 := search_pi d st.docPos t rest hok hd
    rw [hm] at hm2
    cases hm2
    have hts : tokenStop d st.docPos = st.docPos + t.text.length := by
      simp only [tokenStop, ho, hc, hte, hcd, hm]
    have hten : tokenEnd d st.docPos = st.docPos + t.text.length := by
      simp only [tokenEnd, ho, hc, hte, hts]
    have hlenT : 2 ≤ t.text.length := by
      simp only [ProcInstr.text, List.length_append]
      have h2 : "<?".toList.length = 2 := rfl
      omega
    have hd' := agree_split d d' _ _ L t.text rest hag hd (by omega)
    have hm' := search_pi d' st'.docPos t _ hok hd'
    have hhead : ∀ r, t.text ++ r = '<' :: '?' ::
        ((t.name ++ (t.attrs.flatMap PseudoAttr.text ++ (t.sp ++ "?>".toList))) ++ r) :=
      fun r => rfl
    rw [hhead] at hd'
    have ho' := search_nodeOpen_none d' st'.docPos _ hd'
    have hc' := close_none_of_second d' st'.docPos '<' '?' _ hd' (by decide)
    have hte' := textEnd_none_of_lt d' st'.docPos _ hd'
    have hcd' : regex_search_continuous regexXmlCDATA d' st'.docPos d'.length = none := by
      apply search_bol_lit_none regexXmlCDATA _ _ d' st'.docPos regexXmlCDATA_eq
      rw [hd']
      intro hp
      obtain ⟨r, hr⟩ := hp
      have := (List.cons.inj (List.cons.inj hr).2).1
      exact absurd this (by decide)
    rw [finish_retCode] at hr
    refine ⟨State.finish d' st' (st'.docPos + t.text.length), ?_,
      stRel_finish R d d' _ _ _ _ hrel, ?_, ?_, ?_⟩
    · unfold bodyStep
      rw [ho', hc', hte', hcd', hm']
    · rw [hts]
      omega
    · rw [hts]
      exact finish_docPos_true d _ _ hr
    · rw [hts, Nat.add_sub_cancel_left]
      exact finish_docPos_true d' _ _ (by rw [hrel.retCode]; exact hr)
  · simp [stepInvalid] at hr

theorem startsToken_append (H r : List Char) (h : startsToken H = true) :
    startsToken (H ++ r) = true := by
  cases H with
  | nil => cases h
  | cons x xs =>
    simp only [startsToken, List.cons_append] at h ⊢
    split
    · rename_i hx
      rw [if_pos hx] at h
      cases xs with
      | nil => cases h
      | cons y ys =>
        simp only [List.cons_append] at h ⊢
        split
        · rename_i hy
          rw [if_pos hy] at h
          cases ys with
          | nil => simp at h
          | cons z zs => simpa using h
        · rfl
    · rename_i hx
      rw [if_neg hx] at h
      exact h

theorem startsToken_stop (r : List Char) (h : startsToken r = true) :
    (∀ y ys, r = y :: ys → isSpace y = false) ∧ ¬ "<!--".toList <+: r := by
  cases r with
  | nil => cases h
  | cons x xs =>
    simp only [startsToken] at h
    constructor
    · intro y ys e
      obtain ⟨rfl, rfl⟩ := List.cons.inj e
      split at h
      · rename_i hx
        rw [hx]
        decide
      · simpa using h
    · rintro ⟨s, hs⟩
      have e1 := (List.cons.inj hs).1
      have e2 := (List.cons.inj hs).2
      rw [if_pos e1.symm] at h
      cases xs with
      | nil => cases e2
      | cons y ys =>
        have e3 := (List.cons.inj e2).1
        have e4 := (List.cons.inj e2).2
        simp only at h
        rw [if_pos e3.symm] at h
        cases ys with
        | nil => cases e4
        | cons z zs =>
          have e5 := (List.cons.inj e4).1
          rw [← e5] at h
          simp at h

theorem tokenEnd_cases (d : Doc) (p : Nat) :
    tokenEnd d p = tokenStop d p ∨
      (tokenEnd d p = tokenStop d p + 1 ∧ d[tokenStop d p]? = some '<') := by
  cases ho : regex_search_continuous regexNodeOpen d p d.length with
  | some m => left; simp only [tokenEnd, ho]
  | none =>
    cases hc : regex_search_continuous regexNodeClose d p d.length with
    | some m => left; simp only [tokenEnd, ho, hc]
    | none =>
      cases ht : textEnd d p with
      | none => left; simp only [tokenEnd, ho, hc, ht]
      | some t =>
        right
        have e : tokenStop d p = t := by simp only [tokenStop, ho, hc, ht]
        refine ⟨by simp only [tokenEnd, ho, hc, ht], ?_⟩
        rw [e]
        exact (textEnd_spec d p t ht).2.1

theorem tokenStop_le (d : Doc) (p : Nat) (hp : p ≤ d.length) :
    p ≤ tokenStop d p ∧ tokenStop d p ≤ d.length := by
  unfold tokenStop
  split
  · rename_i m hm
    exact search_stop_le hm hp
  · split
    · rename_i m hm
      exact search_stop_le hm hp
    · split
      · rename_i t ht
        have := textEnd_bounds d p t ht
        omega
      · split
        · rename_i m hm
          exact search_stop_le hm hp
        · split
          · rename_i m hm
            exact search_stop_le hm hp
          · exact ⟨le_refl _, hp⟩

theorem tokenEnd_le (d : Doc) (p : Nat) (hp : p ≤ d.length) : tokenEnd d p ≤ d.length := by
  rcases tokenEnd_cases d p with h | ⟨h, hx⟩
  · rw [h]
    exact (tokenStop_le d p hp).2
  · rw [h]
    have : tokenStop d p < d.length := by
      by_contra hc
      rw [List.getElem?_eq_none (by omega)] at hx
      cases hx
    omega

theorem callRel_eq (c c' : Call) (h : CallRel (fun a a' => a' = a) c c') : c' = c := by
  cases h
  all_goals simp_all

theorem callRel_refl (c : Call) : CallRel (fun a a' => a' = a) c c := by
  cases c
  · exact CallRel.enter _ _ _ rfl
  · exact CallRel.exit _ _ _ rfl
  · exact CallRel.attribute _ _ _ _ rfl rfl
  · exact CallRel.text _ _ rfl
  · exact CallRel.cdata _ _ rfl
  · exact CallRel.error _ _
  · exact CallRel.validate

theorem stRel_refl (st : State σ) : StRel (fun a a' => a' = a) st st :=
  ⟨rfl, rfl, List.forall₂_same.mpr (fun _ _ => rfl),
    List.forall₂_same.mpr (fun e _ => ⟨callRel_refl e.1, rfl⟩)⟩

/-- What an iteration that neither fails nor is cancelled does to the cursor: there is a
token at the cursor, and the cursor goes behind the white space and comments after it. -/
theorem bodyStep_token (v : Visitor σ) (d : Doc) (st s1 : State σ)
    (hp : st.docPos ≤ d.length) (hs : bodyStep v d st = some s1) (hr : s1.retCode = true) :
    st.docPos < tokenStop d st.docPos ∧
      s1.docPos = skipSpacesAndComments d (tokenStop d st.docPos) := by
  have hE := tokenEnd_le d st.docPos hp
  obtain ⟨s1', _, _, g3, g4, _⟩ := bodyStep_sim d d (fun a a' => a' = a)
    (fun a a' h => by rw [h]; exact ⟨rfl, rfl⟩) v v
    (fun s c c' h => by rw [callRel_eq c c' h]) st st s1 (d.length - st.docPos)
    (stRel_refl st) rfl (by omega) (fun _ _ _ => rfl) hs hr
  exact ⟨g3, g4⟩

/-- After white space and comments: on two documents that agree from the two offsets up to
where `skipSpacesAndComments` stops on the one, and where the other goes on like a token,
`skipSpacesAndComments` goes equally far. -/
theorem skip_sim (d d' : Doc) (e e' M : Nat)
    (hag : (d'.drop e').take M = (d.drop e).take M)
    (hM : skipSpacesAndComments d e - e ≤ M)
    (hst : startsToken (d'.drop (e' + (skipSpacesAndComments d e - e))) = true) :
    skipSpacesAndComments d' e' = e' + (skipSpacesAndComments d e - e) := by
  obtain ⟨w, hw, hd, hq⟩ := skip_pieces d e
  have hlen : skipSpacesAndComments d e - e = (piecesText w).length := by omega
  rw [hlen] at hM hst ⊢
  have hd' := agree_split d d' e e' M (piecesText w) _ hag hd hM
  obtain ⟨h1, h2⟩ := startsToken_stop _ hst
  exact skipSpacesAndComments_pieces d' e' w _ hw h1 h2 hd'

/-- The text at the cursor of an iteration that neither fails nor is cancelled, as far as
the iteration reads it, begins like a token. -/
theorem bodyStep_starts (v : Visitor σ) (d : Doc) (st s1 : State σ)
    (hs : bodyStep v d st = some s1) (hr : s1.retCode = true)
    (hx : ∀ x, d[st.docPos]? = some x → isSpace x = false) :
    startsToken ((d.drop st.docPos).take (tokenEnd d st.docPos - st.docPos)) = true := by
  rcases bodyStep_cases v d st s1 hs with ⟨m, hm, hopen⟩ | ⟨m, ho, hm, rfl⟩ |
    ⟨t, ho, hc, ht, rfl⟩ | ⟨m, ho, hc, hte, hm, rfl⟩ | ⟨m, ho, hc, hte, hcd, hm, rfl⟩ |
    ⟨_, _, _, _, _, rfl⟩
  · obtain ⟨t, rest, hok, hd⟩ := search_open_shape d st.docPos m hm
    have hm2 := search_open d st.docPos t rest hok hd
    rw [hm] at hm2
    cases hm2
    have hte : tokenEnd d st.docPos = st.docPos + t.text.length := by
      simp only [tokenEnd, tokenStop, hm]
    rw [hte, Nat.add_sub_cancel_left, hd, List.take_left]
    obtain ⟨y, ys, e, hy⟩ := qname_head t.name ((openTag_ok_iff t).mp hok).1
    simp only [OpenTag.text, e, List.cons_append, startsToken, ↓reduceIte]
    rw [if_neg]
    intro e1
    rw [e1] at hy
    exact absurd hy (by decide)
  · obtain ⟨t, rest, hok, hd⟩ := search_close_shape d st.docPos m hm
    have hm2 := search_close d st.docPos t rest hok hd
    rw [hm] at hm2
    cases hm2
    have hte : tokenEnd d st.docPos = st.docPos + t.text.length := by
      simp only [tokenEnd, tokenStop, ho, hm]
    rw [hte, Nat.add_sub_cancel_left, hd, List.take_left]
    rfl
  · obtain ⟨X, rest, hd, hX, hne, rfl⟩ := textEnd_split d st.docPos t ht
    have hte : tokenEnd d st.docPos = st.docPos + (X ++ ['<']).length := by
      simp only [tokenEnd, tokenStop, ho, hc, ht, List.length_append, List.length_cons,
        List.length_nil]
      omega
    have hd2 : d.drop st.docPos = (X ++ ['<']) ++ rest := by
      rw [hd]
      simp
    rw [hte, Nat.add_sub_cancel_left, hd2, List.take_left]
    obtain ⟨x, xs, rfl⟩ : ∃ x xs, X = x :: xs := List.exists_cons_of_ne_nil hne
    have hx1 : x ≠ '<' := fun e => hX (by rw [e]; exact List.mem_cons_self _ _)
    have hx2 : d[st.docPos]? = some x := by
      have h0 : (d.drop st.docPos)[0]? = d[st.docPos]? := by
        rw [List.getElem?_drop]
        rfl
      rw [← h0, hd]
      simp
    simp only [List.cons_append, startsToken, if_neg hx1, hx _ hx2, Bool.not_false]
  · obtain ⟨body, rest, hok, hd⟩ := search_cdata_shape d st.docPos m hm
    have hm2 := search_cdata d st.docPos body rest hok hd
    rw [hm] at hm2
    cases hm2
    have hten : tokenEnd d st.docPos = st.docPos + (cdataText body).length := by
      simp only [tokenEnd, tokenStop, ho, hc, hte, hm]
    rw [hten, Nat.add_sub_cancel_left, hd, List.take_left]
    rfl
  · obtain ⟨t, rest, hok, hd⟩ := search_pi_shape d st.docPos m hm
    have hm2 := search_pi d st.docPos t rest hok hd
    rw [hm] at hm2
    cases hm2
    have hten : tokenEnd d st.docPos = st.docPos + t.text.length := by
      simp only [tokenEnd, tokenStop, ho, hc, hte, hcd, hm]
    rw [hten, Nat.add_sub_cancel_left, hd, List.take_left]
    rfl
  · simp [stepInvalid] at hr


/-- When `parse` returns true after the loop, every iteration of the loop neither fails nor
is cancelled. -/
theorem parse_true_iters (v : Visitor σ) (d : Doc) (vis : σ) (stack0 : List Span)
    (st : State σ) (hp : parse v d vis stack0 = some st) (hr : st.retCode = true)
    (n : Nat) (s : State σ) (hn : iterStart v d vis n = some s) :
    ∃ s2, bodyStep v d s = some s2 ∧ s2.retCode = true := by
  obtain ⟨s2, h2⟩ := bodyStep_total v d s
  refine ⟨s2, h2, ?_⟩
  cases hc : (s2.retCode && !s2.nodeStack.isEmpty) with
  | true =>
    simp only [Bool.and_eq_true] at hc
    exact hc.1
  | false =>
    have := parse_of_iter v d vis stack0 n s s2 hn h2 hc
    rw [hp] at this
    cases this
    exact hr

theorem window_shift (d d' : Doc) (a a' W i : Nat)
    (hag : (d'.drop a').take W = (d.drop a).take W) :
    (d'.drop (a' + i)).take (W - i) = (d.drop (a + i)).take (W - i) := by
  rw [← List.drop_drop, ← List.drop_drop, ← List.drop_take, ← List.drop_take, hag]

theorem stRel_stack_empty (R : Span → Span → Prop) (s s' : State σ) (h : StRel R s s') :
    s'.nodeStack.isEmpty = s.nodeStack.isEmpty := by
  have hs := h.stack
  revert hs
  generalize s.nodeStack = l
  generalize s'.nodeStack = l'
  intro hs
  cases hs <;> rfl

/-- One iteration inside a window on which the two documents agree: the step of
`bodyStep_sim`, and the cursors stay in step when the loop goes on inside the window. -/
theorem phase_step (d d' : Doc) (R : Span → Span → Prop) (hR : SpanSame d d' R)
    (v v' : Visitor σ) (hv : VisSame R v v') (a a' W : Nat)
    (hag : (d'.drop a').take W = (d.drop a).take W)
    (hspan : ∀ x y, x + y ≤ W → R ⟨a + x, a + x + y⟩ ⟨a' + x, a' + x + y⟩)
    (st st' s1 : State σ) (hrel : StRel R st st') (hpa : a ≤ st.docPos)
    (hpd : st.docPos ≤ d.length)
    (hp' : st'.docPos = a' + (st.docPos - a))
    (hs : bodyStep v d st = some s1) (hr : s1.retCode = true)
    (hE : tokenEnd d st.docPos ≤ a + W) :
    ∃ s1', bodyStep v' d' st' = some s1' ∧ StRel R s1 s1' ∧ a ≤ s1.docPos ∧
      s1.docPos = skipSpacesAndComments d (tokenStop d st.docPos) ∧
      s1'.docPos = skipSpacesAndComments d' (a' + (tokenStop d st.docPos - a)) ∧
      st.docPos < tokenStop d st.docPos ∧
      (∀ s2, bodyStep v d s1 = some s2 → s2.retCode = true → tokenEnd d s1.docPos ≤ a + W →
        s1'.docPos = a' + (s1.docPos - a)) := by
  have hts := tokenStop_le d st.docPos hpd
  have hcs := tokenEnd_cases d st.docPos
  have hw := window_shift d d' a a' W (st.docPos - a) hag
  rw [← hp', show a + (st.docPos - a) = st.docPos by omega] at hw
  obtain ⟨s1', g1, g2, g3, g4, g5⟩ := bodyStep_sim d d' R hR v v' hv st st' s1
    (W - (st.docPos - a)) hrel hw (by omega)
    (fun x y hxy => by
      have := hspan (st.docPos - a + x) y (by omega)
      rw [show a + (st.docPos - a + x) = st.docPos + x by omega,
        show a' + (st.docPos - a + x) = st'.docPos + x by omega] at this
      exact this) hs hr
  have hpos : st'.docPos + (tokenStop d st.docPos - st.docPos) =
      a' + (tokenStop d st.docPos - a) := by omega
  rw [hpos] at g5
  have hsk := skipSpacesAndComments_bounds d (tokenStop d st.docPos) hts.2
  refine ⟨s1', g1, g2, by omega, g4, g5, g3, ?_⟩
  intro s2 hs2 hr2 hE2
  have hq : s1.docPos ≤ d.length := by omega
  obtain ⟨k1, k2⟩ := bodyStep_token v d s1 s2 hq hs2 hr2
  have hcs2 := tokenEnd_cases d s1.docPos
  have hstart := bodyStep_starts v d s1 s2 hs2 hr2 (by
    intro x hx
    rw [g4] at hx
    exact skipSpacesAndComments_stop d _ x hx)
  -- the window at the end of the token
  have hw2 := window_shift d d' a a' W (tokenStop d st.docPos - a) hag
  rw [show a + (tokenStop d st.docPos - a) = tokenStop d st.docPos by omega] at hw2
  -- the window at the next cursor
  have hw3 := window_shift d d' a a' W (s1.docPos - a) hag
  rw [show a + (s1.docPos - a) = s1.docPos by omega] at hw3
  have hn : tokenEnd d s1.docPos - s1.docPos ≤ W - (s1.docPos - a) := by omega
  have htk : (d'.drop (a' + (s1.docPos - a))).take (tokenEnd d s1.docPos - s1.docPos) =
      (d.drop s1.docPos).take (tokenEnd d s1.docPos - s1.docPos) := by
    have e1 := congrArg (List.take (tokenEnd d s1.docPos - s1.docPos)) hw3
    rw [List.take_take, List.take_take, Nat.min_eq_left hn] at e1
    exact e1
  have hst' : startsToken (d'.drop (a' + (s1.docPos - a))) = true := by
    have := List.take_append_drop (tokenEnd d s1.docPos - s1.docPos)
      (d'.drop (a' + (s1.docPos - a)))
    rw [← this]
    apply startsToken_append
    rw [htk]
    exact hstart
  have hfin := skip_sim d d' (tokenStop d st.docPos) (a' + (tokenStop d st.docPos - a))
    (W - (tokenStop d st.docPos - a)) hw2 (by rw [← g4]; omega)
    (by
      rw [← g4, show a' + (tokenStop d st.docPos - a) + (s1.docPos - tokenStop d st.docPos) =
        a' + (s1.docPos - a) by omega]
      exact hst')
  rw [g5, hfin, ← g4]
  omega

/-- The iterations inside a window on which the two documents agree, from related states
with cursors in step: the loop on `d'` makes the same iterations as the loop on `d`. -/
theorem phase_run (d d' : Doc) (R : Span → Span → Prop) (hR : SpanSame d d' R)
    (v v' : Visitor σ) (hv : VisSame R v v') (vis vis' : σ) (a a' W : Nat)
    (hag : (d'.drop a').take W = (d.drop a).take W)
    (hspan : ∀ x y, x + y ≤ W → R ⟨a + x, a + x + y⟩ ⟨a' + x, a' + x + y⟩)
    (hall : ∀ n s, iterStart v d vis n = some s →
      ∃ s2, bodyStep v d s = some s2 ∧ s2.retCode = true)
    (j j' : Nat) (st st' : State σ) (hj : iterStart v d vis j = some st)
    (hj' : iterStart v' d' vis' j' = some st') (hrel : StRel R st st')
    (hpa : a ≤ st.docPos) (hp' : st'.docPos = a' + (st.docPos - a)) :
    ∀ (m : Nat) (sm : State σ), iterStart v d vis (j + m) = some sm →
      (∀ i s, i ≤ m → iterStart v d vis (j + i) = some s → tokenEnd d s.docPos ≤ a + W) →
      ∃ sm', iterStart v' d' vis' (j' + m) = some sm' ∧ StRel R sm sm' ∧
        a ≤ sm.docPos ∧ sm'.docPos = a' + (sm.docPos - a) := by
  intro m
  induction m with
  | zero =>
    intro sm hm _
    rw [Nat.add_zero, hj] at hm
    cases hm
    exact ⟨st', hj', hrel, hpa, hp'⟩
  | succ m ih =>
    intro s hm hE
    rw [← Nat.add_assoc, iterStart_succ] at hm
    obtain ⟨sm, h1, h2, h3⟩ := hm
    obtain ⟨sm', k1, k2, k3, k4⟩ := ih sm h1 (fun i s hi => hE i s (by omega))
    simp only [Bool.and_eq_true, Bool.not_eq_true'] at h3
    have hinv := iterStart_inv v d vis (j + m) sm h1
    obtain ⟨s1', g1, g2, g3, _, _, _, g7⟩ := phase_step d d' R hR v v' hv a a' W hag hspan
      sm sm' s k2 k3 hinv.2.2.1 k4 h2 h3.1 (hE m sm (by omega) h1)
    have hs : iterStart v d vis (j + m + 1) = some s :=
      (iterStart_succ v d vis (j + m) s).mpr ⟨sm, h1, h2, by
        simp only [Bool.and_eq_true, Bool.not_eq_true']
        exact h3⟩
    obtain ⟨s2, hs2, hr2⟩ := hall _ s hs
    refine ⟨s1', ?_, g2, g3, g7 s2 hs2 hr2 (hE (m + 1) s (le_refl _) hs)⟩
    rw [← Nat.add_assoc, iterStart_succ]
    refine ⟨sm', k1, g1, ?_⟩
    rw [g2.retCode, stRel_stack_empty R s s1' g2]
    simp only [Bool.and_eq_true, Bool.not_eq_true']
    exact h3


theorem callRel_mono (R R2 : Span → Span → Prop) (h : ∀ a a', R a a' → R2 a a')
    (c c' : Call) (hc : CallRel R c c') : CallRel R2 c c' := by
  cases hc with
  | enter e e' b h1 => exact CallRel.enter _ _ _ (h _ _ h1)
  | exit e e' b h1 => exact CallRel.exit _ _ _ (h _ _ h1)
  | «attribute» n n' x x' h1 h2 => exact CallRel.attribute _ _ _ _ (h _ _ h1) (h _ _ h2)
  | text t t' h1 => exact CallRel.text _ _ (h _ _ h1)
  | cdata t t' h1 => exact CallRel.cdata _ _ (h _ _ h1)
  | error i p => exact CallRel.error _ _
  | validate => exact CallRel.validate

theorem logRel_eq (R : Span → Span → Prop) (h : ∀ a a', R a a' → a' = a)
    (l l' : List (Call × Bool)) (hl : LogRel R l l') : l' = l := by
  induction hl with
  | nil => rfl
  | cons h1 _ ih =>
    rename_i e e' l l' _
    have := callRel_eq _ _ (callRel_mono R _ h _ _ h1.1)
    rw [ih]
    congr 1
    exact Prod.ext this h1.2

theorem callRel_content (d d' : Doc) (R : Span → Span → Prop) (hR : SpanSame d d' R)
    (c c' : Call) (hc : CallRel R c c') : Call.content d' c' = Call.content d c := by
  cases hc with
  | enter e e' b h1 => simp only [Call.content, (hR _ _ h1).2]
  | exit e e' b h1 => simp only [Call.content, (hR _ _ h1).2]
  | «attribute» n n' x x' h1 h2 => simp only [Call.content, (hR _ _ h1).2, (hR _ _ h2).2]
  | text t t' h1 => simp only [Call.content, (hR _ _ h1).2]
  | cdata t t' h1 => simp only [Call.content, (hR _ _ h1).2]
  | error i p => rfl
  | validate => rfl

theorem logRel_content (d d' : Doc) (R : Span → Span → Prop) (hR : SpanSame d d' R)
    (l l' : List (Call × Bool)) (hl : LogRel R l l') :
    l'.map (fun e => (Call.content d' e.1, e.2)) = l.map (fun e => (Call.content d e.1, e.2)) := by
  induction hl with
  | nil => rfl
  | cons h1 _ ih =>
    simp only [List.map_cons, ih, callRel_content d d' R hR _ _ h1.1, h1.2]

theorem content_append_within (d x : Doc) (a : Span) (h : a.second ≤ d.length) :
    a.content (d ++ x) = a.content d := by
  unfold Span.content
  by_cases hf : a.first ≤ d.length
  · rw [List.drop_append_of_le_length hf, List.take_append_of_le_length]
    rw [List.length_drop]
    omega
  · rw [show a.second - a.first = 0 by omega]
    rfl

/-- The end of a run of `parse` that returns true after the loop, on two documents that
agree on a window from the cursors of the prologs on: the run on `d'` makes the same
iterations, and returns true with a related log. -/
theorem parse_sim (d d' : Doc) (R : Span → Span → Prop) (hR : SpanSame d d' R)
    (v v' : Visitor σ) (hv : VisSame R v v') (vis vis' : σ) (stack0 stack0' : List Span)
    (a a' W : Nat)
    (hag : (d'.drop a').take W = (d.drop a).take W)
    (hspan : ∀ x y, x + y ≤ W → R ⟨a + x, a + x + y⟩ ⟨a' + x, a' + x + y⟩)
    (hW : d.length ≤ a + W)
    (st : State σ) (hp : parse v d vis stack0 = some st) (hr : st.retCode = true)
    (j j' : Nat) (sj sj' : State σ) (hj : iterStart v d vis j = some sj)
    (hj' : iterStart v' d' vis' j' = some sj') (hrel : StRel R sj sj')
    (hpa : a ≤ sj.docPos) (hp' : sj'.docPos = a' + (sj.docPos - a)) :
    ∃ st', parse v' d' vis' stack0' = some st' ∧ StRel R st st' := by
  have hall := parse_true_iters v d vis stack0 st hp hr
  obtain ⟨st0, h0, hc⟩ := parse_cases v d vis stack0
  rw [hp] at h0
  cases h0
  rcases hc with ⟨hlen, _⟩ | ⟨_, N, sN, hN, hstep, hcond⟩
  · obtain ⟨s0, hs0⟩ := iterStart_of_add v d vis 0 j sj (by rw [Nat.zero_add]; exact hj)
    simp [iterStart, hlen] at hs0
  · have hjN : j ≤ N := by
      by_contra hlt
      obtain ⟨k, rfl⟩ : ∃ k, j = (N + 1) + k := ⟨j - (N + 1), by omega⟩
      obtain ⟨s', hs'⟩ := iterStart_of_add v d vis (N + 1) k sj hj
      rw [iterStart_succ] at hs'
      obtain ⟨sa, e1, e2, e3⟩ := hs'
      rw [hN] at e1
      cases e1
      rw [hstep] at e2
      cases e2
      rw [hcond] at e3
      cases e3
    obtain ⟨m, rfl⟩ : ∃ m, N = j + m := ⟨N - j, by omega⟩
    have hbound : ∀ i s, iterStart v d vis (j + i) = some s → tokenEnd d s.docPos ≤ a + W := by
      intro i s hs
      have := tokenEnd_le d s.docPos (iterStart_inv v d vis _ s hs).2.2.1
      omega
    obtain ⟨sN', k1, k2, k3, k4⟩ := phase_run d d' R hR v v' hv vis vis' a a' W hag hspan hall
      j j' sj sj' hj hj' hrel hpa hp' m sN hN (fun i s _ hs => hbound i s hs)
    obtain ⟨s1', g1, g2, _⟩ := phase_step d d' R hR v v' hv a a' W hag hspan sN sN' st k2 k3
      (iterStart_inv v d vis _ sN hN).2.2.1 k4 hstep hr (hbound m sN hN)
    refine ⟨s1', parse_of_iter v' d' vis' stack0' (j' + m) sN' s1' k1 g1 ?_, g2⟩
    rw [g2.retCode, stRel_stack_empty R st s1' g2]
    exact hcond

/-- The claim C29 fails as it is stated when the document has a DOCTYPE block with a quoted
string: `parse` reports the root element of `<!DOCTYPE d [<!ENTITY a "x">]><r/>`, and with
`"> ]>` appended the DOCTYPE block runs up to the end of the document, and `parse` returns
true without a call. -/
theorem C29_counterexample :
    (parse (constVisitor true) "<!DOCTYPE d [<!ENTITY a \"x\">]><r/>".toList () []).map
        (fun s => (s.retCode, calls s.log)) =
      some (true, [.enter ⟨31, 32⟩ true, .exit ⟨31, 32⟩ true]) ∧
    (parse (constVisitor true)
        ("<!DOCTYPE d [<!ENTITY a \"x\">]><r/>".toList ++ "\"> ]>".toList) () []).map
        (fun s => (s.retCode, calls s.log)) = some (true, []) := by
  decide

/-- Claim C29, amended: for every document `d` with a root element (the prolog scan ends
inside `d`) on which `parse` returns true, and every string `x` such that the prolog scan
of `d ++ x` ends where that of `d` ends, `parse` returns true on `d ++ x` and makes exactly
the same calls with the same values returned, for the same visitor and more generally for
two visitors that answer alike on every call that has the same content in both documents. -/
theorem C29_nothing_after_root (v v' : Visitor σ) (d x : Doc) (vis : σ)
    (stack0 : List Span) (st : State σ)
    (hv : ∀ s c, Call.content (d ++ x) c = Call.content d c → v'.call s c = v.call s c)
    (hroot : prolog d < d.length) (hprolog : prolog (d ++ x) = prolog d)
    (hp : parse v d vis stack0 = some st) (hr : st.retCode = true) :
    ∃ st', parse v' (d ++ x) vis stack0 = some st' ∧ st'.retCode = true ∧
      st'.log = st.log ∧ st'.vis = st.vis := by
  have hR : SpanSame d (d ++ x) (fun a a' => a' = a ∧ a.second ≤ d.length) := by
    intro a a' h
    rw [h.1]
    exact ⟨rfl, content_append_within d x a h.2⟩
  have hV : VisSame (fun a a' => a' = a ∧ a.second ≤ d.length) v v' := by
    intro s c c' hc
    have e := callRel_eq c c' (callRel_mono _ _ (fun a a' h => h.1) c c' hc)
    have hcont := callRel_content d (d ++ x) _ hR c c' hc
    rw [e] at hcont ⊢
    exact hv s c hcont
  have h0 : iterStart v d vis 0 = some (bodyInit d vis) :=
    iterStart_zero v d vis (by omega)
  have h0' : iterStart v' (d ++ x) vis 0 = some (bodyInit (d ++ x) vis) :=
    iterStart_zero v' (d ++ x) vis (by
      rw [hprolog, List.length_append]
      omega)
  obtain ⟨st', g1, g2⟩ := parse_sim d (d ++ x) _ hR v v' hV vis vis stack0 stack0 0 0 d.length
    (by simp) (fun a b hab => ⟨rfl, by simp only; omega⟩) (by omega) st hp hr 0 0 _ _ h0 h0'
    ⟨rfl, rfl, List.Forall₂.nil, List.Forall₂.nil⟩ (Nat.zero_le _) (by
      show prolog (d ++ x) = 0 + (prolog d - 0)
      rw [hprolog]
      omega)
  exact ⟨st', g1, by rw [g2.retCode, hr], logRel_eq _ (fun a a' h => h.1) _ _ g2.log, g2.vis⟩

theorem C29_nothing_after_root_witness :
    ∃ st', parse (constVisitor true) ("<a>t</a>".toList ++ "</b> <c".toList) () [] = some st' ∧
      st'.retCode = true ∧
      st'.log = [(.enter ⟨1, 2⟩ false, true), (.text ⟨3, 4⟩, true), (.exit ⟨6, 7⟩ false, true)] ∧
      st'.vis = () :=
  C29_nothing_after_root (constVisitor true) (constVisitor true) "<a>t</a>".toList
    "</b> <c".toList () []
    { vis := (), log := [(.enter ⟨1, 2⟩ false, true), (.text ⟨3, 4⟩, true),
        (.exit ⟨6, 7⟩ false, true)], nodeStack := [], docPos := 8, retCode := true }
    (fun _ _ _ => rfl) (by decide) (by decide) (by decide) rfl


/-- The cursor of the loop does not go back. -/
theorem iterStart_docPos_le (v : Visitor σ) (d : Doc) (vis : σ) (n : Nat) (sn : State σ)
    (hn : iterStart v d vis n = some sn) :
    ∀ (m : Nat) (sm : State σ), iterStart v d vis (n + m) = some sm →
      sn.docPos ≤ sm.docPos := by
  intro m
  induction m with
  | zero =>
    intro sm hm
    rw [Nat.add_zero, hn] at hm
    cases hm
    exact le_refl _
  | succ m ih =>
    intro sm hm
    rw [← Nat.add_assoc, iterStart_succ] at hm
    obtain ⟨s, h1, h2, h3⟩ := hm
    have := ih s h1
    simp only [Bool.and_eq_true] at h3
    have := (bodyStep_docPos v d s sm h2 (iterStart_inv v d vis _ s h1).2.2.1).2 h3.1
    omega

/-- An iteration at a processing instruction: no call, and the cursor goes behind it and
the white space and comments after it. -/
theorem bodyStep_pi (v : Visitor σ) (doc : Doc) (st : State σ) (t : ProcInstr)
    (rest : List Char) (hok : t.ok = true) (hd : doc.drop st.docPos = t.text ++ rest) :
    bodyStep v doc st = some (State.finish doc st (st.docPos + t.text.length)) := by
  have hm := search_pi doc st.docPos t rest hok hd
  have hhead : t.text ++ rest = '<' :: '?' ::
      ((t.name ++ (t.attrs.flatMap PseudoAttr.text ++ (t.sp ++ "?>".toList))) ++ rest) := rfl
  rw [hhead] at hd
  have ho := search_nodeOpen_none doc st.docPos _ hd
  have hc := close_none_of_second doc st.docPos '<' '?' _ hd (by decide)
  have hte := textEnd_none_of_lt doc st.docPos _ hd
  have hcd : regex_search_continuous regexXmlCDATA doc st.docPos doc.length = none := by
    apply search_bol_lit_none regexXmlCDATA _ _ doc st.docPos regexXmlCDATA_eq
    rw [hd]
    intro hp
    obtain ⟨r, hr⟩ := hp
    have := (List.cons.inj (List.cons.inj hr).2).1
    exact absurd this (by decide)
  unfold bodyStep
  rw [ho, hc, hte, hcd, hm]

theorem stRel_finish_right (R : Span → Span → Prop) (d' : Doc) (s s' : State σ) (e' : Nat)
    (h : StRel R s s') : StRel R s (State.finish d' s' e') := by
  refine ⟨?_, ?_, ?_, ?_⟩
  · rw [finish_vis]; exact h.vis
  · rw [finish_retCode]; exact h.retCode
  · rw [finish_nodeStack]; exact h.stack
  · rw [finish_log]; exact h.log

/-- The relation of spans by content: the same length and the same characters. -/
theorem spanSame_content (d d' : Doc) :
    SpanSame d d' (fun a a' => a'.second - a'.first = a.second - a.first ∧
      a'.content d' = a.content d) := fun _ _ h => h

theorem visSame_content (d d' : Doc) (v v' : Visitor σ)
    (hv : ∀ s c c', Call.content d' c' = Call.content d c → v'.call s c' = v.call s c) :
    VisSame (fun a a' => a'.second - a'.first = a.second - a.first ∧
      a'.content d' = a.content d) v v' :=
  fun s c c' hc => hv s c c' (callRel_content d d' _ (spanSame_content d d') c c' hc)

theorem span_window (d d' : Doc) (a a' W : Nat)
    (hag : (d'.drop a').take W = (d.drop a).take W) (x y : Nat) (h : x + y ≤ W) :
    (fun (s s' : Span) => s'.second - s'.first = s.second - s.first ∧
      s'.content d' = s.content d) ⟨a + x, a + x + y⟩ ⟨a' + x, a' + x + y⟩ :=
  ⟨by simp only; omega, content_window d d' a a' W x y hag h⟩

/-- The text at the cursor of an iteration that neither fails nor is cancelled begins like
a token. -/
theorem iterStart_starts (v : Visitor σ) (d : Doc) (vis : σ) (n : Nat) (sn s2 : State σ)
    (hn : iterStart v d vis n = some sn) (hs : bodyStep v d sn = some s2)
    (hr : s2.retCode = true) : startsToken (d.drop sn.docPos) = true := by
  have h := bodyStep_starts v d sn s2 hs hr (iterStart_cursor v d vis n sn hn)
  have := List.take_append_drop (tokenEnd d sn.docPos - sn.docPos) (d.drop sn.docPos)
  rw [← this]
  exact startsToken_append _ _ h

/-- The iterations up to iteration `m` on two documents that agree on their first `K`
characters, when the tokens of these iterations end within them: the loop on `d'` makes the
same iterations, and iteration `m` takes the same token. -/
theorem before_phase (d d' : Doc) (R : Span → Span → Prop) (hR : SpanSame d d' R)
    (v v' : Visitor σ) (hv : VisSame R v v') (vis : σ) (K : Nat)
    (hag : (d'.drop 0).take K = (d.drop 0).take K)
    (hspan : ∀ x y, x + y ≤ K → R ⟨0 + x, 0 + x + y⟩ ⟨0 + x, 0 + x + y⟩)
    (hprolog : prolog d' = prolog d) (hroot : ¬ d'.length ≤ prolog d')
    (hall : ∀ n s, iterStart v d vis n = some s →
      ∃ s2, bodyStep v d s = some s2 ∧ s2.retCode = true)
    (m : Nat) (sm s1 : State σ) (hm : iterStart v d vis m = some sm)
    (hs : bodyStep v d sm = some s1) (hr : s1.retCode = true)
    (hE : ∀ i s, i ≤ m → iterStart v d vis i = some s → tokenEnd d s.docPos ≤ K) :
    ∃ sm' s1', iterStart v' d' vis m = some sm' ∧ bodyStep v' d' sm' = some s1' ∧
      StRel R s1 s1' ∧ sm.docPos < tokenStop d sm.docPos ∧
      s1.docPos = skipSpacesAndComments d (tokenStop d sm.docPos) ∧
      s1'.docPos = skipSpacesAndComments d' (tokenStop d sm.docPos) := by
  obtain ⟨s0, hs0⟩ := iterStart_of_add v d vis 0 m sm (by rw [Nat.zero_add]; exact hm)
  have hroot0 : ¬ d.length ≤ prolog d := by
    intro hlen
    simp [iterStart, hlen] at hs0
  have h0 := iterStart_zero v d vis hroot0
  have h0' := iterStart_zero v' d' vis hroot
  obtain ⟨sm', k1, k2, k3, k4⟩ := phase_run d d' R hR v v' hv vis vis 0 0 K hag hspan hall
    0 0 _ _ h0 h0' ⟨rfl, rfl, List.Forall₂.nil, List.Forall₂.nil⟩ (Nat.zero_le _)
    (by
      show prolog d' = 0 + (prolog d - 0)
      rw [hprolog]
      omega) m sm (by rw [Nat.zero_add]; exact hm)
    (fun i s hi hsi => by
      have := hE i s hi (by rw [Nat.zero_add] at hsi; exact hsi)
      omega)
  obtain ⟨s1', g1, g2, _, g4, g5, g6, _⟩ := phase_step d d' R hR v v' hv 0 0 K hag hspan
    sm sm' s1 k2 k3 (iterStart_inv v d vis _ sm hm).2.2.1 k4 hs hr (by
      have := hE m sm (le_refl _) hm
      omega)
  refine ⟨sm', s1', ?_, g1, g2, g6, g4, ?_⟩
  · rw [Nat.zero_add] at k1
    exact k1
  · rw [g5]
    congr 1
    omega

/-- An observer that sees the calls by their content answers alike on calls of the same
content. -/
theorem contentVisitor_same (o : σ → CallText → σ × Bool) (d d' : Doc) :
    ∀ s c c', Call.content d' c' = Call.content d c →
      (contentVisitor o d').call s c' = (contentVisitor o d).call s c := by
  intro s c c' h
  cases c <;> cases c' <;> simp only [Call.content, CallText.enter.injEq, CallText.exit.injEq,
    CallText.attribute.injEq, CallText.text.injEq, CallText.cdata.injEq,
    CallText.error.injEq, reduceCtorEq] at h
  all_goals simp only [Visitor.call, contentVisitor]
  · rw [h.1, h.2]
  · rw [h.1, h.2]
  · rw [h.1, h.2]
  · rw [h]
  · rw [h]
  · rw [h.1, h.2]

/-- The visitors with constant answers answer alike on calls of the same content. -/
theorem constVisitor_same (b : Bool) (d d' : Doc) :
    ∀ s c c', Call.content d' c' = Call.content d c →
      (constVisitor b).call s c' = (constVisitor b).call s c := by
  intro s c c' h
  cases c <;> cases c' <;> first | rfl | cases h

/-- The claim C20 fails as it is stated in two ways. A processing instruction before the
root element ends the parse: `parse` reports the element of `<a/>`, and returns true without
a call on `<?pi?><a/>`. And a processing instruction inside the root element can change the
scan of the prolog: with `<?p x="> ]>"?>` put before `<b/>` in
`<!DOCTYPE d [<!ENTITY a "x">]><r><b/></r>` (at offset 33, the cursor of the second
iteration) the DOCTYPE block runs into the processing instruction, and `parse` reports one
text run instead of the two elements. -/
theorem C20_counterexample :
    (parse (constVisitor true) "<a/>".toList () []).map (fun s => (s.retCode, calls s.log)) =
      some (true, [.enter ⟨1, 2⟩ true, .exit ⟨1, 2⟩ true]) ∧
    (parse (constVisitor true) "<?pi?><a/>".toList () []).map
      (fun s => (s.retCode, calls s.log)) = some (true, []) ∧
    (ProcInstr.mk "pi".toList [] []).ok = true ∧
    (ProcInstr.mk "pi".toList [] []).text = "<?pi?>".toList ∧
    (parse (constVisitor true) "<!DOCTYPE d [<!ENTITY a \"x\">]><r><b/></r>".toList () []).map
        (fun s => (s.retCode, calls s.log)) =
      some (true, [.enter ⟨31, 32⟩ false, .enter ⟨34, 35⟩ true, .exit ⟨34, 35⟩ true,
        .exit ⟨39, 40⟩ false]) ∧
    (iterStart (constVisitor true) "<!DOCTYPE d [<!ENTITY a \"x\">]><r><b/></r>".toList ()
        1).map (fun s => s.docPos) = some 33 ∧
    (ProcInstr.mk "p".toList [⟨" ".toList, "x".toList, [], [], "> ]>".toList⟩] []).ok = true ∧
    (ProcInstr.mk "p".toList [⟨" ".toList, "x".toList, [], [], "> ]>".toList⟩] []).text =
      "<?p x=\"> ]>\"?>".toList ∧
    (parse (constVisitor true)
        "<!DOCTYPE d [<!ENTITY a \"x\">]><r><?p x=\"> ]>\"?><b/></r>".toList () []).map
        (fun s => (s.retCode, calls s.log)) = some (true, [.text ⟨44, 47⟩]) := by
  decide

/-- Claim C20, amended: a processing instruction of the form the pattern takes (`<?`, a
name, attributes `name="value"`, white space or none, `?>`) put at the cursor of an iteration
of the loop after the first one, that is where a token begins inside the root element, of a
document on which `parse` returns true, leaves the result and the calls, compared by
content, with the values returned, unchanged, provided the scan of the prolog ends where it
ended before, for two visitors that answer alike on calls of the same content. -/
theorem C20_processing_instruction (v v' : Visitor σ) (A B : Doc) (P : ProcInstr) (vis : σ)
    (stack0 : List Span) (st sn : State σ) (n : Nat)
    (hv : ∀ s c c', Call.content (A ++ (P.text ++ B)) c' = Call.content (A ++ B) c →
      v'.call s c' = v.call s c)
    (hP : P.ok = true)
    (hn : iterStart v (A ++ B) vis (n + 1) = some sn) (hk : sn.docPos = A.length)
    (hprolog : prolog (A ++ (P.text ++ B)) = prolog (A ++ B))
    (hp : parse v (A ++ B) vis stack0 = some st) (hr : st.retCode = true) :
    ∃ st', parse v' (A ++ (P.text ++ B)) vis stack0 = some st' ∧ st'.retCode = true ∧
      st'.log.map (fun e => (Call.content (A ++ (P.text ++ B)) e.1, e.2)) =
        st.log.map (fun e => (Call.content (A ++ B) e.1, e.2)) := by
  have hR := spanSame_content (A ++ B) (A ++ (P.text ++ B))
  have hV := visSame_content (A ++ B) (A ++ (P.text ++ B)) v v' hv
  have hall := parse_true_iters v (A ++ B) vis stack0 st hp hr
  have hPt : ∀ r, P.text ++ r = '<' :: '?' ::
      ((P.name ++ (P.attrs.flatMap PseudoAttr.text ++ (P.sp ++ "?>".toList))) ++ r) :=
    fun r => rfl
  -- the iteration before the cursor
  obtain ⟨s0, h0, hstep0, hc0⟩ := (iterStart_succ v (A ++ B) vis n sn).mp hn
  simp only [Bool.and_eq_true, Bool.not_eq_true'] at hc0
  have hdA : (A ++ B).drop A.length = B := List.drop_left _ _
  have hdA' : (A ++ (P.text ++ B)).drop A.length = P.text ++ B := List.drop_left _ _
  -- the window
  obtain ⟨K, hK1, hK2, hag⟩ : ∃ K, A.length ≤ K ∧ (B.head? = some '<' → A.length + 1 ≤ K) ∧
      ((A ++ (P.text ++ B)).drop 0).take K = ((A ++ B).drop 0).take K := by
    cases hB : B.head? == some '<' with
    | false =>
      refine ⟨A.length, le_refl _, ?_, ?_⟩
      · intro h
        rw [h] at hB
        simp at hB
      · simp
    | true =>
      refine ⟨A.length + 1, by omega, fun _ => le_refl _, ?_⟩
      cases B with
      | nil => simp at hB
      | cons b B2 =>
        simp only [List.head?_cons, beq_iff_eq, Option.some.injEq] at hB
        subst hB
        rw [hPt]
        simp [List.take_append]
  have hE : ∀ i s, i ≤ n → iterStart v (A ++ B) vis i = some s →
      tokenEnd (A ++ B) s.docPos ≤ K := by
    intro i s hi hs
    obtain ⟨j, hj⟩ : ∃ j, n + 1 = (i + 1) + j := ⟨n - i, by omega⟩
    obtain ⟨s2, hs2⟩ := iterStart_of_add v (A ++ B) vis (i + 1) j sn (by rw [← hj]; exact hn)
    have hle := iterStart_docPos_le v (A ++ B) vis (i + 1) s2 hs2 j sn (by rw [← hj]; exact hn)
    obtain ⟨s', e1, e2, e3⟩ := (iterStart_succ v (A ++ B) vis i s2).mp hs2
    rw [hs] at e1
    cases e1
    simp only [Bool.and_eq_true] at e3
    have hpd := (iterStart_inv v (A ++ B) vis i s hs).2.2.1
    obtain ⟨t1, t2⟩ := bodyStep_token v (A ++ B) s s2 hpd e2 e3.1
    have t3 := tokenStop_le (A ++ B) s.docPos hpd
    have t4 := skipSpacesAndComments_bounds (A ++ B) _ t3.2
    rcases tokenEnd_cases (A ++ B) s.docPos with hc | ⟨hc, hx⟩
    · omega
    · by_cases hlt : tokenStop (A ++ B) s.docPos < A.length
      · omega
      · have heq : tokenStop (A ++ B) s.docPos = A.length := by omega
        rw [heq] at hx
        have hB : B.head? = some '<' := by
          rw [← hdA, List.head?_drop]
          exact hx
        have := hK2 hB
        omega
  have hroot : ¬ (A ++ (P.text ++ B)).length ≤ prolog (A ++ (P.text ++ B)) := by
    have h1 := (iterStart_inv v (A ++ B) vis (n + 1) sn hn).2.2.2.2
    have h2 := (iterStart_inv v (A ++ B) vis (n + 1) sn hn).2.2.1
    have h3 := prolog_le (A ++ B)
    obtain ⟨z, hz⟩ := iterStart_of_add v (A ++ B) vis 0 (n + 1) sn
      (by rw [Nat.zero_add]; exact hn)
    have h4 : prolog (A ++ B) < (A ++ B).length := by
      by_contra hc
      have hnone : iterStart v (A ++ B) vis 0 = none := by
        simp only [iterStart]
        rw [if_pos (Nat.le_of_not_lt hc)]
      rw [hnone] at hz
      cases hz
    rw [hprolog]
    simp only [List.length_append] at h4 ⊢
    omega
  obtain ⟨s0', s1', g1, g2, g3, g4, g5, g6⟩ := before_phase (A ++ B) (A ++ (P.text ++ B)) _ hR
    v v' hV vis K hag (fun x y hxy => span_window _ _ 0 0 K hag x y hxy) hprolog hroot hall
    n s0 sn h0 hstep0 hc0.1 hE
  -- the cursor of the processing instruction
  have hpd0 := (iterStart_inv v (A ++ B) vis n s0 h0).2.2.1
  have hts := tokenStop_le (A ++ B) s0.docPos hpd0
  have hsk := skipSpacesAndComments_bounds (A ++ B) _ hts.2
  have hw := window_shift (A ++ B) (A ++ (P.text ++ B)) 0 0 K (tokenStop (A ++ B) s0.docPos) hag
  rw [Nat.zero_add] at hw
  have hpos : s1'.docPos = A.length := by
    rw [g6, skip_sim (A ++ B) (A ++ (P.text ++ B)) _ _ _ hw (by omega) (by
      rw [← g5, hk, show tokenStop (A ++ B) s0.docPos + (A.length - tokenStop (A ++ B) s0.docPos)
        = A.length by omega, hdA', hPt]
      rfl), ← g5, hk]
    omega
  have hnext : iterStart v' (A ++ (P.text ++ B)) vis (n + 1) = some s1' := by
    rw [iterStart_succ]
    refine ⟨s0', g1, g2, ?_⟩
    rw [g3.retCode, stRel_stack_empty _ sn s1' g3]
    simp only [Bool.and_eq_true, Bool.not_eq_true']
    exact hc0
  -- the iteration at the processing instruction
  have hpi := bodyStep_pi v' (A ++ (P.text ++ B)) s1' P B hP (by rw [hpos]; exact hdA')
  have hret : s1'.retCode = true := by rw [g3.retCode]; exact hc0.1
  obtain ⟨s2, hs2, hr2⟩ := hall (n + 1) sn hn
  have hstart := iterStart_starts v (A ++ B) vis (n + 1) sn s2 hn hs2 hr2
  rw [hk, hdA] at hstart
  have hdP : (A ++ (P.text ++ B)).drop (A.length + P.text.length) = B := by
    rw [← List.append_assoc, ← List.length_append]
    exact List.drop_left _ _
  obtain ⟨q1, q2⟩ := startsToken_stop B hstart
  have hskip := skipSpacesAndComments_pieces (A ++ (P.text ++ B)) (A.length + P.text.length) []
    B (fun q hq => by cases hq) q1 q2 hdP
  have hposf : (State.finish (A ++ (P.text ++ B)) s1' (s1'.docPos + P.text.length)).docPos =
      A.length + P.text.length := by
    rw [finish_docPos_true _ _ _ hret, hpos, hskip]
    rfl
  have hnext2 : iterStart v' (A ++ (P.text ++ B)) vis (n + 1 + 1) =
      some (State.finish (A ++ (P.text ++ B)) s1' (s1'.docPos + P.text.length)) := by
    rw [iterStart_succ]
    refine ⟨s1', hnext, hpi, ?_⟩
    rw [finish_retCode, finish_nodeStack, g3.retCode, stRel_stack_empty _ sn s1' g3]
    simp only [Bool.and_eq_true, Bool.not_eq_true']
    exact hc0
  -- the iterations after the processing instruction
  have hag2 : ((A ++ (P.text ++ B)).drop (A.length + P.text.length)).take B.length =
      ((A ++ B).drop A.length).take B.length := by rw [hdP, hdA]
  obtain ⟨st', k1, k2⟩ := parse_sim (A ++ B) (A ++ (P.text ++ B)) _ hR v v' hV vis vis stack0
    stack0 A.length (A.length + P.text.length) B.length hag2
    (fun x y hxy => span_window _ _ _ _ _ hag2 x y hxy)
    (by simp) st hp hr (n + 1) (n + 1 + 1) sn _ hn hnext2
    (stRel_finish_right _ _ _ _ _ g3) (by omega) (by rw [hposf, hk]; omega)
  exact ⟨st', k1, by rw [k2.retCode, hr], logRel_content _ _ _ hR _ _ k2.log⟩

theorem C20_processing_instruction_witness :
    ∃ st', parse (constVisitor true) ("<a>".toList ++
        ((ProcInstr.mk "pi".toList [⟨" ".toList, "x".toList, [], [], "1".toList⟩] []).text ++
          "<b/>t</a>".toList)) () [] = some st' ∧ st'.retCode = true ∧
      st'.log.map (fun e => (Call.content ("<a>".toList ++
        ((ProcInstr.mk "pi".toList [⟨" ".toList, "x".toList, [], [], "1".toList⟩] []).text ++
          "<b/>t</a>".toList)) e.1, e.2)) =
        [(.enter "a".toList false, true), (.enter "b".toList true, true),
          (.exit "b".toList true, true), (.text "t".toList, true),
          (.exit "a".toList false, true)] :=
  C20_processing_instruction (constVisitor true) (constVisitor true) "<a>".toList
    "<b/>t</a>".toList (ProcInstr.mk "pi".toList [⟨" ".toList, "x".toList, [], [], "1".toList⟩] [])
    () []
    { vis := (), log := [(.enter ⟨1, 2⟩ false, true), (.enter ⟨4, 5⟩ true, true),
        (.exit ⟨4, 5⟩ true, true), (.text ⟨7, 8⟩, true), (.exit ⟨10, 11⟩ false, true)],
      nodeStack := [], docPos := 12, retCode := true }
    { vis := (), log := [(.enter ⟨1, 2⟩ false, true)], nodeStack := [⟨1, 2⟩], docPos := 3,
      retCode := true } 0
    (constVisitor_same true _ _) (by decide) (by decide) rfl (by decide) (by decide) rfl

theorem tagStop_token (d : Doc) (p k : Nat) (h : tagStop d p = some k) :
    tokenStop d p = k ∧ tokenEnd d p = k := by
  unfold tagStop at h
  cases ho : regex_search_continuous regexNodeOpen d p d.length with
  | some m =>
    rw [ho] at h
    simp only [Option.some.injEq] at h
    simp only [tokenEnd, tokenStop, ho, h, and_self]
  | none =>
    rw [ho] at h
    cases hc : regex_search_continuous regexNodeClose d p d.length with
    | some m =>
      rw [hc] at h
      simp only [Option.some.injEq] at h
      simp only [tokenEnd, tokenStop, ho, hc, h, and_self]
    | none =>
      rw [hc] at h
      cases h

/-- The claim C24 fails as it is stated when the document has a DOCTYPE block with a quoted
string: `parse` reports the element `r` of `<!DOCTYPE d [<!ENTITY a "x">]><r></r>`, and with
the comment `<!-- "> ]>-->` put behind the `>` of `<r>` (offset 33, the end of the tag at the
cursor 30 of the first iteration) the DOCTYPE block runs into the comment, and `parse`
reports one text run instead of the element. -/
theorem C24_counterexample :
    (parse (constVisitor true) "<!DOCTYPE d [<!ENTITY a \"x\">]><r></r>".toList () []).map
        (fun s => (s.retCode, calls s.log)) =
      some (true, [.enter ⟨31, 32⟩ false, .exit ⟨35, 36⟩ false]) ∧
    (iterStart (constVisitor true) "<!DOCTYPE d [<!ENTITY a \"x\">]><r></r>".toList () 0).map
        (fun s => s.docPos) = some 30 ∧
    tagStop "<!DOCTYPE d [<!ENTITY a \"x\">]><r></r>".toList 30 = some 33 ∧
    Piece.ok (.comment " \"> ]>".toList) = true ∧
    Piece.text (.comment " \"> ]>".toList) = "<!-- \"> ]>-->".toList ∧
    (parse (constVisitor true)
        "<!DOCTYPE d [<!ENTITY a \"x\">]><r><!-- \"> ]>--></r>".toList () []).map
        (fun s => (s.retCode, calls s.log)) = some (true, [.text ⟨43, 46⟩]) := by
  decide

/-- Claim C24, amended: a comment (`<!--`, a body, `-->`, the first `-->` after `<!--`
ending it; the body may hold `--`) put behind the `>` that ends an open, close or
self-closing tag of a document on which `parse` returns true, or at the offset where the scan
of the prolog ends (before the `<` of the open tag of the root element), leaves the result
and the calls, compared by content, with the values returned, unchanged, provided the scan of
the prolog is not changed otherwise: it ends where it ended before, and behind the comment
when the comment is put where it ended; for two visitors that answer alike on calls of the
same content. -/
theorem C24_comment_skipped (v v' : Visitor σ) (A B : Doc) (body : List Char) (vis : σ)
    (stack0 : List Span) (st : State σ)
    (hv : ∀ s c c', Call.content (A ++ (Piece.text (.comment body) ++ B)) c' =
      Call.content (A ++ B) c → v'.call s c' = v.call s c)
    (hc : Piece.ok (.comment body) = true)
    (hk : (∃ n sn, iterStart v (A ++ B) vis n = some sn ∧
          tagStop (A ++ B) sn.docPos = some A.length ∧
          prolog (A ++ (Piece.text (.comment body) ++ B)) = prolog (A ++ B)) ∨
      (A.length = prolog (A ++ B) ∧
        prolog (A ++ (Piece.text (.comment body) ++ B)) =
          prolog (A ++ B) + (Piece.text (.comment body)).length))
    (hp : parse v (A ++ B) vis stack0 = some st) (hr : st.retCode = true) :
    ∃ st', parse v' (A ++ (Piece.text (.comment body) ++ B)) vis stack0 = some st' ∧
      st'.retCode = true ∧
      st'.log.map (fun e => (Call.content (A ++ (Piece.text (.comment body) ++ B)) e.1, e.2)) =
        st.log.map (fun e => (Call.content (A ++ B) e.1, e.2)) := by
  generalize hC : Piece.text (.comment body) = C at *
  have hR := spanSame_content (A ++ B) (A ++ (C ++ B))
  have hV := visSame_content (A ++ B) (A ++ (C ++ B)) v v' hv
  have hall := parse_true_iters v (A ++ B) vis stack0 st hp hr
  have hdA : (A ++ B).drop A.length = B := List.drop_left _ _
  have hdA' : (A ++ (C ++ B)).drop A.length = C ++ B := List.drop_left _ _
  have hdC : (A ++ (C ++ B)).drop (A.length + C.length) = B := by
    rw [← List.append_assoc, ← List.length_append]
    exact List.drop_left _ _
  have hlen' : (A ++ (C ++ B)).length = (A ++ B).length + C.length := by
    simp only [List.length_append]
    omega
  rcases hk with ⟨n, sn, hn, htag, hprolog⟩ | ⟨hA, hprolog⟩
  · -- behind a tag
    obtain ⟨hts, hte⟩ := tagStop_token _ _ _ htag
    obtain ⟨s1, hs1, hr1⟩ := hall n sn hn
    have hag : ((A ++ (C ++ B)).drop 0).take A.length = ((A ++ B).drop 0).take A.length := by
      simp
    have hpdn := (iterStart_inv v (A ++ B) vis n sn hn).2.2.1
    obtain ⟨tn1, tn2⟩ := bodyStep_token v (A ++ B) sn s1 hpdn hs1 hr1
    have hE : ∀ i s, i ≤ n → iterStart v (A ++ B) vis i = some s →
        tokenEnd (A ++ B) s.docPos ≤ A.length := by
      intro i s hi hs
      by_cases hin : i = n
      · subst hin
        rw [hn] at hs
        cases hs
        omega
      · obtain ⟨j, hj⟩ : ∃ j, n = (i + 1) + j := ⟨n - (i + 1), by omega⟩
        obtain ⟨s2, hs2⟩ := iterStart_of_add v (A ++ B) vis (i + 1) j sn (by rw [← hj]; exact hn)
        have hle := iterStart_docPos_le v (A ++ B) vis (i + 1) s2 hs2 j sn
          (by rw [← hj]; exact hn)
        obtain ⟨s', e1, e2, e3⟩ := (iterStart_succ v (A ++ B) vis i s2).mp hs2
        rw [hs] at e1
        cases e1
        simp only [Bool.and_eq_true] at e3
        have hpd := (iterStart_inv v (A ++ B) vis i s hs).2.2.1
        obtain ⟨t1, t2⟩ := bodyStep_token v (A ++ B) s s2 hpd e2 e3.1
        have t3 := tokenStop_le (A ++ B) s.docPos hpd
        have t4 := skipSpacesAndComments_bounds (A ++ B) _ t3.2
        rcases tokenEnd_cases (A ++ B) s.docPos with hc | ⟨hc, _⟩
        · omega
        · omega
    have hroot : ¬ (A ++ (C ++ B)).length ≤ prolog (A ++ (C ++ B)) := by
      have h3 := prolog_le (A ++ B)
      obtain ⟨z, hz⟩ := iterStart_of_add v (A ++ B) vis 0 n sn (by rw [Nat.zero_add]; exact hn)
      have h4 : prolog (A ++ B) < (A ++ B).length := by
        by_contra hc
        have hnone : iterStart v (A ++ B) vis 0 = none := by
          simp only [iterStart]
          rw [if_pos (Nat.le_of_not_lt hc)]
        rw [hnone] at hz
        cases hz
      rw [hprolog, hlen']
      omega
    obtain ⟨sn', s1', g1, g2, g3, g4, g5, g6⟩ := before_phase (A ++ B) (A ++ (C ++ B)) _ hR
      v v' hV vis A.length hag (fun x y hxy => span_window _ _ 0 0 A.length hag x y hxy)
      hprolog hroot hall n sn s1 hn hs1 hr1 hE
    rw [hts] at g5 g6
    cases hcond : (s1.retCode && !s1.nodeStack.isEmpty) with
    | false =>
      have e := parse_of_iter v (A ++ B) vis stack0 n sn s1 hn hs1 hcond
      rw [hp] at e
      cases e
      refine ⟨s1', parse_of_iter v' (A ++ (C ++ B)) vis stack0 n sn' s1' g1 g2 ?_, ?_,
        logRel_content _ _ _ hR _ _ g3.log⟩
      · rw [g3.retCode, stRel_stack_empty _ st s1' g3]
        exact hcond
      · rw [g3.retCode, hr]
    | true =>
      have hnext : iterStart v (A ++ B) vis (n + 1) = some s1 :=
        (iterStart_succ v (A ++ B) vis n s1).mpr ⟨sn, hn, hs1, hcond⟩
      have hnext' : iterStart v' (A ++ (C ++ B)) vis (n + 1) = some s1' := by
        rw [iterStart_succ]
        refine ⟨sn', g1, g2, ?_⟩
        rw [g3.retCode, stRel_stack_empty _ s1 s1' g3]
        exact hcond
      obtain ⟨s2, hs2, hr2⟩ := hall (n + 1) s1 hnext
      have hstart := iterStart_starts v (A ++ B) vis (n + 1) s1 s2 hnext hs2 hr2
      obtain ⟨q1, q2⟩ := startsToken_stop _ hstart
      obtain ⟨w, hw, hdw, hq⟩ := skip_pieces (A ++ B) A.length
      rw [← g5] at hdw hq
      rw [hdA] at hdw
      have hskip := skipSpacesAndComments_pieces (A ++ (C ++ B)) A.length
        (Piece.comment body :: w) ((A ++ B).drop s1.docPos)
        (fun q hq => by
          rcases List.mem_cons.mp hq with rfl | hq
          · exact hc
          · exact hw q hq) q1 q2
        (by rw [hdA', piecesText_cons, hC, List.append_assoc, ← hdw])
      rw [piecesText_cons, hC, List.length_append] at hskip
      have hpos : s1'.docPos = s1.docPos + C.length := by
        rw [g6, hskip, hq]
        omega
      have hdq : (A ++ (C ++ B)).drop (s1.docPos + C.length) = (A ++ B).drop s1.docPos := by
        have e1 : s1.docPos + C.length = (A.length + C.length) + (piecesText w).length := by
          omega
        rw [e1, ← List.drop_drop, hdC]
        conv_lhs => rw [hdw]
        rw [List.drop_left]
      have hag2 : ((A ++ (C ++ B)).drop (s1.docPos + C.length)).take
            ((A ++ B).length - s1.docPos) =
          ((A ++ B).drop s1.docPos).take ((A ++ B).length - s1.docPos) := by rw [hdq]
      have hpd1 := (iterStart_inv v (A ++ B) vis (n + 1) s1 hnext).2.2.1
      obtain ⟨st', k1, k2⟩ := parse_sim (A ++ B) (A ++ (C ++ B)) _ hR v v' hV vis vis stack0
        stack0 s1.docPos (s1.docPos + C.length) ((A ++ B).length - s1.docPos) hag2
        (fun x y hxy => span_window _ _ _ _ _ hag2 x y hxy)
        (by omega) st hp hr (n + 1) (n + 1) s1 s1' hnext hnext' g3 (le_refl _)
        (by rw [hpos]; omega)
      exact ⟨st', k1, by rw [k2.retCode, hr], logRel_content _ _ _ hR _ _ k2.log⟩
  · -- where the scan of the prolog ends
    obtain ⟨st0, h0, hcases⟩ := parse_cases v (A ++ B) vis stack0
    rw [hp] at h0
    cases h0
    rcases hcases with ⟨hlen, hst⟩ | ⟨hlen, _⟩
    · refine ⟨State.mk vis [] stack0 (prolog (A ++ (C ++ B))) true, ?_, rfl, ?_⟩
      · unfold parse
        rw [if_pos (by rw [hprolog, hlen']; omega)]
      · rw [hst]
        rfl
    · have hi0 := iterStart_zero v (A ++ B) vis hlen
      have hi0' := iterStart_zero v' (A ++ (C ++ B)) vis (by rw [hprolog, hlen']; omega)
      have hag2 : ((A ++ (C ++ B)).drop (A.length + C.length)).take B.length =
          ((A ++ B).drop A.length).take B.length := by rw [hdC, hdA]
      obtain ⟨st', k1, k2⟩ := parse_sim (A ++ B) (A ++ (C ++ B)) _ hR v v' hV vis vis stack0
        stack0 A.length (A.length + C.length) B.length hag2
        (fun x y hxy => span_window _ _ _ _ _ hag2 x y hxy)
        (by simp) st hp hr 0 0 _ _ hi0 hi0'
        ⟨rfl, rfl, List.Forall₂.nil, List.Forall₂.nil⟩
        (by show A.length ≤ prolog (A ++ B); omega)
        (by
          show prolog (A ++ (C ++ B)) = A.length + C.length + (prolog (A ++ B) - A.length)
          rw [hprolog]
          omega)
      exact ⟨st', k1, by rw [k2.retCode, hr], logRel_content _ _ _ hR _ _ k2.log⟩

theorem C24_comment_skipped_witness :
    ∃ st', parse (constVisitor true) ("<a>".toList ++
        (Piece.text (.comment " c -- d ".toList) ++ " <b/></a>".toList)) () [] = some st' ∧
      st'.retCode = true ∧
      st'.log.map (fun e => (Call.content ("<a>".toList ++
        (Piece.text (.comment " c -- d ".toList) ++ " <b/></a>".toList)) e.1, e.2)) =
        [(.enter "a".toList false, true), (.enter "b".toList true, true),
          (.exit "b".toList true, true), (.exit "a".toList false, true)] :=
  C24_comment_skipped (constVisitor true) (constVisitor true) "<a>".toList
    " <b/></a>".toList " c -- d ".toList () []
    { vis := (), log := [(.enter ⟨1, 2⟩ false, true), (.enter ⟨5, 6⟩ true, true),
        (.exit ⟨5, 6⟩ true, true), (.exit ⟨10, 11⟩ false, true)],
      nodeStack := [], docPos := 12, retCode := true }
    (constVisitor_same true _ _) (by decide)
    (Or.inl ⟨0, { vis := (), log := [], nodeStack := [], docPos := 0, retCode := true },
      by decide, by decide, by decide⟩)
    (by decide) rfl

end XmlSax
